import Mathlib

/-!
# DNS message codec (`dns.c`): shallow embedding and verified properties

A message buffer is a `List UInt8`; pointers into it are offsets (`Nat`), the
pointer `end` is the offset `buf.length`.  A name (`char name[256]` filled up to
index `len`) is the list of the bytes written so far, and `len` is its length.

Every function that returns a pointer or an `int` status returns a `Res`:
`ok` for a non-NULL pointer / `0`, `null` for `NULL` / `-1`, `oob off` when the
C code dereferences offset `off` that is not below `len` (undefined behaviour),
and `diverge` when a loop of the model ran out of fuel.

The hash function (`hash.c`) works on `uint32_t` values, here `Nat` reduced modulo
`2 ^ 32`.  The cache (`dnscache.c`) is a list of buckets, each the list of the entries
linked to its header; its functions return the `int` status together with the cache they
leave, and `none` where the C code divides by a bucket count of zero.
-/

namespace Dns

/-! ## Constants (`dns.h`, `dns.c`) -/

def HOSTNAME_MAX_LEN : Nat := 255
def DNS_LABEL_MAX_LEN : Nat := 63
def MAX_DNS_MESSAGE_SIZE : Nat := 512
def MAX_POINTERS : Nat := 10

def DNS_QTYPE_A : Nat := 1
def DNS_QTYPE_CNAME : Nat := 5
def DNS_QTYPE_SOA : Nat := 6
def DNS_QTYPE_MX : Nat := 15
def DNS_QTYPE_AAAA : Nat := 28
def DNS_QCLASS_IN : Nat := 1

/-- The byte `'.'`. -/
def DOT : UInt8 := 46

/-! ## Results and reads -/

/-- Outcome of a C function of the decoder. -/
inductive Res (α : Type) where
  | ok (a : α)
  | null
  | oob (off : Nat)
  | diverge
  deriving DecidableEq, Repr

namespace Res

/-- Sequencing: the first outcome that is not `ok` ends the computation. -/
def bind {α β : Type} (x : Res α) (f : α → Res β) : Res β :=
  match x with
  | ok a => f a
  | null => null
  | oob o => oob o
  | diverge => diverge

instance : Monad Res where
  pure := Res.ok
  bind := Res.bind

end Res

/-- Read of one byte, `buf[off]`, as an unsigned value. -/
def rd (buf : List UInt8) (off : Nat) : Res Nat :=
  match buf[off]? with
  | some b => .ok b.toNat
  | none => .oob off

/-- Big-endian 16-bit read, `(p[0] << 8) | p[1]`. -/
def rd16 (buf : List UInt8) (p : Nat) : Res Nat := do
  let b0 ← rd buf p
  let b1 ← rd buf (p + 1)
  pure ((b0 <<< 8) ||| b1)

/-- Big-endian 32-bit read, `(p[0] << 24) | (p[1] << 16) | (p[2] << 8) | p[3]`,
stored in a `uint32_t`. -/
def rd32 (buf : List UInt8) (p : Nat) : Res Nat := do
  let b0 ← rd buf p
  let b1 ← rd buf (p + 1)
  let b2 ← rd buf (p + 2)
  let b3 ← rd buf (p + 3)
  pure (((b0 <<< 24) ||| (b1 <<< 16) ||| (b2 <<< 8) ||| b3) % 2 ^ 32)

/-- The source of `memcpy(dst, buf + off, n)`: the `n` bytes at `off`. -/
def memrd (buf : List UInt8) (off n : Nat) : Res (List UInt8) :=
  if n = 0 then .ok []
  else if off + n ≤ buf.length then .ok ((buf.drop off).take n)
  else .oob (max off buf.length)

/-! ## `parse_domain_name` -/

/-- Local variables of `parse_domain_name` at the head of its loop: the cursor
`pos`, the text `name[0..len)`, `npointers` and `next` (`0` stands for the
uninitialised value it has before the first pointer). -/
structure NameState where
  pos : Nat
  name : List UInt8
  npointers : Nat
  next : Nat
  deriving DecidableEq, Repr

/-- What one test of the loop condition plus one run of the body does. -/
inductive Ctl where
  | again (s : NameState)
  | exit (s : NameState)
  deriving DecidableEq, Repr

/-- One iteration of `while ((l = *pos) != 0) { switch (l & 0xc0) ... }`, with the
pointer limit `maxp` (`MAX_POINTERS` in the program). -/
def parse_domain_name_step (maxp : Nat) (buf : List UInt8) (s : NameState) : Res Ctl := do
  let l ← rd buf s.pos
  if l = 0 then pure (.exit s)
  else if l &&& 0xc0 = 0x00 then
    if s.pos + (1 + l) < buf.length ∧ s.name.length + (1 + l) ≤ HOSTNAME_MAX_LEN then do
      let name1 := if s.name.length > 0 then s.name ++ [DOT] else s.name
      let label ← memrd buf (s.pos + 1) l
      pure (.again { s with name := name1 ++ label, pos := s.pos + (1 + l) })
    else .null
  else if l &&& 0xc0 = 0xc0 then
    if s.pos + 2 ≤ buf.length then
      if s.npointers + 1 ≤ maxp then do
        let next := if s.npointers + 1 = 1 then s.pos + 2 else s.next
        let b1 ← rd buf (s.pos + 1)
        let target := ((l &&& 0x3f) <<< 8) ||| b1
        if target ≥ buf.length then .null
        else pure (.again { s with pos := target, npointers := s.npointers + 1, next := next })
      else .null
    else .null
  else .null

/-- The `while` loop of `parse_domain_name`; `fuel` bounds the number of
iterations. -/
def parse_domain_name_loop (maxp : Nat) (buf : List UInt8) : Nat → NameState → Res NameState
  | 0, _ => .diverge
  | fuel + 1, s =>
    match parse_domain_name_step maxp buf s with
    | .ok (.again s1) => parse_domain_name_loop maxp buf fuel s1
    | .ok (.exit s1) => .ok s1
    | .null => .null
    | .oob o => .oob o
    | .diverge => .diverge

/-- Iterations that the loop can need on a buffer of `len` bytes with pointer
limit `maxp`. -/
def nameFuel (maxp len : Nat) : Nat := (maxp + 1) * (len + 1)

/-- Result of a successful `parse_domain_name`: the returned pointer, the text
written to `name` and the value stored in `*namelen`. -/
structure ParsedName where
  next : Nat
  name : List UInt8
  namelen : Nat
  deriving DecidableEq, Repr

/-- State of `parse_domain_name` when its loop is left, for pointer limit `maxp`. -/
def parse_domain_name_state (maxp : Nat) (buf : List UInt8) (pos : Nat) : Res NameState :=
  if pos ≠ buf.length then
    parse_domain_name_loop maxp buf (nameFuel maxp buf.length) ⟨pos, [], 0, 0⟩
  else .null

/-- Embedding of `parse_domain_name` with the pointer limit as a parameter. -/
def parse_domain_name_lim (maxp : Nat) (buf : List UInt8) (pos : Nat) : Res ParsedName := do
  let s ← parse_domain_name_state maxp buf pos
  if s.name.length > 0 then
    pure { next := if s.npointers = 0 then s.pos + 1 else s.next,
           name := s.name, namelen := s.name.length }
  else .null

/-- Embedding of `parse_domain_name(buf, end, pos, name, namelen)`. -/
def parse_domain_name (buf : List UInt8) (pos : Nat) : Res ParsedName :=
  parse_domain_name_lim MAX_POINTERS buf pos

/-! ## `skip_domain_name` -/

/-- The `while` loop of `skip_domain_name`; `fuel` bounds the number of
iterations, the cursor is `buf` of the program. -/
def skip_domain_name_loop (buf : List UInt8) : Nat → Nat → Res Nat
  | 0, _ => .diverge
  | fuel + 1, pos =>
    match rd buf pos with
    | .ok l =>
      if l = 0 then .ok (pos + 1)
      else if l &&& 0xc0 = 0x00 then
        if pos + (1 + l) ≥ buf.length then .null
        else skip_domain_name_loop buf fuel (pos + (1 + l))
      else if l &&& 0xc0 = 0xc0 then
        if pos + 2 ≤ buf.length then .ok (pos + 2) else .null
      else .null
    | .null => .null
    | .oob o => .oob o
    | .diverge => .diverge

/-- Embedding of `skip_domain_name(buf, end)`, the cursor being `pos`. -/
def skip_domain_name (buf : List UInt8) (pos : Nat) : Res Nat :=
  if pos ≠ buf.length then skip_domain_name_loop buf (buf.length + 1) pos
  else .null

/-! ## Questions -/

/-- A decoded question, `dns_question_t`. -/
structure dns_question_t where
  name : List UInt8
  namelen : Nat
  qtype : Nat
  qclass : Nat
  deriving DecidableEq, Repr

/-- Body of the `for` loop of `process_questions` for the question at `pos`: the
cursor after the question and the question stored by it. -/
def process_question (buf : List UInt8) (pos : Nat) : Res (Nat × dns_question_t) := do
  let r ← parse_domain_name buf pos
  let pos := r.next
  if pos + 4 ≤ buf.length then do
    let qtype ← rd16 buf pos
    let qclass ← rd16 buf (pos + 2)
    pure (pos + 4, { name := r.name, namelen := r.namelen, qtype := qtype, qclass := qclass })
  else .null

/-- Embedding of `process_questions`: `n` questions are decoded from `pos` on
and appended to those already stored; returns the cursor and the stored
questions (`*nquestions` is their number). -/
def process_questions (buf : List UInt8) :
    Nat → Nat → List dns_question_t → Res (Nat × List dns_question_t)
  | 0, pos, questions => .ok (pos, questions)
  | n + 1, pos, questions =>
    match process_question buf pos with
    | .ok (p, q) => process_questions buf n p (questions ++ [q])
    | .null => .null
    | .oob o => .oob o
    | .diverge => .diverge

/-- Embedding of `skip_questions(buf, end, n)`, the cursor being `pos`. -/
def skip_questions (buf : List UInt8) : Nat → Nat → Res Nat
  | 0, pos => .ok pos
  | n + 1, pos =>
    match skip_domain_name buf pos with
    | .ok p => if p + 4 > buf.length then .null else skip_questions buf n (p + 4)
    | .null => .null
    | .oob o => .oob o
    | .diverge => .diverge

/-! ## Resource records -/

/-- The union of `rr_t`, tagged by the record type that filled it. -/
inductive rdata_t where
  | addr4 (addr : List UInt8)
  | addr6 (addr : List UInt8)
  | cname (name : List UInt8) (namelen : Nat)
  | mx (exchange : List UInt8) (exchangelen : Nat) (preference : Nat)
  | soa (nameserver : List UInt8) (nameserverlen : Nat)
        (mailbox : List UInt8) (mailboxlen : Nat)
        (serial refresh retry expire minimum_ttl : Nat)
  deriving DecidableEq, Repr

/-- A stored resource record, `rr_t`. -/
structure rr_t where
  name : List UInt8
  namelen : Nat
  type : Nat
  cls : Nat
  ttl : Nat
  rdata : rdata_t
  rdlength : Nat
  deriving DecidableEq, Repr

/-- Body of the `for` loop of `process_resource_records` for the record at
`pos`: the cursor after the record and the record stored by it, if any
(`count++; rrs++`). -/
def process_resource_record (buf : List UInt8) (pos : Nat) : Res (Nat × Option rr_t) := do
  let r ← parse_domain_name buf pos
  let pos := r.next
  if pos + 10 ≤ buf.length then do
    let rdlength ← rd16 buf (pos + 8)
    if pos + 10 + rdlength ≤ buf.length then do
      let type ← rd16 buf pos
      let cls ← rd16 buf (pos + 2)
      let ttl ← rd32 buf (pos + 4)
      let store (d : rdata_t) : Res (Nat × Option rr_t) :=
        pure (pos + (10 + rdlength),
              some { name := r.name, namelen := r.namelen, type := type, cls := cls,
                     ttl := ttl, rdata := d, rdlength := rdlength })
      if cls = DNS_QCLASS_IN then
        if type = DNS_QTYPE_A then
          if rdlength = 4 then do
            let addr ← memrd buf (pos + 10) 4
            store (.addr4 addr)
          else .null
        else if type = DNS_QTYPE_AAAA then
          if rdlength = 16 then do
            let addr ← memrd buf (pos + 10) 16
            store (.addr6 addr)
          else .null
        else if type = DNS_QTYPE_CNAME then do
          let c ← parse_domain_name buf (pos + 10)
          store (.cname c.name c.namelen)
        else if type = DNS_QTYPE_MX then do
          let e ← parse_domain_name buf (pos + 12)
          let preference ← rd16 buf (pos + 10)
          store (.mx e.name e.namelen preference)
        else if type = DNS_QTYPE_SOA then do
          let ns ← parse_domain_name buf (pos + 10)
          let mb ← parse_domain_name buf ns.next
          let p := mb.next
          if p + 20 ≤ buf.length then do
            let serial ← rd32 buf p
            let refresh ← rd32 buf (p + 4)
            let retry ← rd32 buf (p + 8)
            let expire ← rd32 buf (p + 12)
            let minimum_ttl ← rd32 buf (p + 16)
            store (.soa ns.name ns.namelen mb.name mb.namelen
                     serial refresh retry expire minimum_ttl)
          else .null
        else pure (pos + (10 + rdlength), none)
      else pure (pos + (10 + rdlength), none)
    else .null
  else .null

/-- Embedding of `process_resource_records`: `nrecords` records are decoded from
`pos` on; returns the cursor and the stored records (`*nrrs` is their number). -/
def process_resource_records (buf : List UInt8) : Nat → Nat → List rr_t → Res (Nat × List rr_t)
  | 0, pos, rrs => .ok (pos, rrs)
  | n + 1, pos, rrs =>
    match process_resource_record buf pos with
    | .ok (p, some rr) => process_resource_records buf n p (rrs ++ [rr])
    | .ok (p, none) => process_resource_records buf n p rrs
    | .null => .null
    | .oob o => .oob o
    | .diverge => .diverge

/-- Embedding of `skip_resource_records(buf, end, nrecords)`, the cursor being
`pos`. -/
def skip_resource_records (buf : List UInt8) : Nat → Nat → Res Nat
  | 0, pos => .ok pos
  | n + 1, pos =>
    match skip_domain_name buf pos with
    | .ok p =>
      if p + 10 ≤ buf.length then
        match rd16 buf (p + 8) with
        | .ok rdlength =>
          if p + 10 + rdlength ≤ buf.length then
            skip_resource_records buf n (p + (10 + rdlength))
          else .null
        | .null => .null
        | .oob o => .oob o
        | .diverge => .diverge
      else .null
    | .null => .null
    | .oob o => .oob o
    | .diverge => .diverge

/-! ## `dns_process_response` -/

/-- What a successful `dns_process_response` stores: `*id` and the three arrays
(`*nquestions`, `*nanswers` and `*nauthorities` are the lengths of the lists). -/
structure dns_response_t where
  id : Nat
  questions : List dns_question_t
  answers : List rr_t
  authorities : List rr_t
  deriving DecidableEq, Repr

/-- Number of records to store, `count = array ? MIN(wire, *narray) : 0`; the capacity is `none` when the
array pointer is `NULL` and `some (*narray)` otherwise. -/
def section_count (wire : Nat) (capacity : Option Nat) : Nat :=
  match capacity with
  | some c => if wire < c then wire else c
  | none => 0

/-- Embedding of `dns_process_response(buf, len, id, questions, nquestions,
answers, nanswers, authorities, nauthorities)` with `len = buf.length`. -/
def dns_process_response (buf : List UInt8) (questions answers authorities : Option Nat) :
    Res dns_response_t :=
  if 12 ≤ buf.length ∧ buf.length ≤ MAX_DNS_MESSAGE_SIZE then do
    let id ← rd16 buf 0
    let b2 ← rd buf 2
    if b2 &&& 0x80 ≠ 0 then
      if b2 &&& 0x02 = 0 then do
        let b3 ← rd buf 3
        if b3 &&& 0x0f = 0 then do
          let qdcount ← rd16 buf 4
          let ancount ← rd16 buf 6
          let nscount ← rd16 buf 8
          let count := section_count qdcount questions
          let (b, qs) ← process_questions buf count 12 []
          let b ← skip_questions buf (qdcount - count) b
          let count := section_count ancount answers
          let (b, ans) ← process_resource_records buf count b []
          let b ← skip_resource_records buf (ancount - count) b
          let count := section_count nscount authorities
          let (_, auths) ← process_resource_records buf count b []
          pure { id := id, questions := qs, answers := ans, authorities := auths }
        else .null
      else .null
    else .null
  else .null

/-! ## `dns_build_request` -/

/-- The `while (name < end)` loop of `build_cname`: the bytes of the name still
to scan, the bytes between `label` and `name`, and the bytes written to `buf`
so far.  Returns the pending label (`none` after `return -1`) and the bytes
written. -/
def build_cname_loop : List UInt8 → List UInt8 → List UInt8 → Option (List UInt8) × List UInt8
  | [], label, b => (some label, b)
  | c :: rest, label, b =>
    if c = DOT then
      if 0 < label.length ∧ label.length ≤ DNS_LABEL_MAX_LEN then
        build_cname_loop rest [] (b ++ UInt8.ofNat label.length :: label)
      else (none, b)
    else build_cname_loop rest (label ++ [c]) b

/-- Embedding of `build_cname(name, namelen, buf)`: the returned `int` and the
bytes written to `buf`. -/
def build_cname (name : List UInt8) : Int × List UInt8 :=
  match build_cname_loop name [] [] with
  | (some label, b) =>
    if 0 < label.length ∧ label.length ≤ DNS_LABEL_MAX_LEN then
      let b1 := b ++ UInt8.ofNat label.length :: label ++ [0]
      ((b1.length : Int), b1)
    else (-1, b)
  | (none, b) => (-1, b)

/-- Effect of `dns_build_request`: the returned `int`, the bytes written to `buf`
(from offset 0) and the value of `*len` after the call. -/
structure build_result_t where
  ret : Int
  buf : List UInt8
  len : Nat
  deriving DecidableEq, Repr

/-- Embedding of `dns_build_request(id, qtype, qclass, name, namelen, buf, len)`
with `namelen = name.length`; `len` is the value of `*len` before the call. -/
def dns_build_request (id qtype qclass : Nat) (name : List UInt8) (len : Nat) :
    build_result_t :=
  if name.length ≤ HOSTNAME_MAX_LEN then
    let header : List UInt8 :=
      [UInt8.ofNat ((id >>> 8) &&& 0xff), UInt8.ofNat (id &&& 0xff),
       0x01, 0x00, 0x00, 0x01, 0x00, 0x00, 0x00, 0x00, 0x00, 0x00]
    let c := build_cname name
    if c.1 ≠ -1 then
      let l := 12 + c.1.toNat
      { ret := 0,
        buf := header ++ c.2 ++
          [UInt8.ofNat (((qtype % 65536) >>> 8) &&& 0xff), UInt8.ofNat ((qtype % 65536) &&& 0xff),
           UInt8.ofNat (((qclass % 65536) >>> 8) &&& 0xff), UInt8.ofNat ((qclass % 65536) &&& 0xff)],
        len := l + 4 }
    else { ret := -1, buf := header ++ c.2, len := len }
  else { ret := -1, buf := [], len := len }

/-! ## Auxiliary definitions used to state the properties -/

/-- The byte at offset `i` of the message as an unsigned value (`0` past the end). -/
def byteAt (buf : List UInt8) (i : Nat) : Nat := (buf.getD i 0).toNat

/-- The quantity that decreases along the loop of `parse_domain_name`: pointers
still allowed, then bytes still ahead. -/
def nameMeasure (maxp len : Nat) (s : NameState) : Nat :=
  (maxp - s.npointers) * (len + 1) + (len - s.pos)

/-- The 14-bit target of the compression pointer stored at offsets `p`, `p + 1`,
when these two bytes lie in the buffer and the first has its top two bits set. -/
def ptr_target (buf : List UInt8) (p : Nat) : Option Nat :=
  if p + 1 < buf.length ∧ byteAt buf p &&& 0xc0 = 0xc0 then
    some (((byteAt buf p &&& 0x3f) <<< 8) ||| byteAt buf (p + 1))
  else none

/-- Where `k` pointers in a row lead from offset `p`: `none` when one of the
`k` offsets met does not hold a pointer. -/
def follow (buf : List UInt8) : Nat → Nat → Option Nat
  | 0, p => some p
  | k + 1, p => (ptr_target buf p).bind (follow buf k)

/-- The target of the pointer at the cursor of `s`. -/
def ptrOf (buf : List UInt8) (s : NameState) : Nat :=
  ((byteAt buf s.pos &&& 0x3f) <<< 8) ||| byteAt buf (s.pos + 1)

/-! ## Concrete messages -/

/-- The name `a` at offset 0 followed by ten pointers, each to the one before
it (the first to offset 0), and an eleventh. -/
def chainBuf : List UInt8 :=
  [1, 97, 0, 0xc0, 0, 0xc0, 3, 0xc0, 5, 0xc0, 7, 0xc0, 9, 0xc0, 11, 0xc0, 13, 0xc0, 15,
   0xc0, 17, 0xc0, 19, 0xc0, 21]

/-- A 25-byte response with no question and one answer: owner name `a`, type MX,
class IN, TTL 0, RDLENGTH 0, ending at the end of the message. -/
def mxBuf : List UInt8 :=
  [0, 0, 0x80, 0, 0, 0, 0, 1, 0, 0, 0, 0, 1, 97, 0, 0, 15, 0, 1, 0, 0, 0, 0, 0, 0]

/-- A message whose question is `a IN A` and that goes on with an owner name
written as a pointer to offset 12. -/
def answerBuf : List UInt8 :=
  [0, 0, 0x80, 0, 0, 1, 0, 1, 0, 0, 0, 0, 1, 97, 0, 0, 1, 0, 1, 0xc0, 0x0c]

/-! ## Names and their wire form, as the specification describes them -/

/-- A label that `build_cname` accepts: 1 to 63 bytes. -/
def validLabel (l : List UInt8) : Prop := 0 < l.length ∧ l.length ≤ DNS_LABEL_MAX_LEN

instance : DecidablePred validLabel := fun l => by unfold validLabel; infer_instance

/-- Wire form of a sequence of labels: each one as a length byte followed by
its bytes. -/
def encodeLabels : List (List UInt8) → List UInt8
  | [] => []
  | l :: ls => UInt8.ofNat l.length :: l ++ encodeLabels ls

/-- The dot-separated labels of `label ++ rest`, given that `label` holds no dot. -/
def labelsFrom (label : List UInt8) : List UInt8 → List (List UInt8)
  | [] => [label]
  | c :: rest => if c = DOT then label :: labelsFrom [] rest else labelsFrom (label ++ [c]) rest

/-- A 16-bit value as two bytes, most significant first. -/
def be16 (v : Nat) : List UInt8 := [UInt8.ofNat (v / 256 % 256), UInt8.ofNat (v % 256)]

/-- The twelve header bytes of a request: the id, the flags `01 00`, QDCOUNT 1
and three zero counts. -/
def requestHeader (id : Nat) : List UInt8 :=
  [UInt8.ofNat (id / 256 % 256), UInt8.ofNat (id % 256),
   0x01, 0x00, 0x00, 0x01, 0x00, 0x00, 0x00, 0x00, 0x00, 0x00]

/-- The text after one more label: `if (len > 0) name[len++] = '.'`, then the
label. -/
def appendLabel (acc l : List UInt8) : List UInt8 :=
  (if acc.length > 0 then acc ++ [DOT] else acc) ++ l

/-- The text after a sequence of labels. -/
def joinLabels (acc : List UInt8) (ls : List (List UInt8)) : List UInt8 :=
  ls.foldl appendLabel acc

/-- A message with the QR bit (`0x80` of byte 2) set. -/
def set_qr (buf : List UInt8) : List UInt8 :=
  buf.set 2 (buf.getD 2 0 ||| 0x80)

/-- A 12-byte response with every count zero, QR set and bit 1 of byte 2 set. -/
def tcBuf : List UInt8 := [0, 0, 0x82, 0, 0, 0, 0, 0, 0, 0, 0, 0]

/-- The states the loop of `parse_domain_name` passes through: `Reaches maxp buf s t`
when `t` is `s` or is met at the head of the loop some iterations after `s`. -/
inductive Reaches (maxp : Nat) (buf : List UInt8) : NameState → NameState → Prop where
  | refl (s : NameState) : Reaches maxp buf s s
  | step {s s1 t : NameState} :
      parse_domain_name_step maxp buf s = .ok (.again s1) → Reaches maxp buf s1 t →
      Reaches maxp buf s t

/-- The offsets the loop of `skip_domain_name` passes through from offset `p` on:
each plain label that ends before the end of the buffer leads to the next one. -/
inductive SkipReaches (buf : List UInt8) : Nat → Nat → Prop where
  | refl (p : Nat) : SkipReaches buf p p
  | step {p q : Nat} :
      byteAt buf p ≠ 0 → byteAt buf p &&& 0xc0 = 0 → p + (1 + byteAt buf p) < buf.length →
      SkipReaches buf (p + (1 + byteAt buf p)) q → SkipReaches buf p q

/-- Walk over the plain labels from offset `p`: the offset of the first byte met
that does not start a non-empty plain label ending before the end of the buffer. -/
def skipLabels (buf : List UInt8) : Nat → Nat → Nat
  | 0, p => p
  | fuel + 1, p =>
    if byteAt buf p ≠ 0 ∧ byteAt buf p &&& 0xc0 = 0 ∧ p + (1 + byteAt buf p) < buf.length then
      skipLabels buf fuel (p + (1 + byteAt buf p))
    else p

/-- Where the run of plain labels that starts at offset `pos` ends: the offset
of the terminating zero byte or of the first pointer of a well-formed name. -/
def nameEnd (buf : List UInt8) (pos : Nat) : Nat := skipLabels buf buf.length pos

/-- A name of four labels of 63 bytes, 255 bytes of text, at offset 0. -/
def name255Buf : List UInt8 :=
  encodeLabels (List.replicate 4 (List.replicate 63 97)) ++ [0]

/-- A name of labels of 63, 63, 63, 62 and 1 bytes, 256 bytes of text, at offset 0. -/
def name256Buf : List UInt8 :=
  encodeLabels (List.replicate 3 (List.replicate 63 97) ++ [List.replicate 62 97, [97]]) ++ [0]

/-- A name that is just the root label, at offset 0, followed by four bytes. -/
def rootBuf : List UInt8 := [0, 0, 1, 0, 1]

/-- A question name `a` followed by a label that announces 5 bytes where only 3
bytes are left in the message. -/
def shortLabelBuf : List UInt8 := [1, 97, 5, 98, 99, 100]

/-- Big-endian 16-bit value of the bytes at offsets `p`, `p + 1`. -/
def be16At (buf : List UInt8) (p : Nat) : Nat :=
  (byteAt buf p <<< 8) ||| byteAt buf (p + 1)

/-- Big-endian 32-bit value of the bytes at offsets `p` to `p + 3`. -/
def be32At (buf : List UInt8) (p : Nat) : Nat :=
  ((byteAt buf p <<< 24) ||| (byteAt buf (p + 1) <<< 16) ||| (byteAt buf (p + 2) <<< 8) |||
    byteAt buf (p + 3)) % 2 ^ 32

/-- What the `switch` of `process_resource_records` puts in the union of a record
whose fixed fields start at offset `p`: `none` when the record is not stored. -/
def record_rdata (buf : List UInt8) (p type cls rdlength : Nat) : Res (Option rdata_t) :=
  if cls = DNS_QCLASS_IN then
    if type = DNS_QTYPE_A then
      if rdlength = 4 then do
        let addr ← memrd buf (p + 10) 4
        pure (some (.addr4 addr))
      else .null
    else if type = DNS_QTYPE_AAAA then
      if rdlength = 16 then do
        let addr ← memrd buf (p + 10) 16
        pure (some (.addr6 addr))
      else .null
    else if type = DNS_QTYPE_CNAME then do
      let c ← parse_domain_name buf (p + 10)
      pure (some (.cname c.name c.namelen))
    else if type = DNS_QTYPE_MX then do
      let e ← parse_domain_name buf (p + 12)
      let preference ← rd16 buf (p + 10)
      pure (some (.mx e.name e.namelen preference))
    else if type = DNS_QTYPE_SOA then do
      let ns ← parse_domain_name buf (p + 10)
      let mb ← parse_domain_name buf ns.next
      if mb.next + 20 ≤ buf.length then do
        let serial ← rd32 buf mb.next
        let refresh ← rd32 buf (mb.next + 4)
        let retry ← rd32 buf (mb.next + 8)
        let expire ← rd32 buf (mb.next + 12)
        let minimum_ttl ← rd32 buf (mb.next + 16)
        pure (some (.soa ns.name ns.namelen mb.name mb.namelen
                     serial refresh retry expire minimum_ttl))
      else .null
    else pure none
  else pure none

/-- An A record: owner name `a`, class IN, TTL `80 00 00 01`, RDLENGTH 4 and
the address 1.2.3.4. -/
def aRecordBuf : List UInt8 :=
  [1, 97, 0, 0, 1, 0, 1, 0x80, 0, 0, 1, 0, 4, 1, 2, 3, 4]

/-- The record of `aRecordBuf` with RDLENGTH 5, which runs one byte past the end. -/
def longRecordBuf : List UInt8 :=
  [1, 97, 0, 0, 1, 0, 1, 0x80, 0, 0, 1, 0, 5, 1, 2, 3, 4]

/-- A CNAME record: owner name `a`, class IN, RDLENGTH 6, whose RDATA is a
pointer to offset 0 followed by four more bytes. -/
def cnameRecordBuf : List UInt8 :=
  [1, 97, 0, 0, 5, 0, 1, 0, 0, 0, 0, 0, 6, 0xc0, 0, 9, 9, 9, 9]

/-- A TXT record (type 16), class IN, with three bytes of RDATA that are no
name, followed by the A record of `aRecordBuf` with a pointer as owner name. -/
def txtRecordBuf : List UInt8 :=
  [1, 97, 0, 0, 16, 0, 1, 0, 0, 0, 0, 0, 3, 0xff, 0xff, 0xff,
   0xc0, 0, 0, 1, 0, 1, 0, 0, 0, 0, 0, 4, 1, 2, 3, 4]

/-- An A record with RDLENGTH 3. -/
def shortARecordBuf : List UInt8 :=
  [1, 97, 0, 0, 1, 0, 1, 0, 0, 0, 0, 0, 3, 1, 2, 3]

/-- An AAAA record: owner name `a`, class IN, RDLENGTH 16. -/
def aaaaRecordBuf : List UInt8 :=
  [1, 97, 0, 0, 28, 0, 1, 0, 0, 0, 0, 0, 16,
   1, 2, 3, 4, 5, 6, 7, 8, 9, 10, 11, 12, 13, 14, 15, 16]

/-- An SOA record: owner name `a`, class IN, RDLENGTH 24; both names are
pointers to offset 0 and the five numbers are 1, 2, 3, 4 and 5. -/
def soaRecordBuf : List UInt8 :=
  [1, 97, 0, 0, 6, 0, 1, 0, 0, 0, 0, 0, 24, 0xc0, 0, 0xc0, 0,
   0, 0, 0, 1, 0, 0, 0, 2, 0, 0, 0, 3, 0, 0, 0, 4, 0, 0, 0, 5]

/-- A record that the decoder stores: class IN and one of the five types. -/
def storedKind (rr : rr_t) : Prop :=
  rr.cls = DNS_QCLASS_IN ∧ (rr.type = DNS_QTYPE_A ∨ rr.type = DNS_QTYPE_CNAME ∨
    rr.type = DNS_QTYPE_SOA ∨ rr.type = DNS_QTYPE_MX ∨ rr.type = DNS_QTYPE_AAAA)

/-- The A record with owner name `a`, class IN, TTL 0 and address `n.n.n.n`. -/
def aRecord (n : UInt8) : rr_t :=
  { name := [97], namelen := 1, type := 1, cls := 1, ttl := 0,
    rdata := .addr4 [n, n, n, n], rdlength := 4 }

/-- A response with no question, five answers (A records for `a` with the
addresses 1.1.1.1 to 5.5.5.5, the last four with a pointer to offset 12 as
owner name) and one authority (an A record with the address 6.6.6.6). -/
def fiveBuf : List UInt8 :=
  [0, 0, 0x80, 0, 0, 0, 0, 5, 0, 1, 0, 0,
   1, 97, 0, 0, 1, 0, 1, 0, 0, 0, 0, 0, 4, 1, 1, 1, 1,
   0xc0, 12, 0, 1, 0, 1, 0, 0, 0, 0, 0, 4, 2, 2, 2, 2,
   0xc0, 12, 0, 1, 0, 1, 0, 0, 0, 0, 0, 4, 3, 3, 3, 3,
   0xc0, 12, 0, 1, 0, 1, 0, 0, 0, 0, 0, 4, 4, 4, 4, 4,
   0xc0, 12, 0, 1, 0, 1, 0, 0, 0, 0, 0, 4, 5, 5, 5, 5,
   0xc0, 12, 0, 1, 0, 1, 0, 0, 0, 0, 0, 4, 6, 6, 6, 6]

/-! ## Mnemonics of types and classes (`dns.c`) -/

def DNS_QTYPE_NS : Nat := 2
def DNS_QTYPE_MD : Nat := 3
def DNS_QTYPE_MF : Nat := 4
def DNS_QTYPE_MB : Nat := 7
def DNS_QTYPE_MG : Nat := 8
def DNS_QTYPE_MR : Nat := 9
def DNS_QTYPE_NULL : Nat := 10
def DNS_QTYPE_WKS : Nat := 11
def DNS_QTYPE_PTR : Nat := 12
def DNS_QTYPE_HINFO : Nat := 13
def DNS_QTYPE_MINFO : Nat := 14
def DNS_QTYPE_TXT : Nat := 16
def DNS_QTYPE_AXFR : Nat := 252
def DNS_QTYPE_MAILB : Nat := 253
def DNS_QTYPE_MAILA : Nat := 254
def DNS_QTYPE_ALL : Nat := 255
def DNS_QCLASS_CS : Nat := 2
def DNS_QCLASS_CH : Nat := 3
def DNS_QCLASS_HS : Nat := 4
def DNS_QCLASS_ANY : Nat := 255

/-- The `switch` of `dns_qtype_to_string`; the argument is the value of the
`dns_qtype_t` enumeration object, any unsigned number. -/
def dns_qtype_to_string (qtype : Nat) : String :=
  if qtype = DNS_QTYPE_A then "A"
  else if qtype = DNS_QTYPE_NS then "NS"
  else if qtype = DNS_QTYPE_MD then "MD"
  else if qtype = DNS_QTYPE_MF then "MF"
  else if qtype = DNS_QTYPE_CNAME then "CNAME"
  else if qtype = DNS_QTYPE_SOA then "SOA"
  else if qtype = DNS_QTYPE_MB then "MB"
  else if qtype = DNS_QTYPE_MG then "MG"
  else if qtype = DNS_QTYPE_MR then "MR"
  else if qtype = DNS_QTYPE_NULL then "NULL"
  else if qtype = DNS_QTYPE_WKS then "WKS"
  else if qtype = DNS_QTYPE_PTR then "PTR"
  else if qtype = DNS_QTYPE_HINFO then "HINFO"
  else if qtype = DNS_QTYPE_MINFO then "MINFO"
  else if qtype = DNS_QTYPE_MX then "MX"
  else if qtype = DNS_QTYPE_TXT then "TXT"
  else if qtype = DNS_QTYPE_AAAA then "AAAA"
  else if qtype = DNS_QTYPE_AXFR then "AXFR"
  else if qtype = DNS_QTYPE_MAILB then "MAILB"
  else if qtype = DNS_QTYPE_MAILA then "MAILA"
  else if qtype = DNS_QTYPE_ALL then "(all)"
  else "(unknown)"

/-- The `switch` of `dns_qclass_to_string`. -/
def dns_qclass_to_string (qclass : Nat) : String :=
  if qclass = DNS_QCLASS_IN then "IN"
  else if qclass = DNS_QCLASS_CS then "CS"
  else if qclass = DNS_QCLASS_CH then "CH"
  else if qclass = DNS_QCLASS_HS then "HS"
  else if qclass = DNS_QCLASS_ANY then "(any)"
  else "(unknown)"

/-- The type mnemonics as the specification lists them. -/
def qtypeNames : List (Nat × String) :=
  [(1, "A"), (2, "NS"), (3, "MD"), (4, "MF"), (5, "CNAME"), (6, "SOA"), (7, "MB"), (8, "MG"),
   (9, "MR"), (10, "NULL"), (11, "WKS"), (12, "PTR"), (13, "HINFO"), (14, "MINFO"), (15, "MX"),
   (16, "TXT"), (28, "AAAA"), (252, "AXFR"), (253, "MAILB"), (254, "MAILA"), (255, "(all)")]

/-- The class mnemonics as the specification lists them. -/
def qclassNames : List (Nat × String) :=
  [(1, "IN"), (2, "CS"), (3, "CH"), (4, "HS"), (255, "(any)")]

/-! ## The hash function (`hash.c`) -/

/-- Addition of two `uint32_t` values. -/
def add32 (x y : Nat) : Nat := (x + y) % 2 ^ 32

/-- Subtraction of two `uint32_t` values. -/
def sub32 (x y : Nat) : Nat := (x + (2 ^ 32 - y % 2 ^ 32)) % 2 ^ 32

/-- Left shift of a `uint32_t` value. -/
def shl32 (x n : Nat) : Nat := (x <<< n) % 2 ^ 32

/-- The three `uint32_t` variables `a`, `b`, `c` of `hash`. -/
structure hash_state_t where
  a : Nat
  b : Nat
  c : Nat
deriving DecidableEq, Repr

/-- The macro `mix(a, b, c)`, one statement per binding. -/
def mix (s : hash_state_t) : hash_state_t :=
  let a := s.a
  let b := s.b
  let c := s.c
  let a := sub32 a b
  let a := sub32 a c
  let a := a ^^^ (c >>> 13)
  let b := sub32 b c
  let b := sub32 b a
  let b := b ^^^ (shl32 a 8)
  let c := sub32 c a
  let c := sub32 c b
  let c := c ^^^ (b >>> 13)
  let a := sub32 a b
  let a := sub32 a c
  let a := a ^^^ (c >>> 12)
  let b := sub32 b c
  let b := sub32 b a
  let b := b ^^^ (shl32 a 16)
  let c := sub32 c a
  let c := sub32 c b
  let c := c ^^^ (b >>> 5)
  let a := sub32 a b
  let a := sub32 a c
  let a := a ^^^ (c >>> 3)
  let b := sub32 b c
  let b := sub32 b a
  let b := b ^^^ (shl32 a 10)
  let c := sub32 c a
  let c := sub32 c b
  let c := c ^^^ (b >>> 15)
  { a := a, b := b, c := c }

/-- The byte `k[i]` as a `uint32_t`; the callers read it only for `i` below the number of
bytes left. -/
def kbyte (k : List UInt8) (i : Nat) : Nat := (k.getD i 0).toNat

/-- The loop `while (len >= 12)` of `hash`: `k` is the part of the span not consumed yet, so
`len` is `k.length`; returns the state and the bytes left (fewer than 12). -/
def hash_loop : List UInt8 → hash_state_t → List UInt8 × hash_state_t
  | k0 :: k1 :: k2 :: k3 :: k4 :: k5 :: k6 :: k7 :: k8 :: k9 :: k10 :: k11 :: rest, s =>
    let a := add32 s.a (add32 (add32 (add32 k0.toNat (shl32 k1.toNat 8)) (shl32 k2.toNat 16))
      (shl32 k3.toNat 24))
    let b := add32 s.b (add32 (add32 (add32 k4.toNat (shl32 k5.toNat 8)) (shl32 k6.toNat 16))
      (shl32 k7.toNat 24))
    let c := add32 s.c (add32 (add32 (add32 k8.toNat (shl32 k9.toNat 8)) (shl32 k10.toNat 16))
      (shl32 k11.toNat 24))
    hash_loop rest (mix { a := a, b := b, c := c })
  | k, s => (k, s)

/-- The `switch (len)` of `hash` with its fall-through cases: the statement of `case n` runs
when `len >= n`. -/
def hash_tail (k : List UInt8) (s : hash_state_t) : hash_state_t :=
  let len := k.length
  let a := s.a
  let b := s.b
  let c := s.c
  let c := if 11 ≤ len then add32 c (shl32 (kbyte k 10) 24) else c
  let c := if 10 ≤ len then add32 c (shl32 (kbyte k 9) 16) else c
  let c := if 9 ≤ len then add32 c (shl32 (kbyte k 8) 8) else c
  let b := if 8 ≤ len then add32 b (shl32 (kbyte k 7) 24) else b
  let b := if 7 ≤ len then add32 b (shl32 (kbyte k 6) 16) else b
  let b := if 6 ≤ len then add32 b (shl32 (kbyte k 5) 8) else b
  let b := if 5 ≤ len then add32 b (kbyte k 4) else b
  let a := if 4 ≤ len then add32 a (shl32 (kbyte k 3) 24) else a
  let a := if 3 ≤ len then add32 a (shl32 (kbyte k 2) 16) else a
  let a := if 2 ≤ len then add32 a (shl32 (kbyte k 1) 8) else a
  let a := if 1 ≤ len then add32 a (kbyte k 0) else a
  { a := a, b := b, c := c }

/-- The value of `c` just before `return (c % max)`. -/
def hash_value (data : List UInt8) (initval : Nat) : Nat :=
  let r := hash_loop data { a := 0x9e3779b9, b := 0x9e3779b9, c := initval % 2 ^ 32 }
  let s := r.2
  let s := { s with c := add32 s.c data.length }
  (mix (hash_tail r.1 s)).c

/-- The function `hash(data, length, initval, max)`; the span is the list `data` and `length`
its length.  `none` is the division by zero of `c % max` when `max` is 0. -/
def hash (data : List UInt8) (initval max : Nat) : Option Nat :=
  if max = 0 then none else some (hash_value data initval % max)

/-! ## The DNS cache (`dnscache.c`)

A bucket is a circular doubly linked list with a header node; it is the list of its entries
from `header->next` onwards, so `cache_entry_push_front` is `::`, `node_unlink` removes an
element and `touch_cache_entry` moves it to the head.  The array `buckets` with its length
`nbuckets` is a list of buckets.  A host `(host, hostlen)` is the list of its `hostlen`
bytes; `time_t` is `Int`.  A function that divides by a bucket count of zero returns `none`. -/

/-- The seed `initval` of `dnscache.c`. -/
def initval : Nat := 0xdeaddead

/-- A `cache_entry_t` without its links: `addr` holds the bytes of the array `addr` that were
written, `host` the `hostlen + 1` bytes allocated for the host. -/
structure cache_entry_t where
  addr : List UInt8
  expiration_time : Int
  hostlen : Nat
  host : List UInt8
deriving DecidableEq, Repr

structure dnscache_t where
  buckets : List (List cache_entry_t)
deriving DecidableEq, Repr

/-- The field `nbuckets`. -/
def dnscache_t.nbuckets (cache : dnscache_t) : Nat := cache.buckets.length

structure dnscaches_t where
  ipv4 : dnscache_t
  ipv6 : dnscache_t
deriving DecidableEq, Repr

/-- The return value of `dnscache_add` and the cache it leaves. -/
structure add_result_t where
  ret : Int
  cache : dnscache_t
deriving DecidableEq, Repr

/-- The return value of `dnscache_get`, the bytes it copied to `addr` (`none` when it wrote
nothing) and the cache it leaves. -/
structure get_result_t where
  ret : Int
  addr : Option (List UInt8)
  cache : dnscache_t
deriving DecidableEq, Repr

/-- The return value of `dnscaches_add_ipv4` / `dnscaches_add_ipv6` and the caches left. -/
structure adds_result_t where
  ret : Int
  caches : dnscaches_t
deriving DecidableEq, Repr

/-- The return value of `dnscaches_get_ipv4` / `dnscaches_get_ipv6`, the address copied and
the caches left. -/
structure gets_result_t where
  ret : Int
  addr : Option (List UInt8)
  caches : dnscaches_t
deriving DecidableEq, Repr

/-- The test `memcmp(x, y, n) == 0`. -/
def memcmp_eq (x y : List UInt8) (n : Nat) : Bool := decide (x.take n = y.take n)

/-- The test `(hostlen == entry->hostlen) && (memcmp(host, entry->host, hostlen) == 0)`. -/
def same_host (host : List UInt8) (entry : cache_entry_t) : Bool :=
  decide (host.length = entry.hostlen) && memcmp_eq host entry.host host.length

/-- The function `dnscache_create`; `alloc` tells whether `malloc` succeeds. -/
def dnscache_create (nbuckets : Nat) (alloc : Bool) : Option dnscache_t :=
  if alloc then some { buckets := List.replicate nbuckets [] } else none

/-- The function `dnscaches_create`; `alloc4` and `alloc6` tell whether the two calls of
`malloc` succeed. -/
def dnscaches_create (nbuckets : Nat) (alloc4 alloc6 : Bool) : Option dnscaches_t :=
  match dnscache_create nbuckets alloc4 with
  | some ipv4 =>
    match dnscache_create nbuckets alloc6 with
    | some ipv6 => some { ipv4 := ipv4, ipv6 := ipv6 }
    | none => none
  | none => none

/-- The `while` loop of `dnscache_add` on the entries from `entry` onwards; `kept` are the
entries before `entry` that are still linked.  Returns whether the host was found, and the
bucket the loop leaves. -/
def dnscache_add_loop (host : List UInt8) (expiration_time now : Int)
    (kept : List cache_entry_t) : List cache_entry_t → Bool × List cache_entry_t
  | [] => (false, kept)
  | entry :: rest =>
    if same_host host entry then
      (true, { entry with expiration_time := expiration_time } :: (kept ++ rest))
    else if now > entry.expiration_time then
      dnscache_add_loop host expiration_time now kept rest
    else
      dnscache_add_loop host expiration_time now (kept ++ [entry]) rest

/-- The function `dnscache_add`; `alloc` tells whether `malloc` succeeds when it is called.
`memcpy(entry->addr, addr, addrlen)` stores the first `addrlen` bytes of `addr`. -/
def dnscache_add (cache : dnscache_t) (host addr : List UInt8) (addrlen : Nat)
    (expiration_time now : Int) (alloc : Bool) : Option add_result_t :=
  if host.length ≤ HOSTNAME_MAX_LEN then
    match hash host initval cache.nbuckets with
    | none => none
    | some i =>
      let r := dnscache_add_loop host expiration_time now [] (cache.buckets.getD i [])
      if r.1 then
        some { ret := 0, cache := { buckets := cache.buckets.set i r.2 } }
      else if alloc then
        let entry : cache_entry_t :=
          { addr := addr.take addrlen, expiration_time := expiration_time,
            hostlen := host.length % 256, host := host ++ [0] }
        some { ret := 0, cache := { buckets := cache.buckets.set i (entry :: r.2) } }
      else
        some { ret := -1, cache := { buckets := cache.buckets.set i r.2 } }
  else
    some { ret := -1, cache := cache }

/-- The `while` loop of `dnscache_get`, with `kept` as in `dnscache_add_loop`.  Returns the
address copied, if any, and the bucket the loop leaves. -/
def dnscache_get_loop (host : List UInt8) (now : Int) (addrlen : Nat)
    (kept : List cache_entry_t) : List cache_entry_t → Option (List UInt8) × List cache_entry_t
  | [] => (none, kept)
  | entry :: rest =>
    if same_host host entry then
      if now ≤ entry.expiration_time then
        (some (entry.addr.take addrlen), entry :: (kept ++ rest))
      else
        (none, kept ++ rest)
    else if now > entry.expiration_time then
      dnscache_get_loop host now addrlen kept rest
    else
      dnscache_get_loop host now addrlen (kept ++ [entry]) rest

/-- The function `dnscache_get`. -/
def dnscache_get (cache : dnscache_t) (host : List UInt8) (now : Int) (addrlen : Nat) :
    Option get_result_t :=
  if host.length ≤ HOSTNAME_MAX_LEN then
    match hash host initval cache.nbuckets with
    | none => none
    | some i =>
      let r := dnscache_get_loop host now addrlen [] (cache.buckets.getD i [])
      match r.1 with
      | some a => some { ret := 0, addr := some a, cache := { buckets := cache.buckets.set i r.2 } }
      | none => some { ret := -1, addr := none, cache := { buckets := cache.buckets.set i r.2 } }
  else
    some { ret := -1, addr := none, cache := cache }

/-- The `while` loop of `dnscache_remove_expired` on one bucket. -/
def dnscache_remove_expired_loop (now : Int) : List cache_entry_t → List cache_entry_t
  | [] => []
  | entry :: rest =>
    if now > entry.expiration_time then dnscache_remove_expired_loop now rest
    else entry :: dnscache_remove_expired_loop now rest

/-- The function `dnscache_remove_expired`: the `for` loop runs the `while` loop on every
bucket. -/
def dnscache_remove_expired (cache : dnscache_t) (now : Int) : dnscache_t :=
  { buckets := cache.buckets.map (dnscache_remove_expired_loop now) }

def dnscaches_add_ipv4 (caches : dnscaches_t) (host addr : List UInt8)
    (expiration_time now : Int) (alloc : Bool) : Option adds_result_t :=
  match dnscache_add caches.ipv4 host addr 4 expiration_time now alloc with
  | some r => some { ret := r.ret, caches := { caches with ipv4 := r.cache } }
  | none => none

def dnscaches_add_ipv6 (caches : dnscaches_t) (host addr : List UInt8)
    (expiration_time now : Int) (alloc : Bool) : Option adds_result_t :=
  match dnscache_add caches.ipv6 host addr 16 expiration_time now alloc with
  | some r => some { ret := r.ret, caches := { caches with ipv6 := r.cache } }
  | none => none

def dnscaches_get_ipv4 (caches : dnscaches_t) (host : List UInt8) (now : Int) :
    Option gets_result_t :=
  match dnscache_get caches.ipv4 host now 4 with
  | some r => some { ret := r.ret, addr := r.addr, caches := { caches with ipv4 := r.cache } }
  | none => none

def dnscaches_get_ipv6 (caches : dnscaches_t) (host : List UInt8) (now : Int) :
    Option gets_result_t :=
  match dnscache_get caches.ipv6 host now 16 with
  | some r => some { ret := r.ret, addr := r.addr, caches := { caches with ipv6 := r.cache } }
  | none => none

def dnscaches_remove_expired (caches : dnscaches_t) (now : Int) : dnscaches_t :=
  { ipv4 := dnscache_remove_expired caches.ipv4 now,
    ipv6 := dnscache_remove_expired caches.ipv6 now }

/-! ## Auxiliary definitions for the cache properties -/

/-- The key of an entry: the first `hostlen` bytes of its host. -/
def entry_key (e : cache_entry_t) : List UInt8 := e.host.take e.hostlen

/-- All entries of a cache, bucket after bucket. -/
def entries (cache : dnscache_t) : List cache_entry_t := cache.buckets.flatten

/-- The caches that `dnscache_create` and then calls of `dnscache_add`, `dnscache_get` and
`dnscache_remove_expired` with address length `alen` produce. -/
inductive Reachable (alen : Nat) : dnscache_t → Prop where
  | create (nbuckets : Nat) (c : dnscache_t) :
      dnscache_create nbuckets true = some c → Reachable alen c
  | add (c : dnscache_t) (host addr : List UInt8) (expiration_time now : Int) (alloc : Bool)
      (r : add_result_t) :
      Reachable alen c → dnscache_add c host addr alen expiration_time now alloc = some r →
      Reachable alen r.cache
  | get (c : dnscache_t) (host : List UInt8) (now : Int) (r : get_result_t) :
      Reachable alen c → dnscache_get c host now alen = some r → Reachable alen r.cache
  | remove_expired (c : dnscache_t) (now : Int) :
      Reachable alen c → Reachable alen (dnscache_remove_expired c now)

/-- An entry of bucket `i` of a cache with `n` buckets, as `dnscache_add` creates it. -/
def entry_ok (alen n i : Nat) (e : cache_entry_t) : Prop :=
  e.hostlen ≤ HOSTNAME_MAX_LEN ∧ e.host.length = e.hostlen + 1 ∧ e.addr.length ≤ alen ∧
  hash (entry_key e) initval n = some i

/-- A bucket whose entries are in the right bucket and have pairwise different keys. -/
def bucket_ok (alen n i : Nat) (b : List cache_entry_t) : Prop :=
  (∀ e ∈ b, entry_ok alen n i e) ∧ (b.map entry_key).Nodup

/-- The invariant of the cache. -/
def cache_ok (alen : Nat) (c : dnscache_t) : Prop :=
  ∀ i b, c.buckets[i]? = some b → bucket_ok alen c.buckets.length i b

/-- The host "a". -/
def hostA : List UInt8 := [97]

/-- The host "b". -/
def hostB : List UInt8 := [98]

/-- The entry that `dnscache_add` creates for a host, the first `alen` bytes of an address and
an expiration time. -/
def mk_entry (alen : Nat) (host addr : List UInt8) (expiration_time : Int) : cache_entry_t :=
  { addr := addr.take alen, expiration_time := expiration_time,
    hostlen := host.length % 256, host := host ++ [0] }

/-- A cache with one bucket after `dnscache_add` of host "a" with expiration 110, of host "b"
with expiration 120, and of host "a" again with expiration 130. -/
def abCache : dnscache_t :=
  { buckets := [[mk_entry 4 hostA [1, 1, 1, 1] 130, mk_entry 4 hostB [2, 2, 2, 2] 120]] }

/-- The host "c". -/
def hostC : List UInt8 := [99]

/-- The cache `abCache` after `dnscache_add` of host "c" with expiration 110 at time 100. -/
def abcCache : dnscache_t :=
  { buckets := [[mk_entry 4 hostC [3, 3, 3, 3] 110, mk_entry 4 hostA [1, 1, 1, 1] 130,
                 mk_entry 4 hostB [2, 2, 2, 2] 120]] }

/-- The loops of `testdnscache.c` that add hosts: every element of the list is a host, its
address and its expiration time; all are added at time `now` with `malloc` succeeding, and
the run stops at the first call that does not return 0. -/
def add_all (alen : Nat) (now : Int) :
    dnscache_t → List (List UInt8 × List UInt8 × Int) → Option dnscache_t
  | c, [] => some c
  | c, p :: rest =>
    match dnscache_add c p.1 p.2.1 alen p.2.2 now true with
    | some r => if r.ret = 0 then add_all alen now r.cache rest else none
    | none => none

/-- The caches that calls of `dnscache_get` at times satisfying `P` lead to from a cache. -/
inductive Lookups (alen : Nat) (P : Int → Prop) : dnscache_t → dnscache_t → Prop where
  | refl (c : dnscache_t) : Lookups alen P c c
  | step (c c1 : dnscache_t) (host : List UInt8) (t : Int) (r : get_result_t) :
      Lookups alen P c c1 → P t → dnscache_get c1 host t alen = some r →
      Lookups alen P c r.cache

/-- The pairs of caches that `dnscaches_create` and then calls of the six functions of
`dnscache.h` produce, when `dnscaches_add_ipv4` is called only with hosts satisfying `p4` and
`dnscaches_add_ipv6` only with hosts satisfying `p6`. -/
inductive Calls (p4 p6 : List UInt8 → Prop) : dnscaches_t → Prop where
  | create (nbuckets : Nat) (c : dnscaches_t) :
      dnscaches_create nbuckets true true = some c → Calls p4 p6 c
  | add_ipv4 (c : dnscaches_t) (host addr : List UInt8) (expiration_time now : Int)
      (alloc : Bool) (r : adds_result_t) :
      Calls p4 p6 c → p4 host →
      dnscaches_add_ipv4 c host addr expiration_time now alloc = some r → Calls p4 p6 r.caches
  | add_ipv6 (c : dnscaches_t) (host addr : List UInt8) (expiration_time now : Int)
      (alloc : Bool) (r : adds_result_t) :
      Calls p4 p6 c → p6 host →
      dnscaches_add_ipv6 c host addr expiration_time now alloc = some r → Calls p4 p6 r.caches
  | get_ipv4 (c : dnscaches_t) (host : List UInt8) (now : Int) (r : gets_result_t) :
      Calls p4 p6 c → dnscaches_get_ipv4 c host now = some r → Calls p4 p6 r.caches
  | get_ipv6 (c : dnscaches_t) (host : List UInt8) (now : Int) (r : gets_result_t) :
      Calls p4 p6 c → dnscaches_get_ipv6 c host now = some r → Calls p4 p6 r.caches
  | remove_expired (c : dnscaches_t) (now : Int) :
      Calls p4 p6 c → Calls p4 p6 (dnscaches_remove_expired c now)

/-- Three hosts with their addresses. -/
def abcHosts : List (List UInt8 × List UInt8) :=
  [(hostA, [1, 1, 1, 1]), (hostB, [2, 2, 2, 2]), (hostC, [3, 3, 3, 3])]

/-- The cache with two buckets after the hosts of `abcHosts` were added with expiration 1. -/
def abcCache2 : dnscache_t :=
  { buckets := [[mk_entry 4 hostB [2, 2, 2, 2] 1],
                [mk_entry 4 hostC [3, 3, 3, 3] 1, mk_entry 4 hostA [1, 1, 1, 1] 1]] }

/-- Four hosts with their addresses and expiration times; two of them expire before 0. -/
def halfHosts : List (List UInt8 × List UInt8 × Int) :=
  [(hostA, [1, 1, 1, 1], 1), (hostB, [2, 2, 2, 2], -1), (hostC, [3, 3, 3, 3], 0),
   ([100], [4, 4, 4, 4], -1)]

/-- The cache with two buckets after the hosts of `halfHosts` were added at time -1. -/
def halfCache : dnscache_t :=
  { buckets := [[mk_entry 4 hostB [2, 2, 2, 2] (-1)],
                [mk_entry 4 [100] [4, 4, 4, 4] (-1), mk_entry 4 hostC [3, 3, 3, 3] 0,
                 mk_entry 4 hostA [1, 1, 1, 1] 1]] }

/-! ## Further definitions used to state the properties -/

/-- A name written as a pointer to offset 2, which lies after the pointer, where the
name `a` is found. -/
def forwardPtrBuf : List UInt8 := [0xc0, 2, 1, 97, 0]

/-- The name `a` at offset 0 and, at offset 3, a pointer to offset 5, where the byte
`0x40` has the top two bits `01`; at offset 6 the byte `0x80` has the top two bits `10`. -/
def badBitsBuf : List UInt8 := [1, 97, 0, 0xc0, 5, 0x40, 0x80, 0]

/-- A CNAME record: owner name `a`, class IN, RDLENGTH 1, followed by the name `b`, which
takes three bytes. -/
def cnameLongBuf : List UInt8 :=
  [1, 97, 0, 0, 5, 0, 1, 0, 0, 0, 0, 0, 1, 1, 98, 0]

/-- An MX record: owner name `a`, class IN, RDLENGTH 5, preference `01 02` and the
exchange `b`. -/
def mxRecordBuf : List UInt8 :=
  [1, 97, 0, 0, 15, 0, 1, 0, 0, 0, 0, 0, 5, 1, 2, 1, 98, 0]

/-- The record of `mxRecordBuf` with an exchange whose label runs past the end. -/
def mxBadBuf : List UInt8 :=
  [1, 97, 0, 0, 15, 0, 1, 0, 0, 0, 0, 0, 5, 1, 2, 9, 98, 0]

/-- What the loop body of `process_resource_records` does with each of the first `n` wire
records from `pos` on, in wire order: `some` of the record it stores, `none` for a record it
passes over. -/
def wire_records (buf : List UInt8) : Nat → Nat → Res (List (Option rr_t))
  | 0, _ => .ok []
  | n + 1, pos =>
    match process_resource_record buf pos with
    | .ok (p, o) => wire_records buf n p >>= fun l => .ok (o :: l)
    | .null => .null
    | .oob off => .oob off
    | .diverge => .diverge

/-- A response with NSCOUNT 5 that ends after the header. -/
def nsBuf : List UInt8 := [0, 0, 0x80, 0, 0, 0, 0, 0, 0, 5, 0, 0]

/-- A response with id 7, no question, one answer (the A record of `a` with address
1.1.1.1) and ARCOUNT 1, that ends after the answer. -/
def oneAnswerBuf : List UInt8 :=
  [0, 7, 0x80, 0, 0, 0, 0, 1, 0, 0, 0, 1,
   1, 97, 0, 0, 1, 0, 1, 0, 0, 0, 0, 0, 4, 1, 1, 1, 1]

/-- A response with no question and two answers: a TXT record of `a` with three bytes of
RDATA, then the A record of `a` (a pointer to offset 12) with address 1.1.1.1. -/
def txtThenABuf : List UInt8 :=
  [0, 0, 0x80, 0, 0, 0, 0, 2, 0, 0, 0, 0,
   1, 97, 0, 0, 16, 0, 1, 0, 0, 0, 0, 0, 3, 0xff, 0xff, 0xff,
   0xc0, 12, 0, 1, 0, 1, 0, 0, 0, 0, 0, 4, 1, 1, 1, 1]

/-- The cache `abcCache` without the entries of "c" and "b", which expire before 125. -/
def aCache : dnscache_t :=
  { buckets := [[mk_entry 4 hostA [1, 1, 1, 1] 130]] }

/-! ## Lemmas -/

@[simp] theorem Res.ok_bind {α β : Type} (a : α) (f : α → Res β) : (Res.ok a >>= f) = f a := rfl

@[simp] theorem Res.null_bind {α β : Type} (f : α → Res β) : ((Res.null : Res α) >>= f) = Res.null := rfl

@[simp] theorem Res.oob_bind {α β : Type} (o : Nat) (f : α → Res β) : ((Res.oob o : Res α) >>= f) = Res.oob o := rfl

@[simp] theorem Res.diverge_bind {α β : Type} (f : α → Res β) : ((Res.diverge : Res α) >>= f) = Res.diverge := rfl

@[simp] theorem Res.pure_eq {α : Type} (a : α) : (pure a : Res α) = Res.ok a := rfl

theorem rd_of_lt {buf : List UInt8} {i : Nat} (h : i < buf.length) : rd buf i = .ok (byteAt buf i) := by
  simp [rd, byteAt, List.getD, List.getElem?_eq_getElem h]

theorem rd_of_ge {buf : List UInt8} {i : Nat} (h : buf.length ≤ i) : rd buf i = .oob i := by
  simp [rd, List.getElem?_eq_none h]

theorem rd16_of_lt {buf : List UInt8} {i : Nat} (h : i + 1 < buf.length) :
    rd16 buf i = .ok ((byteAt buf i <<< 8) ||| byteAt buf (i + 1)) := by
  simp [rd16, rd_of_lt h, rd_of_lt (show i < buf.length by omega)]

@[simp] theorem section_count_zero (c : Option Nat) : section_count 0 c = 0 := by
  cases c <;> simp [section_count]

theorem header_only (i0 i1 f0 f1 a0 a1 : UInt8) (q a n : Option Nat) :
    dns_process_response [i0, i1, f0, f1, 0, 0, 0, 0, 0, 0, a0, a1] q a n =
      if f0.toNat &&& 0x80 ≠ 0 ∧ f0.toNat &&& 0x02 = 0 ∧ f1.toNat &&& 0x0f = 0 then
        .ok { id := (i0.toNat <<< 8) ||| i1.toNat, questions := [], answers := [], authorities := [] }
      else .null := by
  simp [dns_process_response, rd16, rd, MAX_DNS_MESSAGE_SIZE, process_questions, skip_questions,
    process_resource_records, skip_resource_records]
  split_ifs <;> simp_all

theorem memrd_of_le {buf : List UInt8} {off n : Nat} (h : off + n ≤ buf.length) :
    memrd buf off n = .ok ((buf.drop off).take n) := by
  unfold memrd
  split
  · next h0 => subst h0; simp
  · rfl

theorem step_again {maxp : Nat} {buf : List UInt8} {s s1 : NameState}
    (h : parse_domain_name_step maxp buf s = .ok (.again s1)) :
    s.pos < buf.length ∧ s1.pos < buf.length ∧
    ((s1.npointers = s.npointers ∧ s.pos < s1.pos) ∨
     (s1.npointers = s.npointers + 1 ∧ s1.npointers ≤ maxp)) := by
  unfold parse_domain_name_step at h
  by_cases hp : s.pos < buf.length
  · rw [rd_of_lt hp] at h
    simp only [Res.ok_bind] at h
    split at h
    · simp at h
    · split at h
      · split at h
        · next hl =>
          rw [memrd_of_le (by omega)] at h
          simp only [Res.ok_bind, Res.pure_eq, Res.ok.injEq, Ctl.again.injEq] at h
          subst h
          simp
          omega
        · simp at h
      · split at h
        · split at h
          · split at h
            · rw [rd_of_lt (by omega)] at h
              simp only [Res.ok_bind] at h
              split at h
              · simp at h
              · simp only [Res.pure_eq, Res.ok.injEq, Ctl.again.injEq] at h
                subst h
                simp
                omega
            · simp at h
          · simp at h
        · simp at h
  · rw [rd_of_ge (by omega)] at h
    simp at h

theorem step_ne_diverge (maxp : Nat) (buf : List UInt8) (s : NameState) :
    parse_domain_name_step maxp buf s ≠ .diverge := by
  unfold parse_domain_name_step
  by_cases hp : s.pos < buf.length
  · rw [rd_of_lt hp]
    simp only [Res.ok_bind]
    split
    · simp
    · split
      · split
        · rw [memrd_of_le (by omega)]; simp
        · simp
      · split
        · split
          · split
            · rw [rd_of_lt (by omega)]
              simp only [Res.ok_bind]
              split <;> simp
            · simp
          · simp
        · simp
  · rw [rd_of_ge (by omega)]
    simp

theorem measure_step {maxp : Nat} {buf : List UInt8} {s s1 : NameState}
    (hn : s.npointers ≤ maxp)
    (h : parse_domain_name_step maxp buf s = .ok (.again s1)) :
    s1.npointers ≤ maxp ∧ nameMeasure maxp buf.length s1 < nameMeasure maxp buf.length s := by
  obtain ⟨h0, h1, h2 | h2⟩ := step_again h
  · refine ⟨by omega, ?_⟩
    unfold nameMeasure
    rw [h2.1]
    omega
  · refine ⟨h2.2, ?_⟩
    unfold nameMeasure
    obtain ⟨k, hk⟩ : ∃ k, maxp - s.npointers = k + 1 := ⟨maxp - s.npointers - 1, by omega⟩
    have hk1 : maxp - s1.npointers = k := by omega
    rw [hk, hk1, Nat.succ_mul]
    omega

theorem loop_terminates (maxp : Nat) (buf : List UInt8) :
    ∀ (fuel : Nat) (s : NameState), s.npointers ≤ maxp →
      nameMeasure maxp buf.length s < fuel →
      parse_domain_name_loop maxp buf fuel s ≠ .diverge := by
  intro fuel
  induction fuel with
  | zero => intro s _ h; omega
  | succ f ih =>
    intro s hn hm
    unfold parse_domain_name_loop
    split
    · next s1 hs =>
      obtain ⟨h1, h2⟩ := measure_step hn hs
      exact ih s1 h1 (by omega)
    · simp
    · simp
    · simp
    · next hs => exact absurd hs (step_ne_diverge _ _ _)

theorem loop_fuel_mono (maxp : Nat) (buf : List UInt8) :
    ∀ (fuel : Nat) (s : NameState), parse_domain_name_loop maxp buf fuel s ≠ .diverge →
      ∀ k, parse_domain_name_loop maxp buf (fuel + k) s = parse_domain_name_loop maxp buf fuel s := by
  intro fuel
  induction fuel with
  | zero => intro s h; simp [parse_domain_name_loop] at h
  | succ f ih =>
    intro s h k
    rw [show f + 1 + k = (f + k) + 1 by omega]
    unfold parse_domain_name_loop at h ⊢
    split <;> simp_all

theorem loop_fuel_irrelevant {maxp : Nat} {buf : List UInt8} {f1 f2 : Nat} {s : NameState}
    (h1 : parse_domain_name_loop maxp buf f1 s ≠ .diverge)
    (h2 : parse_domain_name_loop maxp buf f2 s ≠ .diverge) :
    parse_domain_name_loop maxp buf f1 s = parse_domain_name_loop maxp buf f2 s := by
  rw [← loop_fuel_mono maxp buf f1 s h1 f2, ← loop_fuel_mono maxp buf f2 s h2 f1, Nat.add_comm]

theorem initial_measure (maxp : Nat) (buf : List UInt8) (pos : Nat) :
    nameMeasure maxp buf.length ⟨pos, [], 0, 0⟩ < nameFuel maxp buf.length := by
  unfold nameMeasure nameFuel
  simp only [Nat.sub_zero, Nat.succ_mul]
  omega

theorem parse_state_ne_diverge (maxp : Nat) (buf : List UInt8) (pos : Nat) :
    parse_domain_name_state maxp buf pos ≠ .diverge := by
  unfold parse_domain_name_state
  split
  · exact loop_terminates maxp buf _ _ (Nat.zero_le _) (initial_measure maxp buf pos)
  · simp

theorem bind_ne_diverge {α β : Type} {x : Res α} {f : α → Res β}
    (hx : x ≠ .diverge) (hf : ∀ a, f a ≠ .diverge) : (x >>= f) ≠ .diverge := by
  cases x with
  | ok a => exact hf a
  | null => simp
  | oob o => simp
  | diverge => exact absurd rfl hx

theorem rd_ne_diverge (buf : List UInt8) (i : Nat) : rd buf i ≠ .diverge := by
  unfold rd; split <;> simp

theorem rd16_ne_diverge (buf : List UInt8) (i : Nat) : rd16 buf i ≠ .diverge := by
  unfold rd16
  exact bind_ne_diverge (rd_ne_diverge _ _) fun _ =>
    bind_ne_diverge (rd_ne_diverge _ _) fun _ => by simp

theorem rd32_ne_diverge (buf : List UInt8) (i : Nat) : rd32 buf i ≠ .diverge := by
  unfold rd32
  exact bind_ne_diverge (rd_ne_diverge _ _) fun _ =>
    bind_ne_diverge (rd_ne_diverge _ _) fun _ =>
    bind_ne_diverge (rd_ne_diverge _ _) fun _ =>
    bind_ne_diverge (rd_ne_diverge _ _) fun _ => by simp

theorem memrd_ne_diverge (buf : List UInt8) (i n : Nat) : memrd buf i n ≠ .diverge := by
  unfold memrd; split_ifs <;> simp

theorem parse_lim_ne_diverge (maxp : Nat) (buf : List UInt8) (pos : Nat) :
    parse_domain_name_lim maxp buf pos ≠ .diverge := by
  unfold parse_domain_name_lim
  refine bind_ne_diverge (parse_state_ne_diverge _ _ _) fun s => ?_
  split <;> simp

theorem parse_ne_diverge (buf : List UInt8) (pos : Nat) :
    parse_domain_name buf pos ≠ .diverge :=
  parse_lim_ne_diverge _ _ _

theorem skip_loop_terminates (buf : List UInt8) :
    ∀ (fuel pos : Nat), buf.length - pos < fuel →
      skip_domain_name_loop buf fuel pos ≠ .diverge := by
  intro fuel
  induction fuel with
  | zero => intro pos h; omega
  | succ f ih =>
    intro pos h
    unfold skip_domain_name_loop
    by_cases hp : pos < buf.length
    · rw [rd_of_lt hp]
      simp only
      split_ifs <;> try simp
      exact ih _ (by omega)
    · rw [rd_of_ge (by omega)]
      simp

theorem skip_ne_diverge (buf : List UInt8) (pos : Nat) :
    skip_domain_name buf pos ≠ .diverge := by
  unfold skip_domain_name
  split
  · exact skip_loop_terminates buf _ _ (by omega)
  · simp

theorem process_question_ne_diverge (buf : List UInt8) (pos : Nat) :
    process_question buf pos ≠ .diverge := by
  unfold process_question
  refine bind_ne_diverge (parse_ne_diverge _ _) fun r => ?_
  simp only
  split
  · exact bind_ne_diverge (rd16_ne_diverge _ _) fun _ =>
      bind_ne_diverge (rd16_ne_diverge _ _) fun _ => by simp
  · simp

theorem process_questions_ne_diverge (buf : List UInt8) :
    ∀ (n pos : Nat) (qs : List dns_question_t), process_questions buf n pos qs ≠ .diverge := by
  intro n
  induction n with
  | zero => intro pos qs; simp [process_questions]
  | succ n ih =>
    intro pos qs
    unfold process_questions
    split
    · exact ih _ _
    · simp
    · simp
    · next h => exact absurd h (process_question_ne_diverge _ _)

theorem skip_questions_ne_diverge (buf : List UInt8) :
    ∀ (n pos : Nat), skip_questions buf n pos ≠ .diverge := by
  intro n
  induction n with
  | zero => intro pos; simp [skip_questions]
  | succ n ih =>
    intro pos
    unfold skip_questions
    split
    · split
      · simp
      · exact ih _
    · simp
    · simp
    · next h => exact absurd h (skip_ne_diverge _ _)

theorem ite_ne_diverge {α : Type} {c : Prop} [Decidable c] {x y : Res α}
    (hx : x ≠ .diverge) (hy : y ≠ .diverge) : (if c then x else y) ≠ .diverge := by
  split <;> assumption

theorem null_ne_diverge {α : Type} : (Res.null : Res α) ≠ .diverge := by simp

theorem process_resource_record_ne_diverge (buf : List UInt8) (pos : Nat) :
    process_resource_record buf pos ≠ .diverge := by
  unfold process_resource_record
  have hst : ∀ (p : Nat) (o : Option rr_t), (pure (p, o) : Res (Nat × Option rr_t)) ≠ .diverge := by
    intro p o; simp
  refine bind_ne_diverge (parse_ne_diverge _ _) fun r => ?_
  refine ite_ne_diverge ?_ null_ne_diverge
  refine bind_ne_diverge (rd16_ne_diverge _ _) fun rdlength => ?_
  refine ite_ne_diverge ?_ null_ne_diverge
  refine bind_ne_diverge (rd16_ne_diverge _ _) fun type => ?_
  refine bind_ne_diverge (rd16_ne_diverge _ _) fun cls => ?_
  refine bind_ne_diverge (rd32_ne_diverge _ _) fun ttl => ?_
  refine ite_ne_diverge ?_ (hst _ _)
  refine ite_ne_diverge (ite_ne_diverge ?_ null_ne_diverge) ?_
  · exact bind_ne_diverge (memrd_ne_diverge _ _ _) fun _ => hst _ _
  refine ite_ne_diverge (ite_ne_diverge ?_ null_ne_diverge) ?_
  · exact bind_ne_diverge (memrd_ne_diverge _ _ _) fun _ => hst _ _
  refine ite_ne_diverge ?_ ?_
  · exact bind_ne_diverge (parse_ne_diverge _ _) fun _ => hst _ _
  refine ite_ne_diverge ?_ ?_
  · exact bind_ne_diverge (parse_ne_diverge _ _) fun _ =>
      bind_ne_diverge (rd16_ne_diverge _ _) fun _ => hst _ _
  refine ite_ne_diverge ?_ (hst _ _)
  refine bind_ne_diverge (parse_ne_diverge _ _) fun _ =>
    bind_ne_diverge (parse_ne_diverge _ _) fun _ => ?_
  refine ite_ne_diverge ?_ null_ne_diverge
  exact bind_ne_diverge (rd32_ne_diverge _ _) fun _ =>
    bind_ne_diverge (rd32_ne_diverge _ _) fun _ =>
    bind_ne_diverge (rd32_ne_diverge _ _) fun _ =>
    bind_ne_diverge (rd32_ne_diverge _ _) fun _ =>
    bind_ne_diverge (rd32_ne_diverge _ _) fun _ => hst _ _

theorem process_resource_records_ne_diverge (buf : List UInt8) :
    ∀ (n pos : Nat) (rrs : List rr_t), process_resource_records buf n pos rrs ≠ .diverge := by
  intro n
  induction n with
  | zero => intro pos rrs; simp [process_resource_records]
  | succ n ih =>
    intro pos rrs
    unfold process_resource_records
    split
    · exact ih _ _
    · exact ih _ _
    · simp
    · simp
    · next h => exact absurd h (process_resource_record_ne_diverge _ _)

theorem skip_resource_records_ne_diverge (buf : List UInt8) :
    ∀ (n pos : Nat), skip_resource_records buf n pos ≠ .diverge := by
  intro n
  induction n with
  | zero => intro pos; simp [skip_resource_records]
  | succ n ih =>
    intro pos
    unfold skip_resource_records
    split
    · split
      · split
        · split
          · exact ih _
          · simp
        · simp
        · simp
        · next h => exact absurd h (rd16_ne_diverge _ _)
      · simp
    · simp
    · simp
    · next h => exact absurd h (skip_ne_diverge _ _)

theorem process_response_ne_diverge (buf : List UInt8) (q a n : Option Nat) :
    dns_process_response buf q a n ≠ .diverge := by
  unfold dns_process_response
  split
  · refine bind_ne_diverge (rd16_ne_diverge _ _) fun id => ?_
    refine bind_ne_diverge (rd_ne_diverge _ _) fun b2 => ?_
    split
    · split
      · refine bind_ne_diverge (rd_ne_diverge _ _) fun b3 => ?_
        split
        · refine bind_ne_diverge (rd16_ne_diverge _ _) fun _ => ?_
          refine bind_ne_diverge (rd16_ne_diverge _ _) fun _ => ?_
          refine bind_ne_diverge (rd16_ne_diverge _ _) fun _ => ?_
          refine bind_ne_diverge (process_questions_ne_diverge _ _ _ _) fun _ => ?_
          refine bind_ne_diverge (skip_questions_ne_diverge _ _ _) fun _ => ?_
          refine bind_ne_diverge (process_resource_records_ne_diverge _ _ _ _) fun _ => ?_
          refine bind_ne_diverge (skip_resource_records_ne_diverge _ _ _) fun _ => ?_
          refine bind_ne_diverge (process_resource_records_ne_diverge _ _ _ _) fun _ => ?_
          simp
        · simp
      · simp
    · simp
  · simp

theorem step_zero {maxp : Nat} {buf : List UInt8} {s : NameState}
    (hp : s.pos < buf.length) (h0 : byteAt buf s.pos = 0) :
    parse_domain_name_step maxp buf s = .ok (.exit s) := by
  unfold parse_domain_name_step
  rw [rd_of_lt hp]
  simp [h0]

theorem step_label {maxp : Nat} {buf : List UInt8} {s : NameState}
    (h0 : byteAt buf s.pos ≠ 0) (hl : byteAt buf s.pos &&& 0xc0 = 0)
    (hb : s.pos + (1 + byteAt buf s.pos) < buf.length)
    (hn : s.name.length + (1 + byteAt buf s.pos) ≤ HOSTNAME_MAX_LEN) :
    parse_domain_name_step maxp buf s =
      .ok (.again { s with
        name := (if s.name.length > 0 then s.name ++ [DOT] else s.name) ++
                  (buf.drop (s.pos + 1)).take (byteAt buf s.pos),
        pos := s.pos + (1 + byteAt buf s.pos) }) := by
  unfold parse_domain_name_step
  rw [rd_of_lt (by omega)]
  simp only [Res.ok_bind, if_neg h0, hl, if_true, if_pos (And.intro hb hn)]
  rw [memrd_of_le (by omega)]
  rfl

theorem step_label_fail {maxp : Nat} {buf : List UInt8} {s : NameState}
    (hp : s.pos < buf.length)
    (h0 : byteAt buf s.pos ≠ 0) (hl : byteAt buf s.pos &&& 0xc0 = 0)
    (hb : ¬ (s.pos + (1 + byteAt buf s.pos) < buf.length ∧
             s.name.length + (1 + byteAt buf s.pos) ≤ HOSTNAME_MAX_LEN)) :
    parse_domain_name_step maxp buf s = .null := by
  unfold parse_domain_name_step
  rw [rd_of_lt hp]
  simp only [Res.ok_bind, if_neg h0, hl, if_true, if_neg hb]

theorem ptr_ne_zero {l : Nat} (h : l &&& 0xc0 = 0xc0) : l ≠ 0 ∧ l &&& 0xc0 ≠ 0 := by
  constructor
  · rintro rfl; simp at h
  · rw [h]; decide

theorem step_ptr {maxp : Nat} {buf : List UInt8} {s : NameState}
    (hp : s.pos + 1 < buf.length) (hl : byteAt buf s.pos &&& 0xc0 = 0xc0) :
    parse_domain_name_step maxp buf s =
      if s.npointers + 1 ≤ maxp then
        if ((byteAt buf s.pos &&& 0x3f) <<< 8) ||| byteAt buf (s.pos + 1) ≥ buf.length then .null
        else .ok (.again { s with
          pos := ((byteAt buf s.pos &&& 0x3f) <<< 8) ||| byteAt buf (s.pos + 1),
          npointers := s.npointers + 1,
          next := if s.npointers + 1 = 1 then s.pos + 2 else s.next })
      else .null := by
  unfold parse_domain_name_step
  rw [rd_of_lt (by omega)]
  simp only [Res.ok_bind]
  rw [if_neg (ptr_ne_zero hl).1, if_neg (ptr_ne_zero hl).2, if_pos hl,
    if_pos (show s.pos + 2 ≤ buf.length by omega), rd_of_lt hp]
  rfl

theorem step_ptr_short {maxp : Nat} {buf : List UInt8} {s : NameState}
    (hp : s.pos < buf.length) (hp1 : ¬ s.pos + 1 < buf.length)
    (hl : byteAt buf s.pos &&& 0xc0 = 0xc0) :
    parse_domain_name_step maxp buf s = .null := by
  unfold parse_domain_name_step
  rw [rd_of_lt hp]
  simp only [Res.ok_bind]
  rw [if_neg (ptr_ne_zero hl).1, if_neg (ptr_ne_zero hl).2, if_pos hl,
    if_neg (show ¬ s.pos + 2 ≤ buf.length by omega)]

theorem step_bad_bits {maxp : Nat} {buf : List UInt8} {s : NameState}
    (hp : s.pos < buf.length) (h0 : byteAt buf s.pos &&& 0xc0 ≠ 0)
    (h1 : byteAt buf s.pos &&& 0xc0 ≠ 0xc0) :
    parse_domain_name_step maxp buf s = .null := by
  unfold parse_domain_name_step
  rw [rd_of_lt hp]
  have hz : byteAt buf s.pos ≠ 0 := by
    intro h; rw [h] at h0; simp at h0
  simp only [Res.ok_bind, if_neg hz, if_neg h0, if_neg h1]

theorem step_oob {maxp : Nat} {buf : List UInt8} {s : NameState}
    (hp : buf.length ≤ s.pos) :
    parse_domain_name_step maxp buf s = .oob s.pos := by
  unfold parse_domain_name_step
  rw [rd_of_ge hp]
  rfl

/-- The loop, unfolded once. -/
theorem loop_succ (maxp : Nat) (buf : List UInt8) (fuel : Nat) (s : NameState) :
    parse_domain_name_loop maxp buf (fuel + 1) s =
      match parse_domain_name_step maxp buf s with
      | .ok (.again s1) => parse_domain_name_loop maxp buf fuel s1
      | .ok (.exit s1) => .ok s1
      | .null => .null
      | .oob o => .oob o
      | .diverge => .diverge := rfl

theorem step_exit_eq {maxp : Nat} {buf : List UInt8} {s s1 : NameState}
    (h : parse_domain_name_step maxp buf s = .ok (.exit s1)) :
    s1 = s ∧ s.pos < buf.length ∧ byteAt buf s.pos = 0 := by
  by_cases hp : s.pos < buf.length
  · by_cases h0 : byteAt buf s.pos = 0
    · rw [step_zero hp h0] at h
      simp at h
      exact ⟨h.symm, hp, h0⟩
    · exfalso
      unfold parse_domain_name_step at h
      rw [rd_of_lt hp] at h
      simp only [Res.ok_bind, if_neg h0] at h
      split at h
      · split at h
        · rw [memrd_of_le (by omega)] at h
          simp at h
        · simp at h
      · split at h
        · split at h
          · split at h
            · rw [rd_of_lt (by omega)] at h
              simp only [Res.ok_bind] at h
              split at h <;> simp at h
            · simp at h
          · simp at h
        · simp at h
  · rw [step_oob (by omega)] at h
    simp at h

theorem loop_npointers_mono (maxp : Nat) (buf : List UInt8) :
    ∀ (fuel : Nat) (s st : NameState), parse_domain_name_loop maxp buf fuel s = .ok st →
      s.npointers ≤ st.npointers := by
  intro fuel
  induction fuel with
  | zero => intro s st h; simp [parse_domain_name_loop] at h
  | succ f ih =>
    intro s st h
    rw [loop_succ] at h
    split at h
    · next s1 hs =>
      have := ih s1 st h
      obtain ⟨_, _, h2 | h2⟩ := step_again hs <;> omega
    · next s1 hs =>
      obtain ⟨h1, _⟩ := step_exit_eq hs
      simp at h
      subst h; subst h1; exact Nat.le_refl _
    · simp at h
    · simp at h
    · simp at h

/-- The five things one iteration can do. -/
theorem step_cases (maxp : Nat) (buf : List UInt8) (s : NameState) :
    (buf.length ≤ s.pos ∧ parse_domain_name_step maxp buf s = .oob s.pos) ∨
    (s.pos < buf.length ∧ byteAt buf s.pos = 0 ∧
      parse_domain_name_step maxp buf s = .ok (.exit s)) ∨
    (byteAt buf s.pos ≠ 0 ∧ byteAt buf s.pos &&& 0xc0 = 0 ∧
      s.pos + (1 + byteAt buf s.pos) < buf.length ∧
      s.name.length + (1 + byteAt buf s.pos) ≤ HOSTNAME_MAX_LEN ∧
      parse_domain_name_step maxp buf s =
        .ok (.again { s with
          name := (if s.name.length > 0 then s.name ++ [DOT] else s.name) ++
                    (buf.drop (s.pos + 1)).take (byteAt buf s.pos),
          pos := s.pos + (1 + byteAt buf s.pos) })) ∨
    (s.pos + 1 < buf.length ∧ byteAt buf s.pos &&& 0xc0 = 0xc0 ∧ s.npointers + 1 ≤ maxp ∧
      ptrOf buf s < buf.length ∧
      parse_domain_name_step maxp buf s =
        .ok (.again { s with
          pos := ptrOf buf s, npointers := s.npointers + 1,
          next := if s.npointers + 1 = 1 then s.pos + 2 else s.next })) ∨
    (s.pos < buf.length ∧ parse_domain_name_step maxp buf s = .null) := by
  by_cases hp : s.pos < buf.length
  · by_cases h0 : byteAt buf s.pos = 0
    · exact Or.inr (Or.inl ⟨hp, h0, step_zero hp h0⟩)
    · by_cases hl : byteAt buf s.pos &&& 0xc0 = 0
      · by_cases hb : s.pos + (1 + byteAt buf s.pos) < buf.length ∧
            s.name.length + (1 + byteAt buf s.pos) ≤ HOSTNAME_MAX_LEN
        · exact Or.inr (Or.inr (Or.inl ⟨h0, hl, hb.1, hb.2, step_label h0 hl hb.1 hb.2⟩))
        · exact Or.inr (Or.inr (Or.inr (Or.inr ⟨hp, step_label_fail hp h0 hl hb⟩)))
      · by_cases hc : byteAt buf s.pos &&& 0xc0 = 0xc0
        · by_cases hp1 : s.pos + 1 < buf.length
          · have hs := @step_ptr maxp buf s hp1 hc
            by_cases hn : s.npointers + 1 ≤ maxp
            · by_cases ht : ptrOf buf s < buf.length
              · refine Or.inr (Or.inr (Or.inr (Or.inl ⟨hp1, hc, hn, ht, ?_⟩)))
                rw [hs, if_pos hn, if_neg (by unfold ptrOf at ht; omega)]
                rfl
              · refine Or.inr (Or.inr (Or.inr (Or.inr ⟨hp, ?_⟩)))
                rw [hs, if_pos hn, if_pos (by unfold ptrOf at ht; omega)]
            · refine Or.inr (Or.inr (Or.inr (Or.inr ⟨hp, ?_⟩)))
              rw [hs, if_neg hn]
          · exact Or.inr (Or.inr (Or.inr (Or.inr ⟨hp, step_ptr_short hp hp1 hc⟩)))
        · exact Or.inr (Or.inr (Or.inr (Or.inr ⟨hp, step_bad_bits hp hl hc⟩)))
  · exact Or.inl ⟨by omega, step_oob (by omega)⟩

theorem and_c0_ne {l : Nat} (h : l &&& 0xc0 = 0) : ¬ l &&& 0xc0 = 0xc0 := by
  rw [h]; decide

/-- Names that decode within `m` pointers decode alike under every limit. -/
theorem loop_lim_le (M m : Nat) (buf : List UInt8) :
    ∀ (fuel : Nat) (s st : NameState), parse_domain_name_loop M buf fuel s = .ok st →
      st.npointers ≤ m → parse_domain_name_loop m buf fuel s = .ok st := by
  intro fuel
  induction fuel with
  | zero => intro s st h; simp [parse_domain_name_loop] at h
  | succ f ih =>
    intro s st h hm
    rw [loop_succ] at h ⊢
    rcases step_cases M buf s with ⟨_, hs⟩ | ⟨hp, h0, hs⟩ | ⟨h0, hl, hb, hn, hs⟩ |
      ⟨hp, hc, hn, ht, hs⟩ | ⟨_, hs⟩
    · rw [hs] at h; simp at h
    · rw [hs] at h; rw [step_zero hp h0]; exact h
    · rw [hs] at h; rw [step_label h0 hl hb hn]
      exact ih _ _ h hm
    · rw [hs] at h
      simp only at h
      have hmono := loop_npointers_mono M buf f _ st h
      simp only at hmono
      rw [step_ptr hp hc, if_pos (by omega), if_neg (by unfold ptrOf at ht; omega)]
      exact ih _ _ h hm
    · rw [hs] at h; simp at h

/-- Names that need more than `m` pointers are refused under limit `m`. -/
theorem loop_lim_gt (M m : Nat) (buf : List UInt8) :
    ∀ (fuel : Nat) (s st : NameState), parse_domain_name_loop M buf fuel s = .ok st →
      s.npointers ≤ m → m < st.npointers → parse_domain_name_loop m buf fuel s = .null := by
  intro fuel
  induction fuel with
  | zero => intro s st h; simp [parse_domain_name_loop] at h
  | succ f ih =>
    intro s st h hsm hm
    rw [loop_succ] at h ⊢
    rcases step_cases M buf s with ⟨_, hs⟩ | ⟨hp, h0, hs⟩ | ⟨h0, hl, hb, hn, hs⟩ |
      ⟨hp, hc, hn, ht, hs⟩ | ⟨_, hs⟩
    · rw [hs] at h; simp at h
    · rw [hs] at h
      simp only [Res.ok.injEq] at h
      subst h
      omega
    · rw [hs] at h; rw [step_label h0 hl hb hn]
      exact ih _ _ h hsm hm
    · rw [hs] at h
      simp only at h
      rw [step_ptr hp hc]
      by_cases hnm : s.npointers + 1 ≤ m
      · rw [if_pos hnm, if_neg (by unfold ptrOf at ht; omega)]
        exact ih _ _ h hnm hm
      · rw [if_neg hnm]
    · rw [hs] at h; simp at h

/-- A walk over plain labels does not depend on `npointers` and `next`. -/
theorem loop_shift (maxp : Nat) (buf : List UInt8) (np nx : Nat) :
    ∀ (fuel : Nat) (s st : NameState), parse_domain_name_loop maxp buf fuel s = .ok st →
      st.npointers = s.npointers →
      parse_domain_name_loop maxp buf fuel { s with npointers := np, next := nx } =
        .ok { st with npointers := np, next := nx } := by
  intro fuel
  induction fuel with
  | zero => intro s st h; simp [parse_domain_name_loop] at h
  | succ f ih =>
    intro s st h hnp
    rw [loop_succ] at h ⊢
    rcases step_cases maxp buf s with ⟨_, hs⟩ | ⟨hp, h0, hs⟩ | ⟨h0, hl, hb, hn, hs⟩ |
      ⟨hp, hc, hn, ht, hs⟩ | ⟨_, hs⟩
    · rw [hs] at h; simp at h
    · rw [hs] at h
      simp only [Res.ok.injEq] at h
      subst h
      rw [step_zero (s := { s with npointers := np, next := nx }) hp h0]
    · rw [hs] at h
      rw [step_label (s := { s with npointers := np, next := nx }) h0 hl hb hn]
      exact ih _ _ h hnp
    · rw [hs] at h
      simp only at h
      have hmono := loop_npointers_mono maxp buf f _ st h
      simp only at hmono
      omega
    · rw [hs] at h; simp at h

theorem ptr_target_some {buf : List UInt8} {p t : Nat} (h : ptr_target buf p = some t) :
    p + 1 < buf.length ∧ byteAt buf p &&& 0xc0 = 0xc0 ∧
      t = ((byteAt buf p &&& 0x3f) <<< 8) ||| byteAt buf (p + 1) := by
  unfold ptr_target at h
  split at h
  · next hc => simp at h; exact ⟨hc.1, hc.2, h.symm⟩
  · simp at h

/-- A chain of pointers longer than the pointers still allowed ends in `NULL`. -/
theorem chain_null (maxp : Nat) (buf : List UInt8) :
    ∀ (k : Nat) (s : NameState) (fuel : Nat), s.npointers + k = maxp →
      (follow buf (k + 1) s.pos).isSome → k < fuel →
      parse_domain_name_loop maxp buf fuel s = .null := by
  intro k
  induction k with
  | zero =>
    intro s fuel hk hf hfuel
    obtain ⟨f, rfl⟩ : ∃ f, fuel = f + 1 := ⟨fuel - 1, by omega⟩
    simp only [follow] at hf
    cases ht : ptr_target buf s.pos with
    | none => rw [ht] at hf; simp at hf
    | some t =>
      obtain ⟨hp, hc, _⟩ := ptr_target_some ht
      rw [loop_succ, step_ptr hp hc, if_neg (by omega)]
  | succ k ih =>
    intro s fuel hk hf hfuel
    obtain ⟨f, rfl⟩ : ∃ f, fuel = f + 1 := ⟨fuel - 1, by omega⟩
    rw [follow] at hf
    cases ht : ptr_target buf s.pos with
    | none => rw [ht] at hf; simp at hf
    | some t =>
      rw [ht] at hf
      simp only [Option.some_bind] at hf
      obtain ⟨hp, hc, htv⟩ := ptr_target_some ht
      rw [loop_succ, step_ptr hp hc, if_pos (by omega), ← htv]
      by_cases hlen : t ≥ buf.length
      · rw [if_pos hlen]
      · rw [if_neg hlen]
        exact ih _ f (by simp only; omega) hf (by omega)

theorem follow_add (buf : List UInt8) :
    ∀ (a b p : Nat), follow buf (a + b) p = (follow buf a p).bind (follow buf b) := by
  intro a
  induction a with
  | zero => intro b p; simp [follow]
  | succ a ih =>
    intro b p
    rw [show a + 1 + b = (a + b) + 1 by omega, follow, follow]
    cases ptr_target buf p with
    | none => rfl
    | some t => simp [ih]

theorem follow_cycle {buf : List UInt8} {n p : Nat} (h : follow buf n p = some p) :
    ∀ j, follow buf (n * j) p = some p := by
  intro j
  induction j with
  | zero => rfl
  | succ j ih => rw [Nat.mul_succ, follow_add, ih]; exact h

theorem follow_cycle_all {buf : List UInt8} {n p : Nat} (hn : 0 < n)
    (h : follow buf n p = some p) (k : Nat) : (follow buf k p).isSome := by
  have h1 := follow_cycle h k
  have hle : k ≤ n * k := Nat.le_mul_of_pos_left k hn
  rw [show n * k = k + (n * k - k) by omega, follow_add] at h1
  cases hk : follow buf k p with
  | none => rw [hk] at h1; simp at h1
  | some _ => rfl

theorem loop_npointers_le (maxp : Nat) (buf : List UInt8) :
    ∀ (fuel : Nat) (s st : NameState), parse_domain_name_loop maxp buf fuel s = .ok st →
      s.npointers ≤ maxp → st.npointers ≤ maxp := by
  intro fuel
  induction fuel with
  | zero => intro s st h; simp [parse_domain_name_loop] at h
  | succ f ih =>
    intro s st h hs
    rw [loop_succ] at h
    split at h
    · next s1 h1 => exact ih s1 st h (measure_step hs h1).1
    · next s1 h1 =>
      obtain ⟨e, _⟩ := step_exit_eq h1
      simp only [Res.ok.injEq] at h
      subst h; subst e; exact hs
    · simp at h
    · simp at h
    · simp at h

theorem state_eq_loop {maxp : Nat} {buf : List UInt8} {pos : Nat} {st : NameState}
    (h : parse_domain_name_state maxp buf pos = .ok st) :
    pos ≠ buf.length ∧
      parse_domain_name_loop maxp buf (nameFuel maxp buf.length) ⟨pos, [], 0, 0⟩ = .ok st := by
  unfold parse_domain_name_state at h
  split at h
  · next hp => exact ⟨hp, h⟩
  · simp at h

theorem state_of_loop {maxp : Nat} {buf : List UInt8} {pos fuel : Nat} {r : Res NameState}
    (hp : pos ≠ buf.length)
    (h : parse_domain_name_loop maxp buf fuel ⟨pos, [], 0, 0⟩ = r) (hr : r ≠ .diverge) :
    parse_domain_name_state maxp buf pos = r := by
  unfold parse_domain_name_state
  rw [if_pos hp, ← h]
  exact loop_fuel_irrelevant
    (loop_terminates maxp buf _ _ (Nat.zero_le _) (initial_measure maxp buf pos)) (h ▸ hr)

theorem lim_of_state {maxp : Nat} {buf : List UInt8} {pos : Nat} {st : NameState}
    (h : parse_domain_name_state maxp buf pos = .ok st) :
    parse_domain_name_lim maxp buf pos =
      if st.name.length > 0 then
        .ok { next := if st.npointers = 0 then st.pos + 1 else st.next,
              name := st.name, namelen := st.name.length }
      else .null := by
  unfold parse_domain_name_lim
  rw [h]
  rfl

theorem labelsFrom_eq (rest : List UInt8) :
    ∀ label : List UInt8, labelsFrom label rest =
      (rest.splitOn DOT).modifyHead (fun l => label ++ l) := by
  induction rest with
  | nil => intro label; simp [labelsFrom, List.splitOn, List.splitOnP_nil]
  | cons c rest ih =>
    intro label
    unfold labelsFrom
    unfold List.splitOn at ih ⊢
    rw [List.splitOnP_cons]
    by_cases hc : c = DOT
    · simp only [hc, if_true, beq_self_eq_true, List.modifyHead_cons, List.append_nil]
      rw [ih []]
      congr 1
      cases List.splitOnP (fun x => x == DOT) rest <;> simp
    · have hb : (c == DOT) = false := by simpa using hc
      simp only [if_neg hc, hb, Bool.false_eq_true, if_false]
      rw [ih]
      cases List.splitOnP (fun x => x == DOT) rest <;> simp

theorem labelsFrom_nil (name : List UInt8) : labelsFrom [] name = name.splitOn DOT := by
  rw [labelsFrom_eq]
  cases List.splitOn DOT name <;> simp

theorem encodeLabels_length (rest : List UInt8) :
    ∀ label : List UInt8,
      (encodeLabels (labelsFrom label rest)).length = label.length + rest.length + 1 := by
  induction rest with
  | nil => intro label; simp [labelsFrom, encodeLabels]
  | cons c rest ih =>
    intro label
    unfold labelsFrom
    split
    · simp only [encodeLabels, List.length_cons, List.length_append, ih, List.length_nil]
      omega
    · rw [ih]
      simp only [List.length_append, List.length_cons, List.length_nil]
      omega

theorem build_loop_valid (rest : List UInt8) :
    ∀ (label b : List UInt8), (∀ l ∈ labelsFrom label rest, validLabel l) →
      ∃ last b1, build_cname_loop rest label b = (some last, b1) ∧ validLabel last ∧
        b1 ++ UInt8.ofNat last.length :: last = b ++ encodeLabels (labelsFrom label rest) := by
  induction rest with
  | nil =>
    intro label b h
    exact ⟨label, b, rfl, h label (by simp [labelsFrom]), by simp [labelsFrom, encodeLabels]⟩
  | cons c rest ih =>
    intro label b h
    unfold labelsFrom at h ⊢
    unfold build_cname_loop
    by_cases hc : c = DOT
    · rw [if_pos hc] at h ⊢
      rw [if_pos hc]
      have hl : validLabel label := h label (by simp)
      rw [if_pos (show 0 < label.length ∧ label.length ≤ DNS_LABEL_MAX_LEN from hl)]
      obtain ⟨last, b1, h1, h2, h3⟩ := ih [] (b ++ UInt8.ofNat label.length :: label)
        (fun l hl => h l (by simp [hl]))
      exact ⟨last, b1, h1, h2, by rw [h3]; simp [encodeLabels]⟩
    · rw [if_neg hc] at h ⊢
      rw [if_neg hc]
      exact ih _ b h

theorem build_loop_invalid (rest : List UInt8) :
    ∀ (label b last b1 : List UInt8), build_cname_loop rest label b = (some last, b1) →
      validLabel last → ∀ l ∈ labelsFrom label rest, validLabel l := by
  induction rest with
  | nil =>
    intro label b last b1 h hv l hl
    simp only [build_cname_loop, Prod.mk.injEq, Option.some.injEq] at h
    simp only [labelsFrom, List.mem_singleton] at hl
    rw [hl, h.1]; exact hv
  | cons c rest ih =>
    intro label b last b1 h hv
    unfold labelsFrom
    unfold build_cname_loop at h
    by_cases hc : c = DOT
    · rw [if_pos hc] at h ⊢
      by_cases hl : 0 < label.length ∧ label.length ≤ DNS_LABEL_MAX_LEN
      · rw [if_pos hl] at h
        intro l hmem
        rcases List.mem_cons.1 hmem with rfl | hmem
        · exact hl
        · exact ih _ _ _ _ h hv l hmem
      · rw [if_neg hl] at h
        simp at h
    · rw [if_neg hc] at h ⊢
      exact ih _ _ _ _ h hv

theorem build_cname_valid {name : List UInt8} (h : ∀ l ∈ name.splitOn DOT, validLabel l) :
    build_cname name =
      (((encodeLabels (name.splitOn DOT) ++ [0]).length : Int),
        encodeLabels (name.splitOn DOT) ++ [0]) := by
  rw [← labelsFrom_nil] at h ⊢
  obtain ⟨last, b1, h1, h2, h3⟩ := build_loop_valid name [] [] h
  unfold build_cname
  rw [h1]
  simp only
  rw [if_pos (show 0 < last.length ∧ last.length ≤ DNS_LABEL_MAX_LEN from h2)]
  simp only [List.nil_append] at h3
  rw [← h3]

theorem build_cname_invalid {name : List UInt8} (h : ¬ ∀ l ∈ name.splitOn DOT, validLabel l) :
    (build_cname name).1 = -1 := by
  rw [← labelsFrom_nil] at h
  unfold build_cname
  split
  · next label b heq =>
    split
    · next hv => exact absurd (build_loop_invalid name [] [] label b heq hv) h
    · rfl
  · rfl

theorem shr8_and (x : Nat) : (x >>> 8) &&& 0xff = x / 256 % 256 := by
  rw [Nat.shiftRight_eq_div_pow]
  exact Nat.and_pow_two_sub_one_eq_mod _ 8

theorem and_ff (x : Nat) : x &&& 0xff = x % 256 :=
  Nat.and_pow_two_sub_one_eq_mod _ 8

theorem build_request_valid (id qtype qclass : Nat) (name : List UInt8) (len : Nat)
    (hlen : name.length ≤ HOSTNAME_MAX_LEN) (h : ∀ l ∈ name.splitOn DOT, validLabel l) :
    dns_build_request id qtype qclass name len =
      { ret := 0,
        buf := requestHeader id ++ (encodeLabels (name.splitOn DOT) ++ [0]) ++
                 (be16 (qtype % 65536) ++ be16 (qclass % 65536)),
        len := name.length + 18 } := by
  unfold dns_build_request
  rw [if_pos hlen, build_cname_valid h]
  simp only
  rw [if_pos (by omega)]
  have hl : (encodeLabels (name.splitOn DOT)).length = name.length + 1 := by
    rw [← labelsFrom_nil, encodeLabels_length]; simp
  simp only [shr8_and, and_ff, requestHeader, be16, List.length_append, hl, List.length_cons,
    List.length_nil, Int.toNat_ofNat, build_result_t.mk.injEq, true_and]
  constructor
  · simp [Nat.shiftRight_eq_div_pow]
  · omega

theorem build_request_invalid (id qtype qclass : Nat) (name : List UInt8) (len : Nat)
    (h : HOSTNAME_MAX_LEN < name.length ∨ ¬ ∀ l ∈ name.splitOn DOT, validLabel l) :
    (dns_build_request id qtype qclass name len).ret = -1 ∧
      (dns_build_request id qtype qclass name len).len = len := by
  unfold dns_build_request
  by_cases hlen : name.length ≤ HOSTNAME_MAX_LEN
  · rw [if_pos hlen]
    have hv : ¬ ∀ l ∈ name.splitOn DOT, validLabel l := by
      rcases h with h | h
      · omega
      · exact h
    simp only [build_cname_invalid hv, ne_eq, not_true_eq_false, if_false, and_self]
  · rw [if_neg hlen]
    exact ⟨rfl, rfl⟩

theorem byteAt_append_cons (pre : List UInt8) (x : UInt8) (rest : List UInt8) :
    byteAt (pre ++ x :: rest) pre.length = x.toNat := by
  unfold byteAt
  rw [List.getD_eq_getElem?_getD, List.getElem?_append_right (Nat.le_refl _), Nat.sub_self]
  simp

theorem byteAt_append_right (pre rest : List UInt8) (i : Nat) :
    byteAt (pre ++ rest) (pre.length + i) = byteAt rest i := by
  simp [byteAt, List.getD_eq_getElem?_getD, List.getElem?_append_right]

theorem label_bits {n : Nat} (h : n ≤ 63) : n &&& 0xc0 = 0 := by
  interval_cases n <;> rfl

theorem ofNat_toNat_of_le {n : Nat} (h : n ≤ 63) : (UInt8.ofNat n).toNat = n := by
  show n % 256 = n
  omega

theorem joinLabels_length_le (ls : List (List UInt8)) :
    ∀ acc : List UInt8, acc.length ≤ (joinLabels acc ls).length := by
  induction ls with
  | nil => intro acc; exact Nat.le_refl _
  | cons l ls ih =>
    intro acc
    refine Nat.le_trans ?_ (ih (appendLabel acc l))
    unfold appendLabel
    split <;> simp

theorem walk_labels (maxp : Nat) (post : List UInt8) (np nx : Nat) :
    ∀ (ls : List (List UInt8)) (pre acc : List UInt8) (fuel : Nat),
      (∀ l ∈ ls, validLabel l) → (joinLabels acc ls).length ≤ HOSTNAME_MAX_LEN →
      ls.length < fuel →
      parse_domain_name_loop maxp (pre ++ encodeLabels ls ++ 0 :: post) fuel
          ⟨pre.length, acc, np, nx⟩ =
        .ok ⟨pre.length + (encodeLabels ls).length, joinLabels acc ls, np, nx⟩ := by
  intro ls
  induction ls with
  | nil =>
    intro pre acc fuel _ _ hf
    obtain ⟨f, rfl⟩ : ∃ f, fuel = f + 1 := ⟨fuel - 1, by simp at hf; omega⟩
    rw [loop_succ, step_zero (by simp [encodeLabels]) (by simp [encodeLabels, byteAt_append_cons])]
    simp [encodeLabels, joinLabels]
  | cons l ls ih =>
    intro pre acc fuel hv hlen hf
    obtain ⟨f, rfl⟩ : ∃ f, fuel = f + 1 := ⟨fuel - 1, by simp at hf; omega⟩
    have hl : validLabel l := hv l (by simp)
    have hl63 : l.length ≤ 63 := hl.2
    have hbuf : pre ++ encodeLabels (l :: ls) ++ 0 :: post =
        pre ++ UInt8.ofNat l.length :: (l ++ (encodeLabels ls ++ 0 :: post)) := by
      simp [encodeLabels]
    have hb : byteAt (pre ++ encodeLabels (l :: ls) ++ 0 :: post) pre.length = l.length := by
      rw [hbuf, byteAt_append_cons, ofNat_toNat_of_le hl63]
    have hacc : (appendLabel acc l).length ≤ HOSTNAME_MAX_LEN :=
      Nat.le_trans (joinLabels_length_le ls _) hlen
    rw [loop_succ, step_label (by simp only; rw [hb]; exact Nat.pos_iff_ne_zero.1 hl.1)
      (by simp only; rw [hb]; exact label_bits hl63)
      (by simp only; rw [hb]; simp [encodeLabels]; omega)
      (by
        simp only; rw [hb]
        unfold appendLabel at hacc
        split at hacc
        · simp at hacc; omega
        · unfold HOSTNAME_MAX_LEN; omega)]
    simp only [hb]
    have hdrop : List.take l.length
        (List.drop (pre.length + 1) (pre ++ encodeLabels (l :: ls) ++ 0 :: post)) = l := by
      rw [hbuf, show pre ++ UInt8.ofNat l.length :: (l ++ (encodeLabels ls ++ 0 :: post)) =
        (pre ++ [UInt8.ofNat l.length]) ++ (l ++ (encodeLabels ls ++ 0 :: post)) by simp]
      rw [List.drop_append_of_le_length (by simp), List.drop_of_length_le (by simp)]
      simp
    rw [hdrop]
    have hpre : pre ++ encodeLabels (l :: ls) ++ 0 :: post =
        (pre ++ UInt8.ofNat l.length :: l) ++ encodeLabels ls ++ 0 :: post := by
      simp [encodeLabels]
    have := ih (pre ++ UInt8.ofNat l.length :: l) (appendLabel acc l) f
      (fun x hx => hv x (by simp [hx])) hlen (by simp at hf; omega)
    rw [← hpre] at this
    simp only [List.length_append, List.length_cons] at this
    have e1 : pre.length + (encodeLabels (l :: ls)).length =
        pre.length + (l.length + 1) + (encodeLabels ls).length := by
      simp only [encodeLabels, List.length_cons, List.length_append]
      omega
    rw [e1, Nat.add_comm 1 l.length]
    exact this

theorem join_labelsFrom (rest : List UInt8) :
    ∀ (label acc : List UInt8), (∀ l ∈ labelsFrom label rest, validLabel l) →
      joinLabels acc (labelsFrom label rest) =
        (if acc.length > 0 then acc ++ [DOT] else acc) ++ label ++ rest := by
  induction rest with
  | nil => intro label acc _; simp [labelsFrom, joinLabels, appendLabel]
  | cons c rest ih =>
    intro label acc h
    unfold labelsFrom at h ⊢
    by_cases hc : c = DOT
    · rw [if_pos hc] at h ⊢
      have hl : validLabel label := h label (by simp)
      have := ih [] (appendLabel acc label) (fun l hl => h l (by simp [hl]))
      simp only [joinLabels, List.foldl_cons] at this ⊢
      rw [this]
      have hpos : (appendLabel acc label).length > 0 := by
        unfold appendLabel
        have := hl.1
        simp only [List.length_append]
        omega
      rw [if_pos hpos, hc]
      simp [appendLabel]
    · rw [if_neg hc] at h ⊢
      rw [ih _ _ h]
      simp

theorem rd_append_right (pre rest : List UInt8) (i : Nat) :
    rd (pre ++ rest) (pre.length + i) = match rd rest i with
      | .ok v => .ok v
      | .oob _ => .oob (pre.length + i)
      | r => r := by
  unfold rd
  rw [List.getElem?_append_right (by omega)]
  simp only [Nat.add_sub_cancel_left]
  cases rest[i]? <;> rfl

theorem be16_value {v : Nat} (h : v < 65536) :
    ((UInt8.ofNat (v / 256 % 256)).toNat <<< 8) ||| (UInt8.ofNat (v % 256)).toNat = v := by
  have h1 : (UInt8.ofNat (v / 256 % 256)).toNat = v / 256 := by
    show v / 256 % 256 % 256 = v / 256
    omega
  have h2 : (UInt8.ofNat (v % 256)).toNat = v % 256 := by
    show v % 256 % 256 = v % 256
    omega
  rw [h1, h2, Nat.shiftLeft_eq, Nat.mul_comm,
    ← Nat.mul_add_lt_is_or (show v % 256 < 2 ^ 8 by omega)]
  omega

theorem rd16_be16 (pre post : List UInt8) {v : Nat} (h : v < 65536) :
    rd16 (pre ++ be16 v ++ post) pre.length = .ok v := by
  unfold rd16
  have e0 := rd_append_right pre (be16 v ++ post) 0
  have e1 := rd_append_right pre (be16 v ++ post) 1
  simp only [Nat.add_zero, List.append_assoc] at e0 e1 ⊢
  rw [e0, e1]
  simp only [be16, rd, List.cons_append, List.getElem?_cons_zero, List.getElem?_cons_succ,
    Res.ok_bind, Res.pure_eq]
  rw [be16_value h]

theorem process_single_question (i0 i1 : UInt8) (ls : List (List UInt8)) (qtype qclass : Nat)
    (qcap : Nat) (acap ncap : Option Nat)
    (hv : ∀ l ∈ ls, validLabel l) (hne : 0 < (joinLabels [] ls).length)
    (hlen : (joinLabels [] ls).length ≤ HOSTNAME_MAX_LEN)
    (henc : (encodeLabels ls).length ≤ 256)
    (hqt : qtype < 65536) (hqc : qclass < 65536) (hq : 1 ≤ qcap) :
    dns_process_response
      ([i0, i1, 0x81, 0, 0, 1, 0, 0, 0, 0, 0, 0] ++ encodeLabels ls ++ 0 ::
        (be16 qtype ++ be16 qclass)) (some qcap) acap ncap =
      .ok { id := (i0.toNat <<< 8) ||| i1.toNat,
            questions := [{ name := joinLabels [] ls, namelen := (joinLabels [] ls).length,
                            qtype := qtype, qclass := qclass }],
            answers := [], authorities := [] } := by
  have hwalk := walk_labels MAX_POINTERS (be16 qtype ++ be16 qclass) 0 0 ls
    [i0, i1, 0x81, 0, 0, 1, 0, 0, 0, 0, 0, 0] [] (ls.length + 1) hv hlen (Nat.lt_succ_self _)
  generalize hB : [i0, i1, 0x81, 0, 0, 1, 0, 0, 0, 0, 0, 0] ++ encodeLabels ls ++ 0 ::
        (be16 qtype ++ be16 qclass) = B at hwalk ⊢
  have hBl : B.length = 12 + (encodeLabels ls).length + 5 := by
    rw [← hB]; simp [be16]; omega
  have hstate := @state_of_loop MAX_POINTERS B 12 (ls.length + 1) _ (by omega) hwalk (by simp)
  have hparse : parse_domain_name B 12 =
      .ok { next := 12 + (encodeLabels ls).length + 1, name := joinLabels [] ls,
            namelen := (joinLabels [] ls).length } := by
    unfold parse_domain_name
    rw [lim_of_state hstate]
    simp [hne]
  have hq1 : process_question B 12 =
      .ok (12 + (encodeLabels ls).length + 1 + 4,
        { name := joinLabels [] ls, namelen := (joinLabels [] ls).length,
          qtype := qtype, qclass := qclass }) := by
    unfold process_question
    rw [hparse]
    simp only [Res.ok_bind]
    rw [if_pos (by omega)]
    have e1 : rd16 B (12 + (encodeLabels ls).length + 1) = .ok qtype := by
      have := rd16_be16 ([i0, i1, 0x81, 0, 0, 1, 0, 0, 0, 0, 0, 0] ++ encodeLabels ls ++ [0])
        (be16 qclass) hqt
      simp only [List.append_assoc, List.singleton_append, List.length_append,
        List.length_cons, List.length_nil] at this
      rw [← hB]
      simpa [Nat.add_assoc] using this
    have e2 : rd16 B (12 + (encodeLabels ls).length + 1 + 2) = .ok qclass := by
      have := rd16_be16 ([i0, i1, 0x81, 0, 0, 1, 0, 0, 0, 0, 0, 0] ++ encodeLabels ls ++ [0]
        ++ be16 qtype) [] hqc
      simp only [List.append_assoc, List.singleton_append, List.length_append,
        List.length_cons, List.length_nil, List.append_nil, be16] at this
      rw [← hB]
      simpa [Nat.add_assoc, be16] using this
    rw [e1, e2]
    rfl
  have hrd2 : rd B 2 = .ok 0x81 := by rw [← hB]; rfl
  have hrd3 : rd B 3 = .ok 0 := by rw [← hB]; rfl
  have hid : rd16 B 0 = .ok ((i0.toNat <<< 8) ||| i1.toNat) := by rw [← hB]; rfl
  have hqd : rd16 B 4 = .ok 1 := by rw [← hB]; simp [rd16, rd]
  have han : rd16 B 6 = .ok 0 := by rw [← hB]; simp [rd16, rd]
  have hns : rd16 B 8 = .ok 0 := by rw [← hB]; simp [rd16, rd]
  unfold dns_process_response
  rw [if_pos (by unfold MAX_DNS_MESSAGE_SIZE; omega), hid, hrd2, hrd3, hqd, han, hns]
  have hsc : section_count 1 (some qcap) = 1 := by
    unfold section_count
    simp only
    split <;> omega
  simp only [Res.ok_bind, hsc, section_count_zero]
  rw [if_pos (by decide), if_pos (by decide), if_pos (by decide)]
  simp [process_questions, hq1, skip_questions, process_resource_records, skip_resource_records]

theorem valid_of_ret_zero {id qtype qclass : Nat} {name : List UInt8} {len : Nat}
    (h : (dns_build_request id qtype qclass name len).ret = 0) :
    name.length ≤ HOSTNAME_MAX_LEN ∧ ∀ l ∈ name.splitOn DOT, validLabel l := by
  by_contra hc
  have hinv := (build_request_invalid id qtype qclass name len (by
    by_cases hl : name.length ≤ HOSTNAME_MAX_LEN
    · exact Or.inr fun hv => hc ⟨hl, hv⟩
    · exact Or.inl (by omega))).1
  rw [h] at hinv
  exact absurd hinv (by decide)

theorem name_ne_nil_of_valid {name : List UInt8} (h : ∀ l ∈ name.splitOn DOT, validLabel l) :
    0 < name.length := by
  cases name with
  | nil =>
    have := h [] (by simp [List.splitOn, List.splitOnP_nil])
    exact absurd this.1 (by simp)
  | cons c cs => simp

theorem join_splitOn {name : List UInt8} (h : ∀ l ∈ name.splitOn DOT, validLabel l) :
    joinLabels [] (name.splitOn DOT) = name := by
  rw [← labelsFrom_nil] at h ⊢
  rw [join_labelsFrom name [] [] h]
  simp

theorem encode_splitOn_length (name : List UInt8) :
    (encodeLabels (name.splitOn DOT)).length = name.length + 1 := by
  rw [← labelsFrom_nil, encodeLabels_length]; simp

theorem loop_eleventh_pointer (buf : List UInt8) (fuel : Nat) (s : NameState)
    (hn : s.npointers = MAX_POINTERS) (hp : s.pos < buf.length)
    (hc : byteAt buf s.pos &&& 0xc0 = 0xc0) :
    parse_domain_name_loop MAX_POINTERS buf (fuel + 1) s = .null := by
  rw [loop_succ]
  by_cases hp1 : s.pos + 1 < buf.length
  · rw [step_ptr hp1 hc, if_neg (by omega)]
  · rw [step_ptr_short hp hp1 hc]

/-! ## The verified properties -/

/-- C1 (round trip).  For every 16-bit id, every qtype and qclass and every name
that `dns_build_request` accepts: the bytes it writes, with the QR bit set, are
decoded by `dns_process_response` (question capacity at least 1, any answer and
authority capacities) into the input id, exactly one question with the input
name, its length and the input qtype and qclass as 16-bit values, no answer and
no authority. -/
theorem request_roundtrip (id qtype qclass : Nat) (name : List UInt8) (len qcap : Nat)
    (acap ncap : Option Nat) (hid : id < 65536)
    (h : (dns_build_request id qtype qclass name len).ret = 0) (hq : 1 ≤ qcap) :
    dns_process_response (set_qr (dns_build_request id qtype qclass name len).buf)
        (some qcap) acap ncap =
      .ok { id := id,
            questions := [{ name := name, namelen := name.length,
                            qtype := qtype % 65536, qclass := qclass % 65536 }],
            answers := [], authorities := [] } := by
  obtain ⟨hlen, hv⟩ := valid_of_ret_zero h
  rw [build_request_valid id qtype qclass name len hlen hv]
  have hset : set_qr (requestHeader id ++ (encodeLabels (name.splitOn DOT) ++ [0]) ++
      (be16 (qtype % 65536) ++ be16 (qclass % 65536))) =
      [UInt8.ofNat (id / 256 % 256), UInt8.ofNat (id % 256), 0x81, 0, 0, 1, 0, 0, 0, 0, 0, 0] ++
        encodeLabels (name.splitOn DOT) ++ 0 :: (be16 (qtype % 65536) ++ be16 (qclass % 65536)) := by
    simp only [set_qr, requestHeader, List.cons_append, List.set_cons_succ, List.set_cons_zero,
      List.getD_cons_succ, List.getD_cons_zero, List.nil_append, List.append_assoc,
      List.singleton_append]
    rfl
  simp only
  rw [hset]
  have hj := join_splitOn hv
  have hpos := name_ne_nil_of_valid hv
  have := process_single_question (UInt8.ofNat (id / 256 % 256)) (UInt8.ofNat (id % 256))
    (name.splitOn DOT) (qtype % 65536) (qclass % 65536) qcap acap ncap hv
    (by rw [hj]; exact hpos) (by rw [hj]; exact hlen)
    (by rw [encode_splitOn_length]; unfold HOSTNAME_MAX_LEN at hlen; omega)
    (Nat.mod_lt _ (by decide)) (Nat.mod_lt _ (by decide)) hq
  rw [this, hj, be16_value hid]

/-- Instance of `request_roundtrip`: the request for `a.bc`, type A, class IN, id
`0x1234`. -/
theorem request_roundtrip_witness :
    dns_process_response (set_qr (dns_build_request 0x1234 1 1 [97, 46, 98, 99] 0).buf)
        (some 8) (some 8) (some 8) =
      .ok { id := 0x1234,
            questions := [{ name := [97, 46, 98, 99], namelen := 4, qtype := 1, qclass := 1 }],
            answers := [], authorities := [] } :=
  request_roundtrip 0x1234 1 1 [97, 46, 98, 99] 0 8 (some 8) (some 8) (by decide) (by decide)
    (by decide)

/-- C2 (reads stay inside the buffer) does not hold for MX records: on the 25-byte
response `mxBuf`, whose only answer is an MX record of RDLENGTH 0 that ends at the
end of the message, `dns_process_response` with room for one answer decodes the
exchange name at offset 27 and dereferences that offset, two bytes past the
last byte of the message. -/
theorem mx_reads_past_end :
    mxBuf.length = 25 ∧ dns_process_response mxBuf none (some 1) none = .oob 27 := by
  decide

/-- C3 (termination).  Every iteration of the loop of `parse_domain_name` that
goes on either consumes a label, moving the cursor strictly forward and keeping
it below the end of the buffer, or follows a pointer, of which at most
`MAX_POINTERS` are allowed; hence, for every buffer and start position, the
loop ends within `nameFuel` iterations, more iterations allowed change nothing,
and neither `parse_domain_name` nor `dns_process_response` runs forever. -/
theorem parse_domain_name_terminates (buf : List UInt8) (pos : Nat) (q a n : Option Nat) :
    (∀ s s1 : NameState, parse_domain_name_step MAX_POINTERS buf s = .ok (.again s1) →
      s.pos < buf.length ∧ s1.pos < buf.length ∧
      ((s1.npointers = s.npointers ∧ s.pos < s1.pos) ∨
       (s1.npointers = s.npointers + 1 ∧ s1.npointers ≤ MAX_POINTERS))) ∧
    (∀ k : Nat,
      parse_domain_name_loop MAX_POINTERS buf (nameFuel MAX_POINTERS buf.length + k)
          ⟨pos, [], 0, 0⟩ =
        parse_domain_name_loop MAX_POINTERS buf (nameFuel MAX_POINTERS buf.length)
          ⟨pos, [], 0, 0⟩) ∧
    parse_domain_name_loop MAX_POINTERS buf (nameFuel MAX_POINTERS buf.length)
        ⟨pos, [], 0, 0⟩ ≠ .diverge ∧
    parse_domain_name buf pos ≠ .diverge ∧
    dns_process_response buf q a n ≠ .diverge := by
  have ht := loop_terminates MAX_POINTERS buf _ _ (Nat.zero_le _)
    (initial_measure MAX_POINTERS buf pos)
  exact ⟨fun s s1 h => step_again h, fun k => loop_fuel_mono _ _ _ _ ht k, ht,
    parse_ne_diverge buf pos, process_response_ne_diverge buf q a n⟩

/-- C4 (pointer limit).  The limit is exactly 10: a name that decodes under some
pointer limit `M` with at most 10 pointers followed decodes to the same result
under the limit of the program; one that needs more than 10 is refused; a
successful decode has followed at most 10; a state with 10 pointers followed
whose cursor is at a pointer is refused; a name that starts on a cycle of pointers
(a pointer to itself being the cycle of length 1) is refused; and a pointer whose
target is at or past the end of the buffer is refused wherever it is met. -/
theorem pointer_limit (buf : List UInt8) (pos : Nat) :
    (∀ (M : Nat) (st : NameState), parse_domain_name_state M buf pos = .ok st →
      st.npointers ≤ MAX_POINTERS →
      parse_domain_name buf pos = parse_domain_name_lim M buf pos) ∧
    (∀ (M : Nat) (st : NameState), parse_domain_name_state M buf pos = .ok st →
      MAX_POINTERS < st.npointers → parse_domain_name buf pos = .null) ∧
    (∀ st : NameState, parse_domain_name_state MAX_POINTERS buf pos = .ok st →
      st.npointers ≤ MAX_POINTERS) ∧
    (∀ (fuel : Nat) (s : NameState), s.npointers = MAX_POINTERS → s.pos < buf.length →
      byteAt buf s.pos &&& 0xc0 = 0xc0 →
      parse_domain_name_loop MAX_POINTERS buf (fuel + 1) s = .null) ∧
    (∀ n : Nat, 0 < n → follow buf n pos = some pos → parse_domain_name buf pos = .null) ∧
    (∀ (fuel : Nat) (s : NameState) (t : Nat), ptr_target buf s.pos = some t →
      buf.length ≤ t → parse_domain_name_loop MAX_POINTERS buf (fuel + 1) s = .null) := by
  refine ⟨?_, ?_, ?_, fun fuel s hn hp hc => loop_eleventh_pointer buf fuel s hn hp hc,
    ?_, ?_⟩
  · intro M st h hle
    obtain ⟨hp, hl⟩ := state_eq_loop h
    have h10 := state_of_loop hp (loop_lim_le M MAX_POINTERS buf _ _ _ hl hle) (by simp)
    unfold parse_domain_name
    rw [lim_of_state h, lim_of_state h10]
  · intro M st h hgt
    obtain ⟨hp, hl⟩ := state_eq_loop h
    have h10 := state_of_loop hp
      (loop_lim_gt M MAX_POINTERS buf _ _ _ hl (Nat.zero_le _) hgt) (by simp)
    unfold parse_domain_name parse_domain_name_lim
    rw [h10]
    rfl
  · intro st h
    exact loop_npointers_le _ _ _ _ _ (state_eq_loop h).2 (Nat.zero_le _)
  · intro n hn hc
    have hsome := follow_cycle_all hn hc (MAX_POINTERS + 1)
    have hp : pos + 1 < buf.length := by
      have h1 := follow_cycle_all hn hc 1
      simp only [follow] at h1
      cases ht : ptr_target buf pos with
      | none => rw [ht] at h1; simp at h1
      | some t => exact (ptr_target_some ht).1
    have hl := chain_null MAX_POINTERS buf MAX_POINTERS ⟨pos, [], 0, 0⟩
      (nameFuel MAX_POINTERS buf.length) (by simp) hsome
      (by unfold nameFuel MAX_POINTERS; omega)
    have h10 := state_of_loop (show pos ≠ buf.length by omega) hl (by simp)
    unfold parse_domain_name parse_domain_name_lim
    rw [h10]
    rfl
  · intro fuel s t ht hlen
    obtain ⟨hp, hc, htv⟩ := ptr_target_some ht
    rw [loop_succ, step_ptr hp hc, ← htv, if_pos (show t ≥ buf.length from hlen), ite_self]

/-- Instances of `pointer_limit`: in `chainBuf` the name at offset 21 follows
exactly 10 pointers and decodes, the name at offset 23 would follow 11 and is
refused; a pointer to itself and a cycle of two pointers are refused. -/
theorem pointer_limit_witness :
    parse_domain_name chainBuf 21 = .ok ⟨23, [97], 1⟩ ∧
    parse_domain_name chainBuf 23 = .null ∧
    parse_domain_name [0xc0, 0x00] 0 = .null ∧
    parse_domain_name [0xc0, 0x02, 0xc0, 0x00] 0 = .null :=
  ⟨((pointer_limit chainBuf 21).1 11 ⟨2, [97], 10, 23⟩ (by decide) (by decide)).trans (by decide),
   (pointer_limit chainBuf 23).2.1 11 ⟨2, [97], 11, 25⟩ (by decide) (by decide),
   (pointer_limit [0xc0, 0x00] 0).2.2.2.2.1 1 (by decide) (by decide),
   (pointer_limit [0xc0, 0x02, 0xc0, 0x00] 0).2.2.2.2.1 2 (by decide) (by decide)⟩

/-- C5 (compression).  If the name at offset 12 decodes without following any
pointer, then a name made of the pointer `C0 0C`, at any position `p` with
`p + 2 <= len`, decodes to the same text and length and parsing resumes at
`p + 2`. -/
theorem pointer_to_question_name (buf : List UInt8) (p : Nat) (st : NameState) (r : ParsedName)
    (h12 : parse_domain_name_state MAX_POINTERS buf 12 = .ok st) (hnp : st.npointers = 0)
    (hr : parse_domain_name buf 12 = .ok r)
    (hp : p + 2 ≤ buf.length) (h0 : byteAt buf p = 0xc0) (h1 : byteAt buf (p + 1) = 0x0c) :
    parse_domain_name buf p = .ok { next := p + 2, name := r.name, namelen := r.namelen } := by
  obtain ⟨hne, hl⟩ := state_eq_loop h12
  have hlt : 12 < buf.length := by
    by_contra hge
    have hn : nameFuel MAX_POINTERS buf.length = (nameFuel MAX_POINTERS buf.length - 1) + 1 := by
      unfold nameFuel MAX_POINTERS; omega
    rw [hn, loop_succ, step_oob (by simp only; omega)] at hl
    simp at hl
  have hsh := loop_shift MAX_POINTERS buf 1 (p + 2) _ _ _ hl (by simp [hnp])
  simp only at hsh
  obtain ⟨F, hF⟩ : ∃ F, nameFuel MAX_POINTERS buf.length = F + 1 :=
    ⟨nameFuel MAX_POINTERS buf.length - 1, by unfold nameFuel MAX_POINTERS; omega⟩
  have hterm : parse_domain_name_loop MAX_POINTERS buf F ⟨12, [], 1, p + 2⟩ ≠ .diverge := by
    apply loop_terminates
    · simp [MAX_POINTERS]
    · unfold nameFuel MAX_POINTERS at hF
      unfold nameMeasure MAX_POINTERS
      simp only
      omega
  have hF12 := (loop_fuel_irrelevant hterm (by rw [hsh]; simp)).trans hsh
  have hstep : parse_domain_name_loop MAX_POINTERS buf (F + 1) ⟨p, [], 0, 0⟩ =
      .ok { st with npointers := 1, next := p + 2 } := by
    rw [loop_succ, step_ptr (by simp only; omega) (by simp only; rw [h0]; decide)]
    simp only [h0, h1]
    rw [if_pos (by unfold MAX_POINTERS; omega), if_neg (by simpa using hlt)]
    simpa using hF12
  have hstate := state_of_loop (show p ≠ buf.length by omega) hstep (by simp)
  unfold parse_domain_name at hr ⊢
  rw [lim_of_state h12] at hr
  rw [lim_of_state hstate]
  split at hr
  · next hlen =>
    simp only [Res.ok.injEq] at hr
    subst hr
    simp [hlen]
  · simp at hr

/-- Instance of `pointer_to_question_name`: the pointer at offset 19 of `answerBuf`
decodes to the question name `a`. -/
theorem pointer_to_question_name_witness :
    parse_domain_name answerBuf 19 = .ok { next := 21, name := [97], namelen := 1 } :=
  pointer_to_question_name answerBuf 19 ⟨14, [97], 0, 0⟩ ⟨15, [97], 1⟩
    (by decide) (by decide) (by decide) (by decide) (by decide) (by decide)

/-- C6 (request layout).  A successful `dns_build_request` reports the length
`namelen + 18` and writes that many bytes: the id big-endian, `01 00`,
`00 01`, six zero bytes, then every dot-separated label as its length byte
followed by its bytes, a zero byte, and QTYPE and QCLASS big-endian. -/
theorem build_request_layout (id qtype qclass : Nat) (name : List UInt8) (len : Nat)
    (h : (dns_build_request id qtype qclass name len).ret = 0) :
    (dns_build_request id qtype qclass name len).len = name.length + 18 ∧
    (dns_build_request id qtype qclass name len).buf.length = name.length + 18 ∧
    (dns_build_request id qtype qclass name len).buf =
      be16 id ++ [0x01, 0x00, 0x00, 0x01, 0x00, 0x00, 0x00, 0x00, 0x00, 0x00] ++
        encodeLabels (name.splitOn DOT) ++ [0] ++
        be16 (qtype % 65536) ++ be16 (qclass % 65536) ∧
    (∀ l ∈ name.splitOn DOT, (UInt8.ofNat l.length).toNat = l.length ∧ 0 < l.length) := by
  obtain ⟨hlen, hv⟩ := valid_of_ret_zero h
  rw [build_request_valid id qtype qclass name len hlen hv]
  refine ⟨rfl, ?_, ?_, ?_⟩
  · simp [requestHeader, be16, encode_splitOn_length]
  · simp [requestHeader, be16]
  · intro l hl
    exact ⟨ofNat_toNat_of_le (hv l hl).2, (hv l hl).1⟩

/-- Instance of `build_request_layout`: the 22 bytes of the request for `a.bc`. -/
theorem build_request_layout_witness :
    (dns_build_request 0x1234 1 1 [97, 46, 98, 99] 0).len = 22 ∧
    (dns_build_request 0x1234 1 1 [97, 46, 98, 99] 0).buf.length = 22 ∧
    (dns_build_request 0x1234 1 1 [97, 46, 98, 99] 0).buf =
      [0x12, 0x34, 0x01, 0x00, 0x00, 0x01, 0x00, 0x00, 0x00, 0x00, 0x00, 0x00,
       1, 97, 2, 98, 99, 0, 0x00, 0x01, 0x00, 0x01] :=
  have h := build_request_layout 0x1234 1 1 [97, 46, 98, 99] 0 (by decide)
  ⟨h.1, h.2.1, h.2.2.1.trans (by decide)⟩

/-- C7 (rejection of names).  `dns_build_request` returns -1 exactly when the name
is longer than 255 bytes, or empty, or has a dot-separated label that is empty or
longer than 63 bytes, and 0 otherwise; a failing call leaves `*len` unchanged; a
name with a 64-byte label is refused and a name of at most 255 bytes whose labels
all have 1 to 63 bytes is accepted. -/
theorem build_request_fails_iff (id qtype qclass : Nat) (name : List UInt8) (len : Nat) :
    ((dns_build_request id qtype qclass name len).ret = -1 ↔
      (HOSTNAME_MAX_LEN < name.length ∨ name = [] ∨
        ∃ l ∈ name.splitOn DOT, l = [] ∨ DNS_LABEL_MAX_LEN < l.length)) ∧
    ((dns_build_request id qtype qclass name len).ret = 0 ∨
      (dns_build_request id qtype qclass name len).ret = -1) ∧
    ((dns_build_request id qtype qclass name len).ret = -1 →
      (dns_build_request id qtype qclass name len).len = len) ∧
    ((∃ l ∈ name.splitOn DOT, l.length = 64) →
      (dns_build_request id qtype qclass name len).ret = -1) ∧
    (name.length ≤ 255 → (∀ l ∈ name.splitOn DOT, 1 ≤ l.length ∧ l.length ≤ 63) →
      (dns_build_request id qtype qclass name len).ret = 0) := by
  have hgood : name.length ≤ HOSTNAME_MAX_LEN → (∀ l ∈ name.splitOn DOT, validLabel l) →
      (dns_build_request id qtype qclass name len).ret = 0 := by
    intro hlen hv
    rw [build_request_valid id qtype qclass name len hlen hv]
  have hbad : (HOSTNAME_MAX_LEN < name.length ∨ ¬ ∀ l ∈ name.splitOn DOT, validLabel l) →
      (dns_build_request id qtype qclass name len).ret = -1 ∧
      (dns_build_request id qtype qclass name len).len = len :=
    build_request_invalid id qtype qclass name len
  have hcases : (name.length ≤ HOSTNAME_MAX_LEN ∧ ∀ l ∈ name.splitOn DOT, validLabel l) ∨
      (HOSTNAME_MAX_LEN < name.length ∨ ¬ ∀ l ∈ name.splitOn DOT, validLabel l) := by
    by_cases hl : name.length ≤ HOSTNAME_MAX_LEN
    · by_cases hv : ∀ l ∈ name.splitOn DOT, validLabel l
      · exact Or.inl ⟨hl, hv⟩
      · exact Or.inr (Or.inr hv)
    · exact Or.inr (Or.inl (by omega))
  have hinv_iff : (¬ ∀ l ∈ name.splitOn DOT, validLabel l) ↔
      ∃ l ∈ name.splitOn DOT, l = [] ∨ DNS_LABEL_MAX_LEN < l.length := by
    constructor
    · intro h
      push_neg at h
      obtain ⟨l, hl, hn⟩ := h
      refine ⟨l, hl, ?_⟩
      unfold validLabel at hn
      by_cases h0 : l = []
      · exact Or.inl h0
      · right
        have : 0 < l.length := List.length_pos.2 h0
        omega
    · rintro ⟨l, hl, h0 | h1⟩ hv
      · have := (hv l hl).1
        rw [h0] at this
        simp at this
      · have := (hv l hl).2
        omega
  refine ⟨?_, ?_, ?_, ?_, ?_⟩
  · constructor
    · intro hret
      rcases hcases with ⟨hl, hv⟩ | hb
      · rw [hgood hl hv] at hret
        exact absurd hret (by decide)
      · rcases hb with hb | hb
        · exact Or.inl hb
        · exact Or.inr (Or.inr (hinv_iff.1 hb))
    · rintro (h | h | h)
      · exact (hbad (Or.inl h)).1
      · refine (hbad (Or.inr ?_)).1
        intro hv
        have := name_ne_nil_of_valid hv
        rw [h] at this
        simp at this
      · exact (hbad (Or.inr (hinv_iff.2 h))).1
  · rcases hcases with ⟨hl, hv⟩ | hb
    · exact Or.inl (hgood hl hv)
    · exact Or.inr (hbad hb).1
  · intro hret
    rcases hcases with ⟨hl, hv⟩ | hb
    · rw [hgood hl hv] at hret
      exact absurd hret (by decide)
    · exact (hbad hb).2
  · rintro ⟨l, hl, h64⟩
    refine (hbad (Or.inr ?_)).1
    intro hv
    have := (hv l hl).2
    unfold DNS_LABEL_MAX_LEN at this
    omega
  · intro hl hv
    exact hgood hl (fun l hmem => ⟨(hv l hmem).1, (hv l hmem).2⟩)

/-- C8 (message length).  `dns_process_response` fails on every buffer shorter than
12 bytes or longer than 512 bytes, whatever its contents and the capacities. -/
theorem process_response_length (buf : List UInt8) (q a n : Option Nat)
    (h : buf.length < 12 ∨ MAX_DNS_MESSAGE_SIZE < buf.length) :
    dns_process_response buf q a n = .null := by
  unfold dns_process_response
  rw [if_neg]
  omega

/-- Instances of `process_response_length`: a 3-byte and a 513-byte buffer. -/
theorem process_response_length_witness :
    dns_process_response [0, 0, 0x80] none none none = .null ∧
    dns_process_response (List.replicate 513 0) (some 8) (some 8) (some 8) = .null :=
  ⟨process_response_length [0, 0, 0x80] none none none (Or.inl (by decide)),
   process_response_length (List.replicate 513 0) (some 8) (some 8) (some 8)
     (Or.inr (by rw [List.length_replicate]; decide))⟩

/-- C9 (header flags).  `dns_process_response` fails on every buffer whose QR bit
(`0x80` of byte 2) is clear, or whose truncation bit (`0x02` of byte 2) is set, or
whose response code (low four bits of byte 3) is not zero. -/
theorem process_response_flags (buf : List UInt8) (q a n : Option Nat)
    (h : byteAt buf 2 &&& 0x80 = 0 ∨ byteAt buf 2 &&& 0x02 ≠ 0 ∨ byteAt buf 3 &&& 0x0f ≠ 0) :
    dns_process_response buf q a n = .null := by
  unfold dns_process_response
  split
  · next hl =>
    rw [rd16_of_lt (by omega), rd_of_lt (show 2 < buf.length by omega), rd_of_lt (show 3 < buf.length by omega)]
    simp only [Res.ok_bind]
    rcases h with h | h | h
    · simp [h]
    · simp [h]
    · simp [h]
  · rfl

/-- Instances of `process_response_flags`: a query, a truncated response and a
response with code 3. -/
theorem process_response_flags_witness :
    dns_process_response [0, 0, 0x01, 0, 0, 1, 0, 0, 0, 0, 0, 0] none none none = .null ∧
    dns_process_response tcBuf none none none = .null ∧
    dns_process_response [0, 0, 0x80, 0x03, 0, 0, 0, 0, 0, 0, 0, 0] none none none = .null :=
  ⟨process_response_flags _ none none none (Or.inl (by decide)),
   process_response_flags _ none none none (Or.inr (Or.inl (by decide))),
   process_response_flags _ none none none (Or.inr (Or.inr (by decide)))⟩

/-- C10 as stated fails: `tcBuf` is a 12-byte message with all counts zero, QR set,
bit 1 of byte 3 clear and RCODE zero, and `dns_process_response` refuses it
(bit 1 of byte 2, the truncation bit, is set). -/
theorem header_flags_counterexample :
    (byteAt tcBuf 2 &&& 0x80 ≠ 0 ∧ byteAt tcBuf 3 &&& 0x02 = 0 ∧ byteAt tcBuf 3 &&& 0x0f = 0) ∧
    tcBuf.length = 12 ∧ dns_process_response tcBuf none none none = .null := by
  decide

/-- C10, amended (the TC bit is bit 1 of message byte 2).  A 12-byte message whose
QDCOUNT, ANCOUNT and NSCOUNT are zero is accepted if and only if bit 7 of byte 2
(QR) is set, bit 1 of byte 2 (TC) is clear and the low nibble of byte 3 (RCODE)
is zero; it then decodes to its id and three empty sections.  No other bit of
the flags, and no bit of the id and of ARCOUNT, matters. -/
theorem header_flags (i0 i1 f0 f1 a0 a1 : UInt8) (q a n : Option Nat) :
    ((∃ r, dns_process_response [i0, i1, f0, f1, 0, 0, 0, 0, 0, 0, a0, a1] q a n = .ok r) ↔
      (f0.toNat &&& 0x80 ≠ 0 ∧ f0.toNat &&& 0x02 = 0 ∧ f1.toNat &&& 0x0f = 0)) ∧
    dns_process_response [i0, i1, f0, f1, 0, 0, 0, 0, 0, 0, a0, a1] q a n =
      (if f0.toNat &&& 0x80 ≠ 0 ∧ f0.toNat &&& 0x02 = 0 ∧ f1.toNat &&& 0x0f = 0 then
        .ok { id := (i0.toNat <<< 8) ||| i1.toNat, questions := [], answers := [],
              authorities := [] }
      else .null) := by
  have h := header_only i0 i1 f0 f1 a0 a1 q a n
  refine ⟨?_, h⟩
  rw [h]
  split <;> simp_all

theorem byteAt_lt (buf : List UInt8) (i : Nat) : byteAt buf i < 256 := by
  unfold byteAt
  exact UInt8.toNat_lt _

theorem label_le_63 {l : Nat} (h : l < 256) (hb : l &&& 0xc0 = 0) : l ≤ 63 := by
  by_contra hc
  have : 64 ≤ l := by omega
  interval_cases l <;> exact absurd hb (by decide)

theorem appendLabel_length (acc l : List UInt8) :
    (appendLabel acc l).length = if acc.length > 0 then acc.length + 1 + l.length else l.length := by
  unfold appendLabel
  split
  · simp; omega
  · next h => simp at h; simp [h]

theorem label_take_length {buf : List UInt8} {p l : Nat} (h : p + (1 + l) < buf.length) :
    ((buf.drop (p + 1)).take l).length = l := by
  simp only [List.length_take, List.length_drop]
  omega

/-- What one iteration does at a plain label that ends before the end of the
buffer: it goes on exactly when the text with this label added has at most
255 bytes. -/
theorem step_label_iff (maxp : Nat) (buf : List UInt8) (s : NameState)
    (h0 : byteAt buf s.pos ≠ 0) (hl : byteAt buf s.pos &&& 0xc0 = 0)
    (hb : s.pos + (1 + byteAt buf s.pos) < buf.length) :
    parse_domain_name_step maxp buf s =
      if (appendLabel s.name ((buf.drop (s.pos + 1)).take (byteAt buf s.pos))).length
          ≤ HOSTNAME_MAX_LEN then
        .ok (.again { s with
          name := appendLabel s.name ((buf.drop (s.pos + 1)).take (byteAt buf s.pos)),
          pos := s.pos + (1 + byteAt buf s.pos) })
      else .null := by
  have h63 := label_le_63 (byteAt_lt buf s.pos) hl
  have hiff : (appendLabel s.name ((buf.drop (s.pos + 1)).take (byteAt buf s.pos))).length
      ≤ HOSTNAME_MAX_LEN ↔ s.name.length + (1 + byteAt buf s.pos) ≤ HOSTNAME_MAX_LEN := by
    rw [appendLabel_length, label_take_length hb]
    unfold HOSTNAME_MAX_LEN
    split <;> omega
  by_cases hn : s.name.length + (1 + byteAt buf s.pos) ≤ HOSTNAME_MAX_LEN
  · rw [if_pos (hiff.2 hn), step_label h0 hl hb hn]
    rfl
  · rw [if_neg (fun hc => hn (hiff.1 hc)),
      step_label_fail (by omega) h0 hl (fun hc => hn hc.2)]

theorem loop_name_le (maxp : Nat) (buf : List UInt8) :
    ∀ (fuel : Nat) (s st : NameState), parse_domain_name_loop maxp buf fuel s = .ok st →
      s.name.length ≤ HOSTNAME_MAX_LEN → st.name.length ≤ HOSTNAME_MAX_LEN := by
  intro fuel
  induction fuel with
  | zero => intro s st h; simp [parse_domain_name_loop] at h
  | succ f ih =>
    intro s st h hs
    rw [loop_succ] at h
    rcases step_cases maxp buf s with ⟨_, hst⟩ | ⟨hp, h0, hst⟩ | ⟨h0, hl, hb, hn, hst⟩ |
      ⟨hp, hc, hn, ht, hst⟩ | ⟨_, hst⟩
    · rw [hst] at h; simp at h
    · rw [hst] at h
      simp only [Res.ok.injEq] at h
      subst h; exact hs
    · rw [hst] at h
      refine ih _ _ h ?_
      have := appendLabel_length s.name ((buf.drop (s.pos + 1)).take (byteAt buf s.pos))
      unfold appendLabel at this
      simp only
      rw [this, label_take_length hb]
      split <;> unfold HOSTNAME_MAX_LEN at * <;> omega
    · rw [hst] at h
      exact ih _ _ h hs
    · rw [hst] at h; simp at h

theorem parse_ok_state {buf : List UInt8} {pos : Nat} {r : ParsedName}
    (h : parse_domain_name buf pos = .ok r) :
    ∃ st, parse_domain_name_state MAX_POINTERS buf pos = .ok st ∧ 0 < st.name.length ∧
      r = { next := if st.npointers = 0 then st.pos + 1 else st.next,
            name := st.name, namelen := st.name.length } := by
  unfold parse_domain_name parse_domain_name_lim at h
  cases hs : parse_domain_name_state MAX_POINTERS buf pos with
  | ok st =>
    rw [hs] at h
    simp only [Res.ok_bind] at h
    split at h
    · next hlen =>
      simp only [Res.pure_eq, Res.ok.injEq] at h
      exact ⟨st, rfl, hlen, h.symm⟩
    · simp at h
  | null => rw [hs] at h; simp at h
  | oob o => rw [hs] at h; simp at h
  | diverge => rw [hs] at h; simp at h

/-- Going on from a state met later gives the outcome of the whole loop. -/
theorem reaches_loop {maxp : Nat} {buf : List UInt8} {s0 s : NameState}
    (hr : Reaches maxp buf s0 s) :
    ∀ (fuel : Nat), ∃ k, parse_domain_name_loop maxp buf (fuel + k) s0 =
      parse_domain_name_loop maxp buf fuel s := by
  induction hr with
  | refl s => intro fuel; exact ⟨0, rfl⟩
  | step hstep _ ih =>
    intro fuel
    obtain ⟨k, hk⟩ := ih fuel
    refine ⟨k + 1, ?_⟩
    rw [← Nat.add_assoc, loop_succ, hstep]
    exact hk

theorem reaches_state {maxp : Nat} {buf : List UInt8} {pos fuel : Nat} {s : NameState}
    {r : Res NameState} (hr : Reaches maxp buf ⟨pos, [], 0, 0⟩ s) (hp : pos ≠ buf.length)
    (h : parse_domain_name_loop maxp buf fuel s = r) (hd : r ≠ .diverge) :
    parse_domain_name_state maxp buf pos = r := by
  obtain ⟨k, hk⟩ := reaches_loop hr fuel
  exact state_of_loop hp (hk.trans h) hd

theorem reaches_pos_lt {maxp : Nat} {buf : List UInt8} {s0 s : NameState}
    (hr : Reaches maxp buf s0 s) (hs : s.pos < buf.length) : s0.pos < buf.length := by
  cases hr with
  | refl => exact hs
  | step hstep _ => exact (step_again hstep).1

theorem parse_null_of_state {buf : List UInt8} {pos : Nat}
    (h : parse_domain_name_state MAX_POINTERS buf pos = .null) :
    parse_domain_name buf pos = .null := by
  unfold parse_domain_name parse_domain_name_lim
  rw [h]
  rfl

/-- C11 (length of a decoded name).  Whenever `parse_domain_name` succeeds the
reported length is the length of the text and is at most 255.  At a plain label
that ends before the end of the buffer the decoder goes on exactly when the
text with this label added (and its `.` separator when the text is not empty)
has at most 255 bytes, and fails otherwise; so a name fails as soon as the loop
meets the label that would take the text above 255 bytes. -/
theorem name_length_bound (buf : List UInt8) :
    (∀ (pos : Nat) (r : ParsedName), parse_domain_name buf pos = .ok r →
      r.namelen = r.name.length ∧ r.namelen ≤ HOSTNAME_MAX_LEN) ∧
    (∀ s : NameState, byteAt buf s.pos ≠ 0 → byteAt buf s.pos &&& 0xc0 = 0 →
      s.pos + (1 + byteAt buf s.pos) < buf.length →
      parse_domain_name_step MAX_POINTERS buf s =
        if (appendLabel s.name ((buf.drop (s.pos + 1)).take (byteAt buf s.pos))).length
            ≤ HOSTNAME_MAX_LEN then
          .ok (.again { s with
            name := appendLabel s.name ((buf.drop (s.pos + 1)).take (byteAt buf s.pos)),
            pos := s.pos + (1 + byteAt buf s.pos) })
        else .null) ∧
    (∀ (pos : Nat) (s : NameState), Reaches MAX_POINTERS buf ⟨pos, [], 0, 0⟩ s →
      byteAt buf s.pos ≠ 0 → byteAt buf s.pos &&& 0xc0 = 0 →
      s.pos + (1 + byteAt buf s.pos) < buf.length →
      HOSTNAME_MAX_LEN <
        (appendLabel s.name ((buf.drop (s.pos + 1)).take (byteAt buf s.pos))).length →
      parse_domain_name buf pos = .null) := by
  refine ⟨?_, fun s h0 hl hb => step_label_iff MAX_POINTERS buf s h0 hl hb, ?_⟩
  · intro pos r h
    obtain ⟨st, hst, _, rfl⟩ := parse_ok_state h
    refine ⟨rfl, ?_⟩
    exact loop_name_le _ _ _ _ _ (state_eq_loop hst).2 (by simp)
  · intro pos s hr h0 hl hb hlen
    have hp0 := reaches_pos_lt hr (show s.pos < buf.length by omega)
    have hloop : parse_domain_name_loop MAX_POINTERS buf 1 s = .null := by
      rw [loop_succ, step_label_iff MAX_POINTERS buf s h0 hl hb, if_neg (by omega)]
    exact parse_null_of_state (reaches_state hr (by simp only at hp0; omega) hloop (by simp))

set_option maxRecDepth 100000 in
/-- Instances of `name_length_bound`: a name of 255 bytes of text decodes, a name of
256 bytes is refused. -/
theorem name_length_bound_witness :
    parse_domain_name name255Buf 0 =
      .ok ⟨257, joinLabels [] (List.replicate 4 (List.replicate 63 97)), 255⟩ ∧
    (255 : Nat) ≤ HOSTNAME_MAX_LEN ∧
    parse_domain_name name256Buf 0 = .null :=
  have h : parse_domain_name name255Buf 0 =
      .ok ⟨257, joinLabels [] (List.replicate 4 (List.replicate 63 97)), 255⟩ := by decide
  ⟨h, ((name_length_bound name255Buf).1 0 _ h).2, by decide⟩

/-- C12 as stated fails: in `rootBuf` the name at offset 0 is just the
terminating zero byte, it lies before the end of the buffer, and
`parse_domain_name` returns `NULL`. -/
theorem root_name_counterexample :
    byteAt rootBuf 0 = 0 ∧ 0 < rootBuf.length ∧ parse_domain_name rootBuf 0 = .null := by
  decide

/-- C12, amended.  A name needs at least one non-empty label: a name that is just
the terminating zero byte, located before the end of the buffer, is rejected,
like a name that starts at the end of the buffer; more generally every decode
that ends with an empty text is rejected, and a successful decode started
before the end of the buffer and reports at least one byte of text. -/
theorem root_name_rejected (buf : List UInt8) :
    (∀ pos : Nat, pos < buf.length → byteAt buf pos = 0 → parse_domain_name buf pos = .null) ∧
    parse_domain_name buf buf.length = .null ∧
    (∀ (pos : Nat) (st : NameState), parse_domain_name_state MAX_POINTERS buf pos = .ok st →
      st.name = [] → parse_domain_name buf pos = .null) ∧
    (∀ (pos : Nat) (r : ParsedName), parse_domain_name buf pos = .ok r →
      0 < r.namelen ∧ pos < buf.length) := by
  refine ⟨?_, ?_, ?_, ?_⟩
  · intro pos hp h0
    have hl : parse_domain_name_loop MAX_POINTERS buf 1 ⟨pos, [], 0, 0⟩ = .ok ⟨pos, [], 0, 0⟩ := by
      rw [loop_succ, step_zero (by simpa using hp) (by simpa using h0)]
    have hs := state_of_loop (by omega) hl (by simp)
    unfold parse_domain_name
    rw [lim_of_state hs]
    simp
  · unfold parse_domain_name parse_domain_name_lim parse_domain_name_state
    simp
  · intro pos st hs hn
    unfold parse_domain_name
    rw [lim_of_state hs, hn]
    simp
  · intro pos r h
    obtain ⟨st, hst, hlen, rfl⟩ := parse_ok_state h
    refine ⟨hlen, ?_⟩
    obtain ⟨hne, hl⟩ := state_eq_loop hst
    by_contra hge
    have hn : nameFuel MAX_POINTERS buf.length = (nameFuel MAX_POINTERS buf.length - 1) + 1 := by
      unfold nameFuel MAX_POINTERS; omega
    rw [hn, loop_succ, step_oob (by simp only; omega)] at hl
    simp at hl

/-- Instances of `root_name_rejected`: the root name at offset 0 of `rootBuf` and a
name at the end of that buffer. -/
theorem root_name_rejected_witness :
    parse_domain_name rootBuf 0 = .null ∧ parse_domain_name rootBuf 5 = .null :=
  ⟨(root_name_rejected rootBuf).1 0 (by decide) (by decide), (root_name_rejected rootBuf).2.1⟩

theorem skipLabels_stable (buf : List UInt8) :
    ∀ (f p k : Nat), buf.length - p ≤ f → skipLabels buf (f + k) p = skipLabels buf f p := by
  intro f
  induction f with
  | zero =>
    intro p k h
    cases k with
    | zero => rfl
    | succ k =>
      simp only [Nat.zero_add, skipLabels]
      rw [if_neg (by omega)]
  | succ f ih =>
    intro p k h
    rw [show f + 1 + k = (f + k) + 1 by omega]
    simp only [skipLabels]
    split
    · next hc => exact ih _ _ (by omega)
    · rfl

theorem loop_next_const (maxp : Nat) (buf : List UInt8) :
    ∀ (fuel : Nat) (s st : NameState), parse_domain_name_loop maxp buf fuel s = .ok st →
      0 < s.npointers → st.next = s.next := by
  intro fuel
  induction fuel with
  | zero => intro s st h; simp [parse_domain_name_loop] at h
  | succ f ih =>
    intro s st h hs
    rw [loop_succ] at h
    rcases step_cases maxp buf s with ⟨_, hst⟩ | ⟨hp, h0, hst⟩ | ⟨h0, hl, hb, hn, hst⟩ |
      ⟨hp, hc, hn, ht, hst⟩ | ⟨_, hst⟩
    · rw [hst] at h; simp at h
    · rw [hst] at h
      simp only [Res.ok.injEq] at h
      subst h; rfl
    · rw [hst] at h
      have hih := ih _ _ h hs
      exact hih
    · rw [hst] at h
      have := ih _ _ h (by simp)
      simp only at this
      rw [this, if_neg (by omega)]
    · rw [hst] at h; simp at h

/-- Where the loop of `parse_domain_name` ends, in terms of the walk over the
plain labels. -/
theorem loop_end (maxp : Nat) (buf : List UInt8) :
    ∀ (fuel : Nat) (s st : NameState), parse_domain_name_loop maxp buf fuel s = .ok st →
      s.npointers = 0 →
      (st.npointers = 0 → st.pos = skipLabels buf fuel s.pos ∧
        byteAt buf (skipLabels buf fuel s.pos) = 0) ∧
      (0 < st.npointers → st.next = skipLabels buf fuel s.pos + 2 ∧
        byteAt buf (skipLabels buf fuel s.pos) &&& 0xc0 = 0xc0 ∧
        skipLabels buf fuel s.pos + 2 ≤ buf.length) := by
  intro fuel
  induction fuel with
  | zero => intro s st h; simp [parse_domain_name_loop] at h
  | succ f ih =>
    intro s st h hs
    rw [loop_succ] at h
    rcases step_cases maxp buf s with ⟨_, hst⟩ | ⟨hp, h0, hst⟩ | ⟨h0, hl, hb, hn, hst⟩ |
      ⟨hp, hc, hn, ht, hst⟩ | ⟨_, hst⟩
    · rw [hst] at h; simp at h
    · rw [hst] at h
      simp only [Res.ok.injEq] at h
      subst h
      have hsk : skipLabels buf (f + 1) s.pos = s.pos := by
        simp only [skipLabels]
        rw [if_neg (by simp [h0])]
      rw [hsk]
      exact ⟨fun _ => ⟨rfl, h0⟩, fun hpos => by omega⟩
    · rw [hst] at h
      have hsk : skipLabels buf (f + 1) s.pos = skipLabels buf f (s.pos + (1 + byteAt buf s.pos)) := by
        simp only [skipLabels]
        rw [if_pos ⟨h0, hl, hb⟩]
      rw [hsk]
      have hih := ih _ _ h hs
      exact hih
    · rw [hst] at h
      have hsk : skipLabels buf (f + 1) s.pos = s.pos := by
        simp only [skipLabels]
        rw [if_neg (fun hcc => absurd hcc.2.1 (by rw [hc]; decide))]
      rw [hsk]
      have hmono := loop_npointers_mono maxp buf f _ st h
      have hnext := loop_next_const maxp buf f _ st h (by simp)
      simp only at hmono hnext
      refine ⟨fun h0 => by omega, fun _ => ⟨?_, hc, by omega⟩⟩
      rw [hnext, if_pos (by omega)]
    · rw [hst] at h; simp at h

/-- Where a successful `parse_domain_name` resumes, in terms of `nameEnd`. -/
theorem parse_resume (buf : List UInt8) (pos : Nat) (st : NameState) (r : ParsedName)
    (hs : parse_domain_name_state MAX_POINTERS buf pos = .ok st)
    (hr : parse_domain_name buf pos = .ok r) :
    (st.npointers = 0 →
      byteAt buf (nameEnd buf pos) = 0 ∧ st.pos = nameEnd buf pos ∧
      r.next = nameEnd buf pos + 1) ∧
    (0 < st.npointers →
      byteAt buf (nameEnd buf pos) &&& 0xc0 = 0xc0 ∧ r.next = nameEnd buf pos + 2 ∧
      r.next ≤ buf.length) := by
  obtain ⟨st1, hst1, _, rfl⟩ := parse_ok_state hr
  rw [hs] at hst1
  simp only [Res.ok.injEq] at hst1
  subst hst1
  obtain ⟨_, hl⟩ := state_eq_loop hs
  have hend := loop_end _ _ _ _ _ hl rfl
  have hstab : skipLabels buf (nameFuel MAX_POINTERS buf.length) pos = nameEnd buf pos := by
    unfold nameEnd
    have : nameFuel MAX_POINTERS buf.length = buf.length + (nameFuel MAX_POINTERS buf.length - buf.length) := by
      unfold nameFuel MAX_POINTERS; omega
    rw [this]
    exact skipLabels_stable buf _ _ _ (by omega)
  simp only at hend
  rw [hstab] at hend
  constructor
  · intro h0
    obtain ⟨h1, h2⟩ := hend.1 h0
    exact ⟨h2, h1, by simp [h0, h1]⟩
  · intro hpos
    obtain ⟨h1, h2, h3⟩ := hend.2 hpos
    have hne : st.npointers ≠ 0 := by omega
    exact ⟨h2, by simp [hne, h1], by simp [hne, h1]; exact h3⟩

/-- C13 (resume position).  Let `nameEnd buf pos` be the offset where the run of
plain labels that starts at `pos` ends.  When `parse_domain_name` succeeds
without following a pointer, that offset holds the terminating zero byte and
the returned position is the one right after it; when it followed at least one
pointer, that offset holds the first pointer and the returned position is that
offset plus 2, whatever the targets and the number of the pointers followed. -/
theorem resume_position (buf : List UInt8) (pos : Nat) (st : NameState) (r : ParsedName)
    (hs : parse_domain_name_state MAX_POINTERS buf pos = .ok st)
    (hr : parse_domain_name buf pos = .ok r) :
    (st.npointers = 0 →
      byteAt buf (nameEnd buf pos) = 0 ∧ st.pos = nameEnd buf pos ∧
      r.next = nameEnd buf pos + 1) ∧
    (0 < st.npointers →
      byteAt buf (nameEnd buf pos) &&& 0xc0 = 0xc0 ∧ r.next = nameEnd buf pos + 2 ∧
      r.next ≤ buf.length) :=
  parse_resume buf pos st r hs hr

/-- Instances of `resume_position`: the question name of `answerBuf` (no pointer) and
the name at offset 21 of `chainBuf` (ten pointers). -/
theorem resume_position_witness :
    (byteAt answerBuf (nameEnd answerBuf 12) = 0 ∧ 14 = nameEnd answerBuf 12 ∧
      15 = nameEnd answerBuf 12 + 1) ∧
    (byteAt chainBuf (nameEnd chainBuf 21) &&& 0xc0 = 0xc0 ∧
      23 = nameEnd chainBuf 21 + 2 ∧ 23 ≤ chainBuf.length) :=
  ⟨(resume_position answerBuf 12 ⟨14, [97], 0, 0⟩ ⟨15, [97], 1⟩ (by decide) (by decide)).1 rfl,
   (resume_position chainBuf 21 ⟨2, [97], 10, 23⟩ ⟨23, [97], 1⟩ (by decide) (by decide)).2
     (by decide)⟩

theorem skip_zero {buf : List UInt8} {p : Nat} (fuel : Nat) (hp : p < buf.length)
    (h0 : byteAt buf p = 0) : skip_domain_name_loop buf (fuel + 1) p = .ok (p + 1) := by
  simp only [skip_domain_name_loop, rd_of_lt hp, h0, if_true]

theorem skip_label {buf : List UInt8} {p : Nat} (fuel : Nat) (hp : p < buf.length)
    (h0 : byteAt buf p ≠ 0) (hl : byteAt buf p &&& 0xc0 = 0) :
    skip_domain_name_loop buf (fuel + 1) p =
      if p + (1 + byteAt buf p) ≥ buf.length then .null
      else skip_domain_name_loop buf fuel (p + (1 + byteAt buf p)) := by
  simp only [skip_domain_name_loop, rd_of_lt hp]
  rw [if_neg h0, if_pos hl]

theorem skip_ptr {buf : List UInt8} {p : Nat} (fuel : Nat) (hp : p < buf.length)
    (hc : byteAt buf p &&& 0xc0 = 0xc0) :
    skip_domain_name_loop buf (fuel + 1) p =
      if p + 2 ≤ buf.length then .ok (p + 2) else .null := by
  simp only [skip_domain_name_loop, rd_of_lt hp]
  rw [if_neg (ptr_ne_zero hc).1, if_neg (ptr_ne_zero hc).2, if_pos hc]

theorem skip_fuel_mono (buf : List UInt8) :
    ∀ (fuel p : Nat), skip_domain_name_loop buf fuel p ≠ .diverge →
      ∀ k, skip_domain_name_loop buf (fuel + k) p = skip_domain_name_loop buf fuel p := by
  intro fuel
  induction fuel with
  | zero => intro p h; simp [skip_domain_name_loop] at h
  | succ f ih =>
    intro p h k
    rw [show f + 1 + k = (f + k) + 1 by omega]
    by_cases hp : p < buf.length
    · by_cases h0 : byteAt buf p = 0
      · rw [skip_zero _ hp h0, skip_zero _ hp h0]
      · by_cases hl : byteAt buf p &&& 0xc0 = 0
        · rw [skip_label _ hp h0 hl] at h ⊢
          rw [skip_label _ hp h0 hl]
          split
          · rfl
          · next hlen =>
            rw [if_neg hlen] at h
            exact ih _ h k
        · simp only [skip_domain_name_loop, rd_of_lt hp]
          rw [if_neg h0, if_neg hl, if_neg h0, if_neg hl]
    · simp only [skip_domain_name_loop, rd_of_ge (Nat.le_of_not_lt hp)]

theorem skip_of_loop {buf : List UInt8} {p fuel : Nat} {r : Res Nat} (hp : p ≠ buf.length)
    (h : skip_domain_name_loop buf fuel p = r) (hr : r ≠ .diverge) :
    skip_domain_name buf p = r := by
  unfold skip_domain_name
  rw [if_pos hp, ← h]
  have h1 := skip_loop_terminates buf (buf.length + 1) p (by omega)
  rw [← skip_fuel_mono buf _ p h1 fuel, ← skip_fuel_mono buf fuel p (h ▸ hr) (buf.length + 1),
    Nat.add_comm]

theorem skip_reaches_loop {buf : List UInt8} {p q : Nat} (hr : SkipReaches buf p q) :
    ∀ (fuel : Nat), ∃ k, skip_domain_name_loop buf (fuel + k) p =
      skip_domain_name_loop buf fuel q := by
  induction hr with
  | refl p => intro fuel; exact ⟨0, rfl⟩
  | step h0 hl hb _ ih =>
    intro fuel
    obtain ⟨k, hk⟩ := ih fuel
    refine ⟨k + 1, ?_⟩
    rw [← Nat.add_assoc, skip_label _ (by omega) h0 hl, if_neg (by omega)]
    exact hk

theorem skip_reaches_pos_lt {buf : List UInt8} {p q : Nat} (hr : SkipReaches buf p q)
    (hq : q < buf.length) : p < buf.length := by
  cases hr with
  | refl => exact hq
  | step h0 hl hb _ => omega

/-- C14 (label bound).  A plain label whose length byte `L` at offset `p`
satisfies `p + 1 + L >= len` makes the decode fail: the loop of
`parse_domain_name` returns `NULL` in every state whose cursor is at such a
label, hence `parse_domain_name` fails when its loop meets one, and the same
holds for the loop of `skip_domain_name` and for `skip_domain_name`. -/
theorem label_past_end (buf : List UInt8) :
    (∀ (fuel : Nat) (s : NameState), s.pos < buf.length → byteAt buf s.pos ≠ 0 →
      byteAt buf s.pos &&& 0xc0 = 0 → buf.length ≤ s.pos + 1 + byteAt buf s.pos →
      parse_domain_name_loop MAX_POINTERS buf (fuel + 1) s = .null) ∧
    (∀ (pos : Nat) (s : NameState), Reaches MAX_POINTERS buf ⟨pos, [], 0, 0⟩ s →
      s.pos < buf.length → byteAt buf s.pos ≠ 0 → byteAt buf s.pos &&& 0xc0 = 0 →
      buf.length ≤ s.pos + 1 + byteAt buf s.pos → parse_domain_name buf pos = .null) ∧
    (∀ (fuel p : Nat), p < buf.length → byteAt buf p ≠ 0 → byteAt buf p &&& 0xc0 = 0 →
      buf.length ≤ p + 1 + byteAt buf p → skip_domain_name_loop buf (fuel + 1) p = .null) ∧
    (∀ (pos p : Nat), SkipReaches buf pos p →
      p < buf.length → byteAt buf p ≠ 0 → byteAt buf p &&& 0xc0 = 0 →
      buf.length ≤ p + 1 + byteAt buf p → skip_domain_name buf pos = .null) := by
  have hparse : ∀ (fuel : Nat) (s : NameState), s.pos < buf.length → byteAt buf s.pos ≠ 0 →
      byteAt buf s.pos &&& 0xc0 = 0 → buf.length ≤ s.pos + 1 + byteAt buf s.pos →
      parse_domain_name_loop MAX_POINTERS buf (fuel + 1) s = .null := by
    intro fuel s hp h0 hl hb
    rw [loop_succ, step_label_fail hp h0 hl (fun hc => by omega)]
  have hskip : ∀ (fuel p : Nat), p < buf.length → byteAt buf p ≠ 0 → byteAt buf p &&& 0xc0 = 0 →
      buf.length ≤ p + 1 + byteAt buf p → skip_domain_name_loop buf (fuel + 1) p = .null := by
    intro fuel p hp h0 hl hb
    rw [skip_label _ hp h0 hl, if_pos (by omega)]
  refine ⟨hparse, ?_, hskip, ?_⟩
  · intro pos s hr hp h0 hl hb
    have hp0 := reaches_pos_lt hr hp
    exact parse_null_of_state
      (reaches_state hr (by simp only at hp0; omega) (hparse 0 s hp h0 hl hb) (by simp))
  · intro pos p hr hp h0 hl hb
    have hp0 := skip_reaches_pos_lt hr hp
    obtain ⟨k, hk⟩ := skip_reaches_loop hr 1
    exact skip_of_loop (by omega) (hk.trans (hskip 0 p hp h0 hl hb)) (by simp)

/-- Instances of `label_past_end`: the second label of `shortLabelBuf` runs past the
end of the message. -/
theorem label_past_end_witness :
    parse_domain_name shortLabelBuf 0 = .null ∧ skip_domain_name shortLabelBuf 0 = .null :=
  ⟨(label_past_end shortLabelBuf).2.1 0 ⟨2, [97], 0, 0⟩
      (@Reaches.step _ _ _ ⟨2, [97], 0, 0⟩ _ (by decide) (Reaches.refl _))
      (by decide) (by decide) (by decide) (by decide),
   (label_past_end shortLabelBuf).2.2.2 0 2
      (SkipReaches.step (by decide) (by decide) (by decide) (SkipReaches.refl _))
      (by decide) (by decide) (by decide) (by decide)⟩

/-- The names that `parse_domain_name` accepts are skipped by `skip_domain_name`
to the same position. -/
theorem skip_loop_of_parse (maxp : Nat) (buf : List UInt8) :
    ∀ (fuel : Nat) (s st : NameState), parse_domain_name_loop maxp buf fuel s = .ok st →
      s.npointers = 0 →
      skip_domain_name_loop buf fuel s.pos =
        .ok (if st.npointers = 0 then st.pos + 1 else st.next) := by
  intro fuel
  induction fuel with
  | zero => intro s st h; simp [parse_domain_name_loop] at h
  | succ f ih =>
    intro s st h hs
    rw [loop_succ] at h
    rcases step_cases maxp buf s with ⟨_, hst⟩ | ⟨hp, h0, hst⟩ | ⟨h0, hl, hb, hn, hst⟩ |
      ⟨hp, hc, hn, ht, hst⟩ | ⟨_, hst⟩
    · rw [hst] at h; simp at h
    · rw [hst] at h
      simp only [Res.ok.injEq] at h
      subst h
      rw [skip_zero _ hp h0, if_pos hs]
    · rw [hst] at h
      rw [skip_label _ (by omega) h0 hl, if_neg (by omega)]
      have hih := ih _ _ h hs
      exact hih
    · rw [hst] at h
      have hmono := loop_npointers_mono maxp buf f _ st h
      have hnext := loop_next_const maxp buf f _ st h (by simp)
      simp only at hmono hnext
      rw [skip_ptr _ (by omega) hc, if_pos (by omega), if_neg (by omega), hnext,
        if_pos (by omega)]
    · rw [hst] at h; simp at h

theorem skip_of_parse {buf : List UInt8} {pos : Nat} {r : ParsedName}
    (h : parse_domain_name buf pos = .ok r) : skip_domain_name buf pos = .ok r.next := by
  obtain ⟨st, hst, _, rfl⟩ := parse_ok_state h
  obtain ⟨hne, hl⟩ := state_eq_loop hst
  exact skip_of_loop hne (skip_loop_of_parse _ _ _ _ _ hl rfl) (by simp)

theorem rd16_eq {buf : List UInt8} {i : Nat} (h : i + 1 < buf.length) :
    rd16 buf i = .ok (be16At buf i) := rd16_of_lt h

theorem rd32_eq {buf : List UInt8} {i : Nat} (h : i + 3 < buf.length) :
    rd32 buf i = .ok (be32At buf i) := by
  simp [rd32, be32At, rd_of_lt (show i < buf.length by omega),
    rd_of_lt (show i + 1 < buf.length by omega), rd_of_lt (show i + 2 < buf.length by omega),
    rd_of_lt h]

theorem bind_assoc_res {α β γ : Type} (x : Res α) (f : α → Res β) (g : β → Res γ) :
    (x >>= f) >>= g = x >>= fun a => f a >>= g := by
  cases x <;> rfl

theorem bind_ok_inv {α β : Type} {x : Res α} {f : α → Res β} {b : β}
    (h : (x >>= f) = .ok b) : ∃ a, x = .ok a ∧ f a = .ok b := by
  cases x with
  | ok a => exact ⟨a, rfl, h⟩
  | null => simp at h
  | oob o => simp at h
  | diverge => simp at h

/-- The body of the loop of `process_resource_records` once the owner name is
decoded and the record lies inside the buffer. -/
theorem process_resource_record_eq {buf : List UInt8} {pos : Nat} {r : ParsedName}
    (h : parse_domain_name buf pos = .ok r) (h10 : r.next + 10 ≤ buf.length)
    (hrd : r.next + 10 + be16At buf (r.next + 8) ≤ buf.length) :
    process_resource_record buf pos =
      (record_rdata buf r.next (be16At buf r.next) (be16At buf (r.next + 2))
          (be16At buf (r.next + 8)) >>= fun o =>
        .ok (r.next + (10 + be16At buf (r.next + 8)),
          o.map fun d =>
            { name := r.name, namelen := r.namelen, type := be16At buf r.next,
              cls := be16At buf (r.next + 2), ttl := be32At buf (r.next + 4), rdata := d,
              rdlength := be16At buf (r.next + 8) })) := by
  unfold process_resource_record record_rdata
  rw [h]
  simp only [Res.ok_bind]
  rw [if_pos h10, rd16_eq (by omega)]
  simp only [Res.ok_bind]
  rw [if_pos hrd, rd16_eq (by omega), rd16_eq (by omega), rd32_eq (by omega)]
  simp only [Res.ok_bind]
  by_cases hc : be16At buf (r.next + 2) = DNS_QCLASS_IN
  · rw [if_pos hc, if_pos hc]
    by_cases h1 : be16At buf r.next = DNS_QTYPE_A
    · rw [if_pos h1, if_pos h1]
      by_cases hl : be16At buf (r.next + 8) = 4
      · rw [if_pos hl, if_pos hl, bind_assoc_res]
        rfl
      · rw [if_neg hl, if_neg hl]
        rfl
    · rw [if_neg h1, if_neg h1]
      by_cases h2 : be16At buf r.next = DNS_QTYPE_AAAA
      · rw [if_pos h2, if_pos h2]
        by_cases hl : be16At buf (r.next + 8) = 16
        · rw [if_pos hl, if_pos hl, bind_assoc_res]
          rfl
        · rw [if_neg hl, if_neg hl]
          rfl
      · rw [if_neg h2, if_neg h2]
        by_cases h3 : be16At buf r.next = DNS_QTYPE_CNAME
        · rw [if_pos h3, if_pos h3, bind_assoc_res]
          rfl
        · rw [if_neg h3, if_neg h3]
          by_cases h4 : be16At buf r.next = DNS_QTYPE_MX
          · rw [if_pos h4, if_pos h4, bind_assoc_res]
            congr 1
            funext e
            rw [bind_assoc_res]
            rfl
          · rw [if_neg h4, if_neg h4]
            by_cases h5 : be16At buf r.next = DNS_QTYPE_SOA
            · rw [if_pos h5, if_pos h5, bind_assoc_res]
              congr 1
              funext ns
              rw [bind_assoc_res]
              congr 1
              funext mb
              by_cases h20 : mb.next + 20 ≤ buf.length
              · rw [if_pos h20, if_pos h20]
                simp only [bind_assoc_res]
                rfl
              · rw [if_neg h20, if_neg h20]
                rfl
            · rw [if_neg h5, if_neg h5]
              rfl
  · rw [if_neg hc, if_neg hc]
    rfl

theorem be16At_eq (buf : List UInt8) (p : Nat) :
    be16At buf p = byteAt buf p * 256 + byteAt buf (p + 1) := by
  unfold be16At
  rw [Nat.shiftLeft_eq, Nat.mul_comm,
    ← Nat.mul_add_lt_is_or (show byteAt buf (p + 1) < 2 ^ 8 from byteAt_lt _ _)]

theorem be32At_eq (buf : List UInt8) (p : Nat) :
    be32At buf p = byteAt buf p * 16777216 + byteAt buf (p + 1) * 65536 +
      byteAt buf (p + 2) * 256 + byteAt buf (p + 3) := by
  have h0 := byteAt_lt buf p
  have h1 := byteAt_lt buf (p + 1)
  have h2 := byteAt_lt buf (p + 2)
  have h3 := byteAt_lt buf (p + 3)
  unfold be32At
  simp only [Nat.shiftLeft_eq]
  have e1 : byteAt buf p * 2 ^ 24 ||| byteAt buf (p + 1) * 2 ^ 16 =
      2 ^ 16 * (byteAt buf p * 256 + byteAt buf (p + 1)) := by
    rw [show byteAt buf p * 2 ^ 24 = 2 ^ 24 * byteAt buf p by omega,
      ← Nat.mul_add_lt_is_or (show byteAt buf (p + 1) * 2 ^ 16 < 2 ^ 24 by omega)]
    omega
  have e2 : 2 ^ 16 * (byteAt buf p * 256 + byteAt buf (p + 1)) ||| byteAt buf (p + 2) * 2 ^ 8 =
      2 ^ 8 * (byteAt buf p * 65536 + byteAt buf (p + 1) * 256 + byteAt buf (p + 2)) := by
    rw [← Nat.mul_add_lt_is_or (show byteAt buf (p + 2) * 2 ^ 8 < 2 ^ 16 by omega)]
    omega
  rw [e1, e2, ← Nat.mul_add_lt_is_or (show byteAt buf (p + 3) < 2 ^ 8 by omega)]
  omega

theorem process_resource_record_bounds {buf : List UInt8} {pos : Nat} {r : ParsedName}
    (h : parse_domain_name buf pos = .ok r)
    (hb : buf.length < r.next + 10 ∨ buf.length < r.next + 10 + be16At buf (r.next + 8)) :
    process_resource_record buf pos = .null := by
  unfold process_resource_record
  rw [h]
  simp only [Res.ok_bind]
  by_cases h10 : r.next + 10 ≤ buf.length
  · rw [if_pos h10, rd16_eq (by omega)]
    simp only [Res.ok_bind]
    rw [if_neg (by omega)]
  · rw [if_neg h10]

theorem process_resource_record_parse {buf : List UInt8} {pos p1 : Nat} {o : Option rr_t}
    (h : process_resource_record buf pos = .ok (p1, o)) :
    ∃ r, parse_domain_name buf pos = .ok r ∧ r.next + 10 ≤ buf.length ∧
      r.next + 10 + be16At buf (r.next + 8) ≤ buf.length := by
  cases hp : parse_domain_name buf pos with
  | ok r =>
    refine ⟨r, rfl, ?_⟩
    by_contra hc
    rw [process_resource_record_bounds hp (by omega)] at h
    simp at h
  | null => unfold process_resource_record at h; rw [hp] at h; simp at h
  | oob x => unfold process_resource_record at h; rw [hp] at h; simp at h
  | diverge => unfold process_resource_record at h; rw [hp] at h; simp at h

theorem record_rdata_some {buf : List UInt8} {p type cls rdlength : Nat} {d : rdata_t}
    (h : record_rdata buf p type cls rdlength = .ok (some d)) :
    cls = DNS_QCLASS_IN ∧ (type = DNS_QTYPE_A ∨ type = DNS_QTYPE_AAAA ∨ type = DNS_QTYPE_CNAME ∨
      type = DNS_QTYPE_MX ∨ type = DNS_QTYPE_SOA) := by
  unfold record_rdata at h
  by_cases hc : cls = DNS_QCLASS_IN
  · refine ⟨hc, ?_⟩
    by_contra hn
    simp only [not_or] at hn
    rw [if_pos hc, if_neg hn.1, if_neg hn.2.1, if_neg hn.2.2.1, if_neg hn.2.2.2.1,
      if_neg hn.2.2.2.2] at h
    simp at h
  · rw [if_neg hc] at h
    simp at h

theorem record_rdata_other {buf : List UInt8} {p type cls rdlength : Nat}
    (h : cls ≠ DNS_QCLASS_IN ∨ (type ≠ DNS_QTYPE_A ∧ type ≠ DNS_QTYPE_AAAA ∧
      type ≠ DNS_QTYPE_CNAME ∧ type ≠ DNS_QTYPE_MX ∧ type ≠ DNS_QTYPE_SOA)) :
    record_rdata buf p type cls rdlength = .ok none := by
  unfold record_rdata
  by_cases hc : cls = DNS_QCLASS_IN
  · rcases h with h | h
    · exact absurd hc h
    · rw [if_pos hc, if_neg h.1, if_neg h.2.1, if_neg h.2.2.1, if_neg h.2.2.2.1,
        if_neg h.2.2.2.2]
      rfl
  · rw [if_neg hc]
    rfl

/-- What a record that the loop body accepts looks like. -/
theorem process_resource_record_ok {buf : List UInt8} {pos p1 : Nat} {o : Option rr_t}
    (h : process_resource_record buf pos = .ok (p1, o)) :
    ∃ r od, parse_domain_name buf pos = .ok r ∧ r.next + 10 ≤ buf.length ∧
      r.next + 10 + be16At buf (r.next + 8) ≤ buf.length ∧
      record_rdata buf r.next (be16At buf r.next) (be16At buf (r.next + 2))
        (be16At buf (r.next + 8)) = .ok od ∧
      p1 = r.next + (10 + be16At buf (r.next + 8)) ∧
      o = od.map fun d =>
        { name := r.name, namelen := r.namelen, type := be16At buf r.next,
          cls := be16At buf (r.next + 2), ttl := be32At buf (r.next + 4), rdata := d,
          rdlength := be16At buf (r.next + 8) } := by
  obtain ⟨r, hp, h10, hrd⟩ := process_resource_record_parse h
  rw [process_resource_record_eq hp h10 hrd] at h
  obtain ⟨od, hod, hres⟩ := bind_ok_inv h
  simp only [Res.ok.injEq, Prod.mk.injEq] at hres
  exact ⟨r, od, hp, h10, hrd, hod, hres.1.symm, hres.2.symm⟩

theorem records_succ_null {buf : List UInt8} {pos : Nat}
    (h : process_resource_record buf pos = .null) (n : Nat) (rrs : List rr_t) :
    process_resource_records buf (n + 1) pos rrs = .null := by
  simp only [process_resource_records, h]

theorem records_succ_ok {buf : List UInt8} {pos p1 : Nat} {o : Option rr_t}
    (h : process_resource_record buf pos = .ok (p1, o)) (n : Nat) (rrs : List rr_t) :
    process_resource_records buf (n + 1) pos rrs =
      process_resource_records buf n p1 (rrs ++ o.toList) := by
  cases o with
  | none => simp only [process_resource_records, h, Option.toList, List.append_nil]
  | some rr => simp only [process_resource_records, h, Option.toList]

/-- C15 (fixed fields of a record).  With `p` the position where the owner name
of a record ended and RDLENGTH the big-endian 16-bit value at `p + 8`: the
record makes the decode fail when `p + 10` or `p + 10 + RDLENGTH` exceeds the
length of the buffer, in `process_resource_records` and in
`skip_resource_records` alike; a record that is stored carries the decoded owner
name, TYPE, CLASS and TTL equal to the big-endian values at `p`, `p + 2` and
`p + 4`, and rdlength equal to RDLENGTH.  The values are unsigned: a 32-bit one
is `b0 * 2^24 + b1 * 2^16 + b2 * 2^8 + b3`, also when the top bit is set. -/
theorem record_fixed_fields (buf : List UInt8) :
    (∀ (pos : Nat) (r : ParsedName), parse_domain_name buf pos = .ok r →
      (buf.length < r.next + 10 ∨ buf.length < r.next + 10 + be16At buf (r.next + 8)) →
      process_resource_record buf pos = .null ∧
      ∀ (n : Nat) (rrs : List rr_t), process_resource_records buf (n + 1) pos rrs = .null) ∧
    (∀ (pos p n : Nat), skip_domain_name buf pos = .ok p →
      (buf.length < p + 10 ∨ buf.length < p + 10 + be16At buf (p + 8)) →
      skip_resource_records buf (n + 1) pos = .null) ∧
    (∀ (pos : Nat) (r : ParsedName) (p1 : Nat) (rr : rr_t),
      parse_domain_name buf pos = .ok r →
      process_resource_record buf pos = .ok (p1, some rr) →
      rr.name = r.name ∧ rr.namelen = r.namelen ∧ rr.type = be16At buf r.next ∧
      rr.cls = be16At buf (r.next + 2) ∧ rr.ttl = be32At buf (r.next + 4) ∧
      rr.rdlength = be16At buf (r.next + 8)) ∧
    (∀ p : Nat, be16At buf p = byteAt buf p * 256 + byteAt buf (p + 1) ∧
      be32At buf p = byteAt buf p * 16777216 + byteAt buf (p + 1) * 65536 +
        byteAt buf (p + 2) * 256 + byteAt buf (p + 3)) := by
  refine ⟨?_, ?_, ?_, fun p => ⟨be16At_eq buf p, be32At_eq buf p⟩⟩
  · intro pos r h hb
    have hn := process_resource_record_bounds h hb
    exact ⟨hn, fun n rrs => records_succ_null hn n rrs⟩
  · intro pos p n h hb
    simp only [skip_resource_records, h]
    by_cases h10 : p + 10 ≤ buf.length
    · rw [if_pos h10, rd16_eq (by omega)]
      simp only
      rw [if_neg (by omega)]
    · rw [if_neg h10]
  · intro pos r p1 rr h hrec
    obtain ⟨r1, od, hp, _, _, _, _, ho⟩ := process_resource_record_ok hrec
    rw [h] at hp
    simp only [Res.ok.injEq] at hp
    subst hp
    cases od with
    | none => simp at ho
    | some d =>
      simp only [Option.map_some', Option.some.injEq] at ho
      subst ho
      exact ⟨rfl, rfl, rfl, rfl, rfl, rfl⟩

/-- Instances of `record_fixed_fields`: the A record of `aRecordBuf`, whose TTL
`80 00 00 01` is 2147483649, and the record of `longRecordBuf`, which runs past
the end of the buffer. -/
theorem record_fixed_fields_witness :
    process_resource_record aRecordBuf 0 =
      .ok (17, some { name := [97], namelen := 1, type := 1, cls := 1, ttl := 2147483649,
                      rdata := .addr4 [1, 2, 3, 4], rdlength := 4 }) ∧
    be32At aRecordBuf 7 = 2147483649 ∧
    process_resource_record longRecordBuf 0 = .null ∧
    skip_resource_records longRecordBuf 1 0 = .null :=
  ⟨by decide,
   ((record_fixed_fields aRecordBuf).2.2.2 7).2.trans (by decide),
   ((record_fixed_fields longRecordBuf).1 0 ⟨3, [97], 1⟩ (by decide) (Or.inr (by decide))).1,
   (record_fixed_fields longRecordBuf).2.1 0 3 0 (by decide) (Or.inr (by decide))⟩

/-- C16 (cursor after a record).  When the body of the loop of
`process_resource_records` accepts a record, stored or not and of whatever type,
the cursor it returns is `p + 10 + RDLENGTH`, with `p` the position where the
owner name ended, it lies inside the buffer and the next record is decoded from
there; the bytes that the decoding of the RDATA consumed play no part.  The
same holds for `skip_resource_records`. -/
theorem record_cursor (buf : List UInt8) :
    (∀ (pos p1 : Nat) (o : Option rr_t), process_resource_record buf pos = .ok (p1, o) →
      ∃ r, parse_domain_name buf pos = .ok r ∧
        p1 = r.next + 10 + be16At buf (r.next + 8) ∧ p1 ≤ buf.length ∧
        ∀ (n : Nat) (rrs : List rr_t), process_resource_records buf (n + 1) pos rrs =
          process_resource_records buf n (r.next + 10 + be16At buf (r.next + 8))
            (rrs ++ o.toList)) ∧
    (∀ (pos p1 : Nat), skip_resource_records buf 1 pos = .ok p1 →
      ∃ p, skip_domain_name buf pos = .ok p ∧ p1 = p + 10 + be16At buf (p + 8) ∧
        p1 ≤ buf.length) := by
  constructor
  · intro pos p1 o h
    obtain ⟨r, od, hp, _, hrd, _, hp1, _⟩ := process_resource_record_ok h
    have e : p1 = r.next + 10 + be16At buf (r.next + 8) := by omega
    refine ⟨r, hp, e, by omega, fun n rrs => ?_⟩
    rw [records_succ_ok h n rrs, e]
  · intro pos p1 h
    simp only [skip_resource_records] at h
    cases hs : skip_domain_name buf pos with
    | ok p =>
      rw [hs] at h
      simp only at h
      by_cases h10 : p + 10 ≤ buf.length
      · rw [if_pos h10, rd16_eq (by omega)] at h
        simp only at h
        by_cases hrd : p + 10 + be16At buf (p + 8) ≤ buf.length
        · rw [if_pos hrd] at h
          simp only [Res.ok.injEq] at h
          exact ⟨p, rfl, by omega, by omega⟩
        · rw [if_neg hrd] at h
          simp at h
      · rw [if_neg h10] at h
        simp at h
    | null => rw [hs] at h; simp at h
    | oob x => rw [hs] at h; simp at h
    | diverge => rw [hs] at h; simp at h

/-- Instance of `record_cursor`: the CNAME record of `cnameRecordBuf` has a name of
2 bytes (a pointer) in an RDATA of 6 bytes, and the cursor moves to 3 + 10 + 6. -/
theorem record_cursor_witness :
    ∃ r, parse_domain_name cnameRecordBuf 0 = .ok r ∧
      19 = r.next + 10 + be16At cnameRecordBuf (r.next + 8) ∧ 19 ≤ cnameRecordBuf.length ∧
      ∀ (n : Nat) (rrs : List rr_t), process_resource_records cnameRecordBuf (n + 1) 0 rrs =
        process_resource_records cnameRecordBuf n (r.next + 10 + be16At cnameRecordBuf (r.next + 8))
          (rrs ++ (some { name := [97], namelen := 1, type := 5, cls := 1, ttl := 0,
                          rdata := rdata_t.cname [97] 1, rdlength := 6 }).toList) :=
  (record_cursor cnameRecordBuf).1 0 19 _ (by decide)

/-- The decoder once the length and the flags are accepted. -/
theorem process_response_eq {buf : List UInt8} (q a n : Option Nat)
    (hlen : 12 ≤ buf.length ∧ buf.length ≤ MAX_DNS_MESSAGE_SIZE)
    (hqr : byteAt buf 2 &&& 0x80 ≠ 0) (htc : byteAt buf 2 &&& 0x02 = 0)
    (hrc : byteAt buf 3 &&& 0x0f = 0) :
    dns_process_response buf q a n =
      (process_questions buf (section_count (be16At buf 4) q) 12 [] >>= fun x =>
       skip_questions buf (be16At buf 4 - section_count (be16At buf 4) q) x.1 >>= fun b =>
       process_resource_records buf (section_count (be16At buf 6) a) b [] >>= fun y =>
       skip_resource_records buf (be16At buf 6 - section_count (be16At buf 6) a) y.1 >>= fun c =>
       process_resource_records buf (section_count (be16At buf 8) n) c [] >>= fun z =>
       .ok { id := be16At buf 0, questions := x.2, answers := y.2, authorities := z.2 }) := by
  unfold dns_process_response
  rw [if_pos hlen, rd16_eq (by omega), rd_of_lt (show 2 < buf.length by omega)]
  simp only [Res.ok_bind]
  rw [if_pos hqr, if_pos htc, rd_of_lt (show 3 < buf.length by omega)]
  simp only [Res.ok_bind]
  rw [if_pos hrc, rd16_eq (by omega), rd16_eq (by omega), rd16_eq (by omega)]
  rfl

theorem process_response_header {buf : List UInt8} {q a n : Option Nat} {resp : dns_response_t}
    (h : dns_process_response buf q a n = .ok resp) :
    (12 ≤ buf.length ∧ buf.length ≤ MAX_DNS_MESSAGE_SIZE) ∧ byteAt buf 2 &&& 0x80 ≠ 0 ∧
      byteAt buf 2 &&& 0x02 = 0 ∧ byteAt buf 3 &&& 0x0f = 0 := by
  by_cases hlen : 12 ≤ buf.length ∧ buf.length ≤ MAX_DNS_MESSAGE_SIZE
  · refine ⟨hlen, ?_⟩
    by_contra hc
    have hf : byteAt buf 2 &&& 0x80 = 0 ∨ byteAt buf 2 &&& 0x02 ≠ 0 ∨
        byteAt buf 3 &&& 0x0f ≠ 0 := by
      by_cases h1 : byteAt buf 2 &&& 0x80 = 0
      · exact Or.inl h1
      · by_cases h2 : byteAt buf 2 &&& 0x02 = 0
        · by_cases h3 : byteAt buf 3 &&& 0x0f = 0
          · exact absurd ⟨h1, h2, h3⟩ hc
          · exact Or.inr (Or.inr h3)
        · exact Or.inr (Or.inl h2)
    unfold dns_process_response at h
    rw [if_pos hlen, rd16_eq (by omega), rd_of_lt (show 2 < buf.length by omega)] at h
    simp only [Res.ok_bind] at h
    rcases hf with hf | hf | hf
    · rw [if_neg (by simp [hf])] at h
      simp at h
    · by_cases h1 : byteAt buf 2 &&& 0x80 ≠ 0
      · rw [if_pos h1, if_neg hf] at h
        simp at h
      · rw [if_neg h1] at h
        simp at h
    · by_cases h1 : byteAt buf 2 &&& 0x80 ≠ 0
      · by_cases h2 : byteAt buf 2 &&& 0x02 = 0
        · rw [if_pos h1, if_pos h2, rd_of_lt (show 3 < buf.length by omega)] at h
          simp only [Res.ok_bind] at h
          rw [if_neg hf] at h
          simp at h
        · rw [if_pos h1, if_neg h2] at h
          simp at h
      · rw [if_neg h1] at h
        simp at h
  · unfold dns_process_response at h
    rw [if_neg hlen] at h
    simp at h

/-- The five calls behind a successful `dns_process_response`. -/
theorem process_response_ok {buf : List UInt8} {q a n : Option Nat} {resp : dns_response_t}
    (h : dns_process_response buf q a n = .ok resp) :
    ∃ (x : Nat × List dns_question_t) (b : Nat) (y : Nat × List rr_t) (c : Nat)
      (z : Nat × List rr_t),
      process_questions buf (section_count (be16At buf 4) q) 12 [] = .ok x ∧
      skip_questions buf (be16At buf 4 - section_count (be16At buf 4) q) x.1 = .ok b ∧
      process_resource_records buf (section_count (be16At buf 6) a) b [] = .ok y ∧
      skip_resource_records buf (be16At buf 6 - section_count (be16At buf 6) a) y.1 = .ok c ∧
      process_resource_records buf (section_count (be16At buf 8) n) c [] = .ok z ∧
      resp = { id := be16At buf 0, questions := x.2, answers := y.2, authorities := z.2 } := by
  obtain ⟨hlen, hqr, htc, hrc⟩ := process_response_header h
  rw [process_response_eq q a n hlen hqr htc hrc] at h
  obtain ⟨x, hx, h⟩ := bind_ok_inv h
  obtain ⟨b, hb, h⟩ := bind_ok_inv h
  obtain ⟨y, hy, h⟩ := bind_ok_inv h
  obtain ⟨c, hc, h⟩ := bind_ok_inv h
  obtain ⟨z, hz, h⟩ := bind_ok_inv h
  simp only [Res.ok.injEq] at h
  exact ⟨x, b, y, c, z, hx, hb, hy, hc, hz, h.symm⟩

theorem record_stored_kind {buf : List UInt8} {pos p1 : Nat} {rr : rr_t}
    (h : process_resource_record buf pos = .ok (p1, some rr)) : storedKind rr := by
  obtain ⟨r, od, _, _, _, hod, _, ho⟩ := process_resource_record_ok h
  cases od with
  | none => simp at ho
  | some d =>
    obtain ⟨hc, ht⟩ := record_rdata_some hod
    simp only [Option.map_some', Option.some.injEq] at ho
    subst ho
    refine ⟨hc, ?_⟩
    simp only
    rcases ht with ht | ht | ht | ht | ht <;> simp [ht]

theorem records_stored_kind (buf : List UInt8) :
    ∀ (n pos : Nat) (rrs : List rr_t) (p : Nat) (out : List rr_t),
      process_resource_records buf n pos rrs = .ok (p, out) →
      (∀ rr ∈ rrs, storedKind rr) → ∀ rr ∈ out, storedKind rr := by
  intro n
  induction n with
  | zero =>
    intro pos rrs p out h hr
    simp only [process_resource_records, Res.ok.injEq, Prod.mk.injEq] at h
    rw [← h.2]; exact hr
  | succ n ih =>
    intro pos rrs p out h hr
    cases hrec : process_resource_record buf pos with
    | ok x =>
      obtain ⟨p1, o⟩ := x
      rw [records_succ_ok hrec] at h
      refine ih _ _ _ _ h ?_
      intro rr hmem
      rcases List.mem_append.1 hmem with hm | hm
      · exact hr rr hm
      · cases o with
        | none => simp at hm
        | some r0 =>
          simp only [Option.toList, List.mem_singleton] at hm
          subst hm
          exact record_stored_kind hrec
    | null => simp [process_resource_records, hrec] at h
    | oob x => simp [process_resource_records, hrec] at h
    | diverge => simp [process_resource_records, hrec] at h

/-- C17 (records that are stored).  Every answer and authority that
`dns_process_response` returns has class 1 and a type among 1, 5, 6, 15 and 28.
A record of another class, or of class 1 and another type, that lies inside
the buffer is accepted whatever its RDATA holds, is not stored, and the next
record is decoded at `p + 10 + RDLENGTH`. -/
theorem stored_records (buf : List UInt8) :
    (∀ (q a n : Option Nat) (resp : dns_response_t), dns_process_response buf q a n = .ok resp →
      ∀ rr ∈ resp.answers ++ resp.authorities,
        rr.cls = 1 ∧ (rr.type = 1 ∨ rr.type = 5 ∨ rr.type = 6 ∨ rr.type = 15 ∨ rr.type = 28)) ∧
    (∀ (pos : Nat) (r : ParsedName), parse_domain_name buf pos = .ok r →
      r.next + 10 ≤ buf.length → r.next + 10 + be16At buf (r.next + 8) ≤ buf.length →
      (be16At buf (r.next + 2) ≠ 1 ∨
        (be16At buf r.next ≠ 1 ∧ be16At buf r.next ≠ 5 ∧ be16At buf r.next ≠ 6 ∧
          be16At buf r.next ≠ 15 ∧ be16At buf r.next ≠ 28)) →
      process_resource_record buf pos = .ok (r.next + 10 + be16At buf (r.next + 8), none) ∧
      ∀ (n : Nat) (rrs : List rr_t), process_resource_records buf (n + 1) pos rrs =
        process_resource_records buf n (r.next + 10 + be16At buf (r.next + 8)) rrs) := by
  constructor
  · intro q a n resp h rr hmem
    obtain ⟨x, b, y, c, z, _, _, hy, _, hz, rfl⟩ := process_response_ok h
    simp only at hmem
    rcases List.mem_append.1 hmem with hm | hm
    · exact records_stored_kind buf _ _ _ _ _ hy (by simp) rr hm
    · exact records_stored_kind buf _ _ _ _ _ hz (by simp) rr hm
  · intro pos r h h10 hrd hk
    have hrec : process_resource_record buf pos =
        .ok (r.next + 10 + be16At buf (r.next + 8), none) := by
      rw [process_resource_record_eq h h10 hrd, record_rdata_other (by
        rcases hk with hk | hk
        · exact Or.inl hk
        · exact Or.inr ⟨hk.1, hk.2.2.2.2, hk.2.1, hk.2.2.2.1, hk.2.2.1⟩)]
      simp only [Res.ok_bind, Option.map_none', Res.ok.injEq, Prod.mk.injEq, and_true]
      omega
    refine ⟨hrec, fun n rrs => ?_⟩
    rw [records_succ_ok hrec]
    simp

/-- Instances of `stored_records`: the TXT record of `txtRecordBuf` is skipped and
the A record after it is decoded. -/
theorem stored_records_witness :
    process_resource_record txtRecordBuf 0 = .ok (16, none) ∧
    process_resource_records txtRecordBuf 2 0 [] =
      .ok (32, [{ name := [97], namelen := 1, type := 1, cls := 1, ttl := 0,
                  rdata := .addr4 [1, 2, 3, 4], rdlength := 4 }]) :=
  have h := (stored_records txtRecordBuf).2 0 ⟨3, [97], 1⟩ (by decide) (by decide) (by decide)
    (Or.inr (by decide))
  ⟨h.1, (h.2 1 []).trans (by decide)⟩

theorem loop_in_bounds (maxp : Nat) (buf : List UInt8) :
    ∀ (fuel : Nat) (s : NameState), s.pos < buf.length →
      parse_domain_name_loop maxp buf fuel s = .null ∨
      parse_domain_name_loop maxp buf fuel s = .diverge ∨
      ∃ st, parse_domain_name_loop maxp buf fuel s = .ok st ∧ st.pos < buf.length := by
  intro fuel
  induction fuel with
  | zero => intro s _; exact Or.inr (Or.inl rfl)
  | succ f ih =>
    intro s hs
    rw [loop_succ]
    rcases step_cases maxp buf s with ⟨hge, _⟩ | ⟨hp, h0, hst⟩ | ⟨h0, hl, hb, hn, hst⟩ |
      ⟨hp, hc, hn, ht, hst⟩ | ⟨_, hst⟩
    · omega
    · rw [hst]; exact Or.inr (Or.inr ⟨s, rfl, hp⟩)
    · rw [hst]; exact ih _ (by simp only; omega)
    · rw [hst]; exact ih _ (by simp only; exact ht)
    · rw [hst]; exact Or.inl rfl

/-- A decode that starts inside the buffer, or at its end, returns a position
inside the buffer, or its end, or fails with `NULL`. -/
theorem parse_in_bounds {buf : List UInt8} {pos : Nat} (hpos : pos ≤ buf.length) :
    parse_domain_name buf pos = .null ∨
      ∃ r, parse_domain_name buf pos = .ok r ∧ r.next ≤ buf.length := by
  by_cases hp : pos = buf.length
  · left
    unfold parse_domain_name parse_domain_name_lim parse_domain_name_state
    rw [if_neg (by simpa using hp)]
    rfl
  · have hlt : pos < buf.length := by omega
    rcases loop_in_bounds MAX_POINTERS buf (nameFuel MAX_POINTERS buf.length) ⟨pos, [], 0, 0⟩ hlt
      with h | h | ⟨st, h, hst⟩
    · exact Or.inl (parse_null_of_state (state_of_loop hp h (by simp)))
    · exact absurd h (loop_terminates MAX_POINTERS buf _ _ (Nat.zero_le _)
        (initial_measure MAX_POINTERS buf pos))
    · have hs := state_of_loop hp h (by simp)
      by_cases hlen : st.name.length > 0
      · right
        have hr : parse_domain_name buf pos =
            .ok { next := if st.npointers = 0 then st.pos + 1 else st.next,
                  name := st.name, namelen := st.name.length } := by
          unfold parse_domain_name
          rw [lim_of_state hs, if_pos hlen]
        refine ⟨_, hr, ?_⟩
        have hend := parse_resume buf pos st _ hs hr
        by_cases hnp : st.npointers = 0
        · simp only [hnp, if_true]
          omega
        · exact (hend.2 (by omega)).2.2
      · left
        unfold parse_domain_name
        rw [lim_of_state hs, if_neg hlen]

theorem record_rdata_a (buf : List UInt8) (p l : Nat) :
    record_rdata buf p 1 1 l =
      if l = 4 then memrd buf (p + 10) 4 >>= fun addr => pure (some (.addr4 addr))
      else .null := rfl

theorem record_rdata_aaaa (buf : List UInt8) (p l : Nat) :
    record_rdata buf p 28 1 l =
      if l = 16 then memrd buf (p + 10) 16 >>= fun addr => pure (some (.addr6 addr))
      else .null := rfl

theorem record_rdata_soa (buf : List UInt8) (p l : Nat) :
    record_rdata buf p 6 1 l =
      (parse_domain_name buf (p + 10) >>= fun ns =>
       parse_domain_name buf ns.next >>= fun mb =>
       if mb.next + 20 ≤ buf.length then
         rd32 buf mb.next >>= fun serial =>
         rd32 buf (mb.next + 4) >>= fun refresh =>
         rd32 buf (mb.next + 8) >>= fun retry =>
         rd32 buf (mb.next + 12) >>= fun expire =>
         rd32 buf (mb.next + 16) >>= fun minimum_ttl =>
         pure (some (.soa ns.name ns.namelen mb.name mb.namelen
                      serial refresh retry expire minimum_ttl))
       else .null) := rfl

/-- C18 (address records).  For a record of class IN whose fixed fields lie inside
the buffer: an A record with RDLENGTH 4 is stored with the 4 bytes of its RDATA,
and with any other RDLENGTH it makes the decode fail; an AAAA record with
RDLENGTH 16 is stored with the 16 bytes of its RDATA, and with any other
RDLENGTH it makes the decode fail. -/
theorem address_records (buf : List UInt8) (pos : Nat) (r : ParsedName)
    (h : parse_domain_name buf pos = .ok r) (h10 : r.next + 10 ≤ buf.length)
    (hcls : be16At buf (r.next + 2) = 1) :
    (be16At buf r.next = 1 →
      (be16At buf (r.next + 8) = 4 → r.next + 14 ≤ buf.length →
        process_resource_record buf pos =
          .ok (r.next + 14,
            some { name := r.name, namelen := r.namelen, type := 1, cls := 1,
                   ttl := be32At buf (r.next + 4),
                   rdata := .addr4 ((buf.drop (r.next + 10)).take 4), rdlength := 4 })) ∧
      (be16At buf (r.next + 8) ≠ 4 →
        process_resource_record buf pos = .null ∧
        ∀ (n : Nat) (rrs : List rr_t), process_resource_records buf (n + 1) pos rrs = .null)) ∧
    (be16At buf r.next = 28 →
      (be16At buf (r.next + 8) = 16 → r.next + 26 ≤ buf.length →
        process_resource_record buf pos =
          .ok (r.next + 26,
            some { name := r.name, namelen := r.namelen, type := 28, cls := 1,
                   ttl := be32At buf (r.next + 4),
                   rdata := .addr6 ((buf.drop (r.next + 10)).take 16), rdlength := 16 })) ∧
      (be16At buf (r.next + 8) ≠ 16 →
        process_resource_record buf pos = .null ∧
        ∀ (n : Nat) (rrs : List rr_t), process_resource_records buf (n + 1) pos rrs = .null)) := by
  have hnull : ∀ {t l : Nat}, be16At buf r.next = t → (t = 1 ∧ l = 4 ∨ t = 28 ∧ l = 16) →
      be16At buf (r.next + 8) ≠ l → process_resource_record buf pos = .null := by
    intro t l ht htl hl
    by_cases hrd : r.next + 10 + be16At buf (r.next + 8) ≤ buf.length
    · rw [process_resource_record_eq h h10 hrd, hcls, ht]
      rcases htl with ⟨rfl, rfl⟩ | ⟨rfl, rfl⟩
      · rw [record_rdata_a, if_neg hl]
        rfl
      · rw [record_rdata_aaaa, if_neg hl]
        rfl
    · exact process_resource_record_bounds h (Or.inr (by omega))
  constructor
  · intro ht
    constructor
    · intro hl h14
      rw [process_resource_record_eq h h10 (by omega), hcls, ht, hl]
      rw [record_rdata_a, if_pos rfl, memrd_of_le (by omega)]
      rfl
    · intro hl
      have hn := hnull ht (Or.inl ⟨rfl, rfl⟩) hl
      exact ⟨hn, fun n rrs => records_succ_null hn n rrs⟩
  · intro ht
    constructor
    · intro hl h26
      rw [process_resource_record_eq h h10 (by omega), hcls, ht, hl]
      rw [record_rdata_aaaa, if_pos rfl, memrd_of_le (by omega)]
      rfl
    · intro hl
      have hn := hnull ht (Or.inr ⟨rfl, rfl⟩) hl
      exact ⟨hn, fun n rrs => records_succ_null hn n rrs⟩

/-- Instances of `address_records`: an A record, an A record with RDLENGTH 3 and an
AAAA record. -/
theorem address_records_witness :
    process_resource_record aRecordBuf 0 =
      .ok (17, some { name := [97], namelen := 1, type := 1, cls := 1, ttl := 2147483649,
                      rdata := .addr4 [1, 2, 3, 4], rdlength := 4 }) ∧
    process_resource_record shortARecordBuf 0 = .null ∧
    process_resource_record aaaaRecordBuf 0 =
      .ok (29, some { name := [97], namelen := 1, type := 28, cls := 1, ttl := 0,
                      rdata := .addr6 [1, 2, 3, 4, 5, 6, 7, 8, 9, 10, 11, 12, 13, 14, 15, 16],
                      rdlength := 16 }) :=
  ⟨(((address_records aRecordBuf 0 ⟨3, [97], 1⟩ (by decide) (by decide) (by decide)).1
      (by decide)).1 (by decide) (by decide)).trans (by decide),
   (((address_records shortARecordBuf 0 ⟨3, [97], 1⟩ (by decide) (by decide) (by decide)).1
      (by decide)).2 (by decide)).1,
   (((address_records aaaaRecordBuf 0 ⟨3, [97], 1⟩ (by decide) (by decide) (by decide)).2
      (by decide)).1 (by decide) (by decide)).trans (by decide)⟩

/-- C19 (SOA records).  For an SOA record of class IN that lies inside the buffer:
the nameserver is the name decoded at the start of the RDATA, the mailbox the
name decoded where the first decode resumes, and serial, refresh, retry, expire
and minimum TTL are the five big-endian unsigned 32-bit values found where the
second decode resumes; the decode fails when either name fails to decode or
when fewer than 20 bytes of the buffer follow the two names. -/
theorem soa_record (buf : List UInt8) (pos : Nat) (r : ParsedName)
    (h : parse_domain_name buf pos = .ok r) (h10 : r.next + 10 ≤ buf.length)
    (hrd : r.next + 10 + be16At buf (r.next + 8) ≤ buf.length)
    (hcls : be16At buf (r.next + 2) = 1) (htype : be16At buf r.next = 6) :
    (∀ ns mb : ParsedName, parse_domain_name buf (r.next + 10) = .ok ns →
      parse_domain_name buf ns.next = .ok mb → mb.next + 20 ≤ buf.length →
      process_resource_record buf pos =
        .ok (r.next + 10 + be16At buf (r.next + 8),
          some { name := r.name, namelen := r.namelen, type := 6, cls := 1,
                 ttl := be32At buf (r.next + 4),
                 rdata := .soa ns.name ns.namelen mb.name mb.namelen
                   (be32At buf mb.next) (be32At buf (mb.next + 4)) (be32At buf (mb.next + 8))
                   (be32At buf (mb.next + 12)) (be32At buf (mb.next + 16)),
                 rdlength := be16At buf (r.next + 8) })) ∧
    ((∀ ns : ParsedName, parse_domain_name buf (r.next + 10) ≠ .ok ns) →
      process_resource_record buf pos = .null) ∧
    (∀ ns : ParsedName, parse_domain_name buf (r.next + 10) = .ok ns →
      (∀ mb : ParsedName, parse_domain_name buf ns.next ≠ .ok mb) →
      process_resource_record buf pos = .null) ∧
    (∀ ns mb : ParsedName, parse_domain_name buf (r.next + 10) = .ok ns →
      parse_domain_name buf ns.next = .ok mb → buf.length < mb.next + 20 →
      process_resource_record buf pos = .null) ∧
    (∀ p : Nat, be32At buf p = byteAt buf p * 16777216 + byteAt buf (p + 1) * 65536 +
      byteAt buf (p + 2) * 256 + byteAt buf (p + 3)) := by
  have heq := process_resource_record_eq h h10 hrd
  rw [hcls, htype, record_rdata_soa] at heq
  refine ⟨?_, ?_, ?_, ?_, be32At_eq buf⟩
  · intro ns mb hns hmb h20
    rw [heq, hns]
    simp only [Res.ok_bind]
    rw [hmb]
    simp only [Res.ok_bind]
    rw [if_pos h20, rd32_eq (by omega), rd32_eq (by omega), rd32_eq (by omega),
      rd32_eq (by omega), rd32_eq (by omega)]
    simp only [Res.ok_bind, Res.pure_eq, Option.map_some', Res.ok.injEq, Prod.mk.injEq,
      and_true]
    omega
  · intro hno
    rcases parse_in_bounds (show r.next + 10 ≤ buf.length from h10) with hns | ⟨ns, hns, _⟩
    · rw [heq, hns]
      rfl
    · exact absurd hns (hno ns)
  · intro ns hns hno
    have hle : ns.next ≤ buf.length := by
      rcases parse_in_bounds (show r.next + 10 ≤ buf.length from h10) with h1 | ⟨ns1, h1, hl1⟩
      · rw [hns] at h1; simp at h1
      · rw [hns] at h1
        simp only [Res.ok.injEq] at h1
        rw [h1]; exact hl1
    rcases parse_in_bounds hle with hmb | ⟨mb, hmb, _⟩
    · rw [heq, hns]
      simp only [Res.ok_bind]
      rw [hmb]
      rfl
    · exact absurd hmb (hno mb)
  · intro ns mb hns hmb h20
    rw [heq, hns]
    simp only [Res.ok_bind]
    rw [hmb]
    simp only [Res.ok_bind]
    rw [if_neg (by omega)]
    rfl

/-- Instance of `soa_record`: the record of `soaRecordBuf`, whose numbers
`00 00 00 01` to `00 00 00 05` decode to 1 to 5. -/
theorem soa_record_witness :
    process_resource_record soaRecordBuf 0 =
      .ok (37, some { name := [97], namelen := 1, type := 6, cls := 1, ttl := 0,
                      rdata := .soa [97] 1 [97] 1 1 2 3 4 5, rdlength := 24 }) :=
  ((soa_record soaRecordBuf 0 ⟨3, [97], 1⟩ (by decide) (by decide) (by decide) (by decide)
      (by decide)).1 ⟨15, [97], 1⟩ ⟨17, [97], 1⟩ (by decide) (by decide) (by decide)).trans
    (by decide)

theorem records_skip_one {buf : List UInt8} {pos p1 : Nat} {o : Option rr_t}
    (h : process_resource_record buf pos = .ok (p1, o)) (n : Nat) :
    skip_resource_records buf (n + 1) pos = skip_resource_records buf n p1 := by
  obtain ⟨r, od, hp, h10, hrd, _, hp1, _⟩ := process_resource_record_ok h
  simp only [skip_resource_records, skip_of_parse hp]
  rw [if_pos h10, rd16_eq (by omega)]
  simp only
  rw [if_pos hrd, hp1]

theorem records_skip (buf : List UInt8) :
    ∀ (n pos : Nat) (rrs : List rr_t) (p : Nat) (out : List rr_t) (m : Nat),
      process_resource_records buf n pos rrs = .ok (p, out) →
      skip_resource_records buf (n + m) pos = skip_resource_records buf m p := by
  intro n
  induction n with
  | zero =>
    intro pos rrs p out m h
    simp only [process_resource_records, Res.ok.injEq, Prod.mk.injEq] at h
    rw [Nat.zero_add, h.1]
  | succ n ih =>
    intro pos rrs p out m h
    cases hrec : process_resource_record buf pos with
    | ok x =>
      obtain ⟨p1, o⟩ := x
      rw [records_succ_ok hrec] at h
      rw [show n + 1 + m = (n + m) + 1 by omega, records_skip_one hrec]
      exact ih _ _ _ _ m h
    | null => simp [process_resource_records, hrec] at h
    | oob x => simp [process_resource_records, hrec] at h
    | diverge => simp [process_resource_records, hrec] at h

theorem records_add (buf : List UInt8) :
    ∀ (n m pos : Nat) (rrs : List rr_t),
      process_resource_records buf (n + m) pos rrs =
        (process_resource_records buf n pos rrs >>= fun x =>
          process_resource_records buf m x.1 x.2) := by
  intro n
  induction n with
  | zero =>
    intro m pos rrs
    rw [Nat.zero_add]
    rfl
  | succ n ih =>
    intro m pos rrs
    rw [show n + 1 + m = (n + m) + 1 by omega]
    cases hrec : process_resource_record buf pos with
    | ok x =>
      obtain ⟨p1, o⟩ := x
      rw [records_succ_ok hrec, records_succ_ok hrec]
      exact ih _ _ _
    | null => simp [process_resource_records, hrec]
    | oob x => simp [process_resource_records, hrec]
    | diverge => simp [process_resource_records, hrec]

theorem records_acc (buf : List UInt8) :
    ∀ (n pos : Nat) (rrs : List rr_t) (p : Nat) (out : List rr_t),
      process_resource_records buf n pos rrs = .ok (p, out) →
      ∃ new, out = rrs ++ new ∧ new.length ≤ n := by
  intro n
  induction n with
  | zero =>
    intro pos rrs p out h
    simp only [process_resource_records, Res.ok.injEq, Prod.mk.injEq] at h
    exact ⟨[], by simp [h.2], by simp⟩
  | succ n ih =>
    intro pos rrs p out h
    cases hrec : process_resource_record buf pos with
    | ok x =>
      obtain ⟨p1, o⟩ := x
      rw [records_succ_ok hrec] at h
      obtain ⟨new, hn, hl⟩ := ih _ _ _ _ h
      refine ⟨o.toList ++ new, by rw [hn, List.append_assoc], ?_⟩
      cases o <;> simp [Option.toList] <;> omega
    | null => simp [process_resource_records, hrec] at h
    | oob x => simp [process_resource_records, hrec] at h
    | diverge => simp [process_resource_records, hrec] at h

theorem section_count_ge {wire c : Nat} (h : wire ≤ c) : section_count wire (some c) = wire := by
  unfold section_count
  simp only
  split <;> omega

theorem section_count_le {wire c : Nat} (h : c ≤ wire) : section_count wire (some c) = c := by
  unfold section_count
  simp only
  split <;> omega

/-- C20 (section-capacity independence).  If a response decodes with an answer
capacity of at least ANCOUNT and every one of its ANCOUNT answer records is
stored, then with any answer capacity `c` of at most ANCOUNT it decodes too,
with the same id, questions and authorities, and its answers are the first `c`
answers of the full decode, `c` in number: the answer records beyond the
capacity are skipped on the wire and the authorities start where they did. -/
theorem answer_capacity_independence (buf : List UInt8) (q n : Option Nat) (acap c : Nat)
    (full : dns_response_t)
    (hfull : dns_process_response buf q (some acap) n = .ok full)
    (hcap : be16At buf 6 ≤ acap) (hall : full.answers.length = be16At buf 6)
    (hc : c ≤ be16At buf 6) :
    dns_process_response buf q (some c) n =
      .ok { id := full.id, questions := full.questions, answers := full.answers.take c,
            authorities := full.authorities } ∧
    (full.answers.take c).length = c := by
  obtain ⟨hlen, hqr, htc, hrc⟩ := process_response_header hfull
  obtain ⟨x, b, y, d, z, hx, hb, hy, hd, hz, rfl⟩ := process_response_ok hfull
  simp only at hall
  rw [section_count_ge hcap] at hy hd
  rw [Nat.sub_self] at hd
  simp only [skip_resource_records, Res.ok.injEq] at hd
  obtain ⟨m, hm⟩ : ∃ m, be16At buf 6 = c + m := ⟨be16At buf 6 - c, by omega⟩
  rw [hm, records_add] at hy
  obtain ⟨y1, hy1, hy2⟩ := bind_ok_inv hy
  obtain ⟨new1, hn1, hl1⟩ := records_acc buf _ _ _ _ _ hy1
  obtain ⟨new2, hn2, hl2⟩ := records_acc buf _ _ _ _ _ hy2
  have hlen1 : y1.2.length = c := by
    have : y.2.length = y1.2.length + new2.length := by rw [hn2]; simp
    have : y1.2.length = new1.length := by rw [hn1]; simp
    omega
  have htake : y.2.take c = y1.2 := by
    rw [hn2, List.take_append_of_le_length (by omega), List.take_of_length_le (by omega)]
  have hskip : skip_resource_records buf (be16At buf 6 - c) y1.1 = .ok d := by
    have := records_skip buf _ _ _ _ _ 0 hy2
    rw [Nat.add_zero] at this
    rw [show be16At buf 6 - c = m by omega, this, ← hd]
    rfl
  refine ⟨?_, by simp only; rw [htake, hlen1]⟩
  rw [process_response_eq q (some c) n hlen hqr htc hrc, hx]
  simp only [Res.ok_bind]
  rw [hb]
  simp only [Res.ok_bind]
  rw [section_count_le hc, hy1]
  simp only [Res.ok_bind]
  rw [hskip]
  simp only [Res.ok_bind]
  rw [hz]
  simp only [Res.ok_bind, htake]

/-- Instance of `answer_capacity_independence`: `fiveBuf` has ANCOUNT 5; with
capacity 2 exactly the first two answers are returned, and the authority that
follows the five answers is decoded. -/
theorem answer_capacity_independence_witness :
    dns_process_response fiveBuf none (some 2) (some 8) =
      .ok { id := 0, questions := [], answers := [aRecord 1, aRecord 2],
            authorities := [aRecord 6] } ∧
    ([aRecord 1, aRecord 2] : List rr_t).length = 2 :=
  answer_capacity_independence fiveBuf none (some 8) 8 2
    { id := 0, questions := [],
      answers := [aRecord 1, aRecord 2, aRecord 3, aRecord 4, aRecord 5],
      authorities := [aRecord 6] }
    (by decide) (by decide) (by decide) (by decide)

/-! ## The hash function and the DNS cache: lemmas and properties -/

theorem qtype_table (q : Nat) :
    dns_qtype_to_string q = ((qtypeNames.lookup q).getD "(unknown)") := by
  unfold dns_qtype_to_string qtypeNames
  simp only [DNS_QTYPE_A, DNS_QTYPE_NS, DNS_QTYPE_MD, DNS_QTYPE_MF, DNS_QTYPE_CNAME,
    DNS_QTYPE_SOA, DNS_QTYPE_MB, DNS_QTYPE_MG, DNS_QTYPE_MR, DNS_QTYPE_NULL, DNS_QTYPE_WKS,
    DNS_QTYPE_PTR, DNS_QTYPE_HINFO, DNS_QTYPE_MINFO, DNS_QTYPE_MX, DNS_QTYPE_TXT,
    DNS_QTYPE_AAAA, DNS_QTYPE_AXFR, DNS_QTYPE_MAILB, DNS_QTYPE_MAILA, DNS_QTYPE_ALL]
  by_cases hq : q < 256
  · interval_cases q <;> rfl
  · have hne : ∀ n : Nat, n < 256 → (q == n) = false := fun n hn => by
      simp only [beq_eq_false_iff_ne, ne_eq]; omega
    have e1 : ∀ (n : Nat) (s t : String), n < 256 → (if q = n then s else t) = t :=
      fun n s t hn => if_neg (by omega)
    have e2 : ∀ (n : Nat) (s : String) (l : List (Nat × String)), n < 256 →
        List.lookup q ((n, s) :: l) = List.lookup q l := fun n s l hn => by
      simp only [List.lookup, hne n hn]
    repeat rw [e1 _ _ _ (by decide)]
    repeat rw [e2 _ _ _ (by decide)]
    rfl

theorem qclass_table (q : Nat) :
    dns_qclass_to_string q = ((qclassNames.lookup q).getD "(unknown)") := by
  unfold dns_qclass_to_string qclassNames
  simp only [DNS_QCLASS_IN, DNS_QCLASS_CS, DNS_QCLASS_CH, DNS_QCLASS_HS, DNS_QCLASS_ANY]
  by_cases hq : q < 256
  · interval_cases q <;> rfl
  · have hne : ∀ n : Nat, n < 256 → (q == n) = false := fun n hn => by
      simp only [beq_eq_false_iff_ne, ne_eq]; omega
    have e1 : ∀ (n : Nat) (s t : String), n < 256 → (if q = n then s else t) = t :=
      fun n s t hn => if_neg (by omega)
    have e2 : ∀ (n : Nat) (s : String) (l : List (Nat × String)), n < 256 →
        List.lookup q ((n, s) :: l) = List.lookup q l := fun n s l hn => by
      simp only [List.lookup, hne n hn]
    repeat rw [e1 _ _ _ (by decide)]
    repeat rw [e2 _ _ _ (by decide)]
    rfl

theorem add32_lt (x y : Nat) : add32 x y < 2 ^ 32 := Nat.mod_lt _ (by decide)

theorem sub32_lt (x y : Nat) : sub32 x y < 2 ^ 32 := Nat.mod_lt _ (by decide)

theorem shl32_lt (x n : Nat) : shl32 x n < 2 ^ 32 := Nat.mod_lt _ (by decide)

theorem xor32_lt {x y : Nat} (hx : x < 2 ^ 32) (hy : y < 2 ^ 32) : x ^^^ y < 2 ^ 32 :=
  Nat.xor_lt_two_pow hx hy

theorem shr32_lt {x : Nat} (hx : x < 2 ^ 32) (n : Nat) : x >>> n < 2 ^ 32 :=
  lt_of_le_of_lt (by rw [Nat.shiftRight_eq_div_pow]; exact Nat.div_le_self _ _) hx

theorem mix_lt (s : hash_state_t) (hc : s.c < 2 ^ 32) :
    (mix s).a < 2 ^ 32 ∧ (mix s).b < 2 ^ 32 ∧ (mix s).c < 2 ^ 32 := by
  unfold mix
  simp only
  have h1 : sub32 (sub32 s.a s.b) s.c ^^^ s.c >>> 13 < 2 ^ 32 :=
    xor32_lt (sub32_lt _ _) (shr32_lt hc _)
  generalize sub32 (sub32 s.a s.b) s.c ^^^ s.c >>> 13 = a1 at h1 ⊢
  have h2 : sub32 (sub32 s.b s.c) a1 ^^^ shl32 a1 8 < 2 ^ 32 :=
    xor32_lt (sub32_lt _ _) (shl32_lt _ _)
  generalize sub32 (sub32 s.b s.c) a1 ^^^ shl32 a1 8 = b1 at h2 ⊢
  have h3 : sub32 (sub32 s.c a1) b1 ^^^ b1 >>> 13 < 2 ^ 32 :=
    xor32_lt (sub32_lt _ _) (shr32_lt h2 _)
  generalize sub32 (sub32 s.c a1) b1 ^^^ b1 >>> 13 = c1 at h3 ⊢
  have h4 : sub32 (sub32 a1 b1) c1 ^^^ c1 >>> 12 < 2 ^ 32 :=
    xor32_lt (sub32_lt _ _) (shr32_lt h3 _)
  generalize sub32 (sub32 a1 b1) c1 ^^^ c1 >>> 12 = a2 at h4 ⊢
  have h5 : sub32 (sub32 b1 c1) a2 ^^^ shl32 a2 16 < 2 ^ 32 :=
    xor32_lt (sub32_lt _ _) (shl32_lt _ _)
  generalize sub32 (sub32 b1 c1) a2 ^^^ shl32 a2 16 = b2 at h5 ⊢
  have h6 : sub32 (sub32 c1 a2) b2 ^^^ b2 >>> 5 < 2 ^ 32 :=
    xor32_lt (sub32_lt _ _) (shr32_lt h5 _)
  generalize sub32 (sub32 c1 a2) b2 ^^^ b2 >>> 5 = c2 at h6 ⊢
  have h7 : sub32 (sub32 a2 b2) c2 ^^^ c2 >>> 3 < 2 ^ 32 :=
    xor32_lt (sub32_lt _ _) (shr32_lt h6 _)
  generalize sub32 (sub32 a2 b2) c2 ^^^ c2 >>> 3 = a3 at h7 ⊢
  have h8 : sub32 (sub32 b2 c2) a3 ^^^ shl32 a3 10 < 2 ^ 32 :=
    xor32_lt (sub32_lt _ _) (shl32_lt _ _)
  generalize sub32 (sub32 b2 c2) a3 ^^^ shl32 a3 10 = b3 at h8 ⊢
  exact ⟨h7, h8, xor32_lt (sub32_lt _ _) (shr32_lt h8 _)⟩

theorem hash_tail_c_lt (k : List UInt8) (s : hash_state_t) (hc : s.c < 2 ^ 32) :
    (hash_tail k s).c < 2 ^ 32 := by
  unfold hash_tail
  simp only
  split_ifs <;> first | exact add32_lt _ _ | exact hc

theorem hash_value_lt (data : List UInt8) (initval : Nat) : hash_value data initval < 2 ^ 32 := by
  unfold hash_value
  exact (mix_lt _ (hash_tail_c_lt _ _ (add32_lt _ _))).2.2

theorem hash_some (data : List UInt8) (initval : Nat) {max : Nat} (h : 0 < max) :
    hash data initval max = some (hash_value data initval % max) := by
  unfold hash
  rw [if_neg (by omega)]

theorem hash_lt {data : List UInt8} {initval max v : Nat} (h : hash data initval max = some v) :
    v < max := by
  unfold hash at h
  by_cases hm : max = 0
  · rw [if_pos hm] at h; cases h
  · rw [if_neg hm] at h
    cases h
    exact Nat.mod_lt _ (by omega)

theorem hash_max_pos {data : List UInt8} {initval max v : Nat}
    (h : hash data initval max = some v) : 0 < max := by
  have := hash_lt h
  omega

theorem same_host_iff (k : List UInt8) (e : cache_entry_t) (h : e.hostlen ≤ e.host.length) :
    same_host k e = true ↔ entry_key e = k := by
  unfold same_host memcmp_eq entry_key
  simp only [Bool.and_eq_true, decide_eq_true_eq, List.take_length]
  constructor
  · rintro ⟨h1, h2⟩
    rw [← h1, ← h2]
  · intro h1
    have hl : k.length = e.hostlen := by
      rw [← h1, List.length_take]; omega
    refine ⟨hl, ?_⟩
    rw [hl, h1]

theorem same_host_false_iff (k : List UInt8) (e : cache_entry_t) (h : e.hostlen ≤ e.host.length) :
    same_host k e = false ↔ entry_key e ≠ k := by
  rw [Ne, ← same_host_iff k e h]
  cases same_host k e <;> simp

theorem remove_expired_loop_eq (now : Int) (l : List cache_entry_t) :
    dnscache_remove_expired_loop now l =
      l.filter (fun e => decide (now ≤ e.expiration_time)) := by
  induction l with
  | nil => rfl
  | cons e l ih =>
    unfold dnscache_remove_expired_loop
    by_cases h : now > e.expiration_time
    · rw [if_pos h, ih, List.filter_cons_of_neg]
      simp only [decide_eq_true_eq, not_le]; exact h
    · rw [if_neg h, ih, List.filter_cons_of_pos]
      simp only [decide_eq_true_eq]; omega

theorem remove_expired_loop_append (now : Int) (l m : List cache_entry_t) :
    dnscache_remove_expired_loop now (l ++ m) =
      dnscache_remove_expired_loop now l ++ dnscache_remove_expired_loop now m := by
  simp only [remove_expired_loop_eq, List.filter_append]

theorem remove_expired_loop_mem (now : Int) (l : List cache_entry_t) (x : cache_entry_t) :
    x ∈ dnscache_remove_expired_loop now l ↔ x ∈ l ∧ now ≤ x.expiration_time := by
  simp only [remove_expired_loop_eq, List.mem_filter, decide_eq_true_eq]

theorem remove_expired_loop_sublist (now : Int) (l : List cache_entry_t) :
    (dnscache_remove_expired_loop now l).Sublist l := by
  rw [remove_expired_loop_eq]; exact List.filter_sublist l

theorem remove_expired_loop_id (now : Int) (l : List cache_entry_t)
    (h : ∀ x ∈ l, now ≤ x.expiration_time) : dnscache_remove_expired_loop now l = l := by
  rw [remove_expired_loop_eq, List.filter_eq_self]
  intro x hx
  simp only [decide_eq_true_eq]; exact h x hx

theorem add_loop_notfound (host : List UInt8) (exp now : Int) :
    ∀ (b kept : List cache_entry_t), (∀ x ∈ b, same_host host x = false) →
      dnscache_add_loop host exp now kept b =
        (false, kept ++ dnscache_remove_expired_loop now b) := by
  intro b
  induction b with
  | nil => intro kept _; simp [dnscache_add_loop, dnscache_remove_expired_loop]
  | cons e b ih =>
    intro kept h
    have he : same_host host e = false := h e (List.mem_cons_self _ _)
    have hb : ∀ x ∈ b, same_host host x = false := fun x hx => h x (List.mem_cons_of_mem _ hx)
    unfold dnscache_add_loop dnscache_remove_expired_loop
    rw [he]
    simp only [Bool.false_eq_true, if_false]
    by_cases hx : now > e.expiration_time
    · rw [if_pos hx, if_pos hx, ih kept hb]
    · rw [if_neg hx, if_neg hx, ih _ hb, List.append_assoc]; rfl

theorem add_loop_found (host : List UInt8) (exp now : Int) (e : cache_entry_t)
    (post : List cache_entry_t) (he : same_host host e = true) :
    ∀ (pre kept : List cache_entry_t), (∀ x ∈ pre, same_host host x = false) →
      dnscache_add_loop host exp now kept (pre ++ e :: post) =
        (true, { e with expiration_time := exp } ::
          (kept ++ dnscache_remove_expired_loop now pre ++ post)) := by
  intro pre
  induction pre with
  | nil =>
    intro kept _
    simp [dnscache_add_loop, dnscache_remove_expired_loop, he]
  | cons y pre ih =>
    intro kept h
    have hy : same_host host y = false := h y (List.mem_cons_self _ _)
    have hp : ∀ x ∈ pre, same_host host x = false :=
      fun x hx => h x (List.mem_cons_of_mem _ hx)
    rw [List.cons_append]
    unfold dnscache_add_loop dnscache_remove_expired_loop
    rw [hy]
    simp only [Bool.false_eq_true, if_false]
    by_cases hx : now > y.expiration_time
    · rw [if_pos hx, if_pos hx, ih kept hp]
    · rw [if_neg hx, if_neg hx, ih _ hp]
      simp only [List.append_assoc, List.singleton_append]

theorem get_loop_notfound (host : List UInt8) (now : Int) (alen : Nat) :
    ∀ (b kept : List cache_entry_t), (∀ x ∈ b, same_host host x = false) →
      dnscache_get_loop host now alen kept b =
        (none, kept ++ dnscache_remove_expired_loop now b) := by
  intro b
  induction b with
  | nil => intro kept _; simp [dnscache_get_loop, dnscache_remove_expired_loop]
  | cons e b ih =>
    intro kept h
    have he : same_host host e = false := h e (List.mem_cons_self _ _)
    have hb : ∀ x ∈ b, same_host host x = false := fun x hx => h x (List.mem_cons_of_mem _ hx)
    unfold dnscache_get_loop dnscache_remove_expired_loop
    rw [he]
    simp only [Bool.false_eq_true, if_false]
    by_cases hx : now > e.expiration_time
    · rw [if_pos hx, if_pos hx, ih kept hb]
    · rw [if_neg hx, if_neg hx, ih _ hb, List.append_assoc]; rfl

theorem get_loop_found (host : List UInt8) (now : Int) (alen : Nat) (e : cache_entry_t)
    (post : List cache_entry_t) (he : same_host host e = true) :
    ∀ (pre kept : List cache_entry_t), (∀ x ∈ pre, same_host host x = false) →
      dnscache_get_loop host now alen kept (pre ++ e :: post) =
        if now ≤ e.expiration_time then
          (some (e.addr.take alen), e :: (kept ++ dnscache_remove_expired_loop now pre ++ post))
        else (none, kept ++ dnscache_remove_expired_loop now pre ++ post) := by
  intro pre
  induction pre with
  | nil =>
    intro kept _
    simp [dnscache_get_loop, dnscache_remove_expired_loop, he]
  | cons y pre ih =>
    intro kept h
    have hy : same_host host y = false := h y (List.mem_cons_self _ _)
    have hp : ∀ x ∈ pre, same_host host x = false :=
      fun x hx => h x (List.mem_cons_of_mem _ hx)
    rw [List.cons_append]
    unfold dnscache_get_loop dnscache_remove_expired_loop
    rw [hy]
    simp only [Bool.false_eq_true, if_false]
    by_cases hx : now > y.expiration_time
    · rw [if_pos hx, if_pos hx, ih kept hp]
    · rw [if_neg hx, if_neg hx, ih _ hp]
      simp only [List.append_assoc, List.singleton_append]

theorem split_first (P : cache_entry_t → Bool) (l : List cache_entry_t) :
    (∀ x ∈ l, P x = false) ∨
    ∃ pre e post, l = pre ++ e :: post ∧ (∀ x ∈ pre, P x = false) ∧ P e = true := by
  induction l with
  | nil => left; intro x hx; cases hx
  | cons y l ih =>
    by_cases hy : P y = true
    · right; exact ⟨[], y, l, rfl, fun x hx => absurd hx (List.not_mem_nil x), hy⟩
    · have hy2 : P y = false := by cases h : P y <;> simp_all
      rcases ih with h | ⟨pre, e, post, hl, hp, he⟩
      · left
        intro x hx
        rcases List.mem_cons.1 hx with rfl | hx
        · exact hy2
        · exact h x hx
      · right
        refine ⟨y :: pre, e, post, by rw [hl]; rfl, ?_, he⟩
        intro x hx
        rcases List.mem_cons.1 hx with rfl | hx
        · exact hy2
        · exact hp x hx

theorem bucket_at (l : List (List cache_entry_t)) (i : Nat) (h : i < l.length) :
    l[i]? = some (l.getD i []) := by
  rw [List.getD_eq_getElem?_getD, List.getElem?_eq_getElem h]; rfl

theorem bucket_set (l : List (List cache_entry_t)) (i j : Nat) (b b1 : List cache_entry_t)
    (h : (l.set i b)[j]? = some b1) : (j = i ∧ b1 = b) ∨ (j ≠ i ∧ l[j]? = some b1) := by
  by_cases hj : i = j
  · subst hj
    left
    by_cases hi : i < l.length
    · rw [List.getElem?_set_self hi] at h
      exact ⟨rfl, (Option.some.inj h).symm⟩
    · rw [List.getElem?_eq_none (by rw [List.length_set]; omega)] at h
      cases h
  · right
    rw [List.getElem?_set_ne hj] at h
    exact ⟨fun e => hj e.symm, h⟩

theorem add_eq (c : dnscache_t) (k a : List UInt8) (alen : Nat) (exp now : Int) (alloc : Bool)
    (i : Nat) (hk : k.length ≤ HOSTNAME_MAX_LEN) (hi : hash k initval c.buckets.length = some i) :
    dnscache_add c k a alen exp now alloc =
      if (dnscache_add_loop k exp now [] (c.buckets.getD i [])).1 then
        some ⟨0, ⟨c.buckets.set i
          (dnscache_add_loop k exp now [] (c.buckets.getD i [])).2 ⟩⟩
      else if alloc then
        some ⟨0, ⟨c.buckets.set i
          ({ addr := a.take alen, expiration_time := exp, hostlen := k.length % 256,
             host := k ++ [0] } :: (dnscache_add_loop k exp now [] (c.buckets.getD i [])).2) ⟩⟩
      else
        some ⟨-1, ⟨c.buckets.set i
          (dnscache_add_loop k exp now [] (c.buckets.getD i [])).2 ⟩⟩ := by
  unfold dnscache_add dnscache_t.nbuckets
  rw [if_pos hk, hi]

theorem get_eq (c : dnscache_t) (k : List UInt8) (alen : Nat) (now : Int)
    (i : Nat) (hk : k.length ≤ HOSTNAME_MAX_LEN) (hi : hash k initval c.buckets.length = some i) :
    dnscache_get c k now alen =
      match (dnscache_get_loop k now alen [] (c.buckets.getD i [])).1 with
      | some a => some ⟨0, some a, ⟨c.buckets.set i
          (dnscache_get_loop k now alen [] (c.buckets.getD i [])).2 ⟩⟩
      | none => some ⟨-1, none, ⟨c.buckets.set i
          (dnscache_get_loop k now alen [] (c.buckets.getD i [])).2 ⟩⟩ := by
  unfold dnscache_get dnscache_t.nbuckets
  rw [if_pos hk, hi]

/-- The entry that `dnscache_add` creates. -/
theorem add_new (c : dnscache_t) (k a : List UInt8) (alen : Nat) (exp now : Int)
    (i : Nat) (hk : k.length ≤ HOSTNAME_MAX_LEN) (hi : hash k initval c.buckets.length = some i)
    (hb : ∀ x ∈ c.buckets.getD i [], same_host k x = false) :
    dnscache_add c k a alen exp now true =
      some ⟨0, ⟨c.buckets.set i
          ({ addr := a.take alen, expiration_time := exp, hostlen := k.length % 256,
              host := k ++ [0] } :: dnscache_remove_expired_loop now (c.buckets.getD i [])) ⟩⟩ := by
  rw [add_eq c k a alen exp now true i hk hi, add_loop_notfound k exp now _ _ hb]
  simp

theorem add_fail (c : dnscache_t) (k a : List UInt8) (alen : Nat) (exp now : Int)
    (i : Nat) (hk : k.length ≤ HOSTNAME_MAX_LEN) (hi : hash k initval c.buckets.length = some i)
    (hb : ∀ x ∈ c.buckets.getD i [], same_host k x = false) :
    dnscache_add c k a alen exp now false =
      some ⟨-1, ⟨c.buckets.set i
          (dnscache_remove_expired_loop now (c.buckets.getD i [])) ⟩⟩ := by
  rw [add_eq c k a alen exp now false i hk hi, add_loop_notfound k exp now _ _ hb]
  simp

theorem add_old (c : dnscache_t) (k a : List UInt8) (alen : Nat) (exp now : Int) (alloc : Bool)
    (i : Nat) (hk : k.length ≤ HOSTNAME_MAX_LEN) (hi : hash k initval c.buckets.length = some i)
    (pre post : List cache_entry_t) (e : cache_entry_t)
    (hb : c.buckets.getD i [] = pre ++ e :: post)
    (hpre : ∀ x ∈ pre, same_host k x = false) (he : same_host k e = true) :
    dnscache_add c k a alen exp now alloc =
      some ⟨0, ⟨c.buckets.set i
          ({ e with expiration_time := exp } ::
          (dnscache_remove_expired_loop now pre ++ post)) ⟩⟩ := by
  rw [add_eq c k a alen exp now alloc i hk hi, hb, add_loop_found k exp now e post he pre [] hpre]
  simp

theorem get_absent (c : dnscache_t) (k : List UInt8) (alen : Nat) (now : Int)
    (i : Nat) (hk : k.length ≤ HOSTNAME_MAX_LEN) (hi : hash k initval c.buckets.length = some i)
    (hb : ∀ x ∈ c.buckets.getD i [], same_host k x = false) :
    dnscache_get c k now alen =
      some ⟨-1, none, ⟨c.buckets.set i
          (dnscache_remove_expired_loop now (c.buckets.getD i [])) ⟩⟩ := by
  rw [get_eq c k alen now i hk hi, get_loop_notfound k now alen _ _ hb]
  simp

theorem get_live (c : dnscache_t) (k : List UInt8) (alen : Nat) (now : Int)
    (i : Nat) (hk : k.length ≤ HOSTNAME_MAX_LEN) (hi : hash k initval c.buckets.length = some i)
    (pre post : List cache_entry_t) (e : cache_entry_t)
    (hb : c.buckets.getD i [] = pre ++ e :: post)
    (hpre : ∀ x ∈ pre, same_host k x = false) (he : same_host k e = true)
    (ht : now ≤ e.expiration_time) :
    dnscache_get c k now alen =
      some ⟨0, some (e.addr.take alen), ⟨c.buckets.set i
          (e :: (dnscache_remove_expired_loop now pre ++ post)) ⟩⟩ := by
  rw [get_eq c k alen now i hk hi, hb, get_loop_found k now alen e post he pre [] hpre, if_pos ht]
  simp

theorem get_expired (c : dnscache_t) (k : List UInt8) (alen : Nat) (now : Int)
    (i : Nat) (hk : k.length ≤ HOSTNAME_MAX_LEN) (hi : hash k initval c.buckets.length = some i)
    (pre post : List cache_entry_t) (e : cache_entry_t)
    (hb : c.buckets.getD i [] = pre ++ e :: post)
    (hpre : ∀ x ∈ pre, same_host k x = false) (he : same_host k e = true)
    (ht : e.expiration_time < now) :
    dnscache_get c k now alen =
      some ⟨-1, none, ⟨c.buckets.set i
          (dnscache_remove_expired_loop now pre ++ post) ⟩⟩ := by
  rw [get_eq c k alen now i hk hi, hb, get_loop_found k now alen e post he pre [] hpre,
    if_neg (by omega)]
  simp

theorem mem_entries (c : dnscache_t) (x : cache_entry_t) :
    x ∈ entries c ↔ ∃ (i : Nat) (b : List cache_entry_t), c.buckets[i]? = some b ∧ x ∈ b := by
  unfold entries
  rw [List.mem_flatten]
  constructor
  · rintro ⟨b, hb, hx⟩
    obtain ⟨i, hi, rfl⟩ := List.getElem_of_mem hb
    exact ⟨i, _, List.getElem?_eq_getElem hi, hx⟩
  · rintro ⟨i, b, hb, hx⟩
    exact ⟨b, List.getElem?_mem hb, hx⟩

theorem entry_ok_le {alen n i : Nat} {e : cache_entry_t} (h : entry_ok alen n i e) :
    e.hostlen ≤ e.host.length := by
  have := h.2.1; omega

theorem entry_key_length {alen n i : Nat} {e : cache_entry_t} (h : entry_ok alen n i e) :
    (entry_key e).length = e.hostlen := by
  unfold entry_key
  rw [List.length_take]
  have := h.2.1; omega

theorem new_entry_key (k a : List UInt8) (alen : Nat) (exp : Int)
    (hk : k.length ≤ HOSTNAME_MAX_LEN) :
    entry_key { addr := a.take alen, expiration_time := exp, hostlen := k.length % 256,
                host := k ++ [0] } = k := by
  unfold entry_key
  unfold HOSTNAME_MAX_LEN at hk
  simp only
  rw [Nat.mod_eq_of_lt (by omega), List.take_left]

theorem new_entry_ok (k a : List UInt8) (alen n i : Nat) (exp : Int)
    (hk : k.length ≤ HOSTNAME_MAX_LEN) (hi : hash k initval n = some i) :
    entry_ok alen n i { addr := a.take alen, expiration_time := exp, hostlen := k.length % 256,
                        host := k ++ [0] } := by
  refine ⟨?_, ?_, ?_, ?_⟩
  · unfold HOSTNAME_MAX_LEN at *
    simp only
    rw [Nat.mod_eq_of_lt (by omega)]; exact hk
  · unfold HOSTNAME_MAX_LEN at *
    simp only [List.length_append, List.length_singleton]
    rw [Nat.mod_eq_of_lt (by omega)]
  · simp only [List.length_take]; omega
  · rw [new_entry_key k a alen exp hk]; exact hi

theorem bucket_ok_sublist {alen n i : Nat} {b b1 : List cache_entry_t}
    (h : bucket_ok alen n i b) (hs : b1.Sublist b) : bucket_ok alen n i b1 :=
  ⟨fun e he => h.1 e (hs.subset he), h.2.sublist (hs.map entry_key)⟩

theorem bucket_ok_sweep {alen n i : Nat} {b : List cache_entry_t} (now : Int)
    (h : bucket_ok alen n i b) : bucket_ok alen n i (dnscache_remove_expired_loop now b) :=
  bucket_ok_sublist h (remove_expired_loop_sublist now b)

theorem bucket_ok_cons {alen n i : Nat} {b : List cache_entry_t} {e : cache_entry_t}
    (h : bucket_ok alen n i b) (he : entry_ok alen n i e)
    (hne : ∀ x ∈ b, entry_key x ≠ entry_key e) : bucket_ok alen n i (e :: b) := by
  refine ⟨?_, ?_⟩
  · intro x hx
    rcases List.mem_cons.1 hx with rfl | hx
    · exact he
    · exact h.1 x hx
  · rw [List.map_cons, List.nodup_cons]
    refine ⟨?_, h.2⟩
    intro hm
    obtain ⟨x, hx, hxe⟩ := List.mem_map.1 hm
    exact hne x hx hxe

theorem bucket_ok_middle {alen n i : Nat} {pre post : List cache_entry_t} {e : cache_entry_t}
    (h : bucket_ok alen n i (pre ++ e :: post)) :
    bucket_ok alen n i (pre ++ post) ∧ entry_ok alen n i e ∧
    ∀ x ∈ pre ++ post, entry_key x ≠ entry_key e := by
  have hp : (pre ++ e :: post).Perm (e :: (pre ++ post)) := List.perm_middle
  have hnd : ((e :: (pre ++ post)).map entry_key).Nodup := (hp.map entry_key).nodup_iff.1 h.2
  rw [List.map_cons, List.nodup_cons] at hnd
  refine ⟨⟨fun x hx => h.1 x ?_, hnd.2⟩, h.1 e (by simp), ?_⟩
  · rcases List.mem_append.1 hx with hx | hx
    · exact List.mem_append_left _ hx
    · exact List.mem_append_right _ (List.mem_cons_of_mem _ hx)
  · intro x hx hxe
    exact hnd.1 (List.mem_map.2 ⟨x, hx, hxe⟩)

theorem bucket_ok_touch {alen n i : Nat} {pre post : List cache_entry_t} {e e1 : cache_entry_t}
    (now : Int) (h : bucket_ok alen n i (pre ++ e :: post))
    (he1 : entry_ok alen n i e1) (hk : entry_key e1 = entry_key e) :
    bucket_ok alen n i (e1 :: (dnscache_remove_expired_loop now pre ++ post)) := by
  obtain ⟨h1, _, h3⟩ := bucket_ok_middle h
  have hs : (dnscache_remove_expired_loop now pre ++ post).Sublist (pre ++ post) :=
    List.Sublist.append (remove_expired_loop_sublist now pre) (List.Sublist.refl post)
  refine bucket_ok_cons (bucket_ok_sublist h1 hs) he1 ?_
  intro x hx
  rw [hk]
  exact h3 x (hs.subset hx)

theorem bucket_ok_drop {alen n i : Nat} {pre post : List cache_entry_t} {e : cache_entry_t}
    (now : Int) (h : bucket_ok alen n i (pre ++ e :: post)) :
    bucket_ok alen n i (dnscache_remove_expired_loop now pre ++ post) := by
  obtain ⟨h1, _, _⟩ := bucket_ok_middle h
  exact bucket_ok_sublist h1
    (List.Sublist.append (remove_expired_loop_sublist now pre) (List.Sublist.refl post))

theorem cache_ok_set {alen : Nat} {c : dnscache_t} {i : Nat} {b : List cache_entry_t}
    (h : cache_ok alen c) (hb : bucket_ok alen c.buckets.length i b) :
    cache_ok alen ⟨c.buckets.set i b⟩ := by
  intro j b1 hj
  simp only [List.length_set] at hj ⊢
  rcases bucket_set _ _ _ _ _ hj with ⟨rfl, rfl⟩ | ⟨_, h2⟩
  · exact hb
  · exact h j b1 h2

theorem cache_ok_bucket {alen : Nat} {c : dnscache_t} {k : List UInt8} {i : Nat}
    (h : cache_ok alen c) (hi : hash k initval c.buckets.length = some i) :
    bucket_ok alen c.buckets.length i (c.buckets.getD i []) :=
  h i _ (bucket_at _ _ (hash_lt hi))

theorem same_host_of_ok {alen n i : Nat} {b : List cache_entry_t} (k : List UInt8)
    (h : bucket_ok alen n i b) (x : cache_entry_t) (hx : x ∈ b) :
    (same_host k x = true ↔ entry_key x = k) ∧ (same_host k x = false ↔ entry_key x ≠ k) :=
  ⟨same_host_iff k x (entry_ok_le (h.1 x hx)), same_host_false_iff k x (entry_ok_le (h.1 x hx))⟩

/-- The bucket of a host in a well-formed cache either has no entry of that host or splits
around its only entry of that host. -/
theorem bucket_cases {alen n i : Nat} {b : List cache_entry_t} (k : List UInt8)
    (h : bucket_ok alen n i b) :
    ((∀ x ∈ b, same_host k x = false) ∧ ∀ x ∈ b, entry_key x ≠ k) ∨
    ∃ pre e post, b = pre ++ e :: post ∧ (∀ x ∈ pre, same_host k x = false) ∧
      same_host k e = true ∧ entry_key e = k ∧ ∀ x ∈ pre ++ post, entry_key x ≠ k := by
  rcases split_first (same_host k) b with h1 | ⟨pre, e, post, hb, hpre, he⟩
  · exact Or.inl ⟨h1, fun x hx => ((same_host_of_ok k h x hx).2).1 (h1 x hx)⟩
  · right
    subst hb
    have hek : entry_key e = k := ((same_host_of_ok k h e (by simp)).1).1 he
    obtain ⟨_, _, h3⟩ := bucket_ok_middle h
    exact ⟨pre, e, post, rfl, hpre, he, hek, fun x hx => hek ▸ h3 x hx⟩

theorem add_cases {alen : Nat} {c : dnscache_t} {k : List UInt8} {i : Nat} (a : List UInt8)
    (exp now : Int) (alloc : Bool)
    (h : cache_ok alen c) (hk : k.length ≤ HOSTNAME_MAX_LEN)
    (hi : hash k initval c.buckets.length = some i) :
    ((∀ x ∈ c.buckets.getD i [], entry_key x ≠ k) ∧
      dnscache_add c k a alen exp now alloc =
        if alloc then
          some ⟨0, ⟨c.buckets.set i
            ({ addr := a.take alen, expiration_time := exp, hostlen := k.length % 256,
                host := k ++ [0] } :: dnscache_remove_expired_loop now (c.buckets.getD i []))⟩⟩
        else some ⟨-1, ⟨c.buckets.set i (dnscache_remove_expired_loop now (c.buckets.getD i []))⟩⟩) ∨
    ∃ pre e post, c.buckets.getD i [] = pre ++ e :: post ∧ entry_key e = k ∧
      (∀ x ∈ pre ++ post, entry_key x ≠ k) ∧
      dnscache_add c k a alen exp now alloc =
        some ⟨0, ⟨c.buckets.set i
          ({ e with expiration_time := exp } :: (dnscache_remove_expired_loop now pre ++ post))⟩⟩ := by
  rcases bucket_cases k (cache_ok_bucket h hi) with ⟨h1, h2⟩ | ⟨pre, e, post, hb, hpre, he, hek, hne⟩
  · left
    refine ⟨h2, ?_⟩
    cases alloc
    · rw [add_fail c k a alen exp now i hk hi h1]; rfl
    · rw [add_new c k a alen exp now i hk hi h1]; rfl
  · right
    exact ⟨pre, e, post, hb, hek, hne, add_old c k a alen exp now alloc i hk hi pre post e hb hpre he⟩

theorem get_cases {alen : Nat} {c : dnscache_t} {k : List UInt8} {i : Nat} (now : Int)
    (h : cache_ok alen c) (hk : k.length ≤ HOSTNAME_MAX_LEN)
    (hi : hash k initval c.buckets.length = some i) :
    ((∀ x ∈ c.buckets.getD i [], entry_key x ≠ k) ∧
      dnscache_get c k now alen =
        some ⟨-1, none, ⟨c.buckets.set i (dnscache_remove_expired_loop now (c.buckets.getD i []))⟩⟩) ∨
    ∃ pre e post, c.buckets.getD i [] = pre ++ e :: post ∧ entry_key e = k ∧
      (∀ x ∈ pre ++ post, entry_key x ≠ k) ∧
      dnscache_get c k now alen =
        if now ≤ e.expiration_time then
          some ⟨0, some e.addr, ⟨c.buckets.set i
            (e :: (dnscache_remove_expired_loop now pre ++ post))⟩⟩
        else some ⟨-1, none, ⟨c.buckets.set i (dnscache_remove_expired_loop now pre ++ post)⟩⟩ := by
  have hbo := cache_ok_bucket h hi
  rcases bucket_cases k hbo with ⟨h1, h2⟩ | ⟨pre, e, post, hb, hpre, he, hek, hne⟩
  · left
    exact ⟨h2, get_absent c k alen now i hk hi h1⟩
  · right
    refine ⟨pre, e, post, hb, hek, hne, ?_⟩
    have hadd : e.addr.take alen = e.addr := by
      rw [List.take_of_length_le]
      exact (hbo.1 e (by rw [hb]; simp)).2.2.1
    by_cases ht : now ≤ e.expiration_time
    · rw [if_pos ht, get_live c k alen now i hk hi pre post e hb hpre he ht, hadd]
    · rw [if_neg ht, get_expired c k alen now i hk hi pre post e hb hpre he (by omega)]

theorem add_long (c : dnscache_t) (k a : List UInt8) (alen : Nat) (exp now : Int) (alloc : Bool)
    (hk : HOSTNAME_MAX_LEN < k.length) :
    dnscache_add c k a alen exp now alloc = some ⟨-1, c⟩ := by
  unfold dnscache_add
  rw [if_neg (by omega)]

theorem get_long (c : dnscache_t) (k : List UInt8) (alen : Nat) (now : Int)
    (hk : HOSTNAME_MAX_LEN < k.length) :
    dnscache_get c k now alen = some ⟨-1, none, c⟩ := by
  unfold dnscache_get
  rw [if_neg (by omega)]

theorem add_hash {c : dnscache_t} {k a : List UInt8} {alen : Nat} {exp now : Int} {alloc : Bool}
    {r : add_result_t} (hk : k.length ≤ HOSTNAME_MAX_LEN)
    (h : dnscache_add c k a alen exp now alloc = some r) :
    ∃ i, hash k initval c.buckets.length = some i := by
  unfold dnscache_add dnscache_t.nbuckets at h
  rw [if_pos hk] at h
  cases hh : hash k initval c.buckets.length with
  | none => rw [hh] at h; cases h
  | some i => exact ⟨i, rfl⟩

theorem get_hash {c : dnscache_t} {k : List UInt8} {alen : Nat} {now : Int}
    {r : get_result_t} (hk : k.length ≤ HOSTNAME_MAX_LEN)
    (h : dnscache_get c k now alen = some r) :
    ∃ i, hash k initval c.buckets.length = some i := by
  unfold dnscache_get dnscache_t.nbuckets at h
  rw [if_pos hk] at h
  cases hh : hash k initval c.buckets.length with
  | none => rw [hh] at h; cases h
  | some i => exact ⟨i, rfl⟩

theorem add_ok {alen : Nat} {c : dnscache_t} {k a : List UInt8} {exp now : Int} {alloc : Bool}
    {r : add_result_t} (h : cache_ok alen c)
    (hr : dnscache_add c k a alen exp now alloc = some r) : cache_ok alen r.cache := by
  by_cases hk : k.length ≤ HOSTNAME_MAX_LEN
  · obtain ⟨i, hi⟩ := add_hash hk hr
    have hbo := cache_ok_bucket h hi
    rcases add_cases a exp now alloc h hk hi with ⟨hne, he⟩ | ⟨pre, e, post, hb, hek, hne, he⟩
    · rw [he] at hr
      cases alloc
      · simp only [Bool.false_eq_true, if_false, Option.some.injEq] at hr
        subst hr
        exact cache_ok_set h (bucket_ok_sweep now hbo)
      · simp only [if_true, Option.some.injEq] at hr
        subst hr
        refine cache_ok_set h (bucket_ok_cons (bucket_ok_sweep now hbo)
          (new_entry_ok k a alen _ i exp hk hi) ?_)
        intro x hx
        rw [new_entry_key k a alen exp hk]
        exact hne x ((remove_expired_loop_mem now _ x).1 hx).1
    · rw [he] at hr
      simp only [Option.some.injEq] at hr
      subst hr
      rw [hb] at hbo
      have heo := hbo.1 e (by simp)
      exact cache_ok_set h (bucket_ok_touch now hbo heo rfl)
  · rw [add_long c k a alen exp now alloc (by omega)] at hr
    simp only [Option.some.injEq] at hr
    subst hr; exact h

theorem get_ok {alen : Nat} {c : dnscache_t} {k : List UInt8} {now : Int}
    {r : get_result_t} (h : cache_ok alen c)
    (hr : dnscache_get c k now alen = some r) : cache_ok alen r.cache := by
  by_cases hk : k.length ≤ HOSTNAME_MAX_LEN
  · obtain ⟨i, hi⟩ := get_hash hk hr
    have hbo := cache_ok_bucket h hi
    rcases get_cases now h hk hi with ⟨hne, he⟩ | ⟨pre, e, post, hb, hek, hne, he⟩
    · rw [he] at hr
      simp only [Option.some.injEq] at hr
      subst hr
      exact cache_ok_set h (bucket_ok_sweep now hbo)
    · rw [he] at hr
      rw [hb] at hbo
      by_cases ht : now ≤ e.expiration_time
      · rw [if_pos ht] at hr
        simp only [Option.some.injEq] at hr
        subst hr
        exact cache_ok_set h (bucket_ok_touch now hbo (hbo.1 e (by simp)) rfl)
      · rw [if_neg ht] at hr
        simp only [Option.some.injEq] at hr
        subst hr
        exact cache_ok_set h (bucket_ok_drop now hbo)
  · rw [get_long c k alen now (by omega)] at hr
    simp only [Option.some.injEq] at hr
    subst hr; exact h

theorem sweep_ok {alen : Nat} {c : dnscache_t} (now : Int) (h : cache_ok alen c) :
    cache_ok alen (dnscache_remove_expired c now) := by
  intro j b hj
  unfold dnscache_remove_expired at hj ⊢
  simp only [List.length_map, List.getElem?_map, Option.map_eq_some'] at hj ⊢
  obtain ⟨b0, hb0, rfl⟩ := hj
  exact bucket_ok_sweep now (h j b0 hb0)

theorem create_ok (alen n : Nat) {c : dnscache_t} (h : dnscache_create n true = some c) :
    cache_ok alen c := by
  unfold dnscache_create at h
  simp only [if_true, Option.some.injEq] at h
  subst h
  intro j b hj
  have hb : b ∈ List.replicate n ([] : List cache_entry_t) := List.getElem?_mem hj
  rw [List.mem_replicate] at hb
  rw [hb.2]
  exact ⟨fun e he => absurd he (List.not_mem_nil e), List.nodup_nil⟩

theorem reachable_ok {alen : Nat} {c : dnscache_t} (h : Reachable alen c) : cache_ok alen c := by
  induction h with
  | create n c hc => exact create_ok alen n hc
  | add c host addr exp now alloc r _ hr ih => exact add_ok ih hr
  | get c host now r _ hr ih => exact get_ok ih hr
  | remove_expired c now _ ih => exact sweep_ok now ih

theorem getD_set_self (l : List (List cache_entry_t)) (i : Nat) (v : List cache_entry_t)
    (h : i < l.length) : (l.set i v).getD i [] = v := by
  rw [List.getD_eq_getElem?_getD, List.getElem?_set_self h]; rfl

theorem entries_set (l : List (List cache_entry_t)) (i : Nat) (v : List cache_entry_t)
    (h : i < l.length) (x : cache_entry_t) :
    x ∈ entries ⟨l.set i v⟩ ↔
      x ∈ v ∨ ∃ (j : Nat) (b : List cache_entry_t), j ≠ i ∧ l[j]? = some b ∧ x ∈ b := by
  rw [mem_entries]
  constructor
  · rintro ⟨j, b, hj, hx⟩
    rcases bucket_set _ _ _ _ _ hj with ⟨rfl, rfl⟩ | ⟨h1, h2⟩
    · exact Or.inl hx
    · exact Or.inr ⟨j, b, h1, h2, hx⟩
  · rintro (hx | ⟨j, b, h1, h2, hx⟩)
    · exact ⟨i, v, List.getElem?_set_self h, hx⟩
    · refine ⟨j, b, ?_, hx⟩
      show (l.set i v)[j]? = some b
      rw [List.getElem?_set_ne (fun e => h1 e.symm)]; exact h2

theorem key_bucket {alen : Nat} {c : dnscache_t} {x : cache_entry_t} {i : Nat}
    (h : cache_ok alen c) (hx : x ∈ entries c)
    (hi : hash (entry_key x) initval c.buckets.length = some i) : x ∈ c.buckets.getD i [] := by
  obtain ⟨j, b, hj, hxb⟩ := (mem_entries c x).1 hx
  have hj2 := (h j b hj).1 x hxb
  have hji : j = i := by
    have := hj2.2.2.2
    rw [hi] at this
    exact (Option.some.inj this).symm
  subst hji
  rw [List.getD_eq_getElem?_getD, hj]; exact hxb

theorem bucket_mem_entries {c : dnscache_t} {i : Nat} {x : cache_entry_t}
    (hx : x ∈ c.buckets.getD i []) : x ∈ entries c := by
  by_cases hi : i < c.buckets.length
  · exact (mem_entries c x).2 ⟨i, _, bucket_at _ _ hi, hx⟩
  · rw [List.getD_eq_getElem?_getD, List.getElem?_eq_none (by omega)] at hx
    exact absurd hx (List.not_mem_nil x)

theorem entries_ok {alen : Nat} {c : dnscache_t} {x : cache_entry_t}
    (h : cache_ok alen c) (hx : x ∈ entries c) :
    ∃ i, i < c.buckets.length ∧ entry_ok alen c.buckets.length i x := by
  obtain ⟨j, b, hj, hxb⟩ := (mem_entries c x).1 hx
  refine ⟨j, ?_, (h j b hj).1 x hxb⟩
  by_contra hlt
  rw [List.getElem?_eq_none (by omega)] at hj
  cases hj

/-- What `dnscache_get` returns in a well-formed cache. -/
theorem get_spec {alen : Nat} {c : dnscache_t} (k : List UInt8) (now : Int)
    (h : cache_ok alen c) :
    ((∃ g, dnscache_get c k now alen = some g ∧ g.ret = 0) ↔
      ∃ x ∈ entries c, entry_key x = k ∧ now ≤ x.expiration_time) ∧
    (∀ g, dnscache_get c k now alen = some g → g.ret = 0 →
      ∃ x ∈ entries c, entry_key x = k ∧ now ≤ x.expiration_time ∧ g.addr = some x.addr ∧
        ∀ y ∈ entries c, entry_key y = k → y = x) ∧
    (∀ g, dnscache_get c k now alen = some g → g.ret ≠ 0 → g.ret = -1 ∧ g.addr = none) := by
  by_cases hk : k.length ≤ HOSTNAME_MAX_LEN
  · cases hh : hash k initval c.buckets.length with
    | none =>
      have hg : dnscache_get c k now alen = none := by
        unfold dnscache_get dnscache_t.nbuckets
        rw [if_pos hk, hh]
      rw [hg]
      refine ⟨⟨?_, ?_⟩, ?_, ?_⟩
      · rintro ⟨g, h1, _⟩
        cases h1
      · rintro ⟨x, hx, _, _⟩
        obtain ⟨i, hi, _⟩ := entries_ok h hx
        have := hash_some k initval (by omega : 0 < c.buckets.length)
        rw [hh] at this; cases this
      · intro g h1
        cases h1
      · intro g h1
        cases h1
    | some i =>
      rcases get_cases now h hk hh with ⟨hne, he⟩ | ⟨pre, e, post, hb, hek, hne, he⟩
      · have hno : ¬ ∃ x ∈ entries c, entry_key x = k ∧ now ≤ x.expiration_time := by
          rintro ⟨x, hx, hxk, _⟩
          exact hne x (key_bucket h hx (hxk ▸ hh)) hxk
        rw [he]
        refine ⟨⟨?_, fun hx => absurd hx hno⟩, ?_, ?_⟩
        · rintro ⟨g, h1, h2⟩
          cases h1; cases h2
        · intro g h1 h2
          cases h1; cases h2
        · intro g h1 _
          cases h1; exact ⟨rfl, rfl⟩
      · have hein : e ∈ entries c := bucket_mem_entries (by rw [hb]; simp)
        have huniq : ∀ y ∈ entries c, entry_key y = k → y = e := by
          intro y hy hyk
          have hyb := key_bucket h hy (hyk ▸ hh)
          rw [hb] at hyb
          rcases List.mem_append.1 hyb with hy1 | hy1
          · exact absurd hyk (hne y (List.mem_append_left _ hy1))
          · rcases List.mem_cons.1 hy1 with hy2 | hy2
            · exact hy2
            · exact absurd hyk (hne y (List.mem_append_right _ hy2))
        rw [he]
        by_cases ht : now ≤ e.expiration_time
        · rw [if_pos ht]
          refine ⟨⟨fun _ => ⟨e, hein, hek, ht⟩, fun _ => ⟨_, rfl, rfl⟩⟩, ?_, ?_⟩
          · intro g h1 _
            cases h1
            exact ⟨e, hein, hek, ht, rfl, huniq⟩
          · intro g h1 h2
            cases h1; exact absurd rfl h2
        · rw [if_neg ht]
          refine ⟨⟨?_, ?_⟩, ?_, ?_⟩
          · rintro ⟨g, h1, h2⟩
            cases h1; cases h2
          · rintro ⟨x, hx, hxk, hxt⟩
            rw [huniq x hx hxk] at hxt
            exact absurd hxt ht
          · intro g h1 h2
            cases h1; cases h2
          · intro g h1 _
            cases h1; exact ⟨rfl, rfl⟩
  · rw [get_long c k alen now (by omega)]
    refine ⟨⟨?_, ?_⟩, ?_, ?_⟩
    · rintro ⟨g, h1, h2⟩
      cases h1; cases h2
    · rintro ⟨x, hx, hxk, _⟩
      obtain ⟨i, _, hok⟩ := entries_ok h hx
      have := entry_key_length hok
      rw [hxk] at this
      have := hok.1
      omega
    · intro g h1 h2
      cases h1; cases h2
    · intro g h1 _
      cases h1; exact ⟨rfl, rfl⟩

theorem add_length {c : dnscache_t} {k a : List UInt8} {alen : Nat} {exp now : Int}
    {alloc : Bool} {r : add_result_t} (h : dnscache_add c k a alen exp now alloc = some r) :
    r.cache.buckets.length = c.buckets.length := by
  by_cases hk : k.length ≤ HOSTNAME_MAX_LEN
  · obtain ⟨i, hi⟩ := add_hash hk h
    rw [add_eq c k a alen exp now alloc i hk hi] at h
    split_ifs at h <;> (cases h; simp only [List.length_set])
  · rw [add_long c k a alen exp now alloc (by omega)] at h
    cases h; rfl

theorem get_length {c : dnscache_t} {k : List UInt8} {alen : Nat} {now : Int}
    {r : get_result_t} (h : dnscache_get c k now alen = some r) :
    r.cache.buckets.length = c.buckets.length := by
  by_cases hk : k.length ≤ HOSTNAME_MAX_LEN
  · obtain ⟨i, hi⟩ := get_hash hk h
    rw [get_eq c k alen now i hk hi] at h
    split at h <;> (cases h; simp only [List.length_set])
  · rw [get_long c k alen now (by omega)] at h
    cases h; rfl

theorem sweep_length (c : dnscache_t) (now : Int) :
    (dnscache_remove_expired c now).buckets.length = c.buckets.length := by
  unfold dnscache_remove_expired
  simp only [List.length_map]

theorem add_ret_zero {c : dnscache_t} {k a : List UInt8} {alen : Nat} {exp now : Int}
    {alloc : Bool} {r : add_result_t} (h : dnscache_add c k a alen exp now alloc = some r)
    (hr : r.ret = 0) : k.length ≤ HOSTNAME_MAX_LEN := by
  by_contra hk
  rw [add_long c k a alen exp now alloc (by omega)] at h
  cases h; cases hr

/-- After a successful `dnscache_add` the entry of the host heads its bucket and carries the
new expiration time. -/
theorem add_head {alen : Nat} {c : dnscache_t} {k a : List UInt8} {exp now : Int}
    {alloc : Bool} {r : add_result_t} (h : cache_ok alen c)
    (hr : dnscache_add c k a alen exp now alloc = some r) (hret : r.ret = 0) :
    ∃ i e1 rest, hash k initval c.buckets.length = some i ∧
      r.cache.buckets.getD i [] = e1 :: rest ∧ entry_key e1 = k ∧ e1.expiration_time = exp := by
  have hk := add_ret_zero hr hret
  obtain ⟨i, hi⟩ := add_hash hk hr
  have hlt := hash_lt hi
  rcases add_cases a exp now alloc h hk hi with ⟨hne, he⟩ | ⟨pre, e, post, hb, hek, hne, he⟩
  · rw [he] at hr
    cases alloc
    · simp only [Bool.false_eq_true, if_false, Option.some.injEq] at hr
      subst hr; cases hret
    · simp only [if_true, Option.some.injEq] at hr
      subst hr
      exact ⟨i, _, _, hi, getD_set_self _ _ _ hlt, new_entry_key k a alen exp hk, rfl⟩
  · rw [he] at hr
    simp only [Option.some.injEq] at hr
    subst hr
    exact ⟨i, _, _, hi, getD_set_self _ _ _ hlt, hek, rfl⟩

theorem cache_ttl_aux {alen : Nat} {c : dnscache_t} {k a : List UInt8} {exp now : Int}
    {alloc : Bool} {r : add_result_t} (h : cache_ok alen c)
    (hr : dnscache_add c k a alen exp now alloc = some r) (hret : r.ret = 0) :
    (∀ t : Int, t ≤ exp → ∃ g, dnscache_get r.cache k t alen = some g ∧ g.ret = 0 ∧
      g.addr.isSome = true) ∧
    (∀ t : Int, exp < t → ∃ g, dnscache_get r.cache k t alen = some g ∧ g.ret = -1 ∧
      g.addr = none ∧ ∀ x ∈ entries g.cache, entry_key x ≠ k) := by
  have hk := add_ret_zero hr hret
  obtain ⟨i, e1, rest, hi, hb1, hk1, hx1⟩ := add_head h hr hret
  have hok := add_ok h hr
  have hlen := add_length hr
  have hi2 : hash k initval r.cache.buckets.length = some i := by rw [hlen]; exact hi
  have hlt : i < r.cache.buckets.length := hash_lt hi2
  have key : ∀ t : Int, ∃ pre post, r.cache.buckets.getD i [] = pre ++ e1 :: post ∧
      (∀ x ∈ pre ++ post, entry_key x ≠ k) ∧
      dnscache_get r.cache k t alen =
        if t ≤ e1.expiration_time then
          some ⟨0, some e1.addr, ⟨r.cache.buckets.set i
            (e1 :: (dnscache_remove_expired_loop t pre ++ post))⟩⟩
        else some ⟨-1, none, ⟨r.cache.buckets.set i
            (dnscache_remove_expired_loop t pre ++ post)⟩⟩ := by
    intro t
    rcases get_cases t hok hk hi2 with ⟨hne, _⟩ | ⟨pre, e, post, hb, hek, hne, he⟩
    · exact absurd hk1 (hne e1 (by rw [hb1]; simp))
    · have hmem : e1 ∈ pre ++ e :: post := by rw [← hb, hb1]; simp
      have hee : e1 = e := by
        rcases List.mem_append.1 hmem with hy1 | hy1
        · exact absurd hk1 (hne e1 (List.mem_append_left _ hy1))
        · rcases List.mem_cons.1 hy1 with hy2 | hy2
          · exact hy2
          · exact absurd hk1 (hne e1 (List.mem_append_right _ hy2))
      subst hee
      exact ⟨pre, post, hb, hne, he⟩
  constructor
  · intro t ht
    obtain ⟨pre, post, _, _, hg⟩ := key t
    rw [hg, if_pos (by rw [hx1]; exact ht)]
    exact ⟨_, rfl, rfl, rfl⟩
  · intro t ht
    obtain ⟨pre, post, hb, hne, hg⟩ := key t
    rw [hg, if_neg (by rw [hx1]; omega)]
    refine ⟨_, rfl, rfl, rfl, ?_⟩
    intro x hx hxk
    have hok2 : cache_ok alen ⟨r.cache.buckets.set i
        (dnscache_remove_expired_loop t pre ++ post)⟩ := by
      have hg2 := hg
      rw [if_neg (by rw [hx1]; omega)] at hg2
      exact get_ok hok hg2
    have hxb := key_bucket hok2 hx (by
      simp only [List.length_set]; rw [hxk]; exact hi2)
    simp only at hxb
    rw [getD_set_self _ _ _ hlt] at hxb
    have hsub : x ∈ pre ++ post := by
      rcases List.mem_append.1 hxb with h1 | h1
      · exact List.mem_append_left _ ((remove_expired_loop_mem t pre x).1 h1).1
      · exact List.mem_append_right _ h1
    exact hne x hsub hxk

theorem abCache_reachable : Reachable 4 abCache :=
  Reachable.add ⟨[[mk_entry 4 hostB [2, 2, 2, 2] 120, mk_entry 4 hostA [1, 1, 1, 1] 110]]⟩
    hostA [3, 3, 3, 3] 130 100 true ⟨0, abCache⟩
    (Reachable.add ⟨[[mk_entry 4 hostA [1, 1, 1, 1] 110]]⟩ hostB [2, 2, 2, 2] 120 100 true
      ⟨0, ⟨[[mk_entry 4 hostB [2, 2, 2, 2] 120, mk_entry 4 hostA [1, 1, 1, 1] 110]]⟩⟩
      (Reachable.add ⟨[[]]⟩ hostA [1, 1, 1, 1] 110 100 true
        ⟨0, ⟨[[mk_entry 4 hostA [1, 1, 1, 1] 110]]⟩⟩
        (Reachable.create 1 _ rfl) (by decide))
      (by decide))
    (by decide)

theorem get_total (c : dnscache_t) (k : List UInt8) (now : Int) (alen : Nat)
    (h : 0 < c.buckets.length) : ∃ g, dnscache_get c k now alen = some g := by
  by_cases hk : k.length ≤ HOSTNAME_MAX_LEN
  · rw [get_eq c k alen now _ hk (hash_some k initval h)]
    split <;> exact ⟨_, rfl⟩
  · rw [get_long c k alen now (by omega)]
    exact ⟨_, rfl⟩

theorem add_succeeds (c : dnscache_t) (k a : List UInt8) (alen : Nat) (exp now : Int)
    (hk : k.length ≤ HOSTNAME_MAX_LEN) (h : 0 < c.buckets.length) :
    ∃ r, dnscache_add c k a alen exp now true = some r ∧ r.ret = 0 := by
  rw [add_eq c k a alen exp now true _ hk (hash_some k initval h)]
  split_ifs with h1 h2
  · exact ⟨_, rfl, rfl⟩
  · exact ⟨_, rfl, rfl⟩
  · exact absurd rfl h2

theorem add_other_buckets {c : dnscache_t} {k a : List UInt8} {alen : Nat} {exp now : Int}
    {alloc : Bool} {r : add_result_t} {i : Nat}
    (hi : hash k initval c.buckets.length = some i)
    (h : dnscache_add c k a alen exp now alloc = some r) :
    ∀ j : Nat, j ≠ i → r.cache.buckets[j]? = c.buckets[j]? := by
  intro j hj
  by_cases hk : k.length ≤ HOSTNAME_MAX_LEN
  · rw [add_eq c k a alen exp now alloc i hk hi] at h
    split_ifs at h <;> (cases h; exact List.getElem?_set_ne (fun e => hj e.symm))
  · rw [add_long c k a alen exp now alloc (by omega)] at h
    cases h; rfl

theorem get_other_buckets {c : dnscache_t} {k : List UInt8} {alen : Nat} {now : Int}
    {r : get_result_t} {i : Nat}
    (hi : hash k initval c.buckets.length = some i)
    (h : dnscache_get c k now alen = some r) :
    ∀ j : Nat, j ≠ i → r.cache.buckets[j]? = c.buckets[j]? := by
  intro j hj
  by_cases hk : k.length ≤ HOSTNAME_MAX_LEN
  · rw [get_eq c k alen now i hk hi] at h
    split at h <;> (cases h; exact List.getElem?_set_ne (fun e => hj e.symm))
  · rw [get_long c k alen now (by omega)] at h
    cases h; rfl

theorem sweep_entries (c : dnscache_t) (now : Int) (x : cache_entry_t) :
    x ∈ entries (dnscache_remove_expired c now) ↔ x ∈ entries c ∧ now ≤ x.expiration_time := by
  rw [mem_entries, mem_entries]
  unfold dnscache_remove_expired
  simp only [List.getElem?_map, Option.map_eq_some']
  constructor
  · rintro ⟨i, b, ⟨b0, hb0, rfl⟩, hx⟩
    rw [remove_expired_loop_mem] at hx
    exact ⟨⟨i, b0, hb0, hx.1⟩, hx.2⟩
  · rintro ⟨⟨i, b0, hb0, hx⟩, ht⟩
    exact ⟨i, _, ⟨b0, hb0, rfl⟩, (remove_expired_loop_mem now b0 x).2 ⟨hx, ht⟩⟩

/-- Membership in a cache after one bucket was replaced by a sublist-like bucket. -/
theorem entries_set_sub {c : dnscache_t} {i : Nat} {v : List cache_entry_t}
    (hi : i < c.buckets.length) (hv : ∀ x ∈ v, x ∈ c.buckets.getD i []) :
    ∀ x ∈ entries ⟨c.buckets.set i v⟩, x ∈ entries c := by
  intro x hx
  rcases (entries_set _ _ _ hi x).1 hx with h1 | ⟨j, b, _, hb, hxb⟩
  · exact bucket_mem_entries (hv x h1)
  · exact (mem_entries c x).2 ⟨j, b, hb, hxb⟩

theorem entries_set_keep {c : dnscache_t} {i : Nat} {v : List cache_entry_t} {x : cache_entry_t}
    (hi : i < c.buckets.length) (hx : x ∈ entries c)
    (hv : x ∈ c.buckets.getD i [] → x ∈ v) : x ∈ entries ⟨c.buckets.set i v⟩ := by
  obtain ⟨j, b, hb, hxb⟩ := (mem_entries c x).1 hx
  rw [entries_set _ _ _ hi]
  by_cases hj : j = i
  · subst hj
    left
    apply hv
    rw [List.getD_eq_getElem?_getD, hb]; exact hxb
  · exact Or.inr ⟨j, b, hj, hb, hxb⟩

/-- A call of `dnscache_get` adds no entry. -/
theorem get_sub {alen : Nat} {c : dnscache_t} {k : List UInt8} {now : Int} {r : get_result_t}
    (h : cache_ok alen c) (hr : dnscache_get c k now alen = some r) :
    ∀ x ∈ entries r.cache, x ∈ entries c := by
  by_cases hk : k.length ≤ HOSTNAME_MAX_LEN
  · obtain ⟨i, hi⟩ := get_hash hk hr
    have hlt := hash_lt hi
    rcases get_cases now h hk hi with ⟨_, he⟩ | ⟨pre, e, post, hb, _, _, he⟩
    · rw [he] at hr
      cases hr
      exact entries_set_sub hlt (fun x hx => ((remove_expired_loop_mem now _ x).1 hx).1)
    · rw [he] at hr
      have hsub : ∀ x ∈ dnscache_remove_expired_loop now pre ++ post,
          x ∈ c.buckets.getD i [] := by
        intro x hx
        rw [hb]
        rcases List.mem_append.1 hx with h1 | h1
        · exact List.mem_append_left _ ((remove_expired_loop_mem now pre x).1 h1).1
        · exact List.mem_append_right _ (List.mem_cons_of_mem _ h1)
      by_cases ht : now ≤ e.expiration_time
      · rw [if_pos ht] at hr
        cases hr
        refine entries_set_sub hlt ?_
        intro x hx
        rcases List.mem_cons.1 hx with h1 | h1
        · rw [hb, h1]; simp
        · exact hsub x h1
      · rw [if_neg ht] at hr
        cases hr
        exact entries_set_sub hlt hsub
  · rw [get_long c k alen now (by omega)] at hr
    cases hr
    exact fun x hx => hx

/-- A call of `dnscache_get` at time `now` removes no entry that expires at or after `now`. -/
theorem get_keep {alen : Nat} {c : dnscache_t} {k : List UInt8} {now : Int} {r : get_result_t}
    (h : cache_ok alen c) (hr : dnscache_get c k now alen = some r) :
    ∀ x ∈ entries c, now ≤ x.expiration_time → x ∈ entries r.cache := by
  intro x hx hxt
  by_cases hk : k.length ≤ HOSTNAME_MAX_LEN
  · obtain ⟨i, hi⟩ := get_hash hk hr
    have hlt := hash_lt hi
    rcases get_cases now h hk hi with ⟨_, he⟩ | ⟨pre, e, post, hb, _, _, he⟩
    · rw [he] at hr
      cases hr
      exact entries_set_keep hlt hx (fun hxb => (remove_expired_loop_mem now _ x).2 ⟨hxb, hxt⟩)
    · rw [he] at hr
      have hsplit : x ∈ c.buckets.getD i [] →
          x = e ∨ x ∈ dnscache_remove_expired_loop now pre ++ post := by
        intro hxb
        rw [hb] at hxb
        rcases List.mem_append.1 hxb with h1 | h1
        · exact Or.inr (List.mem_append_left _ ((remove_expired_loop_mem now pre x).2 ⟨h1, hxt⟩))
        · rcases List.mem_cons.1 h1 with h2 | h2
          · exact Or.inl h2
          · exact Or.inr (List.mem_append_right _ h2)
      by_cases ht : now ≤ e.expiration_time
      · rw [if_pos ht] at hr
        cases hr
        refine entries_set_keep hlt hx (fun hxb => ?_)
        rcases hsplit hxb with h1 | h1
        · rw [h1]; exact List.mem_cons_self _ _
        · exact List.mem_cons_of_mem _ h1
      · rw [if_neg ht] at hr
        cases hr
        refine entries_set_keep hlt hx (fun hxb => ?_)
        rcases hsplit hxb with h1 | h1
        · rw [h1] at hxt; exact absurd hxt ht
        · exact h1
  · rw [get_long c k alen now (by omega)] at hr
    cases hr
    exact hx

/-- Adding a host that the cache does not hold. -/
theorem add_fresh {alen : Nat} {c : dnscache_t} (k a : List UInt8) (exp now : Int)
    (h : cache_ok alen c) (hn : 0 < c.buckets.length) (hk : k.length ≤ HOSTNAME_MAX_LEN)
    (hne : ∀ x ∈ entries c, entry_key x ≠ k) :
    ∃ c1, dnscache_add c k a alen exp now true = some ⟨0, c1⟩ ∧
      (∀ x ∈ entries c1, x = mk_entry alen k a exp ∨ x ∈ entries c) ∧
      mk_entry alen k a exp ∈ entries c1 ∧
      (∀ x ∈ entries c, now ≤ x.expiration_time → x ∈ entries c1) := by
  have hi := hash_some k initval hn
  have hlt := hash_lt hi
  rcases add_cases a exp now true h hk hi with ⟨_, he⟩ | ⟨pre, e, post, hb, hek, _, _⟩
  · rw [he, if_pos rfl]
    refine ⟨_, rfl, ?_, ?_, ?_⟩
    · intro x hx
      rcases (entries_set _ _ _ hlt x).1 hx with h1 | ⟨j, b, _, hb, hxb⟩
      · rcases List.mem_cons.1 h1 with h2 | h2
        · exact Or.inl h2
        · exact Or.inr (bucket_mem_entries ((remove_expired_loop_mem now _ x).1 h2).1)
      · exact Or.inr ((mem_entries c x).2 ⟨j, b, hb, hxb⟩)
    · exact (entries_set _ _ _ hlt _).2 (Or.inl (List.mem_cons_self _ _))
    · intro x hx hxt
      exact entries_set_keep hlt hx (fun hxb =>
        List.mem_cons_of_mem _ ((remove_expired_loop_mem now _ x).2 ⟨hxb, hxt⟩))
  · exact absurd hek (hne e (bucket_mem_entries (by rw [hb]; simp)))

theorem mk_entry_key (alen : Nat) (k a : List UInt8) (exp : Int)
    (hk : k.length ≤ HOSTNAME_MAX_LEN) : entry_key (mk_entry alen k a exp) = k :=
  new_entry_key k a alen exp hk

theorem nodup_fst {L : List (List UInt8 × List UInt8 × Int)} (hd : (L.map Prod.fst).Nodup)
    {p q : List UInt8 × List UInt8 × Int} (hp : p ∈ L) (hq : q ∈ L) (h : p.1 = q.1) : p = q :=
  List.inj_on_of_nodup_map hd hp hq h

/-- The cache that `add_all` builds from hosts that are pairwise distinct and absent from the
cache. -/
theorem add_all_spec (alen : Nat) (now : Int) :
    ∀ (L : List (List UInt8 × List UInt8 × Int)) (c : dnscache_t),
      cache_ok alen c → 0 < c.buckets.length → (L.map Prod.fst).Nodup →
      (∀ p ∈ L, p.1.length ≤ HOSTNAME_MAX_LEN) →
      (∀ p ∈ L, ∀ x ∈ entries c, entry_key x ≠ p.1) →
      ∃ c1, add_all alen now c L = some c1 ∧ cache_ok alen c1 ∧
        c1.buckets.length = c.buckets.length ∧
        (∀ x ∈ entries c1, x ∈ entries c ∨ ∃ p ∈ L, x = mk_entry alen p.1 p.2.1 p.2.2) ∧
        (∀ x ∈ entries c, now ≤ x.expiration_time → x ∈ entries c1) ∧
        (∀ p ∈ L, now ≤ p.2.2 → mk_entry alen p.1 p.2.1 p.2.2 ∈ entries c1) := by
  intro L
  induction L with
  | nil =>
    intro c hc _ _ _ _
    exact ⟨c, rfl, hc, rfl, fun x hx => Or.inl hx, fun x hx _ => hx,
      fun p hp => absurd hp (List.not_mem_nil p)⟩
  | cons p L ih =>
    intro c hc hn hd hl hne
    rw [List.map_cons, List.nodup_cons] at hd
    have hpl := hl p (List.mem_cons_self _ _)
    obtain ⟨c1, hadd, hsub, hnew, hkeep⟩ :=
      @add_fresh alen c p.1 p.2.1 p.2.2 now hc hn hpl (hne p (List.mem_cons_self _ _))
    have hc1 : cache_ok alen c1 := add_ok hc hadd
    have hlen1 : c1.buckets.length = c.buckets.length := add_length hadd
    have hne1 : ∀ q ∈ L, ∀ x ∈ entries c1, entry_key x ≠ q.1 := by
      intro q hq x hx
      rcases hsub x hx with h1 | h1
      · rw [h1, mk_entry_key alen p.1 p.2.1 p.2.2 hpl]
        intro heq
        exact hd.1 (heq ▸ List.mem_map_of_mem Prod.fst hq)
      · exact hne q (List.mem_cons_of_mem _ hq) x h1
    obtain ⟨c2, hall, hc2, hlen2, hsub2, hkeep2, hnew2⟩ :=
      ih c1 hc1 (by omega) hd.2 (fun q hq => hl q (List.mem_cons_of_mem _ hq)) hne1
    refine ⟨c2, ?_, hc2, by omega, ?_, ?_, ?_⟩
    · show (match dnscache_add c p.1 p.2.1 alen p.2.2 now true with
        | some r => if r.ret = 0 then add_all alen now r.cache L else none
        | none => none) = some c2
      rw [hadd]
      exact hall
    · intro x hx
      rcases hsub2 x hx with h1 | ⟨q, hq, hxq⟩
      · rcases hsub x h1 with h2 | h2
        · exact Or.inr ⟨p, List.mem_cons_self _ _, h2⟩
        · exact Or.inl h2
      · exact Or.inr ⟨q, List.mem_cons_of_mem _ hq, hxq⟩
    · intro x hx hxt
      exact hkeep2 x (hkeep x hx hxt) hxt
    · intro q hq hqt
      rcases List.mem_cons.1 hq with h1 | h1
      · subst h1
        exact hkeep2 _ hnew hqt
      · exact hnew2 q h1 hqt

/-- Lookups in a cache all of whose entries come from a list of pairwise distinct hosts. -/
theorem retrieval {alen : Nat} {c : dnscache_t} (T : List (List UInt8 × List UInt8 × Int))
    (h : cache_ok alen c) (hn : 0 < c.buckets.length) (hd : (T.map Prod.fst).Nodup)
    (hl : ∀ p ∈ T, p.1.length ≤ HOSTNAME_MAX_LEN)
    (hsub : ∀ x ∈ entries c, ∃ p ∈ T, x = mk_entry alen p.1 p.2.1 p.2.2)
    (p : List UInt8 × List UInt8 × Int) (hp : p ∈ T) (t : Int) :
    (mk_entry alen p.1 p.2.1 p.2.2 ∈ entries c → t ≤ p.2.2 →
      ∃ g, dnscache_get c p.1 t alen = some g ∧ g.ret = 0 ∧
        g.addr = some (p.2.1.take alen)) ∧
    (mk_entry alen p.1 p.2.1 p.2.2 ∉ entries c ∨ p.2.2 < t →
      ∃ g, dnscache_get c p.1 t alen = some g ∧ g.ret = -1 ∧ g.addr = none) := by
  obtain ⟨h1, h2, h3⟩ := @get_spec alen c p.1 t h
  have hkey := mk_entry_key alen p.1 p.2.1 p.2.2 (hl p hp)
  constructor
  · intro hin ht
    obtain ⟨g, hg, hret⟩ := h1.2 ⟨_, hin, hkey, ht⟩
    obtain ⟨x, _, _, _, ha, hu⟩ := h2 g hg hret
    refine ⟨g, hg, hret, ?_⟩
    rw [ha, ← hu _ hin hkey]
    rfl
  · intro hor
    obtain ⟨g, hg⟩ := get_total c p.1 t alen hn
    have hret : g.ret ≠ 0 := by
      intro h0
      obtain ⟨x, hx, hxk, hxt⟩ := h1.1 ⟨g, hg, h0⟩
      obtain ⟨q, hq, hxq⟩ := hsub x hx
      have hqp : q = p := by
        apply nodup_fst hd hq hp
        rw [← hxk, hxq, mk_entry_key alen q.1 q.2.1 q.2.2 (hl q hq)]
      subst hqp
      rcases hor with h4 | h4
      · exact h4 (hxq ▸ hx)
      · rw [hxq] at hxt
        have : t ≤ q.2.2 := hxt
        omega
    exact ⟨g, hg, (h3 g hg hret).1, (h3 g hg hret).2⟩

theorem lookups_sub {alen : Nat} {P : Int → Prop} {c c2 : dnscache_t} (h : cache_ok alen c)
    (hl : Lookups alen P c c2) :
    cache_ok alen c2 ∧ c2.buckets.length = c.buckets.length ∧
    ∀ x ∈ entries c2, x ∈ entries c := by
  induction hl with
  | refl => exact ⟨h, rfl, fun x hx => hx⟩
  | step c1 host t r _ _ hr ih =>
    obtain ⟨h1, h2, h3⟩ := ih
    exact ⟨get_ok h1 hr, by rw [get_length hr, h2], fun x hx => h3 x (get_sub h1 hr x hx)⟩

theorem lookups_keep {alen : Nat} {e : Int} {c c2 : dnscache_t} (h : cache_ok alen c)
    (hl : Lookups alen (fun t => t ≤ e) c c2) :
    ∀ x ∈ entries c, e ≤ x.expiration_time → x ∈ entries c2 := by
  induction hl with
  | refl => exact fun x hx _ => hx
  | step c1 host t r hl1 ht hr ih =>
    intro x hx hxe
    exact get_keep (lookups_sub h hl1).1 hr x (ih x hx hxe) (by
      have : t ≤ e := ht
      omega)

/-- The hosts of a list with one expiration time for all. -/
theorem map_fst_triples (L : List (List UInt8 × List UInt8)) (e : Int) :
    (L.map (fun p => (p.1, p.2, e))).map Prod.fst = L.map Prod.fst := by
  rw [List.map_map]; rfl

theorem create_entries {n : Nat} {c : dnscache_t} (h : dnscache_create n true = some c) :
    c.buckets.length = n ∧ ∀ x, x ∉ entries c := by
  unfold dnscache_create at h
  simp only [if_true, Option.some.injEq] at h
  subst h
  refine ⟨List.length_replicate _ _, ?_⟩
  intro x hx
  obtain ⟨i, b, hb, hxb⟩ := (mem_entries _ x).1 hx
  have hb2 : b ∈ List.replicate n ([] : List cache_entry_t) := List.getElem?_mem hb
  rw [List.mem_replicate] at hb2
  rw [hb2.2] at hxb
  exact absurd hxb (List.not_mem_nil x)

/-- Hosts added to an empty cache and looked up afterwards. -/
theorem distinct_hosts_aux (alen n : Nat) (L : List (List UInt8 × List UInt8)) (e now : Int)
    (c0 : dnscache_t) (hn : 0 < n) (hc0 : dnscache_create n true = some c0)
    (hd : (L.map Prod.fst).Nodup) (hl : ∀ p ∈ L, p.1.length ≤ HOSTNAME_MAX_LEN)
    (he : now ≤ e) :
    ∃ c1, add_all alen now c0 (L.map (fun p => (p.1, p.2, e))) = some c1 ∧
      (∀ c2, Lookups alen (fun t => t ≤ e) c1 c2 → ∀ p ∈ L, ∀ t : Int, t ≤ e →
        ∃ g, dnscache_get c2 p.1 t alen = some g ∧ g.ret = 0 ∧
          g.addr = some (p.2.take alen)) ∧
      (∀ c2, Lookups alen (fun _ => True) c1 c2 → ∀ p ∈ L, ∀ t : Int, e < t →
        ∃ g, dnscache_get c2 p.1 t alen = some g ∧ g.ret = -1 ∧ g.addr = none) := by
  obtain ⟨hlen0, hemp⟩ := create_entries hc0
  have hT : ((L.map (fun p => (p.1, p.2, e))).map Prod.fst).Nodup := by
    rw [map_fst_triples]; exact hd
  have hTl : ∀ q ∈ L.map (fun p => ((p.1, p.2, e) : List UInt8 × List UInt8 × Int)),
      q.1.length ≤ HOSTNAME_MAX_LEN := by
    intro q hq
    obtain ⟨p, hp, rfl⟩ := List.mem_map.1 hq
    exact hl p hp
  obtain ⟨c1, hall, hok1, hlen1, hsub1, _, hnew1⟩ :=
    add_all_spec alen now (L.map (fun p => (p.1, p.2, e))) c0 (create_ok alen n hc0)
      (by omega) hT hTl (fun p _ x hx => absurd hx (hemp x))
  have hsubT : ∀ x ∈ entries c1, ∃ q ∈ L.map (fun p => ((p.1, p.2, e) :
      List UInt8 × List UInt8 × Int)), x = mk_entry alen q.1 q.2.1 q.2.2 := by
    intro x hx
    rcases hsub1 x hx with h1 | h1
    · exact absurd h1 (hemp x)
    · exact h1
  refine ⟨c1, hall, ?_, ?_⟩
  · intro c2 hl2 p hp t ht
    obtain ⟨hok2, hlen2, hsub2⟩ := lookups_sub hok1 hl2
    have hpT : ((p.1, p.2, e) : List UInt8 × List UInt8 × Int) ∈
        L.map (fun p => (p.1, p.2, e)) := List.mem_map.2 ⟨p, hp, rfl⟩
    have hin1 := hnew1 _ hpT he
    have hin2 := lookups_keep hok1 hl2 _ hin1 (le_refl e)
    exact (retrieval _ hok2 (by omega) hT hTl (fun x hx => hsubT x (hsub2 x hx)) _ hpT t).1
      hin2 ht
  · intro c2 hl2 p hp t ht
    obtain ⟨hok2, hlen2, hsub2⟩ := lookups_sub hok1 hl2
    have hpT : ((p.1, p.2, e) : List UInt8 × List UInt8 × Int) ∈
        L.map (fun p => (p.1, p.2, e)) := List.mem_map.2 ⟨p, hp, rfl⟩
    exact (retrieval _ hok2 (by omega) hT hTl (fun x hx => hsubT x (hsub2 x hx)) _ hpT t).2
      (Or.inr ht)

/-- Hosts added to an empty cache, some of them expired at the time of the sweep. -/
theorem sweep_retrieval_aux (alen n : Nat) (T : List (List UInt8 × List UInt8 × Int))
    (t0 now : Int) (c0 : dnscache_t) (hn : 0 < n) (hc0 : dnscache_create n true = some c0)
    (hd : (T.map Prod.fst).Nodup) (hl : ∀ p ∈ T, p.1.length ≤ HOSTNAME_MAX_LEN)
    (ht : t0 ≤ now) :
    ∃ c1, add_all alen t0 c0 T = some c1 ∧
      ∀ p ∈ T,
        (now ≤ p.2.2 → ∃ g, dnscache_get (dnscache_remove_expired c1 now) p.1 now alen = some g ∧
          g.ret = 0 ∧ g.addr = some (p.2.1.take alen)) ∧
        (p.2.2 < now → ∃ g, dnscache_get (dnscache_remove_expired c1 now) p.1 now alen = some g ∧
          g.ret = -1 ∧ g.addr = none) := by
  obtain ⟨hlen0, hemp⟩ := create_entries hc0
  obtain ⟨c1, hall, hok1, hlen1, hsub1, _, hnew1⟩ :=
    add_all_spec alen t0 T c0 (create_ok alen n hc0) (by omega) hd hl
      (fun p _ x hx => absurd hx (hemp x))
  refine ⟨c1, hall, ?_⟩
  intro p hp
  have hok2 := sweep_ok now hok1
  have hlen2 := sweep_length c1 now
  have hsub2 : ∀ x ∈ entries (dnscache_remove_expired c1 now),
      ∃ q ∈ T, x = mk_entry alen q.1 q.2.1 q.2.2 := by
    intro x hx
    rcases hsub1 x ((sweep_entries c1 now x).1 hx).1 with h1 | h1
    · exact absurd h1 (hemp x)
    · exact h1
  have hr := retrieval T hok2 (by omega) hd hl hsub2 p hp now
  constructor
  · intro hpe
    exact hr.1 ((sweep_entries c1 now _).2 ⟨hnew1 p hp (by omega), hpe⟩) hpe
  · intro hpe
    exact hr.2 (Or.inr hpe)

theorem add_ipv4_inv {c : dnscaches_t} {host addr : List UInt8} {exp now : Int} {alloc : Bool}
    {r : adds_result_t} (h : dnscaches_add_ipv4 c host addr exp now alloc = some r) :
    ∃ r0, dnscache_add c.ipv4 host addr 4 exp now alloc = some r0 ∧ r.ret = r0.ret ∧
      r.caches = { ipv4 := r0.cache, ipv6 := c.ipv6 } := by
  unfold dnscaches_add_ipv4 at h
  cases h0 : dnscache_add c.ipv4 host addr 4 exp now alloc with
  | none => rw [h0] at h; cases h
  | some r0 => rw [h0] at h; cases h; exact ⟨r0, rfl, rfl, rfl⟩

theorem add_ipv6_inv {c : dnscaches_t} {host addr : List UInt8} {exp now : Int} {alloc : Bool}
    {r : adds_result_t} (h : dnscaches_add_ipv6 c host addr exp now alloc = some r) :
    ∃ r0, dnscache_add c.ipv6 host addr 16 exp now alloc = some r0 ∧ r.ret = r0.ret ∧
      r.caches = { ipv4 := c.ipv4, ipv6 := r0.cache } := by
  unfold dnscaches_add_ipv6 at h
  cases h0 : dnscache_add c.ipv6 host addr 16 exp now alloc with
  | none => rw [h0] at h; cases h
  | some r0 => rw [h0] at h; cases h; exact ⟨r0, rfl, rfl, rfl⟩

theorem get_ipv4_inv {c : dnscaches_t} {host : List UInt8} {now : Int}
    {r : gets_result_t} (h : dnscaches_get_ipv4 c host now = some r) :
    ∃ r0, dnscache_get c.ipv4 host now 4 = some r0 ∧ r.ret = r0.ret ∧ r.addr = r0.addr ∧
      r.caches = { ipv4 := r0.cache, ipv6 := c.ipv6 } := by
  unfold dnscaches_get_ipv4 at h
  cases h0 : dnscache_get c.ipv4 host now 4 with
  | none => rw [h0] at h; cases h
  | some r0 => rw [h0] at h; cases h; exact ⟨r0, rfl, rfl, rfl, rfl⟩

theorem get_ipv6_inv {c : dnscaches_t} {host : List UInt8} {now : Int}
    {r : gets_result_t} (h : dnscaches_get_ipv6 c host now = some r) :
    ∃ r0, dnscache_get c.ipv6 host now 16 = some r0 ∧ r.ret = r0.ret ∧ r.addr = r0.addr ∧
      r.caches = { ipv4 := c.ipv4, ipv6 := r0.cache } := by
  unfold dnscaches_get_ipv6 at h
  cases h0 : dnscache_get c.ipv6 host now 16 with
  | none => rw [h0] at h; cases h
  | some r0 => rw [h0] at h; cases h; exact ⟨r0, rfl, rfl, rfl, rfl⟩

theorem creates_inv {n : Nat} {c : dnscaches_t} (h : dnscaches_create n true true = some c) :
    dnscache_create n true = some c.ipv4 ∧ dnscache_create n true = some c.ipv6 := by
  unfold dnscaches_create at h
  cases h4 : dnscache_create n true with
  | none => rw [h4] at h; cases h
  | some c4 =>
    rw [h4] at h
    simp only [Option.some.injEq] at h
    subst h
    exact ⟨rfl, rfl⟩

/-- Every entry of the cache after `dnscache_add` has the host added or was there before,
possibly with another expiration time. -/
theorem add_keys {alen : Nat} {c : dnscache_t} {k a : List UInt8} {exp now : Int}
    {alloc : Bool} {r : add_result_t} (h : cache_ok alen c)
    (hr : dnscache_add c k a alen exp now alloc = some r) :
    ∀ x ∈ entries r.cache, entry_key x = k ∨ x ∈ entries c := by
  by_cases hk : k.length ≤ HOSTNAME_MAX_LEN
  · obtain ⟨i, hi⟩ := add_hash hk hr
    have hlt := hash_lt hi
    rcases add_cases a exp now alloc h hk hi with ⟨_, he⟩ | ⟨pre, e, post, hb, hek, _, he⟩
    · rw [he] at hr
      cases alloc
      · simp only [Bool.false_eq_true, if_false, Option.some.injEq] at hr
        subst hr
        exact fun x hx => Or.inr (entries_set_sub hlt
          (fun y hy => ((remove_expired_loop_mem now _ y).1 hy).1) x hx)
      · simp only [if_true, Option.some.injEq] at hr
        subst hr
        intro x hx
        rcases (entries_set _ _ _ hlt x).1 hx with h1 | ⟨j, b, _, hb, hxb⟩
        · rcases List.mem_cons.1 h1 with h2 | h2
          · left; rw [h2]; exact new_entry_key k a alen exp hk
          · exact Or.inr (bucket_mem_entries ((remove_expired_loop_mem now _ x).1 h2).1)
        · exact Or.inr ((mem_entries c x).2 ⟨j, b, hb, hxb⟩)
    · rw [he] at hr
      simp only [Option.some.injEq] at hr
      subst hr
      intro x hx
      rcases (entries_set _ _ _ hlt x).1 hx with h1 | ⟨j, b, _, hb2, hxb⟩
      · rcases List.mem_cons.1 h1 with h2 | h2
        · left; rw [h2]; exact hek
        · right
          apply bucket_mem_entries (i := i)
          rw [hb]
          rcases List.mem_append.1 h2 with h3 | h3
          · exact List.mem_append_left _ ((remove_expired_loop_mem now pre x).1 h3).1
          · exact List.mem_append_right _ (List.mem_cons_of_mem _ h3)
      · exact Or.inr ((mem_entries c x).2 ⟨j, b, hb2, hxb⟩)
  · rw [add_long c k a alen exp now alloc (by omega)] at hr
    cases hr
    exact fun x hx => Or.inr hx

theorem calls_inv {p4 p6 : List UInt8 → Prop} {c : dnscaches_t} (h : Calls p4 p6 c) :
    cache_ok 4 c.ipv4 ∧ cache_ok 16 c.ipv6 ∧
    (∀ x ∈ entries c.ipv4, p4 (entry_key x)) ∧ (∀ x ∈ entries c.ipv6, p6 (entry_key x)) := by
  induction h with
  | create n c hc =>
    obtain ⟨h4, h6⟩ := creates_inv hc
    exact ⟨create_ok 4 n h4, create_ok 16 n h6,
      fun x hx => absurd hx ((create_entries h4).2 x),
      fun x hx => absurd hx ((create_entries h6).2 x)⟩
  | add_ipv4 c host addr exp now alloc r _ hp hr ih =>
    obtain ⟨r0, h0, _, hc⟩ := add_ipv4_inv hr
    obtain ⟨i4, i6, j4, j6⟩ := ih
    rw [hc]
    refine ⟨add_ok i4 h0, i6, ?_, j6⟩
    intro x hx
    rcases add_keys i4 h0 x hx with h1 | h1
    · rw [h1]; exact hp
    · exact j4 x h1
  | add_ipv6 c host addr exp now alloc r _ hp hr ih =>
    obtain ⟨r0, h0, _, hc⟩ := add_ipv6_inv hr
    obtain ⟨i4, i6, j4, j6⟩ := ih
    rw [hc]
    refine ⟨i4, add_ok i6 h0, j4, ?_⟩
    intro x hx
    rcases add_keys i6 h0 x hx with h1 | h1
    · rw [h1]; exact hp
    · exact j6 x h1
  | get_ipv4 c host now r _ hr ih =>
    obtain ⟨r0, h0, _, _, hc⟩ := get_ipv4_inv hr
    obtain ⟨i4, i6, j4, j6⟩ := ih
    rw [hc]
    exact ⟨get_ok i4 h0, i6, fun x hx => j4 x (get_sub i4 h0 x hx), j6⟩
  | get_ipv6 c host now r _ hr ih =>
    obtain ⟨r0, h0, _, _, hc⟩ := get_ipv6_inv hr
    obtain ⟨i4, i6, j4, j6⟩ := ih
    rw [hc]
    exact ⟨i4, get_ok i6 h0, j4, fun x hx => j6 x (get_sub i6 h0 x hx)⟩
  | remove_expired c now _ ih =>
    obtain ⟨i4, i6, j4, j6⟩ := ih
    exact ⟨sweep_ok now i4, sweep_ok now i6,
      fun x hx => j4 x ((sweep_entries _ now x).1 hx).1,
      fun x hx => j6 x ((sweep_entries _ now x).1 hx).1⟩

/-- A lookup of a host that a well-formed cache does not hold. -/
theorem get_missing {alen : Nat} {c : dnscache_t} {k : List UInt8} {now : Int}
    {g : get_result_t} (h : cache_ok alen c) (hne : ∀ x ∈ entries c, entry_key x ≠ k)
    (hg : dnscache_get c k now alen = some g) : g.ret = -1 ∧ g.addr = none := by
  obtain ⟨h1, _, h3⟩ := @get_spec alen c k now h
  apply h3 g hg
  intro h0
  obtain ⟨x, hx, hxk, _⟩ := h1.1 ⟨g, hg, h0⟩
  exact hne x hx hxk

theorem add_total (c : dnscache_t) (k a : List UInt8) (alen : Nat) (exp now : Int)
    (alloc : Bool) (h : 0 < c.buckets.length) :
    ∃ r, dnscache_add c k a alen exp now alloc = some r := by
  by_cases hk : k.length ≤ HOSTNAME_MAX_LEN
  · rw [add_eq c k a alen exp now alloc _ hk (hash_some k initval h)]
    split_ifs <;> exact ⟨_, rfl⟩
  · rw [add_long c k a alen exp now alloc (by omega)]
    exact ⟨_, rfl⟩

theorem sweep_buckets (c : dnscache_t) (now : Int) :
    (dnscache_remove_expired c now).buckets =
      c.buckets.map (fun b => b.filter (fun e => decide (now ≤ e.expiration_time))) := by
  unfold dnscache_remove_expired
  simp only
  apply List.map_congr_left
  intro b _
  exact remove_expired_loop_eq now b

/-- C21: in a cache reached through the interface, after `dnscache_add` of host `h` with
expiration `e` returned 0, `dnscache_get` of `h` at any time `t <= e` returns 0 and copies an
address (the expiration instant itself is still live), and at any time `t > e` it returns -1,
copies nothing and leaves a cache that holds no entry of `h`. -/
theorem cache_ttl (alen : Nat) (c : dnscache_t) (h a : List UInt8) (e now : Int) (alloc : Bool)
    (r : add_result_t) (hc : Reachable alen c)
    (hadd : dnscache_add c h a alen e now alloc = some r) (hret : r.ret = 0) :
    (∀ t : Int, t ≤ e → ∃ g, dnscache_get r.cache h t alen = some g ∧ g.ret = 0 ∧
      g.addr.isSome = true) ∧
    (∀ t : Int, e < t → ∃ g, dnscache_get r.cache h t alen = some g ∧ g.ret = -1 ∧
      g.addr = none ∧ ∀ x ∈ entries g.cache, entry_key x ≠ h) :=
  cache_ttl_aux (reachable_ok hc) hadd hret

/-- Instance of `cache_ttl` with `now = 100`: after `add(h, a, now + 10, now)` of the host
"c" in `abCache` the lookup at `now + 10` hits and the lookup at `now + 11` misses and removes
the entry. -/
theorem cache_ttl_witness :
    Reachable 4 abCache ∧
    dnscache_add abCache hostC [3, 3, 3, 3] 4 110 100 true = some ⟨0, abcCache⟩ ∧
    dnscache_get abcCache hostC 110 4 = some ⟨0, some [3, 3, 3, 3], abcCache⟩ ∧
    dnscache_get abcCache hostC 111 4 = some ⟨-1, none, abCache⟩ ∧
    (∀ t : Int, t ≤ 110 → ∃ g, dnscache_get abcCache hostC t 4 = some g ∧ g.ret = 0 ∧
      g.addr.isSome = true) ∧
    (∀ t : Int, 110 < t → ∃ g, dnscache_get abcCache hostC t 4 = some g ∧ g.ret = -1 ∧
      g.addr = none ∧ ∀ x ∈ entries g.cache, entry_key x ≠ hostC) :=
  ⟨abCache_reachable, by decide, by decide, by decide,
    cache_ttl 4 abCache hostC [3, 3, 3, 3] 110 100 true ⟨0, abcCache⟩
      abCache_reachable (by decide) rfl⟩

/-- C22: adding a host again does not replace its address.  After `dnscaches_add_ipv4` of host "a"
with address 1.1.1.1 and then with address 2.2.2.2, both returning 0, `dnscaches_get_ipv4` of
"a" before the second expiration returns 0 and copies 1.1.1.1: the second call renewed the
expiration time of the entry and left its address as it was. -/
theorem readd_keeps_first_address :
    dnscaches_create 1 true true = some ⟨⟨[[]]⟩, ⟨[[]]⟩⟩ ∧
    dnscaches_add_ipv4 ⟨⟨[[]]⟩, ⟨[[]]⟩⟩ hostA [1, 1, 1, 1] 10 0 true =
      some ⟨0, ⟨⟨[[mk_entry 4 hostA [1, 1, 1, 1] 10]]⟩, ⟨[[]]⟩⟩⟩ ∧
    dnscaches_add_ipv4 ⟨⟨[[mk_entry 4 hostA [1, 1, 1, 1] 10]]⟩, ⟨[[]]⟩⟩ hostA [2, 2, 2, 2] 20 5 true =
      some ⟨0, ⟨⟨[[mk_entry 4 hostA [1, 1, 1, 1] 20]]⟩, ⟨[[]]⟩⟩⟩ ∧
    dnscaches_get_ipv4 ⟨⟨[[mk_entry 4 hostA [1, 1, 1, 1] 20]]⟩, ⟨[[]]⟩⟩ hostA 6 =
      some ⟨0, some [1, 1, 1, 1], ⟨⟨[[mk_entry 4 hostA [1, 1, 1, 1] 20]]⟩, ⟨[[]]⟩⟩⟩ := by
  decide

/-- C23: in every cache reached from `dnscache_create` by calls of `dnscache_add`,
`dnscache_get` and `dnscache_remove_expired`, no bucket holds two entries with the same key
(same `hostlen` and same host bytes), and every entry is in the bucket whose index is the hash
of its own key. -/
theorem cache_invariant (alen : Nat) (c : dnscache_t) (hc : Reachable alen c) :
    ∀ (i : Nat) (b : List cache_entry_t), c.buckets[i]? = some b →
      b.Pairwise (fun x y => ¬ (x.hostlen = y.hostlen ∧
        x.host.take x.hostlen = y.host.take y.hostlen)) ∧
      ∀ x ∈ b, hash (x.host.take x.hostlen) initval c.nbuckets = some i := by
  intro i b hb
  have h := reachable_ok hc i b hb
  refine ⟨?_, fun x hx => (h.1 x hx).2.2.2⟩
  have hnd := h.2
  unfold List.Nodup at hnd
  rw [List.pairwise_map] at hnd
  exact hnd.imp (fun hxy hand => hxy hand.2)

/-- Instance of `cache_invariant`: the one-bucket cache `abCache` holds the hosts "a" and
"b" once each. -/
theorem cache_invariant_witness :
    Reachable 4 abCache ∧
    ∀ (i : Nat) (b : List cache_entry_t), abCache.buckets[i]? = some b →
      b.Pairwise (fun x y => ¬ (x.hostlen = y.hostlen ∧
        x.host.take x.hostlen = y.host.take y.hostlen)) ∧
      ∀ x ∈ b, hash (x.host.take x.hostlen) initval abCache.nbuckets = some i :=
  ⟨abCache_reachable, cache_invariant 4 abCache abCache_reachable⟩

/-- C24: in a cache reached through the interface, `dnscache_get` of key `k` at time `now`
returns 0 exactly when the cache holds an entry whose key equals `k` byte for byte and whose
expiration is at or after `now`; it then copies the address stored in that entry, which is
the only entry of the cache with key `k`; otherwise it returns -1 and copies nothing. -/
theorem no_stale_answers (alen : Nat) (c : dnscache_t) (k : List UInt8) (now : Int)
    (hc : Reachable alen c) :
    ((∃ g, dnscache_get c k now alen = some g ∧ g.ret = 0) ↔
      ∃ x ∈ entries c, x.hostlen = k.length ∧ x.host.take x.hostlen = k ∧
        now ≤ x.expiration_time) ∧
    (∀ g, dnscache_get c k now alen = some g → g.ret = 0 →
      ∃ x ∈ entries c, x.hostlen = k.length ∧ x.host.take x.hostlen = k ∧
        now ≤ x.expiration_time ∧ g.addr = some x.addr ∧
        ∀ y ∈ entries c, y.host.take y.hostlen = k → y = x) ∧
    (∀ g, dnscache_get c k now alen = some g → g.ret ≠ 0 → g.ret = -1 ∧ g.addr = none) := by
  have hok := reachable_ok hc
  obtain ⟨h1, h2, h3⟩ := get_spec k now hok
  have hlen : ∀ x ∈ entries c, entry_key x = k → x.hostlen = k.length := by
    intro x hx hxk
    obtain ⟨i, _, hxo⟩ := entries_ok hok hx
    rw [← hxk, entry_key_length hxo]
  refine ⟨?_, ?_, h3⟩
  · rw [h1]
    constructor
    · rintro ⟨x, hx, hxk, ht⟩
      exact ⟨x, hx, hlen x hx hxk, hxk, ht⟩
    · rintro ⟨x, hx, _, hxk, ht⟩
      exact ⟨x, hx, hxk, ht⟩
  · intro g hg hr
    obtain ⟨x, hx, hxk, ht, ha, hu⟩ := h2 g hg hr
    exact ⟨x, hx, hlen x hx hxk, hxk, ht, ha, hu⟩

/-- Instance of `no_stale_answers`: in `abCache` the host "b" expires at 120; the lookup at
120 returns its address, the lookup at 121 returns -1, and so does the lookup of "B". -/
theorem no_stale_answers_witness :
    Reachable 4 abCache ∧
    dnscache_get abCache hostB 120 4 = some ⟨0, some [2, 2, 2, 2],
      ⟨[[mk_entry 4 hostB [2, 2, 2, 2] 120, mk_entry 4 hostA [1, 1, 1, 1] 130]]⟩⟩ ∧
    dnscache_get abCache hostB 121 4 =
      some ⟨-1, none, ⟨[[mk_entry 4 hostA [1, 1, 1, 1] 130]]⟩⟩ ∧
    dnscache_get abCache [66] 120 4 = some ⟨-1, none, abCache⟩ ∧
    ((∃ g, dnscache_get abCache hostB 120 4 = some g ∧ g.ret = 0) ↔
      ∃ x ∈ entries abCache, x.hostlen = hostB.length ∧ x.host.take x.hostlen = hostB ∧
        (120 : Int) ≤ x.expiration_time) :=
  ⟨abCache_reachable, by decide, by decide, by decide,
    (no_stale_answers 4 abCache hostB 120 abCache_reachable).1⟩

/-- C25: `dnscaches_remove_expired` leaves in every bucket of both caches exactly the entries
whose expiration is at or after `now`, in their order; an entry whose expiration equals `now`
stays.  So when pairwise distinct hosts are added to an empty cache at a time `t0 <= now` and
the cache is swept at `now`, a lookup at `now` returns the address of every host whose
expiration is at or after `now` and misses every host whose expiration is before `now`. -/
theorem remove_expired_exact (caches : dnscaches_t) (now : Int) :
    (dnscaches_remove_expired caches now).ipv4.buckets =
      caches.ipv4.buckets.map (fun b => b.filter (fun e => decide (now ≤ e.expiration_time))) ∧
    (dnscaches_remove_expired caches now).ipv6.buckets =
      caches.ipv6.buckets.map (fun b => b.filter (fun e => decide (now ≤ e.expiration_time))) ∧
    (∀ x, x ∈ entries (dnscaches_remove_expired caches now).ipv4 ↔
      x ∈ entries caches.ipv4 ∧ now ≤ x.expiration_time) ∧
    (∀ x, x ∈ entries (dnscaches_remove_expired caches now).ipv6 ↔
      x ∈ entries caches.ipv6 ∧ now ≤ x.expiration_time) ∧
    (∀ (alen n : Nat) (T : List (List UInt8 × List UInt8 × Int)) (t0 : Int) (c0 : dnscache_t),
      0 < n → dnscache_create n true = some c0 → (T.map Prod.fst).Nodup →
      (∀ p ∈ T, p.1.length ≤ HOSTNAME_MAX_LEN) → t0 ≤ now →
      ∃ c1, add_all alen t0 c0 T = some c1 ∧
        ∀ p ∈ T,
          (now ≤ p.2.2 →
            ∃ g, dnscache_get (dnscache_remove_expired c1 now) p.1 now alen = some g ∧
              g.ret = 0 ∧ g.addr = some (p.2.1.take alen)) ∧
          (p.2.2 < now →
            ∃ g, dnscache_get (dnscache_remove_expired c1 now) p.1 now alen = some g ∧
              g.ret = -1 ∧ g.addr = none)) :=
  ⟨sweep_buckets caches.ipv4 now, sweep_buckets caches.ipv6 now,
    sweep_entries caches.ipv4 now, sweep_entries caches.ipv6 now,
    fun alen n T t0 c0 hn hc0 hd hl ht => sweep_retrieval_aux alen n T t0 now c0 hn hc0 hd hl ht⟩

/-- Instance of `remove_expired_exact`: of the four hosts of `halfHosts`, added at time -1,
two expire at -1; the sweep at time 0 keeps the other two, the one that expires at 0
included, and exactly these are found at time 0. -/
theorem remove_expired_exact_witness :
    add_all 4 (-1) ⟨[[], []]⟩ halfHosts = some halfCache ∧
    dnscaches_remove_expired ⟨halfCache, halfCache⟩ 0 =
      ⟨⟨[[], [mk_entry 4 hostC [3, 3, 3, 3] 0, mk_entry 4 hostA [1, 1, 1, 1] 1]]⟩,
       ⟨[[], [mk_entry 4 hostC [3, 3, 3, 3] 0, mk_entry 4 hostA [1, 1, 1, 1] 1]]⟩⟩ ∧
    ∃ c1, add_all 4 (-1) ⟨[[], []]⟩ halfHosts = some c1 ∧
      ∀ p ∈ halfHosts,
        ((0 : Int) ≤ p.2.2 →
          ∃ g, dnscache_get (dnscache_remove_expired c1 0) p.1 0 4 = some g ∧
            g.ret = 0 ∧ g.addr = some (p.2.1.take 4)) ∧
        (p.2.2 < (0 : Int) →
          ∃ g, dnscache_get (dnscache_remove_expired c1 0) p.1 0 4 = some g ∧
            g.ret = -1 ∧ g.addr = none) :=
  ⟨by decide, by decide,
    (remove_expired_exact ⟨halfCache, halfCache⟩ 0).2.2.2.2 4 2 halfHosts (-1) ⟨[[], []]⟩
      (by decide) rfl (by decide) (by decide) (by decide)⟩

/-- C26: pairwise distinct hosts of at most 255 bytes, each with an address, are added to an
empty cache at time `now` with one expiration `e >= now`.  Then, after any lookups at times
up to `e`, a lookup of any of the hosts at a time `t <= e` returns 0 and copies the `alen`
bytes of the address added with that host; and, after any lookups, a lookup of any of the
hosts at a time `t > e` returns -1. -/
theorem distinct_hosts_retrievable (alen n : Nat) (L : List (List UInt8 × List UInt8))
    (e now : Int) (c0 : dnscache_t) (hn : 0 < n) (hc0 : dnscache_create n true = some c0)
    (hd : (L.map Prod.fst).Nodup) (hl : ∀ p ∈ L, p.1.length ≤ HOSTNAME_MAX_LEN)
    (he : now ≤ e) :
    ∃ c1, add_all alen now c0 (L.map (fun p => (p.1, p.2, e))) = some c1 ∧
      (∀ c2, Lookups alen (fun t => t ≤ e) c1 c2 → ∀ p ∈ L, ∀ t : Int, t ≤ e →
        ∃ g, dnscache_get c2 p.1 t alen = some g ∧ g.ret = 0 ∧
          g.addr = some (p.2.take alen)) ∧
      (∀ c2, Lookups alen (fun _ => True) c1 c2 → ∀ p ∈ L, ∀ t : Int, e < t →
        ∃ g, dnscache_get c2 p.1 t alen = some g ∧ g.ret = -1 ∧ g.addr = none) :=
  distinct_hosts_aux alen n L e now c0 hn hc0 hd hl he

/-- Instance of `distinct_hosts_retrievable`: the hosts "a", "b" and "c" are added at time 0
with expiration 1 to a cache with two buckets, where "a" and "c" share a bucket; at time 1
the lookup of "a" returns its address, at time 2 it returns -1. -/
theorem distinct_hosts_retrievable_witness :
    add_all 4 0 ⟨[[], []]⟩ (abcHosts.map (fun p => (p.1, p.2, 1))) = some abcCache2 ∧
    dnscache_get abcCache2 hostA 1 4 = some ⟨0, some [1, 1, 1, 1],
      ⟨[[mk_entry 4 hostB [2, 2, 2, 2] 1],
        [mk_entry 4 hostA [1, 1, 1, 1] 1, mk_entry 4 hostC [3, 3, 3, 3] 1]]⟩⟩ ∧
    dnscache_get abcCache2 hostA 2 4 = some ⟨-1, none,
      ⟨[[mk_entry 4 hostB [2, 2, 2, 2] 1], []]⟩⟩ ∧
    ∃ c1, add_all 4 0 ⟨[[], []]⟩ (abcHosts.map (fun p => (p.1, p.2, 1))) = some c1 ∧
      (∀ c2, Lookups 4 (fun t => t ≤ 1) c1 c2 → ∀ p ∈ abcHosts, ∀ t : Int, t ≤ 1 →
        ∃ g, dnscache_get c2 p.1 t 4 = some g ∧ g.ret = 0 ∧ g.addr = some (p.2.take 4)) ∧
      (∀ c2, Lookups 4 (fun _ => True) c1 c2 → ∀ p ∈ abcHosts, ∀ t : Int, 1 < t →
        ∃ g, dnscache_get c2 p.1 t 4 = some g ∧ g.ret = -1 ∧ g.addr = none) :=
  ⟨by decide, by decide, by decide,
    distinct_hosts_retrievable 4 2 abcHosts 1 0 ⟨[[], []]⟩ (by decide) rfl (by decide)
      (by decide) (by decide)⟩

/-- C27: `dnscache_add` with a host longer than 255 bytes returns -1 and `dnscache_get` with
such a host returns -1 and copies nothing; both leave the cache as it was.  With a host of at
most 255 bytes, the empty host included, a cache with at least one bucket and `malloc`
succeeding, `dnscache_add` returns 0. -/
theorem key_too_long (c : dnscache_t) (k a : List UInt8) (alen : Nat) (exp now : Int)
    (alloc : Bool) :
    (HOSTNAME_MAX_LEN < k.length →
      dnscache_add c k a alen exp now alloc = some ⟨-1, c⟩ ∧
      dnscache_get c k now alen = some ⟨-1, none, c⟩) ∧
    (k.length ≤ HOSTNAME_MAX_LEN → 0 < c.nbuckets →
      ∃ r, dnscache_add c k a alen exp now true = some r ∧ r.ret = 0) ∧
    (0 < c.nbuckets → ∃ r, dnscache_add c [] a alen exp now true = some r ∧ r.ret = 0) :=
  ⟨fun hk => ⟨add_long c k a alen exp now alloc hk, get_long c k alen now hk⟩,
    fun hk hn => add_succeeds c k a alen exp now hk hn,
    fun hn => add_succeeds c [] a alen exp now (Nat.zero_le _) hn⟩

/-- Instance of `key_too_long`: a host of 256 bytes is refused by both functions and the
cache `abCache` stays as it was; the empty host is added. -/
theorem key_too_long_witness :
    dnscache_add abCache (List.replicate 256 97) [1, 1, 1, 1] 4 110 100 true =
      some ⟨-1, abCache⟩ ∧
    dnscache_get abCache (List.replicate 256 97) 100 4 = some ⟨-1, none, abCache⟩ ∧
    dnscache_add abCache [] [1, 1, 1, 1] 4 110 100 true =
      some ⟨0, ⟨[[mk_entry 4 [] [1, 1, 1, 1] 110, mk_entry 4 hostA [1, 1, 1, 1] 130,
                  mk_entry 4 hostB [2, 2, 2, 2] 120]]⟩⟩ ∧
    (∃ r, dnscache_add abCache (List.replicate 255 97) [1, 1, 1, 1] 4 110 100 true = some r ∧
      r.ret = 0) :=
  have h := key_too_long abCache (List.replicate 256 97) [1, 1, 1, 1] 4 110 100 true
  have h2 := key_too_long abCache (List.replicate 255 97) [1, 1, 1, 1] 4 110 100 true
  ⟨(h.1 (by rw [List.length_replicate]; decide)).1,
    (h.1 (by rw [List.length_replicate]; decide)).2, by decide,
    h2.2.1 (by rw [List.length_replicate]; decide) (by decide)⟩

/-- C28: `dnscaches_add_ipv4` and `dnscaches_get_ipv4` leave the IPv6 cache as it was, and
`dnscaches_add_ipv6` and `dnscaches_get_ipv6` leave the IPv4 cache as it was.  So after any
calls in which `dnscaches_add_ipv6` was never given the host `h`, `dnscaches_get_ipv6` of `h`
returns -1 and copies nothing, whatever was added through `dnscaches_add_ipv4`; and the same
with the two caches exchanged. -/
theorem caches_independent :
    (∀ (c : dnscaches_t) (host addr : List UInt8) (exp now : Int) (alloc : Bool)
      (r : adds_result_t),
      dnscaches_add_ipv4 c host addr exp now alloc = some r → r.caches.ipv6 = c.ipv6) ∧
    (∀ (c : dnscaches_t) (host : List UInt8) (now : Int) (r : gets_result_t),
      dnscaches_get_ipv4 c host now = some r → r.caches.ipv6 = c.ipv6) ∧
    (∀ (c : dnscaches_t) (host addr : List UInt8) (exp now : Int) (alloc : Bool)
      (r : adds_result_t),
      dnscaches_add_ipv6 c host addr exp now alloc = some r → r.caches.ipv4 = c.ipv4) ∧
    (∀ (c : dnscaches_t) (host : List UInt8) (now : Int) (r : gets_result_t),
      dnscaches_get_ipv6 c host now = some r → r.caches.ipv4 = c.ipv4) ∧
    (∀ (h : List UInt8) (c : dnscaches_t), Calls (fun _ => True) (fun host => host ≠ h) c →
      ∀ (now : Int) (g : gets_result_t), dnscaches_get_ipv6 c h now = some g →
        g.ret = -1 ∧ g.addr = none) ∧
    (∀ (h : List UInt8) (c : dnscaches_t), Calls (fun host => host ≠ h) (fun _ => True) c →
      ∀ (now : Int) (g : gets_result_t), dnscaches_get_ipv4 c h now = some g →
        g.ret = -1 ∧ g.addr = none) := by
  refine ⟨?_, ?_, ?_, ?_, ?_, ?_⟩
  · intro c host addr exp now alloc r hr
    obtain ⟨r0, _, _, hc⟩ := add_ipv4_inv hr
    rw [hc]
  · intro c host now r hr
    obtain ⟨r0, _, _, _, hc⟩ := get_ipv4_inv hr
    rw [hc]
  · intro c host addr exp now alloc r hr
    obtain ⟨r0, _, _, hc⟩ := add_ipv6_inv hr
    rw [hc]
  · intro c host now r hr
    obtain ⟨r0, _, _, _, hc⟩ := get_ipv6_inv hr
    rw [hc]
  · intro h c hc now g hg
    obtain ⟨_, i6, _, j6⟩ := calls_inv hc
    obtain ⟨r0, h0, hret, haddr, _⟩ := get_ipv6_inv hg
    rw [hret, haddr]
    exact get_missing i6 j6 h0
  · intro h c hc now g hg
    obtain ⟨i4, _, j4, _⟩ := calls_inv hc
    obtain ⟨r0, h0, hret, haddr, _⟩ := get_ipv4_inv hg
    rw [hret, haddr]
    exact get_missing i4 j4 h0

/-- Instance of `caches_independent`: the host "a" is added through `dnscaches_add_ipv4`
only; `dnscaches_get_ipv4` finds it and `dnscaches_get_ipv6` returns -1. -/
theorem caches_independent_witness :
    dnscaches_create 1 true true = some ⟨⟨[[]]⟩, ⟨[[]]⟩⟩ ∧
    dnscaches_add_ipv4 ⟨⟨[[]]⟩, ⟨[[]]⟩⟩ hostA [1, 1, 1, 1] 10 0 true =
      some ⟨0, ⟨⟨[[mk_entry 4 hostA [1, 1, 1, 1] 10]]⟩, ⟨[[]]⟩⟩⟩ ∧
    dnscaches_get_ipv4 ⟨⟨[[mk_entry 4 hostA [1, 1, 1, 1] 10]]⟩, ⟨[[]]⟩⟩ hostA 5 =
      some ⟨0, some [1, 1, 1, 1], ⟨⟨[[mk_entry 4 hostA [1, 1, 1, 1] 10]]⟩, ⟨[[]]⟩⟩⟩ ∧
    dnscaches_get_ipv6 ⟨⟨[[mk_entry 4 hostA [1, 1, 1, 1] 10]]⟩, ⟨[[]]⟩⟩ hostA 5 =
      some ⟨-1, none, ⟨⟨[[mk_entry 4 hostA [1, 1, 1, 1] 10]]⟩, ⟨[[]]⟩⟩⟩ ∧
    ((-1 : Int) = -1 ∧ (none : Option (List UInt8)) = none) :=
  ⟨by decide, by decide, by decide, by decide,
    caches_independent.2.2.2.2.1 hostA ⟨⟨[[mk_entry 4 hostA [1, 1, 1, 1] 10]]⟩, ⟨[[]]⟩⟩
      (Calls.add_ipv4 ⟨⟨[[]]⟩, ⟨[[]]⟩⟩ hostA [1, 1, 1, 1] 10 0 true
        ⟨0, ⟨⟨[[mk_entry 4 hostA [1, 1, 1, 1] 10]]⟩, ⟨[[]]⟩⟩⟩
        (Calls.create 1 _ (by decide)) trivial (by decide))
      5 ⟨-1, none, ⟨⟨[[mk_entry 4 hostA [1, 1, 1, 1] 10]]⟩, ⟨[[]]⟩⟩⟩ (by decide)⟩

/-- C29: for every byte span, every seed and every `max > 0`, `hash` returns a value below
`max`, the remainder of a 32-bit value whose computation keeps the three variables below
2^32.  So the bucket index of a host in a cache with `max` buckets is a valid index that is
fixed by the host bytes, their number and `max`: `dnscache_add` and `dnscache_get` return,
keep the number of buckets and change no other bucket than that one. -/
theorem hash_in_range (data : List UInt8) (seed max : Nat) (hmax : 0 < max) :
    (∃ v, hash data seed max = some v ∧ v < max ∧ v = hash_value data seed % max) ∧
    hash_value data seed < 2 ^ 32 ∧
    (∀ s : hash_state_t, s.c < 2 ^ 32 →
      (mix s).a < 2 ^ 32 ∧ (mix s).b < 2 ^ 32 ∧ (mix s).c < 2 ^ 32) ∧
    ∃ i, hash data initval max = some i ∧ i < max ∧
      (∀ (c : dnscache_t) (a : List UInt8) (alen : Nat) (exp now : Int) (alloc : Bool),
        c.nbuckets = max →
        ∃ r, dnscache_add c data a alen exp now alloc = some r ∧ r.cache.nbuckets = max ∧
          ∀ j : Nat, j ≠ i → r.cache.buckets[j]? = c.buckets[j]?) ∧
      (∀ (c : dnscache_t) (alen : Nat) (now : Int), c.nbuckets = max →
        ∃ r, dnscache_get c data now alen = some r ∧ r.cache.nbuckets = max ∧
          ∀ j : Nat, j ≠ i → r.cache.buckets[j]? = c.buckets[j]?) := by
  refine ⟨⟨_, hash_some data seed hmax, Nat.mod_lt _ hmax, rfl⟩, hash_value_lt data seed,
    mix_lt, _, hash_some data initval hmax, Nat.mod_lt _ hmax, ?_, ?_⟩
  · intro c a alen exp now alloc hc
    unfold dnscache_t.nbuckets at hc
    obtain ⟨r, hr⟩ := add_total c data a alen exp now alloc (by omega)
    refine ⟨r, hr, ?_, ?_⟩
    · unfold dnscache_t.nbuckets
      rw [add_length hr, hc]
    · exact add_other_buckets (by rw [hc]; exact hash_some data initval hmax) hr
  · intro c alen now hc
    unfold dnscache_t.nbuckets at hc
    obtain ⟨r, hr⟩ := get_total c data now alen (by omega)
    refine ⟨r, hr, ?_, ?_⟩
    · unfold dnscache_t.nbuckets
      rw [get_length hr, hc]
    · exact get_other_buckets (by rw [hc]; exact hash_some data initval hmax) hr

/-- Instance of `hash_in_range`: the empty span and the 14 bytes of "www.000000.net" with
the seed of the cache and 127 buckets; subtraction and shift wrap around at 2^32. -/
theorem hash_in_range_witness :
    hash [] initval 127 = some 16 ∧
    hash [119, 119, 119, 46, 48, 48, 48, 48, 48, 48, 46, 110, 101, 116] initval 127 = some 125 ∧
    hash_value [119, 119, 119, 46, 48, 48, 48, 48, 48, 48, 46, 110, 101, 116] initval =
      1512353082 ∧
    sub32 0 1 = 4294967295 ∧ add32 4294967295 1 = 0 ∧ shl32 2147483649 1 = 2 ∧
    ((∃ v, hash [119, 119, 119, 46, 48, 48, 48, 48, 48, 48, 46, 110, 101, 116] initval 127 =
        some v ∧ v < 127 ∧
        v = hash_value [119, 119, 119, 46, 48, 48, 48, 48, 48, 48, 46, 110, 101, 116] initval %
          127) ∧
      hash_value [119, 119, 119, 46, 48, 48, 48, 48, 48, 48, 46, 110, 101, 116] initval <
        2 ^ 32) :=
  have h := hash_in_range [119, 119, 119, 46, 48, 48, 48, 48, 48, 48, 46, 110, 101, 116]
    initval 127 (by decide)
  ⟨by decide, by decide, by decide, by decide, by decide, by decide, h.1, h.2.1⟩

/-- C30: `dns_qtype_to_string` returns the mnemonic the specification lists for each of the
21 named type codes and `dns_qclass_to_string` the one listed for each of the 5 named class
codes; every other code gives "(unknown)" in both functions. -/
theorem code_mnemonics :
    (∀ q : Nat, dns_qtype_to_string q = ((qtypeNames.lookup q).getD "(unknown)")) ∧
    (∀ q : Nat, dns_qclass_to_string q = ((qclassNames.lookup q).getD "(unknown)")) ∧
    (List.map dns_qtype_to_string
        [1, 2, 3, 4, 5, 6, 7, 8, 9, 10, 11, 12, 13, 14, 15, 16, 28, 252, 253, 254, 255] =
      ["A", "NS", "MD", "MF", "CNAME", "SOA", "MB", "MG", "MR", "NULL", "WKS", "PTR", "HINFO",
       "MINFO", "MX", "TXT", "AAAA", "AXFR", "MAILB", "MAILA", "(all)"]) ∧
    (List.map dns_qclass_to_string [1, 2, 3, 4, 255] = ["IN", "CS", "CH", "HS", "(any)"]) ∧
    (∀ q : Nat, q ∉ [1, 2, 3, 4, 5, 6, 7, 8, 9, 10, 11, 12, 13, 14, 15, 16, 28, 252, 253, 254, 255] →
      dns_qtype_to_string q = "(unknown)") ∧
    (∀ q : Nat, q ∉ [1, 2, 3, 4, 255] → dns_qclass_to_string q = "(unknown)") := by
  refine ⟨qtype_table, qclass_table, by decide, by decide, ?_, ?_⟩
  · intro q hq
    rw [qtype_table]
    by_cases h : q < 256
    · interval_cases q <;> first | rfl | exact absurd (by decide) hq
    · have hne : ∀ n : Nat, n < 256 → (q == n) = false := fun n hn => by
        simp only [beq_eq_false_iff_ne, ne_eq]; omega
      have e2 : ∀ (n : Nat) (s : String) (l : List (Nat × String)), n < 256 →
          List.lookup q ((n, s) :: l) = List.lookup q l := fun n s l hn => by
        simp only [List.lookup, hne n hn]
      unfold qtypeNames
      repeat rw [e2 _ _ _ (by decide)]
      rfl
  · intro q hq
    rw [qclass_table]
    by_cases h : q < 256
    · interval_cases q <;> first | rfl | exact absurd (by decide) hq
    · have hne : ∀ n : Nat, n < 256 → (q == n) = false := fun n hn => by
        simp only [beq_eq_false_iff_ne, ne_eq]; omega
      have e2 : ∀ (n : Nat) (s : String) (l : List (Nat × String)), n < 256 →
          List.lookup q ((n, s) :: l) = List.lookup q l := fun n s l hn => by
        simp only [List.lookup, hne n hn]
      unfold qclassNames
      repeat rw [e2 _ _ _ (by decide)]
      rfl

/-! ## Further lemmas and properties of the decoder and of the cache -/

theorem record_rdata_cname (buf : List UInt8) (p l : Nat) :
    record_rdata buf p 5 1 l =
      (parse_domain_name buf (p + 10) >>= fun c => pure (some (.cname c.name c.namelen))) := rfl

theorem record_rdata_mx (buf : List UInt8) (p l : Nat) :
    record_rdata buf p 15 1 l =
      (parse_domain_name buf (p + 12) >>= fun e =>
       rd16 buf (p + 10) >>= fun preference =>
       pure (some (.mx e.name e.namelen preference))) := rfl

/-- A successful decode starts below the end of the buffer. -/
theorem parse_ok_pos_lt {buf : List UInt8} {pos : Nat} {r : ParsedName}
    (h : parse_domain_name buf pos = .ok r) : pos < buf.length := by
  obtain ⟨st, hst, _, _⟩ := parse_ok_state h
  obtain ⟨_, hl⟩ := state_eq_loop hst
  by_contra hge
  have hf : nameFuel MAX_POINTERS buf.length = (nameFuel MAX_POINTERS buf.length - 1) + 1 := by
    unfold nameFuel MAX_POINTERS; omega
  rw [hf, loop_succ, step_oob (by simp only; omega)] at hl
  cases hl

theorem reaches_npointers {maxp : Nat} {buf : List UInt8} {s0 s : NameState}
    (hr : Reaches maxp buf s0 s) (h0 : s0.npointers ≤ maxp) : s.npointers ≤ maxp := by
  induction hr with
  | refl => exact h0
  | step hstep _ ih => exact ih (measure_step h0 hstep).1

/-- A loop that returns `NULL` at a state the decoder reaches makes the decode fail. -/
theorem parse_null_of_reaches {buf : List UInt8} {pos fuel : Nat} {s : NameState}
    (hr : Reaches MAX_POINTERS buf ⟨pos, [], 0, 0⟩ s) (hs : s.pos < buf.length)
    (h : parse_domain_name_loop MAX_POINTERS buf fuel s = .null) :
    parse_domain_name buf pos = .null := by
  have hp0 := reaches_pos_lt hr hs
  exact parse_null_of_state (reaches_state hr (by simp only at hp0; omega) h (by simp))

theorem byteAt_ext (buf ext : List UInt8) {i : Nat} (h : i < buf.length) :
    byteAt (buf ++ ext) i = byteAt buf i := by
  unfold byteAt
  rw [List.getD_eq_getElem?_getD, List.getD_eq_getElem?_getD, List.getElem?_append_left h]

theorem be16At_ext (buf ext : List UInt8) {i : Nat} (h : i + 1 < buf.length) :
    be16At (buf ++ ext) i = be16At buf i := by
  unfold be16At
  rw [byteAt_ext buf ext (show i < buf.length by omega), byteAt_ext buf ext h]

theorem be32At_ext (buf ext : List UInt8) {i : Nat} (h : i + 3 < buf.length) :
    be32At (buf ++ ext) i = be32At buf i := by
  unfold be32At
  rw [byteAt_ext buf ext (show i < buf.length by omega),
    byteAt_ext buf ext (show i + 1 < buf.length by omega),
    byteAt_ext buf ext (show i + 2 < buf.length by omega), byteAt_ext buf ext h]

theorem slice_ext (buf ext : List UInt8) {off n : Nat} (h : off + n ≤ buf.length) :
    ((buf ++ ext).drop off).take n = (buf.drop off).take n := by
  rw [List.drop_append_of_le_length (by omega), List.take_append_of_le_length]
  rw [List.length_drop]; omega

theorem length_ext (buf ext : List UInt8) : buf.length ≤ (buf ++ ext).length := by
  rw [List.length_append]; omega

/-- One iteration of the decoder that goes through on a buffer does the same on any
extension of the buffer. -/
theorem step_ext (maxp : Nat) (buf ext : List UInt8) {s : NameState} {c : Ctl}
    (h : parse_domain_name_step maxp buf s = .ok c) :
    parse_domain_name_step maxp (buf ++ ext) s = .ok c := by
  have hle := length_ext buf ext
  rcases step_cases maxp buf s with ⟨_, hs⟩ | ⟨hp, h0, hs⟩ | ⟨h0, hl, hb, hn, hs⟩ |
    ⟨hp, hc, hn, ht, hs⟩ | ⟨_, hs⟩
  · rw [hs] at h; cases h
  · rw [hs] at h
    rw [← h]
    exact step_zero (by omega) (by rw [byteAt_ext buf ext hp]; exact h0)
  · rw [hs] at h
    rw [← h]
    have hp : s.pos < buf.length := by omega
    have hstep := @step_label maxp (buf ++ ext) s (by rw [byteAt_ext buf ext hp]; exact h0)
      (by rw [byteAt_ext buf ext hp]; exact hl) (by rw [byteAt_ext buf ext hp]; omega)
      (by rw [byteAt_ext buf ext hp]; exact hn)
    rw [hstep, byteAt_ext buf ext hp, slice_ext buf ext (by omega)]
  · rw [hs] at h
    rw [← h]
    have hp0 : s.pos < buf.length := by omega
    have hstep := @step_ptr maxp (buf ++ ext) s (by omega)
      (by rw [byteAt_ext buf ext hp0]; exact hc)
    rw [byteAt_ext buf ext hp0, byteAt_ext buf ext hp] at hstep
    unfold ptrOf at ht ⊢
    rw [hstep, if_pos hn, if_neg (by omega)]
  · rw [hs] at h; cases h

theorem loop_ext (maxp : Nat) (buf ext : List UInt8) :
    ∀ (fuel : Nat) (s st : NameState), parse_domain_name_loop maxp buf fuel s = .ok st →
      parse_domain_name_loop maxp (buf ++ ext) fuel s = .ok st := by
  intro fuel
  induction fuel with
  | zero => intro s st h; simp [parse_domain_name_loop] at h
  | succ f ih =>
    intro s st h
    rw [loop_succ] at h ⊢
    cases hs : parse_domain_name_step maxp buf s with
    | ok c =>
      rw [hs] at h
      rw [step_ext maxp buf ext hs]
      cases c with
      | again s1 => exact ih s1 st h
      | exit s1 => exact h
    | null => rw [hs] at h; cases h
    | oob o => rw [hs] at h; cases h
    | diverge => rw [hs] at h; cases h

theorem state_ext (maxp : Nat) (buf ext : List UInt8) {pos : Nat} {st : NameState}
    (h : parse_domain_name_state maxp buf pos = .ok st) :
    parse_domain_name_state maxp (buf ++ ext) pos = .ok st := by
  obtain ⟨hne, hl⟩ := state_eq_loop h
  have hlt : pos < buf.length := by
    by_contra hge
    have hf : nameFuel maxp buf.length = (nameFuel maxp buf.length - 1) + 1 := by
      unfold nameFuel
      have : 0 < (maxp + 1) * (buf.length + 1) := Nat.mul_pos (by omega) (by omega)
      omega
    rw [hf, loop_succ, step_oob (by simp only; omega)] at hl
    cases hl
  have hle := length_ext buf ext
  exact state_of_loop (by omega) (loop_ext maxp buf ext _ _ _ hl) (by simp)

theorem parse_ext (buf ext : List UInt8) {pos : Nat} {r : ParsedName}
    (h : parse_domain_name buf pos = .ok r) : parse_domain_name (buf ++ ext) pos = .ok r := by
  obtain ⟨st, hst, hlen, hr⟩ := parse_ok_state h
  unfold parse_domain_name
  rw [lim_of_state (state_ext MAX_POINTERS buf ext hst), if_pos hlen, hr]

theorem skip_loop_ext (buf ext : List UInt8) :
    ∀ (fuel p q : Nat), skip_domain_name_loop buf fuel p = .ok q →
      skip_domain_name_loop (buf ++ ext) fuel p = .ok q := by
  intro fuel
  induction fuel with
  | zero => intro p q h; simp [skip_domain_name_loop] at h
  | succ f ih =>
    intro p q h
    have hle := length_ext buf ext
    by_cases hp : p < buf.length
    · by_cases h0 : byteAt buf p = 0
      · rw [skip_zero f hp h0] at h
        rw [skip_zero f (by omega) (by rw [byteAt_ext buf ext hp]; exact h0)]
        exact h
      · by_cases hl : byteAt buf p &&& 0xc0 = 0
        · rw [skip_label f hp h0 hl] at h
          rw [skip_label f (by omega) (by rw [byteAt_ext buf ext hp]; exact h0)
            (by rw [byteAt_ext buf ext hp]; exact hl), byteAt_ext buf ext hp]
          by_cases hb : p + (1 + byteAt buf p) ≥ buf.length
          · rw [if_pos hb] at h; cases h
          · rw [if_neg hb] at h
            rw [if_neg (by omega)]
            exact ih _ _ h
        · by_cases hc : byteAt buf p &&& 0xc0 = 0xc0
          · rw [skip_ptr f hp hc] at h
            rw [skip_ptr f (by omega) (by rw [byteAt_ext buf ext hp]; exact hc)]
            by_cases hb : p + 2 ≤ buf.length
            · rw [if_pos hb] at h
              rw [if_pos (by omega)]
              exact h
            · rw [if_neg hb] at h; cases h
          · simp only [skip_domain_name_loop, rd_of_lt hp] at h
            rw [if_neg h0, if_neg hl, if_neg hc] at h
            cases h
    · simp only [skip_domain_name_loop, rd_of_ge (show buf.length ≤ p by omega)] at h
      cases h

theorem skip_ext (buf ext : List UInt8) {p q : Nat} (h : skip_domain_name buf p = .ok q) :
    skip_domain_name (buf ++ ext) p = .ok q := by
  unfold skip_domain_name at h
  by_cases hne : p ≠ buf.length
  · rw [if_pos hne] at h
    have hlt : p < buf.length := by
      by_contra hge
      simp only [skip_domain_name_loop, rd_of_ge (show buf.length ≤ p by omega)] at h
      cases h
    have hle := length_ext buf ext
    exact skip_of_loop (by omega) (skip_loop_ext buf ext _ _ _ h) (by simp)
  · rw [if_neg hne] at h; cases h

theorem process_question_ext (buf ext : List UInt8) {pos : Nat} {x : Nat × dns_question_t}
    (h : process_question buf pos = .ok x) : process_question (buf ++ ext) pos = .ok x := by
  have hle := length_ext buf ext
  unfold process_question at h ⊢
  obtain ⟨r, hr, h2⟩ := bind_ok_inv h
  rw [parse_ext buf ext hr]
  simp only [Res.ok_bind]
  by_cases hb : r.next + 4 ≤ buf.length
  · rw [if_pos hb, rd16_eq (by omega), rd16_eq (by omega)] at h2
    rw [if_pos (by omega), rd16_eq (by omega), rd16_eq (by omega),
      be16At_ext buf ext (by omega), be16At_ext buf ext (by omega)]
    exact h2
  · rw [if_neg hb] at h2; cases h2

theorem process_questions_ext (buf ext : List UInt8) :
    ∀ (n pos : Nat) (qs : List dns_question_t) (x : Nat × List dns_question_t),
      process_questions buf n pos qs = .ok x →
      process_questions (buf ++ ext) n pos qs = .ok x := by
  intro n
  induction n with
  | zero => intro pos qs x h; exact h
  | succ n ih =>
    intro pos qs x h
    unfold process_questions at h ⊢
    cases hq : process_question buf pos with
    | ok y =>
      obtain ⟨p, q⟩ := y
      rw [hq] at h
      rw [process_question_ext buf ext hq]
      exact ih _ _ _ h
    | null => rw [hq] at h; cases h
    | oob o => rw [hq] at h; cases h
    | diverge => rw [hq] at h; cases h

theorem skip_questions_ext (buf ext : List UInt8) :
    ∀ (n pos q : Nat), skip_questions buf n pos = .ok q →
      skip_questions (buf ++ ext) n pos = .ok q := by
  intro n
  induction n with
  | zero => intro pos q h; exact h
  | succ n ih =>
    intro pos q h
    have hle := length_ext buf ext
    unfold skip_questions at h ⊢
    cases hs : skip_domain_name buf pos with
    | ok p =>
      rw [hs] at h
      rw [skip_ext buf ext hs]
      simp only at h ⊢
      by_cases hb : p + 4 > buf.length
      · rw [if_pos hb] at h; cases h
      · rw [if_neg hb] at h
        rw [if_neg (by omega)]
        exact ih _ _ h
    | null => rw [hs] at h; cases h
    | oob o => rw [hs] at h; cases h
    | diverge => rw [hs] at h; cases h

theorem memrd_ext (buf ext : List UInt8) {off n : Nat} (h : off + n ≤ buf.length) :
    memrd (buf ++ ext) off n = memrd buf off n := by
  have hle := length_ext buf ext
  by_cases hn : n = 0
  · unfold memrd; rw [if_pos hn, if_pos hn]
  · unfold memrd
    rw [if_neg hn, if_neg hn, if_pos h, if_pos (by omega), slice_ext buf ext h]

/-- The union filled from a record that lies inside the buffer is filled in the same way on
any extension of the buffer. -/
theorem record_rdata_ext (buf ext : List UInt8) {p type cls l : Nat} {od : Option rdata_t}
    (hb : p + 10 + l ≤ buf.length)
    (h : record_rdata buf p type cls l = .ok od) :
    record_rdata (buf ++ ext) p type cls l = .ok od := by
  have hle := length_ext buf ext
  unfold record_rdata at h ⊢
  by_cases hc : cls = DNS_QCLASS_IN
  · rw [if_pos hc] at h ⊢
    by_cases h1 : type = DNS_QTYPE_A
    · rw [if_pos h1] at h ⊢
      by_cases h4 : l = 4
      · rw [if_pos h4] at h ⊢
        rw [memrd_ext buf ext (by omega)]
        exact h
      · rw [if_neg h4] at h; cases h
    · rw [if_neg h1] at h ⊢
      by_cases h2 : type = DNS_QTYPE_AAAA
      · rw [if_pos h2] at h ⊢
        by_cases h16 : l = 16
        · rw [if_pos h16] at h ⊢
          rw [memrd_ext buf ext (by omega)]
          exact h
        · rw [if_neg h16] at h; cases h
      · rw [if_neg h2] at h ⊢
        by_cases h3 : type = DNS_QTYPE_CNAME
        · rw [if_pos h3] at h ⊢
          obtain ⟨c, hcn, h5⟩ := bind_ok_inv h
          rw [parse_ext buf ext hcn]
          exact h5
        · rw [if_neg h3] at h ⊢
          by_cases h4 : type = DNS_QTYPE_MX
          · rw [if_pos h4] at h ⊢
            obtain ⟨e, he, h5⟩ := bind_ok_inv h
            have hlt := parse_ok_pos_lt he
            rw [parse_ext buf ext he]
            simp only [Res.ok_bind]
            rw [rd16_eq (by omega)] at h5
            rw [rd16_eq (by omega), be16At_ext buf ext (by omega)]
            exact h5
          · rw [if_neg h4] at h ⊢
            by_cases h5 : type = DNS_QTYPE_SOA
            · rw [if_pos h5] at h ⊢
              obtain ⟨ns, hns, h6⟩ := bind_ok_inv h
              obtain ⟨mb, hmb, h7⟩ := bind_ok_inv h6
              rw [parse_ext buf ext hns]
              simp only [Res.ok_bind]
              rw [parse_ext buf ext hmb]
              simp only [Res.ok_bind]
              by_cases h20 : mb.next + 20 ≤ buf.length
              · rw [if_pos h20, rd32_eq (by omega), rd32_eq (by omega), rd32_eq (by omega),
                  rd32_eq (by omega), rd32_eq (by omega)] at h7
                rw [if_pos (by omega), rd32_eq (by omega), rd32_eq (by omega),
                  rd32_eq (by omega), rd32_eq (by omega), rd32_eq (by omega),
                  be32At_ext buf ext (by omega), be32At_ext buf ext (by omega),
                  be32At_ext buf ext (by omega), be32At_ext buf ext (by omega),
                  be32At_ext buf ext (by omega)]
                exact h7
              · rw [if_neg h20] at h7; cases h7
            · rw [if_neg h5] at h ⊢
              exact h
  · rw [if_neg hc] at h ⊢
    exact h

theorem process_resource_record_ext (buf ext : List UInt8) {pos : Nat}
    {x : Nat × Option rr_t} (h : process_resource_record buf pos = .ok x) :
    process_resource_record (buf ++ ext) pos = .ok x := by
  obtain ⟨p1, o⟩ := x
  have hle := length_ext buf ext
  obtain ⟨r, od, hr, h10, hrd, hod, hp1, ho⟩ := process_resource_record_ok h
  have e8 := be16At_ext buf ext (show r.next + 8 + 1 < buf.length by omega)
  have e0 := be16At_ext buf ext (show r.next + 1 < buf.length by omega)
  have e2 := be16At_ext buf ext (show r.next + 2 + 1 < buf.length by omega)
  have e4 := be32At_ext buf ext (show r.next + 4 + 3 < buf.length by omega)
  rw [process_resource_record_eq (parse_ext buf ext hr) (by omega) (by rw [e8]; omega),
    e8, e0, e2, e4, record_rdata_ext buf ext hrd hod, hp1, ho]
  rfl

theorem process_resource_records_ext (buf ext : List UInt8) :
    ∀ (n pos : Nat) (rrs : List rr_t) (x : Nat × List rr_t),
      process_resource_records buf n pos rrs = .ok x →
      process_resource_records (buf ++ ext) n pos rrs = .ok x := by
  intro n
  induction n with
  | zero => intro pos rrs x h; exact h
  | succ n ih =>
    intro pos rrs x h
    cases hq : process_resource_record buf pos with
    | ok y =>
      obtain ⟨p, o⟩ := y
      rw [records_succ_ok hq] at h
      rw [records_succ_ok (process_resource_record_ext buf ext hq)]
      exact ih _ _ _ h
    | null => rw [records_succ_null hq] at h; cases h
    | oob o =>
      unfold process_resource_records at h
      rw [hq] at h; cases h
    | diverge =>
      unfold process_resource_records at h
      rw [hq] at h; cases h

theorem skip_resource_records_ext (buf ext : List UInt8) :
    ∀ (n pos q : Nat), skip_resource_records buf n pos = .ok q →
      skip_resource_records (buf ++ ext) n pos = .ok q := by
  intro n
  induction n with
  | zero => intro pos q h; exact h
  | succ n ih =>
    intro pos q h
    have hle := length_ext buf ext
    unfold skip_resource_records at h ⊢
    cases hs : skip_domain_name buf pos with
    | ok p =>
      rw [hs] at h
      rw [skip_ext buf ext hs]
      simp only at h ⊢
      by_cases hb : p + 10 ≤ buf.length
      · rw [if_pos hb, rd16_eq (by omega)] at h
        rw [if_pos (by omega), rd16_eq (by omega), be16At_ext buf ext (by omega)]
        simp only at h ⊢
        by_cases hr : p + 10 + be16At buf (p + 8) ≤ buf.length
        · rw [if_pos hr] at h
          rw [if_pos (by omega)]
          exact ih _ _ h
        · rw [if_neg hr] at h; cases h
      · rw [if_neg hb] at h; cases h
    | null => rw [hs] at h; cases h
    | oob o => rw [hs] at h; cases h
    | diverge => rw [hs] at h; cases h

/-- A response that decodes still decodes, to the same result, when bytes are appended and
the message stays within the maximum size. -/
theorem process_response_ext (buf ext : List UInt8) {q a n : Option Nat} {resp : dns_response_t}
    (h : dns_process_response buf q a n = .ok resp)
    (hlen : buf.length + ext.length ≤ MAX_DNS_MESSAGE_SIZE) :
    dns_process_response (buf ++ ext) q a n = .ok resp := by
  obtain ⟨hl, hqr, htc, hrc⟩ := process_response_header h
  obtain ⟨x, b, y, c, z, hx, hb, hy, hc, hz, hresp⟩ := process_response_ok h
  have b0 := be16At_ext buf ext (show 0 + 1 < buf.length by omega)
  have b4 := be16At_ext buf ext (show 4 + 1 < buf.length by omega)
  have b6 := be16At_ext buf ext (show 6 + 1 < buf.length by omega)
  have b8 := be16At_ext buf ext (show 8 + 1 < buf.length by omega)
  rw [process_response_eq q a n (by rw [List.length_append]; omega)
    (by rw [byteAt_ext buf ext (by omega)]; exact hqr)
    (by rw [byteAt_ext buf ext (by omega)]; exact htc)
    (by rw [byteAt_ext buf ext (by omega)]; exact hrc), b0, b4, b6, b8,
    process_questions_ext buf ext _ _ _ _ hx]
  simp only [Res.ok_bind]
  rw [skip_questions_ext buf ext _ _ _ hb]
  simp only [Res.ok_bind]
  rw [process_resource_records_ext buf ext _ _ _ _ hy]
  simp only [Res.ok_bind]
  rw [skip_resource_records_ext buf ext _ _ _ hc]
  simp only [Res.ok_bind]
  rw [process_resource_records_ext buf ext _ _ _ _ hz]
  simp only [Res.ok_bind]
  rw [hresp]

theorem wire_records_succ {buf : List UInt8} {pos p1 : Nat} {o : Option rr_t}
    (h : process_resource_record buf pos = .ok (p1, o)) (n : Nat) :
    wire_records buf (n + 1) pos = (wire_records buf n p1 >>= fun l => .ok (o :: l)) := by
  rw [wire_records, h]

theorem reduceOption_toList (o : Option rr_t) (l : List (Option rr_t)) :
    (o :: l).reduceOption = o.toList ++ l.reduceOption := by
  cases o with
  | none => rw [List.reduceOption_cons_of_none]; rfl
  | some x => rw [List.reduceOption_cons_of_some]; rfl

/-- The records that `process_resource_records` stores are the stored ones among the wire
records it passes, in wire order. -/
theorem records_wire (buf : List UInt8) :
    ∀ (n pos : Nat) (rrs : List rr_t) (p : Nat) (out : List rr_t),
      process_resource_records buf n pos rrs = .ok (p, out) →
      ∃ l, wire_records buf n pos = .ok l ∧ l.length = n ∧ out = rrs ++ l.reduceOption := by
  intro n
  induction n with
  | zero =>
    intro pos rrs p out h
    simp only [process_resource_records, Res.ok.injEq, Prod.mk.injEq] at h
    exact ⟨[], rfl, rfl, by rw [← h.2]; simp⟩
  | succ n ih =>
    intro pos rrs p out h
    cases hq : process_resource_record buf pos with
    | ok y =>
      obtain ⟨p1, o⟩ := y
      rw [records_succ_ok hq] at h
      obtain ⟨l, hl, hlen, hout⟩ := ih _ _ _ _ h
      refine ⟨o :: l, ?_, by simp [hlen], ?_⟩
      · rw [wire_records_succ hq, hl]; rfl
      · rw [hout, reduceOption_toList, List.append_assoc]
    | null => rw [records_succ_null hq] at h; cases h
    | oob o =>
      unfold process_resource_records at h
      rw [hq] at h; cases h
    | diverge =>
      unfold process_resource_records at h
      rw [hq] at h; cases h

theorem reduceOption_count (l : List (Option rr_t)) :
    l.reduceOption.length + l.count none = l.length := by
  induction l with
  | nil => rfl
  | cons o l ih =>
    cases o with
    | none =>
      rw [List.reduceOption_cons_of_none, List.count_cons_self, List.length_cons]
      omega
    | some x =>
      rw [List.reduceOption_cons_of_some, List.count_cons_of_ne (by simp), List.length_cons,
        List.length_cons]
      omega

/-- A record that is passed over has another class than IN or another type than the five. -/
theorem record_rdata_none {buf : List UInt8} {p type cls l : Nat}
    (h : record_rdata buf p type cls l = .ok none) :
    cls ≠ DNS_QCLASS_IN ∨ (type ≠ DNS_QTYPE_A ∧ type ≠ DNS_QTYPE_AAAA ∧
      type ≠ DNS_QTYPE_CNAME ∧ type ≠ DNS_QTYPE_MX ∧ type ≠ DNS_QTYPE_SOA) := by
  unfold record_rdata at h
  by_cases hc : cls = DNS_QCLASS_IN
  · right
    rw [if_pos hc] at h
    by_cases h1 : type = DNS_QTYPE_A
    · rw [if_pos h1] at h
      by_cases h4 : l = 4
      · rw [if_pos h4] at h
        obtain ⟨x, _, h5⟩ := bind_ok_inv h
        cases h5
      · rw [if_neg h4] at h; cases h
    · rw [if_neg h1] at h
      by_cases h2 : type = DNS_QTYPE_AAAA
      · rw [if_pos h2] at h
        by_cases h16 : l = 16
        · rw [if_pos h16] at h
          obtain ⟨x, _, h5⟩ := bind_ok_inv h
          cases h5
        · rw [if_neg h16] at h; cases h
      · rw [if_neg h2] at h
        by_cases h3 : type = DNS_QTYPE_CNAME
        · rw [if_pos h3] at h
          obtain ⟨x, _, h5⟩ := bind_ok_inv h
          cases h5
        · rw [if_neg h3] at h
          by_cases h4 : type = DNS_QTYPE_MX
          · rw [if_pos h4] at h
            obtain ⟨x, _, h5⟩ := bind_ok_inv h
            obtain ⟨y, _, h6⟩ := bind_ok_inv h5
            cases h6
          · rw [if_neg h4] at h
            by_cases h5 : type = DNS_QTYPE_SOA
            · rw [if_pos h5] at h
              obtain ⟨ns, _, h6⟩ := bind_ok_inv h
              obtain ⟨mb, _, h7⟩ := bind_ok_inv h6
              by_cases h20 : mb.next + 20 ≤ buf.length
              · rw [if_pos h20] at h7
                obtain ⟨x1, _, h8⟩ := bind_ok_inv h7
                obtain ⟨x2, _, h9⟩ := bind_ok_inv h8
                obtain ⟨x3, _, h10⟩ := bind_ok_inv h9
                obtain ⟨x4, _, h11⟩ := bind_ok_inv h10
                obtain ⟨x5, _, h12⟩ := bind_ok_inv h11
                cases h12
              · rw [if_neg h20] at h7; cases h7
            · exact ⟨h1, h2, h3, h4, h5⟩
  · exact Or.inl hc

/-- A wire record is stored exactly when its class is IN and its type one of the five. -/
theorem record_stored_iff {buf : List UInt8} {pos p1 : Nat} {o : Option rr_t}
    (h : process_resource_record buf pos = .ok (p1, o)) :
    ∃ r, parse_domain_name buf pos = .ok r ∧
      (o.isSome = true ↔ be16At buf (r.next + 2) = DNS_QCLASS_IN ∧
        (be16At buf r.next = DNS_QTYPE_A ∨ be16At buf r.next = DNS_QTYPE_AAAA ∨
         be16At buf r.next = DNS_QTYPE_CNAME ∨ be16At buf r.next = DNS_QTYPE_MX ∨
         be16At buf r.next = DNS_QTYPE_SOA)) := by
  obtain ⟨r, od, hr, _, _, hod, _, ho⟩ := process_resource_record_ok h
  refine ⟨r, hr, ?_⟩
  constructor
  · intro hs
    cases od with
    | none => rw [ho] at hs; cases hs
    | some d => exact record_rdata_some hod
  · intro hk
    cases od with
    | none =>
      exfalso
      rcases record_rdata_none hod with h1 | h1
      · exact h1 hk.1
      · rcases hk.2 with h2 | h2 | h2 | h2 | h2
        · exact h1.1 h2
        · exact h1.2.1 h2
        · exact h1.2.2.1 h2
        · exact h1.2.2.2.1 h2
        · exact h1.2.2.2.2 h2
    | some d => rw [ho]; rfl

/-- A call of `dnscache_add` at time `now` removes no entry of another host that expires at
or after `now`. -/
theorem add_keep {alen : Nat} {c : dnscache_t} {k a : List UInt8} {exp now : Int}
    {alloc : Bool} {r : add_result_t} (h : cache_ok alen c)
    (hr : dnscache_add c k a alen exp now alloc = some r) :
    ∀ x ∈ entries c, entry_key x ≠ k → now ≤ x.expiration_time → x ∈ entries r.cache := by
  intro x hx hxk hxt
  by_cases hk : k.length ≤ HOSTNAME_MAX_LEN
  · obtain ⟨i, hi⟩ := add_hash hk hr
    have hlt := hash_lt hi
    rcases add_cases a exp now alloc h hk hi with ⟨_, he⟩ | ⟨pre, e, post, hb, hek, _, he⟩
    · rw [he] at hr
      cases alloc
      · simp only [Bool.false_eq_true, if_false, Option.some.injEq] at hr
        subst hr
        exact entries_set_keep hlt hx
          (fun hxb => (remove_expired_loop_mem now _ x).2 ⟨hxb, hxt⟩)
      · simp only [if_true, Option.some.injEq] at hr
        subst hr
        exact entries_set_keep hlt hx
          (fun hxb => List.mem_cons_of_mem _ ((remove_expired_loop_mem now _ x).2 ⟨hxb, hxt⟩))
    · rw [he] at hr
      simp only [Option.some.injEq] at hr
      subst hr
      refine entries_set_keep hlt hx (fun hxb => ?_)
      rw [hb] at hxb
      apply List.mem_cons_of_mem
      rcases List.mem_append.1 hxb with h1 | h1
      · exact List.mem_append_left _ ((remove_expired_loop_mem now pre x).2 ⟨h1, hxt⟩)
      · rcases List.mem_cons.1 h1 with h2 | h2
        · rw [h2] at hxk; exact absurd hek hxk
        · exact List.mem_append_right _ h2
  · rw [add_long c k a alen exp now alloc (by omega)] at hr
    cases hr
    exact hx

/-- A lookup that hits still hits, with the same address, in a cache that kept the entry. -/
theorem hit_preserved {alen : Nat} {c c1 : dnscache_t} {k : List UInt8} {now : Int}
    {g0 : get_result_t} (h : cache_ok alen c) (h1 : cache_ok alen c1)
    (hkeep : ∀ x ∈ entries c, entry_key x = k → now ≤ x.expiration_time → x ∈ entries c1)
    (hg0 : dnscache_get c k now alen = some g0) (hret : g0.ret = 0) :
    ∃ g1, dnscache_get c1 k now alen = some g1 ∧ g1.ret = 0 ∧ g1.addr = g0.addr := by
  obtain ⟨_, s2, _⟩ := @get_spec alen c k now h
  obtain ⟨t1, t2, _⟩ := @get_spec alen c1 k now h1
  obtain ⟨x, hx, hxk, hxt, ha, _⟩ := s2 g0 hg0 hret
  have hx1 := hkeep x hx hxk hxt
  obtain ⟨g1, hg1, hr1⟩ := t1.2 ⟨x, hx1, hxk, hxt⟩
  obtain ⟨y, _, _, _, hay, hu⟩ := t2 g1 hg1 hr1
  refine ⟨g1, hg1, hr1, ?_⟩
  rw [ha, hay, hu x hx1 hxk]

theorem filter_live_sublist (now : Int) (pre post : List cache_entry_t) (e : cache_entry_t) :
    (dnscache_remove_expired_loop now pre ++ post).Sublist (pre ++ e :: post) :=
  List.Sublist.append (remove_expired_loop_sublist now pre) (List.sublist_cons_self e post)

theorem abcCache_reachable : Reachable 4 abcCache :=
  Reachable.add abCache hostC [3, 3, 3, 3] 110 100 true ⟨0, abcCache⟩ abCache_reachable
    (by decide)

theorem bad_bits_ne {l : Nat} (h : l &&& 0xc0 = 0x40 ∨ l &&& 0xc0 = 0x80) :
    l ≠ 0 ∧ l &&& 0xc0 ≠ 0 ∧ l &&& 0xc0 ≠ 0xc0 := by
  refine ⟨?_, ?_, ?_⟩
  · rintro rfl
    rcases h with h | h <;> simp at h
  · rcases h with h | h <;> rw [h] <;> decide
  · rcases h with h | h <;> rw [h] <;> decide

theorem skip_bad_bits {buf : List UInt8} {p : Nat} (fuel : Nat) (hp : p < buf.length)
    (h : byteAt buf p &&& 0xc0 = 0x40 ∨ byteAt buf p &&& 0xc0 = 0x80) :
    skip_domain_name_loop buf (fuel + 1) p = .null := by
  obtain ⟨h0, h1, h2⟩ := bad_bits_ne h
  simp only [skip_domain_name_loop, rd_of_lt hp]
  rw [if_neg h0, if_neg h1, if_neg h2]

theorem ptr_value_lt (l b : Nat) (hb : b < 256) : ((l &&& 0x3f) <<< 8) ||| b < 2 ^ 14 := by
  apply Nat.or_lt_two_pow
  · have h1 : l &&& 0x3f ≤ 0x3f := Nat.and_le_right
    rw [Nat.shiftLeft_eq]
    omega
  · omega

/-- C36: a length byte whose top two bits are `01` or `10` makes the decode fail wherever the
loop of `parse_domain_name` or of `skip_domain_name` meets it, also after pointers were
followed; an iteration goes on only from a byte with top bits `00`, a label of at most 63
bytes, or with top bits `11`, a pointer to the 14-bit offset made of its low 6 bits and the
next byte. -/
theorem bad_label_bits (buf : List UInt8) :
    (∀ (fuel : Nat) (s : NameState), s.pos < buf.length →
      (byteAt buf s.pos &&& 0xc0 = 0x40 ∨ byteAt buf s.pos &&& 0xc0 = 0x80) →
      parse_domain_name_loop MAX_POINTERS buf (fuel + 1) s = .null) ∧
    (∀ (pos : Nat) (s : NameState), Reaches MAX_POINTERS buf ⟨pos, [], 0, 0⟩ s →
      s.pos < buf.length →
      (byteAt buf s.pos &&& 0xc0 = 0x40 ∨ byteAt buf s.pos &&& 0xc0 = 0x80) →
      parse_domain_name buf pos = .null) ∧
    (∀ (fuel p : Nat), p < buf.length →
      (byteAt buf p &&& 0xc0 = 0x40 ∨ byteAt buf p &&& 0xc0 = 0x80) →
      skip_domain_name_loop buf (fuel + 1) p = .null) ∧
    (∀ (pos p : Nat), SkipReaches buf pos p → p < buf.length →
      (byteAt buf p &&& 0xc0 = 0x40 ∨ byteAt buf p &&& 0xc0 = 0x80) →
      skip_domain_name buf pos = .null) ∧
    (∀ (s s1 : NameState), parse_domain_name_step MAX_POINTERS buf s = .ok (.again s1) →
      (byteAt buf s.pos &&& 0xc0 = 0 ∧ byteAt buf s.pos ≤ 63 ∧
        s1.pos = s.pos + (1 + byteAt buf s.pos)) ∨
      (byteAt buf s.pos &&& 0xc0 = 0xc0 ∧
        s1.pos = ((byteAt buf s.pos &&& 0x3f) <<< 8) ||| byteAt buf (s.pos + 1) ∧
        s1.pos < 2 ^ 14)) := by
  have hparse : ∀ (fuel : Nat) (s : NameState), s.pos < buf.length →
      (byteAt buf s.pos &&& 0xc0 = 0x40 ∨ byteAt buf s.pos &&& 0xc0 = 0x80) →
      parse_domain_name_loop MAX_POINTERS buf (fuel + 1) s = .null := by
    intro fuel s hp hb
    obtain ⟨_, h1, h2⟩ := bad_bits_ne hb
    rw [loop_succ, step_bad_bits hp h1 h2]
  refine ⟨hparse, ?_, fun fuel p hp hb => skip_bad_bits fuel hp hb, ?_, ?_⟩
  · intro pos s hr hp hb
    exact parse_null_of_reaches hr hp (hparse 0 s hp hb)
  · intro pos p hr hp hb
    have hp0 := skip_reaches_pos_lt hr hp
    obtain ⟨k, hk⟩ := skip_reaches_loop hr 1
    exact skip_of_loop (by omega) (hk.trans (skip_bad_bits 0 hp hb)) (by simp)
  · intro s s1 h
    rcases step_cases MAX_POINTERS buf s with ⟨_, hs⟩ | ⟨_, _, hs⟩ | ⟨_, hl, _, _, hs⟩ |
      ⟨_, hc, _, _, hs⟩ | ⟨_, hs⟩
    · rw [hs] at h; cases h
    · rw [hs] at h; cases h
    · rw [hs] at h
      simp only [Res.ok.injEq, Ctl.again.injEq] at h
      subst h
      exact Or.inl ⟨hl, label_le_63 (byteAt_lt _ _) hl, rfl⟩
    · rw [hs] at h
      simp only [Res.ok.injEq, Ctl.again.injEq] at h
      subst h
      exact Or.inr ⟨hc, rfl, ptr_value_lt _ _ (byteAt_lt _ _)⟩
    · rw [hs] at h; cases h

/-- Instances of `bad_label_bits` in `badBitsBuf`: the name at offset 3 is a pointer to the
byte `0x40` at offset 5, the name at offset 6 starts with the byte `0x80`; both are refused,
by the decoder and by the skipper. -/
theorem bad_label_bits_witness :
    parse_domain_name badBitsBuf 3 = .null ∧ parse_domain_name badBitsBuf 6 = .null ∧
    skip_domain_name badBitsBuf 5 = .null ∧ skip_domain_name badBitsBuf 6 = .null :=
  ⟨(bad_label_bits badBitsBuf).2.1 3 ⟨5, [], 1, 5⟩
      (@Reaches.step _ _ _ ⟨5, [], 1, 5⟩ _ (by decide) (Reaches.refl _))
      (by decide) (Or.inl (by decide)),
   (bad_label_bits badBitsBuf).2.1 6 ⟨6, [], 0, 0⟩ (Reaches.refl _)
      (by decide) (Or.inr (by decide)),
   (bad_label_bits badBitsBuf).2.2.2.1 5 5 (SkipReaches.refl _)
      (by decide) (Or.inl (by decide)),
   (bad_label_bits badBitsBuf).2.2.2.1 6 6 (SkipReaches.refl _)
      (by decide) (Or.inr (by decide))⟩

/-- C35 as stated fails: in `forwardPtrBuf` the pointer at offset 0
has the target 2, which is not below 0, and the name decodes to `a`. -/
theorem backward_pointer_counterexample :
    ptr_target forwardPtrBuf 0 = some 2 ∧ 0 ≤ 2 ∧
    parse_domain_name forwardPtrBuf 0 = .ok { next := 2, name := [97], namelen := 1 } := by
  decide

/-- C35 (amended): the decoder compares the target of a pointer with the end of the message
only.  A pointer whose target is at or past the end makes the decode fail wherever it is
met, and so does a pointer to itself, which exhausts the limit of 10 pointers; a pointer
whose target is below the end is followed, whether the target lies before or after the
pointer, as long as fewer than 10 pointers were followed. -/
theorem pointer_targets (buf : List UInt8) :
    (∀ (pos : Nat) (s : NameState) (t : Nat), Reaches MAX_POINTERS buf ⟨pos, [], 0, 0⟩ s →
      ptr_target buf s.pos = some t → buf.length ≤ t → parse_domain_name buf pos = .null) ∧
    (∀ (pos : Nat) (s : NameState), Reaches MAX_POINTERS buf ⟨pos, [], 0, 0⟩ s →
      ptr_target buf s.pos = some s.pos → parse_domain_name buf pos = .null) ∧
    (∀ (s : NameState) (t : Nat), ptr_target buf s.pos = some t → t < buf.length →
      s.npointers < MAX_POINTERS →
      parse_domain_name_step MAX_POINTERS buf s =
        .ok (.again { s with pos := t, npointers := s.npointers + 1,
                             next := if s.npointers + 1 = 1 then s.pos + 2 else s.next })) := by
  refine ⟨?_, ?_, ?_⟩
  · intro pos s t hr ht hlen
    obtain ⟨hp, hc, htv⟩ := ptr_target_some ht
    refine @parse_null_of_reaches buf pos 1 s hr (by omega) ?_
    rw [loop_succ, step_ptr hp hc, ← htv, if_pos (show t ≥ buf.length from hlen), ite_self]
  · intro pos s hr ht
    obtain ⟨hp, _, _⟩ := ptr_target_some ht
    have hnp := reaches_npointers hr (Nat.zero_le _)
    have hcyc : follow buf 1 s.pos = some s.pos := by
      simp only [follow, ht, Option.bind]
    have hsome := follow_cycle_all (by decide : 0 < 1) hcyc (MAX_POINTERS - s.npointers + 1)
    refine @parse_null_of_reaches buf pos (MAX_POINTERS + 1) s hr (by omega) ?_
    exact chain_null MAX_POINTERS buf (MAX_POINTERS - s.npointers) s (MAX_POINTERS + 1)
      (by omega) hsome (by omega)
  · intro s t ht hlt hn
    obtain ⟨hp, hc, htv⟩ := ptr_target_some ht
    rw [step_ptr hp hc, ← htv, if_pos (by omega), if_neg (by omega)]

/-- Instances of `pointer_targets`: in `forwardPtrBuf` the pointer at offset 0 is followed
forward to offset 2; in `chainBuf` the pointer at offset 3 is followed backward to offset 0;
a pointer to itself and a pointer past the end are refused. -/
theorem pointer_targets_witness :
    parse_domain_name_step MAX_POINTERS forwardPtrBuf ⟨0, [], 0, 0⟩ =
      .ok (.again ⟨2, [], 1, 2⟩) ∧
    parse_domain_name_step MAX_POINTERS chainBuf ⟨3, [], 0, 0⟩ =
      .ok (.again ⟨0, [], 1, 5⟩) ∧
    parse_domain_name [0xc0, 0] 0 = .null ∧
    parse_domain_name [0xc0, 9, 1, 97, 0] 0 = .null :=
  ⟨(pointer_targets forwardPtrBuf).2.2 ⟨0, [], 0, 0⟩ 2 (by decide) (by decide) (by decide),
   (pointer_targets chainBuf).2.2 ⟨3, [], 0, 0⟩ 0 (by decide) (by decide) (by decide),
   (pointer_targets [0xc0, 0]).2.1 0 ⟨0, [], 0, 0⟩ (Reaches.refl _) (by decide),
   (pointer_targets [0xc0, 9, 1, 97, 0]).1 0 ⟨0, [], 0, 0⟩ 9 (Reaches.refl _) (by decide)
     (by decide)⟩

/-- C31: for a CNAME record of class IN that lies inside the buffer, the stored canonical
name is the name that `parse_domain_name` decodes at the first RDATA byte, 10 bytes after the
end of the owner name, with the whole message as its bounds: RDLENGTH plays no part in it.
The record is refused exactly when that decode returns `NULL`, and then the section is
refused. -/
theorem cname_record (buf : List UInt8) (pos : Nat) (r : ParsedName)
    (h : parse_domain_name buf pos = .ok r) (h10 : r.next + 10 ≤ buf.length)
    (hrd : r.next + 10 + be16At buf (r.next + 8) ≤ buf.length)
    (hcls : be16At buf (r.next + 2) = 1) (htype : be16At buf r.next = 5) :
    (∀ c : ParsedName, parse_domain_name buf (r.next + 10) = .ok c →
      process_resource_record buf pos =
        .ok (r.next + 10 + be16At buf (r.next + 8),
          some { name := r.name, namelen := r.namelen, type := 5, cls := 1,
                 ttl := be32At buf (r.next + 4), rdata := .cname c.name c.namelen,
                 rdlength := be16At buf (r.next + 8) })) ∧
    (process_resource_record buf pos = .null ↔ parse_domain_name buf (r.next + 10) = .null) ∧
    (parse_domain_name buf (r.next + 10) = .null →
      ∀ (n : Nat) (rrs : List rr_t), process_resource_records buf (n + 1) pos rrs = .null) ∧
    (parse_domain_name buf (r.next + 10) = .null ∨
      ∃ c : ParsedName, parse_domain_name buf (r.next + 10) = .ok c) := by
  have heq := process_resource_record_eq h h10 hrd
  rw [hcls, htype, record_rdata_cname] at heq
  have hok : ∀ c : ParsedName, parse_domain_name buf (r.next + 10) = .ok c →
      process_resource_record buf pos =
        .ok (r.next + 10 + be16At buf (r.next + 8),
          some { name := r.name, namelen := r.namelen, type := 5, cls := 1,
                 ttl := be32At buf (r.next + 4), rdata := .cname c.name c.namelen,
                 rdlength := be16At buf (r.next + 8) }) := by
    intro c hc
    rw [heq, hc]
    simp only [Res.ok_bind, Res.pure_eq, Option.map_some', Res.ok.injEq, Prod.mk.injEq,
      and_true]
    omega
  have hnull : parse_domain_name buf (r.next + 10) = .null →
      process_resource_record buf pos = .null := by
    intro hc
    rw [heq, hc]
    rfl
  have hcases : parse_domain_name buf (r.next + 10) = .null ∨
      ∃ c : ParsedName, parse_domain_name buf (r.next + 10) = .ok c := by
    rcases parse_in_bounds (show r.next + 10 ≤ buf.length from h10) with hc | ⟨c, hc, _⟩
    · exact Or.inl hc
    · exact Or.inr ⟨c, hc⟩
  refine ⟨hok, ⟨?_, hnull⟩, fun hc n rrs => records_succ_null (hnull hc) n rrs, hcases⟩
  intro hp
  rcases hcases with hc | ⟨c, hc⟩
  · exact hc
  · rw [hok c hc] at hp
    cases hp

/-- Instances of `cname_record`: in `cnameLongBuf` RDLENGTH is 1 and the name `b` at the
first RDATA byte takes three bytes; it is decoded in full and the cursor moves on by
RDLENGTH.  In `cnameRecordBuf` the name is a pointer to the owner name. -/
theorem cname_record_witness :
    process_resource_record cnameLongBuf 0 =
      .ok (14, some { name := [97], namelen := 1, type := 5, cls := 1, ttl := 0,
                      rdata := .cname [98] 1, rdlength := 1 }) ∧
    process_resource_record cnameRecordBuf 0 =
      .ok (19, some { name := [97], namelen := 1, type := 5, cls := 1, ttl := 0,
                      rdata := .cname [97] 1, rdlength := 6 }) :=
  ⟨(cname_record cnameLongBuf 0 ⟨3, [97], 1⟩ (by decide) (by decide) (by decide) (by decide)
      (by decide)).1 ⟨16, [98], 1⟩ (by decide),
   (cname_record cnameRecordBuf 0 ⟨3, [97], 1⟩ (by decide) (by decide) (by decide) (by decide)
      (by decide)).1 ⟨15, [97], 1⟩ (by decide)⟩

/-- C32: for an MX record of class IN that lies inside the buffer, when the name at the third
RDATA byte decodes, the stored exchange is that name and the stored preference is the
big-endian 16-bit value of the first two RDATA bytes; when that decode returns `NULL` the
record is refused, and so is the section. -/
theorem mx_record (buf : List UInt8) (pos : Nat) (r : ParsedName)
    (h : parse_domain_name buf pos = .ok r) (h10 : r.next + 10 ≤ buf.length)
    (hrd : r.next + 10 + be16At buf (r.next + 8) ≤ buf.length)
    (hcls : be16At buf (r.next + 2) = 1) (htype : be16At buf r.next = 15) :
    (∀ e : ParsedName, parse_domain_name buf (r.next + 12) = .ok e →
      process_resource_record buf pos =
        .ok (r.next + 10 + be16At buf (r.next + 8),
          some { name := r.name, namelen := r.namelen, type := 15, cls := 1,
                 ttl := be32At buf (r.next + 4),
                 rdata := .mx e.name e.namelen (be16At buf (r.next + 10)),
                 rdlength := be16At buf (r.next + 8) })) ∧
    (parse_domain_name buf (r.next + 12) = .null →
      process_resource_record buf pos = .null ∧
      ∀ (n : Nat) (rrs : List rr_t), process_resource_records buf (n + 1) pos rrs = .null) ∧
    be16At buf (r.next + 10) = byteAt buf (r.next + 10) * 256 + byteAt buf (r.next + 11) := by
  have heq := process_resource_record_eq h h10 hrd
  rw [hcls, htype, record_rdata_mx] at heq
  have hnull : parse_domain_name buf (r.next + 12) = .null →
      process_resource_record buf pos = .null := by
    intro he
    rw [heq, he]
    rfl
  refine ⟨?_, fun he => ⟨hnull he, fun n rrs => records_succ_null (hnull he) n rrs⟩,
    be16At_eq buf (r.next + 10)⟩
  intro e he
  have hlt := parse_ok_pos_lt he
  rw [heq, he]
  simp only [Res.ok_bind]
  rw [rd16_eq (by omega)]
  simp only [Res.ok_bind, Res.pure_eq, Option.map_some', Res.ok.injEq, Prod.mk.injEq,
    and_true]
  omega

/-- Instances of `mx_record`: the record of `mxRecordBuf` has the preference `01 02`, 258,
and the exchange `b`; in `mxBadBuf` the exchange does not decode and the record is
refused. -/
theorem mx_record_witness :
    process_resource_record mxRecordBuf 0 =
      .ok (18, some { name := [97], namelen := 1, type := 15, cls := 1, ttl := 0,
                      rdata := .mx [98] 1 258, rdlength := 5 }) ∧
    process_resource_record mxBadBuf 0 = .null :=
  ⟨(mx_record mxRecordBuf 0 ⟨3, [97], 1⟩ (by decide) (by decide) (by decide) (by decide)
      (by decide)).1 ⟨18, [98], 1⟩ (by decide),
   ((mx_record mxBadBuf 0 ⟨3, [97], 1⟩ (by decide) (by decide) (by decide) (by decide)
      (by decide)).2.1 (by decide)).1⟩

theorem section_count_min (wire : Nat) (capacity : Option Nat) :
    section_count wire capacity ≤ wire ∧
    section_count wire none = 0 ∧ ∀ k, section_count wire (some k) = min wire k := by
  refine ⟨?_, rfl, ?_⟩
  · cases capacity with
    | none => exact Nat.zero_le _
    | some k =>
      unfold section_count
      simp only
      split_ifs <;> omega
  · intro k
    unfold section_count
    simp only
    split_ifs <;> omega

/-- C33 as stated fails: `nsBuf` announces five authority records and
holds none, and `dns_process_response` accepts it when the authority capacity is 0 and when
there is no authority array; with capacity 1 it is refused. -/
theorem authority_count_counterexample :
    nsBuf.length = 12 ∧ be16At nsBuf 8 = 5 ∧
    dns_process_response nsBuf none none (some 0) =
      .ok { id := 0, questions := [], answers := [], authorities := [] } ∧
    dns_process_response nsBuf none none none =
      .ok { id := 0, questions := [], answers := [], authorities := [] } ∧
    dns_process_response nsBuf none none (some 1) = .null := by
  decide

/-- C33 (amended): once the questions and the answers are passed, the authorities are decoded
by `process_resource_records`, the function that decodes the answers, on the first
`min(NSCOUNT, capacity)` authority records, and nothing after these is examined.  So with
capacity 0 or without an authority array the response is accepted whatever NSCOUNT and the
bytes of the authority section are, and with capacity `k` it is refused when the decode of
the first `min(NSCOUNT, k)` authority records fails. -/
theorem authority_section (buf : List UInt8) (q a : Option Nat)
    (x : Nat × List dns_question_t) (b : Nat) (y : Nat × List rr_t) (c : Nat)
    (hlen : 12 ≤ buf.length ∧ buf.length ≤ MAX_DNS_MESSAGE_SIZE)
    (hqr : byteAt buf 2 &&& 0x80 ≠ 0) (htc : byteAt buf 2 &&& 0x02 = 0)
    (hrc : byteAt buf 3 &&& 0x0f = 0)
    (hx : process_questions buf (section_count (be16At buf 4) q) 12 [] = .ok x)
    (hb : skip_questions buf (be16At buf 4 - section_count (be16At buf 4) q) x.1 = .ok b)
    (hy : process_resource_records buf (section_count (be16At buf 6) a) b [] = .ok y)
    (hc : skip_resource_records buf (be16At buf 6 - section_count (be16At buf 6) a) y.1 =
      .ok c) :
    (∀ n : Option Nat, dns_process_response buf q a n =
      (process_resource_records buf (section_count (be16At buf 8) n) c [] >>= fun z =>
        .ok { id := be16At buf 0, questions := x.2, answers := y.2, authorities := z.2 })) ∧
    dns_process_response buf q a none =
      .ok { id := be16At buf 0, questions := x.2, answers := y.2, authorities := [] } ∧
    dns_process_response buf q a (some 0) =
      .ok { id := be16At buf 0, questions := x.2, answers := y.2, authorities := [] } ∧
    (∀ k : Nat, process_resource_records buf (min (be16At buf 8) k) c [] = .null →
      dns_process_response buf q a (some k) = .null) := by
  have heq : ∀ n : Option Nat, dns_process_response buf q a n =
      (process_resource_records buf (section_count (be16At buf 8) n) c [] >>= fun z =>
        .ok { id := be16At buf 0, questions := x.2, answers := y.2, authorities := z.2 }) := by
    intro n
    rw [process_response_eq q a n hlen hqr htc hrc, hx]
    simp only [Res.ok_bind]
    rw [hb]
    simp only [Res.ok_bind]
    rw [hy]
    simp only [Res.ok_bind]
    rw [hc]
    simp only [Res.ok_bind]
  refine ⟨heq, ?_, ?_, ?_⟩
  · rw [heq none]; rfl
  · rw [heq (some 0), (section_count_min (be16At buf 8) (some 0)).2.2 0, Nat.min_zero]; rfl
  · intro k hk
    rw [heq (some k), (section_count_min (be16At buf 8) (some k)).2.2 k, hk]
    rfl

/-- Instance of `authority_section`: `nsBuf`, with NSCOUNT 5 and no authority record. -/
theorem authority_section_witness :
    dns_process_response nsBuf none none none =
      .ok { id := 0, questions := [], answers := [], authorities := [] } ∧
    dns_process_response nsBuf none none (some 0) =
      .ok { id := 0, questions := [], answers := [], authorities := [] } ∧
    dns_process_response nsBuf none none (some 3) = .null :=
  have h := authority_section nsBuf none none (12, []) 12 (12, []) 12 (by decide) (by decide)
    (by decide) (by decide) (by decide) (by decide) (by decide) (by decide)
  ⟨h.2.1, h.2.2.1, h.2.2.2 3 (by decide)⟩

/-- C34: when `dns_process_response` succeeds on a buffer, it succeeds with the same id,
questions, answers and authorities on that buffer followed by any bytes, as long as the
whole has at most 512 bytes: nothing after the authorities it decodes is examined. -/
theorem trailing_bytes_ignored (buf ext : List UInt8) (q a n : Option Nat)
    (resp : dns_response_t) (h : dns_process_response buf q a n = .ok resp)
    (hlen : buf.length + ext.length ≤ MAX_DNS_MESSAGE_SIZE) :
    dns_process_response (buf ++ ext) q a n = .ok resp :=
  process_response_ext buf ext h hlen

/-- Instance of `trailing_bytes_ignored`: `oneAnswerBuf` announces one additional record;
it decodes as it is, and also when three bytes that form no record follow. -/
theorem trailing_bytes_ignored_witness :
    dns_process_response oneAnswerBuf none (some 1) (some 1) =
      .ok { id := 7, questions := [], answers := [aRecord 1], authorities := [] } ∧
    dns_process_response (oneAnswerBuf ++ [0xff, 0xff, 0xff]) none (some 1) (some 1) =
      .ok { id := 7, questions := [], answers := [aRecord 1], authorities := [] } :=
  ⟨by decide,
   trailing_bytes_ignored oneAnswerBuf [0xff, 0xff, 0xff] none (some 1) (some 1) _ (by decide)
     (by decide)⟩

/-- C40: the records that `process_resource_records` returns for a count `n` are, in wire
order, the stored ones among the first `n` wire records, a wire record being stored exactly
when its class is IN and its type A, AAAA, CNAME, MX or SOA; every record passed over among
these `n` takes one of the `n` places, so at most `n` records are returned.  In
`dns_process_response` the count is `min(section count, capacity)` for the answers and for
the authorities, so a record after the first `min(section count, capacity)` wire records of
its section is not returned. -/
theorem capacity_bounds_examined (buf : List UInt8) :
    (∀ (n pos p : Nat) (out : List rr_t),
      process_resource_records buf n pos [] = .ok (p, out) →
      ∃ l, wire_records buf n pos = .ok l ∧ l.length = n ∧ out = l.reduceOption ∧
        out.length + l.count none = n ∧ out.length ≤ n) ∧
    (∀ (pos p1 : Nat) (o : Option rr_t), process_resource_record buf pos = .ok (p1, o) →
      ∃ r, parse_domain_name buf pos = .ok r ∧
        (o.isSome = true ↔ be16At buf (r.next + 2) = DNS_QCLASS_IN ∧
          (be16At buf r.next = DNS_QTYPE_A ∨ be16At buf r.next = DNS_QTYPE_AAAA ∨
           be16At buf r.next = DNS_QTYPE_CNAME ∨ be16At buf r.next = DNS_QTYPE_MX ∨
           be16At buf r.next = DNS_QTYPE_SOA))) ∧
    (∀ (q a n : Option Nat) (resp : dns_response_t),
      dns_process_response buf q a n = .ok resp →
      ∃ (x : Nat × List dns_question_t) (b c : Nat) (la ln : List (Option rr_t)),
        process_questions buf (section_count (be16At buf 4) q) 12 [] = .ok x ∧
        skip_questions buf (be16At buf 4 - section_count (be16At buf 4) q) x.1 = .ok b ∧
        wire_records buf (section_count (be16At buf 6) a) b = .ok la ∧
        resp.answers = la.reduceOption ∧
        skip_resource_records buf (be16At buf 6) b = .ok c ∧
        wire_records buf (section_count (be16At buf 8) n) c = .ok ln ∧
        resp.authorities = ln.reduceOption ∧
        resp.answers.length ≤ section_count (be16At buf 6) a ∧
        resp.authorities.length ≤ section_count (be16At buf 8) n) ∧
    (∀ (wire : Nat) (capacity : Option Nat), section_count wire capacity ≤ wire ∧
      section_count wire none = 0 ∧ ∀ k, section_count wire (some k) = min wire k) := by
  have hrec : ∀ (n pos p : Nat) (out : List rr_t),
      process_resource_records buf n pos [] = .ok (p, out) →
      ∃ l, wire_records buf n pos = .ok l ∧ l.length = n ∧ out = l.reduceOption ∧
        out.length + l.count none = n ∧ out.length ≤ n := by
    intro n pos p out h
    obtain ⟨l, hl, hlen, hout⟩ := records_wire buf n pos [] p out h
    rw [List.nil_append] at hout
    have hc := reduceOption_count l
    rw [← hout, hlen] at hc
    exact ⟨l, hl, hlen, hout, hc, by omega⟩
  refine ⟨hrec, fun pos p1 o h => record_stored_iff h, ?_, section_count_min⟩
  intro q a n resp h
  obtain ⟨x, b, y, c, z, hx, hb, hy, hc, hz, hresp⟩ := process_response_ok h
  obtain ⟨la, hla, _, houta, _, hlea⟩ := hrec _ _ y.1 y.2 hy
  obtain ⟨ln, hln, _, houtn, _, hlen⟩ := hrec _ _ z.1 z.2 hz
  have hskip := records_skip buf _ _ _ _ _ (be16At buf 6 - section_count (be16At buf 6) a) hy
  rw [show section_count (be16At buf 6) a + (be16At buf 6 - section_count (be16At buf 6) a) =
    be16At buf 6 from by
      have := (section_count_min (be16At buf 6) a).1
      omega, hc] at hskip
  rw [hresp]
  exact ⟨x, b, c, la, ln, hx, hb, hla, houta, hskip, hln, houtn, hlea, hlen⟩

/-- Instance of `capacity_bounds_examined`: the answers of `txtThenABuf` are a TXT record and
an A record.  With capacity 1 the TXT record takes the only place and no answer is returned;
with capacity 2 the A record is returned. -/
theorem capacity_bounds_examined_witness :
    wire_records txtThenABuf 2 12 = .ok [none, some (aRecord 1)] ∧
    dns_process_response txtThenABuf none (some 1) none =
      .ok { id := 0, questions := [], answers := [], authorities := [] } ∧
    dns_process_response txtThenABuf none (some 2) none =
      .ok { id := 0, questions := [], answers := [aRecord 1], authorities := [] } ∧
    (∃ l, wire_records txtThenABuf 1 12 = .ok l ∧ l.length = 1 ∧
      ([] : List rr_t) = l.reduceOption ∧ ([] : List rr_t).length + l.count none = 1 ∧
      ([] : List rr_t).length ≤ 1) :=
  ⟨by decide, by decide, by decide,
   (capacity_bounds_examined txtThenABuf).1 1 12 28 [] (by decide)⟩

/-- C37: in a cache reached through the interface, after a `dnscache_get` of `k` that returns
0 and after a `dnscache_add` of `k` that returns 0, whether it created the entry or renewed an
existing one, the entry of `k` is the first of its bucket, and the entries after it are
entries the bucket held before, in their previous order. -/
theorem mru_promotion (alen : Nat) (c : dnscache_t) (k : List UInt8) (now : Int)
    (hc : Reachable alen c) :
    (∀ g : get_result_t, dnscache_get c k now alen = some g → g.ret = 0 →
      ∃ (i : Nat) (e : cache_entry_t) (rest : List cache_entry_t),
        hash k initval c.nbuckets = some i ∧ g.cache.buckets.getD i [] = e :: rest ∧
        entry_key e = k ∧ e ∈ c.buckets.getD i [] ∧ rest.Sublist (c.buckets.getD i []) ∧
        ∀ x ∈ rest, entry_key x ≠ k) ∧
    (∀ (a : List UInt8) (exp : Int) (alloc : Bool) (r : add_result_t),
      dnscache_add c k a alen exp now alloc = some r → r.ret = 0 →
      ∃ (i : Nat) (e : cache_entry_t) (rest : List cache_entry_t),
        hash k initval c.nbuckets = some i ∧ r.cache.buckets.getD i [] = e :: rest ∧
        entry_key e = k ∧ e.expiration_time = exp ∧ rest.Sublist (c.buckets.getD i []) ∧
        ∀ x ∈ rest, entry_key x ≠ k) := by
  have hok := reachable_ok hc
  constructor
  · intro g hg hret
    have hk : k.length ≤ HOSTNAME_MAX_LEN := by
      by_contra hk
      rw [get_long c k alen now (by omega)] at hg
      cases hg; cases hret
    obtain ⟨i, hi⟩ := get_hash hk hg
    have hlt := hash_lt hi
    rcases get_cases now hok hk hi with ⟨_, he⟩ | ⟨pre, e, post, hb, hek, hne, he⟩
    · rw [he] at hg
      cases hg; cases hret
    · rw [he] at hg
      by_cases ht : now ≤ e.expiration_time
      · rw [if_pos ht] at hg
        cases hg
        refine ⟨i, e, dnscache_remove_expired_loop now pre ++ post, hi,
          getD_set_self _ _ _ hlt, hek, by rw [hb]; simp, ?_, ?_⟩
        · rw [hb]; exact filter_live_sublist now pre post e
        · intro x hx
          apply hne x
          rcases List.mem_append.1 hx with h1 | h1
          · exact List.mem_append_left _ ((remove_expired_loop_mem now pre x).1 h1).1
          · exact List.mem_append_right _ h1
      · rw [if_neg ht] at hg
        cases hg; cases hret
  · intro a exp alloc r hr hret
    have hk := add_ret_zero hr hret
    obtain ⟨i, hi⟩ := add_hash hk hr
    have hlt := hash_lt hi
    rcases add_cases a exp now alloc hok hk hi with ⟨hne, he⟩ | ⟨pre, e, post, hb, hek, hne, he⟩
    · rw [he] at hr
      cases alloc
      · simp only [Bool.false_eq_true, if_false, Option.some.injEq] at hr
        subst hr; cases hret
      · simp only [if_true, Option.some.injEq] at hr
        subst hr
        refine ⟨i, _, _, hi, getD_set_self _ _ _ hlt, new_entry_key k a alen exp hk, rfl,
          remove_expired_loop_sublist now _, ?_⟩
        intro x hx
        exact hne x ((remove_expired_loop_mem now _ x).1 hx).1
    · rw [he] at hr
      simp only [Option.some.injEq] at hr
      subst hr
      refine ⟨i, _, _, hi, getD_set_self _ _ _ hlt, hek, rfl, ?_, ?_⟩
      · rw [hb]; exact filter_live_sublist now pre post e
      · intro x hx
        apply hne x
        rcases List.mem_append.1 hx with h1 | h1
        · exact List.mem_append_left _ ((remove_expired_loop_mem now pre x).1 h1).1
        · exact List.mem_append_right _ h1

/-- Instances of `mru_promotion`: in `abcCache` the bucket holds "c", "a", "b" in this order.
The lookup of "b" at time 115 moves "b" to the front, before "a" (the entry of "c" has
expired and is removed); adding "a" again at time 100 moves "a" to the front, before "c" and
"b". -/
theorem mru_promotion_witness :
    Reachable 4 abcCache ∧
    dnscache_get abcCache hostB 115 4 = some ⟨0, some [2, 2, 2, 2],
      ⟨[[mk_entry 4 hostB [2, 2, 2, 2] 120, mk_entry 4 hostA [1, 1, 1, 1] 130]]⟩⟩ ∧
    dnscache_add abcCache hostA [1, 1, 1, 1] 4 200 100 true = some ⟨0,
      ⟨[[mk_entry 4 hostA [1, 1, 1, 1] 200, mk_entry 4 hostC [3, 3, 3, 3] 110,
         mk_entry 4 hostB [2, 2, 2, 2] 120]]⟩⟩ ∧
    (∃ (i : Nat) (e : cache_entry_t) (rest : List cache_entry_t),
        hash hostB initval abcCache.nbuckets = some i ∧
        (⟨[[mk_entry 4 hostB [2, 2, 2, 2] 120, mk_entry 4 hostA [1, 1, 1, 1] 130]]⟩ :
          dnscache_t).buckets.getD i [] = e :: rest ∧
        entry_key e = hostB ∧ e ∈ abcCache.buckets.getD i [] ∧
        rest.Sublist (abcCache.buckets.getD i []) ∧ ∀ x ∈ rest, entry_key x ≠ hostB) :=
  ⟨abcCache_reachable, by decide, by decide,
   (mru_promotion 4 abcCache hostB 115 abcCache_reachable).1
     ⟨0, some [2, 2, 2, 2],
       ⟨[[mk_entry 4 hostB [2, 2, 2, 2] 120, mk_entry 4 hostA [1, 1, 1, 1] 130]]⟩⟩
     (by decide) rfl⟩

/-- C38: in a cache reached through the interface, `dnscache_get` of a host `k` of at most
255 bytes at time `now` leaves the bucket of `k` as follows.  When the bucket holds no entry
of `k`, it returns -1 and the bucket keeps exactly its entries whose expiration is at or after
`now`, in order, so no entry that expires before `now` is left.  When the bucket holds the
entry `e` of `k`, the entries before `e` that expire before `now` are removed, the entries
after `e` stay as they are, and `e` goes to the front when it has not expired and is removed
when it has. -/
theorem lazy_eviction (alen : Nat) (c : dnscache_t) (k : List UInt8) (now : Int)
    (g : get_result_t) (hc : Reachable alen c) (hk : k.length ≤ HOSTNAME_MAX_LEN)
    (hg : dnscache_get c k now alen = some g) :
    ∃ i : Nat, hash k initval c.nbuckets = some i ∧
      (((∀ x ∈ c.buckets.getD i [], entry_key x ≠ k) ∧ g.ret = -1 ∧
        g.cache.buckets.getD i [] =
          (c.buckets.getD i []).filter (fun x => decide (now ≤ x.expiration_time)) ∧
        ∀ x ∈ g.cache.buckets.getD i [], now ≤ x.expiration_time) ∨
      (∃ (pre : List cache_entry_t) (e : cache_entry_t) (post : List cache_entry_t),
        c.buckets.getD i [] = pre ++ e :: post ∧ entry_key e = k ∧
        (∀ x ∈ pre ++ post, entry_key x ≠ k) ∧
        g.ret = (if now ≤ e.expiration_time then 0 else -1) ∧
        g.cache.buckets.getD i [] =
          (if now ≤ e.expiration_time then [e] else []) ++
            pre.filter (fun x => decide (now ≤ x.expiration_time)) ++ post)) := by
  have hok := reachable_ok hc
  obtain ⟨i, hi⟩ := get_hash hk hg
  have hlt := hash_lt hi
  refine ⟨i, hi, ?_⟩
  rcases get_cases now hok hk hi with ⟨hne, he⟩ | ⟨pre, e, post, hb, hek, hne, he⟩
  · left
    rw [he] at hg
    cases hg
    refine ⟨hne, rfl, ?_, ?_⟩
    · rw [getD_set_self _ _ _ hlt, remove_expired_loop_eq]
    · intro x hx
      rw [getD_set_self _ _ _ hlt] at hx
      exact ((remove_expired_loop_mem now _ x).1 hx).2
  · right
    refine ⟨pre, e, post, hb, hek, hne, ?_⟩
    rw [he] at hg
    by_cases ht : now ≤ e.expiration_time
    · rw [if_pos ht] at hg
      cases hg
      rw [if_pos ht, if_pos ht]
      refine ⟨rfl, ?_⟩
      rw [getD_set_self _ _ _ hlt, remove_expired_loop_eq]
      rfl
    · rw [if_neg ht] at hg
      cases hg
      rw [if_neg ht, if_neg ht]
      refine ⟨rfl, ?_⟩
      rw [getD_set_self _ _ _ hlt, remove_expired_loop_eq]
      rfl

/-- Instances of `lazy_eviction` at time 125 in `abcCache`, whose bucket holds "c" (expires
at 110), "a" (130) and "b" (120): the lookup of the absent host "d" removes "c" and "b"; the
lookup of "a" removes "c", which precedes "a", and keeps "b", which follows it. -/
theorem lazy_eviction_witness :
    Reachable 4 abcCache ∧
    dnscache_get abcCache [100] 125 4 = some ⟨-1, none, aCache⟩ ∧
    dnscache_get abcCache hostA 125 4 = some ⟨0, some [1, 1, 1, 1],
      ⟨[[mk_entry 4 hostA [1, 1, 1, 1] 130, mk_entry 4 hostB [2, 2, 2, 2] 120]]⟩⟩ ∧
    ∃ i : Nat, hash [100] initval abcCache.nbuckets = some i ∧
      (((∀ x ∈ abcCache.buckets.getD i [], entry_key x ≠ [100]) ∧ (-1 : Int) = -1 ∧
        aCache.buckets.getD i [] =
          (abcCache.buckets.getD i []).filter
            (fun x => decide ((125 : Int) ≤ x.expiration_time)) ∧
        ∀ x ∈ aCache.buckets.getD i [], (125 : Int) ≤ x.expiration_time) ∨
      (∃ (pre : List cache_entry_t) (e : cache_entry_t) (post : List cache_entry_t),
        abcCache.buckets.getD i [] = pre ++ e :: post ∧ entry_key e = [100] ∧
        (∀ x ∈ pre ++ post, entry_key x ≠ [100]) ∧
        (-1 : Int) = (if (125 : Int) ≤ e.expiration_time then 0 else -1) ∧
        aCache.buckets.getD i [] =
          (if (125 : Int) ≤ e.expiration_time then [e] else []) ++
            pre.filter (fun x => decide ((125 : Int) ≤ x.expiration_time)) ++ post)) :=
  ⟨abcCache_reachable, by decide, by decide,
   lazy_eviction 4 abcCache [100] 125 ⟨-1, none, aCache⟩ abcCache_reachable (by decide)
     (by decide)⟩

/-- C39: in a cache reached through the interface, `dnscache_add` and `dnscache_get` of a
host `k` at time `now` and `dnscache_remove_expired` at time `now` keep, as it is, every entry
of another host whose expiration is at or after `now`; and a lookup of another host at time
`now` that returns 0 before one of these calls returns 0 with the same address after it. -/
theorem live_entries_kept (alen : Nat) (c : dnscache_t) (k : List UInt8) (now : Int)
    (hc : Reachable alen c) :
    (∀ (a : List UInt8) (exp : Int) (alloc : Bool) (r : add_result_t),
      dnscache_add c k a alen exp now alloc = some r →
      (∀ x ∈ entries c, entry_key x ≠ k → now ≤ x.expiration_time → x ∈ entries r.cache) ∧
      (∀ (k1 : List UInt8) (g0 : get_result_t), k1 ≠ k →
        dnscache_get c k1 now alen = some g0 → g0.ret = 0 →
        ∃ g1, dnscache_get r.cache k1 now alen = some g1 ∧ g1.ret = 0 ∧ g1.addr = g0.addr)) ∧
    (∀ g : get_result_t, dnscache_get c k now alen = some g →
      (∀ x ∈ entries c, entry_key x ≠ k → now ≤ x.expiration_time → x ∈ entries g.cache) ∧
      (∀ (k1 : List UInt8) (g0 : get_result_t), k1 ≠ k →
        dnscache_get c k1 now alen = some g0 → g0.ret = 0 →
        ∃ g1, dnscache_get g.cache k1 now alen = some g1 ∧ g1.ret = 0 ∧ g1.addr = g0.addr)) ∧
    ((∀ x ∈ entries c, now ≤ x.expiration_time →
        x ∈ entries (dnscache_remove_expired c now)) ∧
      (∀ (k1 : List UInt8) (g0 : get_result_t),
        dnscache_get c k1 now alen = some g0 → g0.ret = 0 →
        ∃ g1, dnscache_get (dnscache_remove_expired c now) k1 now alen = some g1 ∧
          g1.ret = 0 ∧ g1.addr = g0.addr)) := by
  have hok := reachable_ok hc
  refine ⟨?_, ?_, ?_, ?_⟩
  · intro a exp alloc r hr
    refine ⟨add_keep hok hr, ?_⟩
    intro k1 g0 hne hg0 hret
    exact hit_preserved hok (add_ok hok hr)
      (fun x hx hxk hxt => add_keep hok hr x hx (by rw [hxk]; exact hne) hxt) hg0 hret
  · intro g hg
    refine ⟨fun x hx _ hxt => get_keep hok hg x hx hxt, ?_⟩
    intro k1 g0 _ hg0 hret
    exact hit_preserved hok (get_ok hok hg)
      (fun x hx _ hxt => get_keep hok hg x hx hxt) hg0 hret
  · intro x hx hxt
    exact (sweep_entries c now x).2 ⟨hx, hxt⟩
  · intro k1 g0 hg0 hret
    exact hit_preserved hok (sweep_ok now hok)
      (fun x hx _ hxt => (sweep_entries c now x).2 ⟨hx, hxt⟩) hg0 hret

/-- Instance of `live_entries_kept` at time 115 in `abcCache`: the lookup of "b" and the
sweep remove the expired entry of "c" only, and "a" is found with its address after each. -/
theorem live_entries_kept_witness :
    Reachable 4 abcCache ∧
    dnscache_get abcCache hostA 115 4 = some ⟨0, some [1, 1, 1, 1],
      ⟨[[mk_entry 4 hostA [1, 1, 1, 1] 130, mk_entry 4 hostB [2, 2, 2, 2] 120]]⟩⟩ ∧
    dnscache_remove_expired abcCache 115 = abCache ∧
    (∃ g1, dnscache_get (dnscache_remove_expired abcCache 115) hostA 115 4 = some g1 ∧
      g1.ret = 0 ∧ g1.addr = some [1, 1, 1, 1]) ∧
    (∃ g1, dnscache_get
        (⟨[[mk_entry 4 hostB [2, 2, 2, 2] 120, mk_entry 4 hostA [1, 1, 1, 1] 130]]⟩ :
          dnscache_t) hostA 115 4 = some g1 ∧ g1.ret = 0 ∧ g1.addr = some [1, 1, 1, 1]) :=
  have h := live_entries_kept 4 abcCache hostB 115 abcCache_reachable
  ⟨abcCache_reachable, by decide, by decide,
   h.2.2.2 hostA ⟨0, some [1, 1, 1, 1],
      ⟨[[mk_entry 4 hostA [1, 1, 1, 1] 130, mk_entry 4 hostB [2, 2, 2, 2] 120]]⟩⟩
      (by decide) rfl,
   (h.2.1 ⟨0, some [2, 2, 2, 2],
      ⟨[[mk_entry 4 hostB [2, 2, 2, 2] 120, mk_entry 4 hostA [1, 1, 1, 1] 130]]⟩⟩
      (by decide)).2 hostA ⟨0, some [1, 1, 1, 1],
      ⟨[[mk_entry 4 hostA [1, 1, 1, 1] 130, mk_entry 4 hostB [2, 2, 2, 2] 120]]⟩⟩
      (by decide) (by decide) rfl⟩

end Dns
